import Mathlib

/-!
# Rhythm analysis of `HumdrumFileStructure`

A shallow embedding of the rhythm analysis in `src/HumdrumFileStructure.cpp`.

* Durations (`HumNum`) are exact rationals, embedded as `Rat`.
* A file owns a list of lines and an arena of tokens.  A token pointer (`HTp`)
  is the index of the token in the arena, a line pointer is the line index.
  Looking up an index that is not in the arena stands for dereferencing a
  pointer that is not a token (the `NULL` returned by `getNextToken` on a
  token without successors): the embedded functions then return `none`.
* The per-token traversal counter (`rhycheck`, read by `getState` and bumped
  by `incrementState`) is kept in a separate table indexed by token.
* Loops over the token graph are given a bound on the number of steps that is
  computed from the file (its line count); on a well-linked file, where every
  successor lies on a later line, the bound is never reached.
-/

namespace Humlib

/-- Diagnostics recorded by `setParseError` in the functions embedded here. -/
inductive ParseError where
  | inconsistentRhythm (token : Nat) (expected found : Rat)
  | cannotLinkFloatingSpine
  | unexpectedNegativeDuration (line : Nat)
  | graceAndRegular (line : Nat)
  | rhythmicError (line field : Nat)
  deriving DecidableEq, Repr

/-- Token of the lattice.  The classification fields hold the values of the
`HumdrumToken` predicates of the same name, which are computed from the token
text outside the analysed sources. -/
structure HumdrumToken where
  /-- Index of the owning line (`getLineIndex`, `getOwner`). -/
  lineIndex : Nat
  /-- Self duration (`getDuration`); negative means undefined. -/
  duration : Rat := -1
  /-- Successor tokens (`getNextToken(i)`), primary successor first. -/
  nextTokens : List Nat := []
  /-- Value of `isTerminateInterpretation` (the token is a spine terminator). -/
  isTerminateInterpretation : Bool := false
  /-- Value of `hasRhythm` (the token lies in a spine that carries durations). -/
  hasRhythm : Bool := true
  /-- Value of `isData`. -/
  isData : Bool := false
  /-- Value of `isNull`. -/
  isNull : Bool := false
  /-- Value of `isDataType("**recip")`. -/
  isRecip : Bool := false
  /-- Whether the token text contains the character `q`. -/
  hasQ : Bool := false
  /-- Value of `Convert::recipToDuration` on the token text. -/
  recip : Rat := 0
  /-- Value of `getSubtrack`: `0` in a spine that is not split, else the
  number `1, 2, ...` of the subspine. -/
  subtrack : Nat := 0
  /-- Value of `isMerge` (the token is the merge manipulator `*v`). -/
  isMerge : Bool := false
  /-- Token to the left on the same line (`getPreviousFieldToken`). -/
  previousFieldToken : Option Nat := none
  /-- Predecessor tokens (`getPreviousToken(i)`), primary predecessor first. -/
  previousTokens : List Nat := []
  /-- Value of `HumdrumToken::isBarline`. -/
  isBarline : Bool := false
  /-- Value of `isInterpretation`. -/
  isInterpretation : Bool := false
  /-- Whether the token text is `*`, the null interpretation. -/
  isNullInterpretation : Bool := false
  /-- Value of `HumdrumToken::isCommentLocal`. -/
  isCommentLocal : Bool := false
  /-- Whether the token text starts with `!LO:`. -/
  hasLocalLayout : Bool := false
  /-- Value of `getSpineInfo`. -/
  spineInfo : String := ""
  deriving DecidableEq, Repr

/-- Strand of a spine (`TokenPair`): its first and its last token; `none` is
the NULL of a side that has not been set. -/
structure TokenPair where
  first : Option Nat := none
  last : Option Nat := none
  deriving DecidableEq, Repr

/-- Line of the file.  The classification fields hold the values of the
`HumdrumLine` predicates of the same name. -/
structure HumdrumLine where
  /-- Absolute offset of the line (`getDurationFromStart`); negative means
  unresolved. -/
  durationFromStart : Rat := -1
  /-- Time span of the line (`getDuration`). -/
  duration : Rat := -1
  /-- Offset from the previous barline (`getDurationFromBarline`). -/
  durationFromBarline : Rat := -1
  /-- Distance to the next barline (`getDurationToBarline`). -/
  durationToBarline : Rat := -1
  /-- Fields of the line (`token(i)`), as token indices. -/
  tokens : List Nat := []
  /-- Value of `hasSpines`. -/
  hasSpines : Bool := true
  /-- Value of `isData`. -/
  isData : Bool := false
  /-- Value of `isBarline`. -/
  isBarline : Bool := false
  /-- Value of `isAllRhythmicNull`. -/
  isAllRhythmicNull : Bool := false
  /-- Flag `m_rhythm_analyzed` of the line. -/
  rhythmAnalyzed : Bool := false
  /-- Value of `isCommentGlobal`. -/
  isCommentGlobal : Bool := false
  /-- Whether the text of the line contains `!!LO:`. -/
  hasGlobalLayout : Bool := false
  /-- Value of `isAllNull`. -/
  isAllNull : Bool := false
  /-- Value of `isCommentLocal`. -/
  isCommentLocal : Bool := false
  /-- Value of `isManipulator` (the line holds a spine manipulator). -/
  isManipulator : Bool := false
  /-- Whether `storeGlobalLinkedParameters` has been called on the line. -/
  globalParametersStored : Bool := false
  deriving DecidableEq, Repr

/-- File state read and written by the rhythm analysis. -/
structure HumdrumFile where
  /-- Lines of the file in order (`m_lines`). -/
  lines : List HumdrumLine := []
  /-- Token arena. -/
  tokens : List HumdrumToken := []
  /-- Traversal counter of every token (`HumdrumToken::getState`). -/
  rhycheck : Nat → Int := fun _ => 0
  /-- Start tokens of tracks `1, 2, ...` (`m_trackstarts` without its reserved
  entry `0`). -/
  trackstarts : List Nat := []
  /-- Registered barlines (`m_barlines`), as line indices. -/
  barlines : List Nat := []
  /-- Validity flag: no parse error has been recorded. -/
  valid : Bool := true
  /-- Recorded diagnostics, oldest first. -/
  diagnostics : List ParseError := []
  /-- Flag `m_rhythm_analyzed`. -/
  rhythmAnalyzed : Bool := false
  /-- Flag `m_structure_analyzed`. -/
  structureAnalyzed : Bool := false
  /-- Memoized ticks per quarter note (`m_ticksperquarternote`); a value that
  is not positive means that it has not been computed yet. -/
  ticksperquarternote : Int := -1
  /-- Strands of all spines in one list (`m_strand1d`). -/
  strand1d : List TokenPair := []
  /-- Strands of each spine (`m_strand2d`). -/
  strand2d : List (List TokenPair) := []
  /-- Strand index of every token (`HumdrumToken::getStrandIndex`); `-1` on a
  token that no strand has labelled. -/
  strandIndex : Nat → Int := fun _ => -1
  /-- Null resolution of every token (`HumdrumToken::resolveNull`); `none` on
  a token that has none. -/
  nullResolution : Nat → Option Nat := fun _ => none
  /-- Flag `m_strands_analyzed`. -/
  strandsAnalyzed : Bool := false
  /-- Flag `m_nulls_analyzed`. -/
  nullsAnalyzed : Bool := false
  /-- Parameter tokens linked to every token (`addLinkedParameter`), in the
  order of the calls. -/
  linkedParameters : Nat → List Nat := fun _ => []
  /-- Tokens on which `storeLinkedParameters` has been called. -/
  parametersStored : Nat → Bool := fun _ => false
  /-- End tokens of the tracks `1, 2, ...` (`getTrackEnd(track, j)`); not
  under `src/`. -/
  trackends : List (List Nat) := []

namespace HumdrumFile

/-- Modelled from the spec: `isValid`, declared outside the analysed sources;
the file is valid as long as no error has been reported. -/
def isValid (f : HumdrumFile) : Bool := f.valid

/-- Modelled from the spec: `setParseError`, declared outside the analysed
sources; an error is reported by recording its diagnostic and flipping the
validity flag to false (the call itself then yields `false`). -/
def setParseError (f : HumdrumFile) (e : ParseError) : HumdrumFile :=
  { f with valid := false, diagnostics := f.diagnostics ++ [e] }

/-- Number of lines (`getLineCount`). -/
def getLineCount (f : HumdrumFile) : Nat := f.lines.length

/-- Number of tracks (`getMaxTrack`). -/
def getMaxTrack (f : HumdrumFile) : Nat := f.trackstarts.length

/-- Start token of a track, tracks being numbered from `1`
(`getTrackStart`); `none` stands for `NULL`. -/
def getTrackStart (f : HumdrumFile) (track : Nat) : Option Nat :=
  if track = 0 then none else f.trackstarts[track - 1]?

/-- Start token of a spine, spines being numbered from `0` (`getSpineStart`). -/
def getSpineStart (f : HumdrumFile) (spine : Nat) : Option Nat :=
  f.getTrackStart (spine + 1)

/-- Value of `durationFromStart` of line `i`, read as `-1` (unresolved) past
the end of the file. -/
def durationFromStart (f : HumdrumFile) (i : Nat) : Rat :=
  match f.lines[i]? with
  | some l => l.durationFromStart
  | none => -1

/-- Value of `duration` of line `i`, read as `-1` past the end of the file. -/
def duration (f : HumdrumFile) (i : Nat) : Rat :=
  match f.lines[i]? with
  | some l => l.duration
  | none => -1

/-- Store of `HumdrumLine::setDurationFromStart` on line `i`. -/
def setDurationFromStart (f : HumdrumFile) (i : Nat) (d : Rat) : HumdrumFile :=
  match f.lines[i]? with
  | some l => { f with lines := f.lines.set i { l with durationFromStart := d } }
  | none => f

/-- Store of `HumdrumLine::setDuration` on line `i`. -/
def setDuration (f : HumdrumFile) (i : Nat) (d : Rat) : HumdrumFile :=
  match f.lines[i]? with
  | some l => { f with lines := f.lines.set i { l with duration := d } }
  | none => f

/-- Bump of the traversal counter of a token (`incrementState`). -/
def incrementState (f : HumdrumFile) (token : Nat) : HumdrumFile :=
  { f with rhycheck := Function.update f.rhycheck token (f.rhycheck token + 1) }

/-- Embedding of `HumdrumFileStructure::setLineDurationFromStart`.  The value
returned by the C++ function is the validity flag of the resulting file. -/
def setLineDurationFromStart (f : HumdrumFile) (token : Nat) (dursum : Rat) :
    Option HumdrumFile :=
  match f.tokens[token]? with
  | none => none
  | some t =>
    if !t.isTerminateInterpretation && decide (t.duration < 0) then
      -- undefined rhythm, so don't assign line duration information
      some f
    else
      match f.lines[t.lineIndex]? with
      | none => none
      | some line =>
        if line.durationFromStart < 0 then
          some (f.setDurationFromStart t.lineIndex dursum)
        else if line.durationFromStart ≠ dursum then
          some (f.setParseError
            (.inconsistentRhythm token dursum line.durationFromStart))
        else
          some f

/-- Running sum after a token: `dursum += token->getDuration()` when the
duration is positive. -/
def advance (dursum : Rat) (t : HumdrumToken) : Rat :=
  if 0 < t.duration then dursum + t.duration else dursum

/-- Outcome of the primary-track loop of `prepareDurations`. -/
inductive WalkResult where
  /-- An early `return isValid()` after a failed `setLineDurationFromStart`. -/
  | aborted (f : HumdrumFile) (log : List (Nat × Rat))
  /-- Normal exit with the secondary tokens and their start durations. -/
  | done (f : HumdrumFile) (log : List (Nat × Rat)) (reservoir : List (Nat × Rat))

/-- Primary-track loop of `prepareDurations`, entered with the token that was
processed last: `while (tcount > 0) ...` followed by the terminator check.
The log lists the calls of `setLineDurationFromStart` (token, value). -/
def primaryWalk : Nat → HumdrumFile → Int → Nat → Rat → List (Nat × Rat) →
    Option WalkResult
  | 0, _, _, _, _, _ => none
  | fuel + 1, f, state, token, dursum, reservoir =>
    match f.tokens[token]? with
    | none => none
    | some t =>
      match t.nextTokens with
      | [] =>
        if t.isTerminateInterpretation then
          match f.setLineDurationFromStart token dursum with
          | none => none
          | some g =>
            if !g.isValid then some (.aborted g [(token, dursum)])
            else some (.done g [(token, dursum)] reservoir)
        else some (.done f [] reservoir)
      | n0 :: higher =>
        let reservoir1 := reservoir ++ higher.map (fun n => (n, dursum))
        match f.tokens[n0]? with
        | none => none
        | some u =>
          if state ≠ f.rhycheck n0 then some (.done f [] reservoir1)
          else
            match (f.incrementState n0).setLineDurationFromStart n0 dursum with
            | none => none
            | some g =>
              if !g.isValid then some (.aborted g [(n0, dursum)])
              else
                match primaryWalk fuel g state n0 (advance dursum u) reservoir1 with
                | none => none
                | some (.aborted h log) => some (.aborted h ((n0, dursum) :: log))
                | some (.done h log r) => some (.done h ((n0, dursum) :: log) r)

/-- Embedding of `HumdrumFileStructure::prepareDurations`.  The result is the
file after the call together with the log of the values offered to lines
through `setLineDurationFromStart`, in call order; the C++ return value is the
validity flag of the resulting file. -/
def prepareDurations : Nat → HumdrumFile → Nat → Int → Rat →
    Option (HumdrumFile × List (Nat × Rat))
  | 0, _, _, _, _ => none
  | fuel + 1, f, token, state, startdur =>
    match f.tokens[token]? with
    | none => none
    | some t =>
      if state ≠ f.rhycheck token then some (f, [])
      else
        match (f.incrementState token).setLineDurationFromStart token startdur with
        | none => none
        | some g =>
          if !g.isValid then some (g, [(token, startdur)])
          else
            match primaryWalk fuel g state token (advance startdur t) [] with
            | none => none
            | some (.aborted h log) => some (h, (token, startdur) :: log)
            | some (.done h log reservoir) =>
              reservoir.reverse.foldlM
                (fun acc r =>
                  match prepareDurations fuel acc.1 r.1 state r.2 with
                  | none => none
                  | some res => some (res.1, acc.2 ++ res.2))
                (h, (token, startdur) :: log)

/-- Step bound handed to the graph walks: on a well-linked file every walk
visits at most one token per line. -/
def walkBound (f : HumdrumFile) : Nat := f.lines.length + 1

/-- Embedding of `HumdrumFileStructure::assignDurationsToTrack`; the C++ return
value is the validity flag of the resulting file. -/
def assignDurationsToTrack (f : HumdrumFile) (starttoken : Nat) (startdur : Rat) :
    Option HumdrumFile :=
  match f.tokens[starttoken]? with
  | none => none
  | some t =>
    if !t.hasRhythm then some f
    else
      match prepareDurations f.walkBound f starttoken (f.rhycheck starttoken) startdur with
      | none => none
      | some res => some res.1

/-- Forward search of `analyzeRhythmOfFloatingSpine`: the `while (tcount > 0)`
loop, whose `tcount` is never refreshed, entered with a non-empty successor
list.  The result is `(founddur, dursum)` at the `break`; `none` when the walk
steps onto the `NULL` successor of a token without successors. -/
def floatingSearch : Nat → HumdrumFile → Option Nat → Rat → Option (Rat × Rat)
  | 0, _, _, _ => none
  | _ + 1, _, none, _ => none
  | fuel + 1, f, some token, dursum =>
    match f.tokens[token]? with
    | none => none
    | some t =>
      if 0 ≤ f.durationFromStart t.lineIndex then
        some (f.durationFromStart t.lineIndex, dursum)
      else floatingSearch fuel f t.nextTokens.head? (advance dursum t)

/-- Values of `founddur` and `dursum` when `analyzeRhythmOfFloatingSpine`
leaves its search. -/
def floatingAnchor (f : HumdrumFile) (spinestart : Nat) : Option (Rat × Rat) :=
  match f.tokens[spinestart]? with
  | none => none
  | some t =>
    if 0 ≤ f.durationFromStart t.lineIndex then
      some (f.durationFromStart t.lineIndex, 0)
    else if 0 < t.nextTokens.length then
      floatingSearch f.walkBound f (some spinestart) 0
    else some (0, 0)

/-- Embedding of `HumdrumFileStructure::analyzeRhythmOfFloatingSpine`; the C++
return value is the validity flag of the resulting file. -/
def analyzeRhythmOfFloatingSpine (f : HumdrumFile) (spinestart : Nat) :
    Option HumdrumFile :=
  match f.floatingAnchor spinestart with
  | none => none
  | some (founddur, dursum) =>
    if founddur = 0 then some (f.setParseError .cannotLinkFloatingSpine)
    else f.assignDurationsToTrack spinestart (founddur - dursum)

/-- State of the scan of `analyzeNullLineRhythms`: the file, the line
`previous`, the collected `nulllines`, and whether the function has returned
through its error exit. -/
structure NullScan where
  file : HumdrumFile
  previous : Option Nat := none
  nulllines : List Nat := []
  halted : Bool := false

/-- Inner loop of `analyzeNullLineRhythms`: line `nulllines[j]` receives
`startdur + nulldur * (j+1)`. -/
def assignNullLines (f : HumdrumFile) (startdur nulldur : Rat) :
    List Nat → Nat → HumdrumFile
  | [], _ => f
  | k :: rest, j =>
    assignNullLines (f.setDurationFromStart k (startdur + nulldur * ((j : Rat) + 1)))
      startdur nulldur rest (j + 1)

/-- One iteration of the loop of `analyzeNullLineRhythms`, for line `i`. -/
def nullLineStep (s : NullScan) (i : Nat) : NullScan :=
  if s.halted then s
  else
    match s.file.lines[i]? with
    | none => s
    | some l =>
      if !l.hasSpines then s
      else if l.isAllRhythmicNull then
        if l.isData then { s with nulllines := s.nulllines ++ [i] } else s
      else if l.durationFromStart < 0 then
        if l.isData then
          { s with file := s.file.setParseError (.unexpectedNegativeDuration i),
                   halted := true }
        else s
      else
        match s.previous with
        | none => { s with previous := some i, nulllines := [] }
        | some p =>
          let startdur := s.file.durationFromStart p
          let enddur := l.durationFromStart
          let gapdur := enddur - startdur
          let nulldur := gapdur / ((s.nulllines.length : Rat) + 1)
          { s with file := assignNullLines s.file startdur nulldur s.nulllines 0,
                   previous := some i, nulllines := [] }

/-- Embedding of `HumdrumFileStructure::analyzeNullLineRhythms`; the C++ return
value is the validity flag of the resulting file. -/
def analyzeNullLineRhythms (f : HumdrumFile) : HumdrumFile :=
  ((List.range f.lines.length).foldl nullLineStep { file := f }).file

/-- Backward loop of `fillInNegativeStartTimes`, from the last line to the
first; the second component is `lastdur` after the loop. -/
def fillBackward : List HumdrumLine → List HumdrumLine × Rat
  | [] => ([], -1)
  | l :: rest =>
    let r := fillBackward rest
    let lastdur := r.2
    let l1 := if l.durationFromStart < 0 ∧ 0 ≤ lastdur then
        { l with durationFromStart := lastdur } else l
    (l1 :: r.1, if 0 ≤ l.durationFromStart then l.durationFromStart else lastdur)

/-- Forward loop of `fillInNegativeStartTimes`, entered with `lastdur`. -/
def fillForward : Rat → List HumdrumLine → List HumdrumLine
  | _, [] => []
  | lastdur, l :: rest =>
    if 0 ≤ l.durationFromStart then l :: fillForward l.durationFromStart rest
    else { l with durationFromStart := lastdur } :: fillForward lastdur rest

/-- Embedding of `HumdrumFileStructure::fillInNegativeStartTimes`. -/
def fillInNegativeStartTimes (f : HumdrumFile) : HumdrumFile :=
  let r := fillBackward f.lines
  { f with lines := fillForward r.2 r.1 }

/-- Loop of `assignLineDurations` together with the final store on the last
line. -/
def assignLineDurationsLoop : List HumdrumLine → List HumdrumLine
  | [] => []
  | [l] => [{ l with duration := 0 }]
  | l :: m :: rest =>
    { l with duration := m.durationFromStart - l.durationFromStart } ::
      assignLineDurationsLoop (m :: rest)

/-- Embedding of `HumdrumFileStructure::assignLineDurations`. -/
def assignLineDurations (f : HumdrumFile) : HumdrumFile :=
  { f with lines := assignLineDurationsLoop f.lines }

/-- First loop of `analyzeMeter`, at line `i` with the running `sum`, the flag
`foundbarline` and the barlines registered so far. -/
def meterForward : List HumdrumLine → Nat → Rat → Bool → List Nat →
    List HumdrumLine × List Nat
  | [], _, _, _, bars => ([], bars)
  | l :: rest, i, sum, found, bars =>
    let sum1 := sum + l.duration
    let found1 := found || l.isBarline
    let bars1 := if l.isBarline then bars ++ [i] else bars
    let sum2 := if l.isBarline then 0 else sum1
    let pickup := l.isData && !found1
    let bars2 := if pickup then bars1 ++ [0] else bars1
    let r := meterForward rest (i + 1) sum2 (found1 || pickup) bars2
    ({ l with durationFromBarline := sum } :: r.1, r.2)

/-- Second loop of `analyzeMeter`, from the last line to the first; the second
component is the running `sum` after the loop. -/
def meterBackward : List HumdrumLine → List HumdrumLine × Rat
  | [] => ([], 0)
  | l :: rest =>
    let r := meterBackward rest
    let sum1 := r.2 + l.duration
    ({ l with durationToBarline := sum1 } :: r.1, if l.isBarline then 0 else sum1)

/-- Embedding of `HumdrumFileStructure::analyzeMeter`, which always returns
`true`. -/
def analyzeMeter (f : HumdrumFile) : HumdrumFile :=
  let r := meterForward f.lines 0 0 false []
  { f with lines := (meterBackward r.1).1, barlines := r.2 }

/-- Embedding of `HumdrumFileStructure::setLineRhythmAnalyzed`. -/
def setLineRhythmAnalyzed (f : HumdrumFile) : HumdrumFile :=
  { f with lines := f.lines.map (fun l => { l with rhythmAnalyzed := true }) }

/-- First loop of `analyzeRhythm` over the track starts: the tracks that start
on `startline` are assigned durations from offset zero. -/
def analyzeRhythmTracks (startline : Nat) :
    List Nat → HumdrumFile → Option (Bool × HumdrumFile)
  | [], f => some (true, f)
  | s :: rest, f =>
    match f.tokens[s]? with
    | none => none
    | some t =>
      if !t.hasRhythm then analyzeRhythmTracks startline rest f
      else if t.lineIndex = startline then
        match f.assignDurationsToTrack s 0 with
        | none => none
        | some g =>
          if !g.isValid then some (false, g)
          else analyzeRhythmTracks startline rest g
      else analyzeRhythmTracks startline rest f

/-- Second loop of `analyzeRhythm` over the track starts: the tracks that start
after `startline` are floating spines. -/
def analyzeRhythmFloating (startline : Nat) :
    List Nat → HumdrumFile → Option (Bool × HumdrumFile)
  | [], f => some (true, f)
  | s :: rest, f =>
    match f.tokens[s]? with
    | none => none
    | some t =>
      if !t.hasRhythm then analyzeRhythmFloating startline rest f
      else if startline < t.lineIndex then
        match f.analyzeRhythmOfFloatingSpine s with
        | none => none
        | some g =>
          if !g.isValid then some (false, g)
          else analyzeRhythmFloating startline rest g
      else analyzeRhythmFloating startline rest f

/-- Spine passes of `analyzeRhythm`, on a file with at least one track: the two
loops over the track starts followed by `analyzeNullLineRhythms`.  The flag is
`false` when `analyzeRhythm` returns `false` from one of these steps. -/
def analyzeRhythmSpines (f : HumdrumFile) : Option (Bool × HumdrumFile) :=
  match f.getTrackStart 1 with
  | none => none
  | some s1 =>
    match f.tokens[s1]? with
    | none => none
    | some t1 =>
      let startline := t1.lineIndex
      match analyzeRhythmTracks startline f.trackstarts f with
      | none => none
      | some (false, g) => some (false, g)
      | some (true, g) =>
        match analyzeRhythmFloating startline g.trackstarts g with
        | none => none
        | some (false, h) => some (false, h)
        | some (true, h) =>
          let h1 := h.analyzeNullLineRhythms
          if !h1.isValid then some (false, h1) else some (true, h1)

/-- Embedding of `HumdrumFileStructure::analyzeRhythm`.  The argument `nonNull`
is the value returned by `analyzeNonNullDataTokens`, which is defined outside
the analysed sources and writes none of the fields embedded here. -/
def analyzeRhythm (f0 : HumdrumFile) (nonNull : Bool) : Option (Bool × HumdrumFile) :=
  let f := f0.setLineRhythmAnalyzed
  if f.getMaxTrack = 0 then some (true, f)
  else
    match f.analyzeRhythmSpines with
    | none => none
    | some (false, h) => some (false, h)
    | some (true, h1) =>
      let h2 := h1.fillInNegativeStartTimes.assignLineDurations.analyzeMeter
      if !nonNull then some (false, h2) else some (true, h2)

/-- First loop of `assignRhythmFromRecip`: the walk `while (current)` along
`getNextToken()`, storing the duration of every non-null data token on its
line. -/
def recipWalk : Nat → HumdrumFile → Option Nat → Option HumdrumFile
  | _, f, none => some f
  | 0, _, some _ => none
  | fuel + 1, f, some current =>
    match f.tokens[current]? with
    | none => none
    | some t =>
      if !t.isData then recipWalk fuel f t.nextTokens.head?
      else if t.isNull then recipWalk fuel f t.nextTokens.head?
      else
        recipWalk fuel (f.setDuration t.lineIndex (if t.hasQ then 0 else t.recip))
          t.nextTokens.head?

/-- Second loop of `assignRhythmFromRecip`, entered with the running `sum`. -/
def recipSums : Rat → List HumdrumLine → List HumdrumLine
  | _, [] => []
  | sum, l :: rest =>
    let d := if l.duration < 0 then 0 else l.duration
    { l with durationFromStart := sum, duration := d } :: recipSums (sum + d) rest

/-- Embedding of `HumdrumFileStructure::assignRhythmFromRecip`; `nonNull` is the
value returned by `analyzeNonNullDataTokens`. -/
def assignRhythmFromRecip (f : HumdrumFile) (spinestart : Nat) (nonNull : Bool) :
    Option (Bool × HumdrumFile) :=
  match recipWalk f.walkBound f (some spinestart) with
  | none => none
  | some g =>
    let h := ({ g with lines := recipSums 0 g.lines } : HumdrumFile).analyzeMeter
    some (nonNull, h)

/-- Embedding of `HumdrumFileStructure::getScoreDuration`. -/
def getScoreDuration (f : HumdrumFile) : Rat :=
  match f.lines.getLast? with
  | none => 0
  | some l => l.durationFromStart

/-- Embedding of `HumdrumFileStructure::cleanDurs`; the C++ return value is the
validity flag of the resulting file. -/
def cleanDurs (f : HumdrumFile) (durs : List Rat) (line : Nat) : HumdrumFile :=
  let zero := durs.any (fun d => !decide (0 < d) && decide (d = 0))
  let positive := durs.any (fun d => decide (0 < d))
  if zero && positive then f.setParseError (.graceAndRegular line) else f

/-- Embedding of `HumdrumFileStructure::getTokenDurations`: the durations of the
tokens of the line, and the file after `cleanDurs`. -/
def getTokenDurations (f : HumdrumFile) (line : Nat) : Option (List Rat × HumdrumFile) :=
  match f.lines[line]? with
  | none => none
  | some l =>
    match l.tokens.mapM (fun k => f.tokens[k]?) with
    | none => none
    | some ts =>
      let durs := ts.map (fun t => t.duration)
      some (durs, f.cleanDurs durs line)

/-- Well-linked file: every token lies on a line of the file and every
successor of a token is a token of a later line. -/
def wellLinked (f : HumdrumFile) : Bool :=
  f.tokens.all fun t =>
    decide (t.lineIndex < f.lines.length) &&
    t.nextTokens.all fun j =>
      match f.tokens[j]? with
      | some u => decide (t.lineIndex < u.lineIndex)
      | none => false

/-- Value of `durationFromStart` at index `i` of a list of lines, `-1` past the
end. -/
def dfsAt (ls : List HumdrumLine) (i : Nat) : Rat :=
  match ls[i]? with
  | some l => l.durationFromStart
  | none => -1

/-- Fold of the loop body of `analyzeNullLineRhythms` over line indices. -/
def nullScan (s : NullScan) (is : List Nat) : NullScan := is.foldl nullLineStep s

/-- All-rhythmically-null data lines strictly between lines `p` and `q`, in
file order: the lines that `analyzeNullLineRhythms` collects in `nulllines`
while it scans from `p` to `q`. -/
def nullLinesBetween (f : HumdrumFile) (p q : Nat) : List Nat :=
  (List.range' (p + 1) (q - p - 1)).filter fun k =>
    match f.lines[k]? with
    | some l => l.hasSpines && l.isAllRhythmicNull && l.isData
    | none => false

/-- File carried by the outcome of the primary-track loop. -/
def WalkResult.file : WalkResult → HumdrumFile
  | .aborted f _ => f
  | .done f _ _ => f

/-- Offers logged by the primary-track loop. -/
def WalkResult.log : WalkResult → List (Nat × Rat)
  | .aborted _ log => log
  | .done _ log _ => log

/-- Secondary tokens left for the recursive calls; none after an early return. -/
def WalkResult.reservoir : WalkResult → List (Nat × Rat)
  | .aborted _ _ => []
  | .done _ _ r => r

/-- Positive part of the self duration of token `i`: what `prepareDurations`
adds to its running sum when it passes the token. -/
def positiveDuration (ts : List HumdrumToken) (i : Nat) : Rat :=
  match ts[i]? with
  | some t => if 0 < t.duration then t.duration else 0
  | none => 0

/-- Path of next-token links: `isNextPath ts a path b` holds when `path` lists
the tokens from `a` up to, and not including, `b`, each one linked to the next
(and the last one to `b`) through `getNextToken`. -/
def isNextPath (ts : List HumdrumToken) : Nat → List Nat → Nat → Prop
  | a, [], b => a = b
  | a, c :: rest, b =>
    a = c ∧ ∃ t n, ts[c]? = some t ∧ n ∈ t.nextTokens ∧ isNextPath ts n rest b

/-- Check that no spine terminator carries a positive duration (terminators are
interpretation tokens, whose duration is undefined). -/
def terminatorsWithoutDuration (f : HumdrumFile) : Bool :=
  f.tokens.all fun t => !t.isTerminateInterpretation || decide (t.duration ≤ 0)

/-- An offer `e = (u, v)` is reached from `(a, s)`: some path of next-token
links leads from `a` to `u` and `v` is `s` plus the positive durations passed. -/
def Reach (ts : List HumdrumToken) (a : Nat) (s : Rat) (e : Nat × Rat) : Prop :=
  ∃ path, isNextPath ts a path e.1 ∧ e.2 = s + (path.map (positiveDuration ts)).sum

/-- An offer `e = (u, v)` continues an offer of the list `L`: some `(w, v')` in
`L` has `u` among the successors of `w` and `v` is `v'` advanced over `w`. -/
def PredIn (ts : List HumdrumToken) (L : List (Nat × Rat)) (e : Nat × Rat) : Prop :=
  ∃ w v' tw, (w, v') ∈ L ∧ ts[w]? = some tw ∧ e.1 ∈ tw.nextTokens ∧ e.2 = advance v' tw

/-- Tokens met when following `getNextToken()` (successor `0`) from a token,
the start included, for at most `fuel` steps: the primary path of a spine. -/
def primaryPath (ts : List HumdrumToken) : Nat → Option Nat → List Nat
  | 0, _ => []
  | _ + 1, none => []
  | fuel + 1, some c =>
    match ts[c]? with
    | none => []
    | some t => c :: primaryPath ts fuel t.nextTokens.head?

/-- Value of `duration` at index `i` of a list of lines, `-1` past the end. -/
def durAt (ls : List HumdrumLine) (i : Nat) : Rat :=
  match ls[i]? with
  | some l => l.duration
  | none => -1

/-- Set of the positive line durations, in the increasing order in which a
`std::set` is iterated. -/
def getPositiveLineDurations (f : HumdrumFile) : List Rat :=
  (((f.lines.map (fun l => l.duration)).filter (fun d => decide (0 < d))).dedup).insertionSort
    (fun a b => a ≤ b)

/-- Modelled from the spec: `Convert::getLcm` is the least common multiple of
the listed integers. -/
def getLcm (dems : List Nat) : Nat :=
  dems.foldl Nat.lcm 1

/-- Ticks per quarter note: the memoized value when it is positive, else the
least common multiple of the denominators above one of the positive line
durations, which is stored.  Returns the value and the file after the call. -/
def tpq (f : HumdrumFile) : Int × HumdrumFile :=
  if 0 < f.ticksperquarternote then (f.ticksperquarternote, f)
  else
    let dems := (f.getPositiveLineDurations.filter (fun d => decide (1 < d.den))).map (fun d => d.den)
    let lcm : Nat := if 0 < dems.length then getLcm dems else 1
    ((lcm : Int), { f with ticksperquarternote := (lcm : Int) })

/-- Number of registered barlines. -/
def getBarlineCount (f : HumdrumFile) : Int :=
  (f.barlines.length : Int)

/-- The registered barline of the given index as a line index; a negative
index counts from the end, `none` is the NULL result. -/
def getBarline (f : HumdrumFile) (index : Int) : Option Nat :=
  let index1 := if index < 0 then index + (f.barlines.length : Int) else index
  if index1 < 0 then none
  else if index1 ≥ (f.barlines.length : Int) then none
  else f.barlines[index1.toNat]?

/-- Duration from the barline of the given index to the next one: the code
reads the next registered barline only when `index + 1 < size - 1` and the
score duration otherwise. -/
def getBarlineDuration (f : HumdrumFile) (index : Int) : Rat :=
  let index1 := if index < 0 then index + (f.barlines.length : Int) else index
  if index1 < 0 then 0
  else if index1 ≥ (f.barlines.length : Int) then 0
  else
    match f.barlines[index1.toNat]? with
    | none => 0
    | some b =>
      let startdur := f.durationFromStart b
      let enddur :=
        if index1 + 1 < (f.barlines.length : Int) - 1 then
          match f.barlines[(index1 + 1).toNat]? with
          | none => f.getScoreDuration
          | some b1 => f.durationFromStart b1
        else f.getScoreDuration
      enddur - startdur

/-- Getter `m_lines[i]->getDurationFromBarline()`; `-1` stands for a line
that does not exist. -/
def durationFromBarline (f : HumdrumFile) (i : Nat) : Rat :=
  match f.lines[i]? with
  | some l => l.durationFromBarline
  | none => -1

/-- Getter `m_lines[i]->getDurationToBarline()`; `-1` stands for a line that
does not exist. -/
def durationToBarline (f : HumdrumFile) (i : Nat) : Rat :=
  match f.lines[i]? with
  | some l => l.durationToBarline
  | none => -1

/-- Test `m_lines[i]->isBarline()`; `false` for a line that does not exist. -/
def isBarline (f : HumdrumFile) (i : Nat) : Bool :=
  match f.lines[i]? with
  | some l => l.isBarline
  | none => false

/-- Test `m_lines[i]->isData()`; `false` for a line that does not exist. -/
def isData (f : HumdrumFile) (i : Nat) : Bool :=
  match f.lines[i]? with
  | some l => l.isData
  | none => false

/-- Indices of the barline lines of the file, in line order. -/
def barlineLines (f : HumdrumFile) : List Nat :=
  (List.range f.lines.length).filter (fun i => f.isBarline i)

/-- Whether a data line occurs before any barline line of the list. -/
def hasPickup : List HumdrumLine → Bool
  | [] => false
  | l :: rest => !l.isBarline && (l.isData || hasPickup rest)

/-- Indices of the barline lines of the list, the first line having index `i`. -/
def barlinesFrom : List HumdrumLine → Nat → List Nat
  | [], _ => []
  | l :: rest, i => if l.isBarline then i :: barlinesFrom rest (i + 1) else barlinesFrom rest (i + 1)

/-- Modelled from the spec: `getSpineCount` is the number of spines, one for
each track. -/
def getSpineCount (f : HumdrumFile) : Nat := f.getMaxTrack

/-- Modelled from the spec: `areStrandsAnalyzed` reads the flag
`m_strands_analyzed`. -/
def areStrandsAnalyzed (f : HumdrumFile) : Bool := f.strandsAnalyzed

/-- Assignment `ends[index].last = tok`. -/
def setLast (ends : List TokenPair) (index tok : Nat) : List TokenPair :=
  match ends[index]? with
  | some p => ends.set index { p with last := some tok }
  | none => ends

/-- Loop `while (tok != NULL)` of `analyzeSpineStrands` for the strand stored
at `index`.  A call `analyzeSpineStrands(ends, n)` made for a split appends the
strand `(n, NULL)` and runs the loop for it.  Leaving the loop with NULL (the
"Should not get here" exit) returns the strands as they are; `none` is a NULL
dereference or the exhaustion of the step bound. -/
def strandWalk : Nat → List HumdrumToken → Nat → List TokenPair → Option Nat →
    Option (List TokenPair)
  | _, _, _, ends, none => some ends
  | 0, _, _, _, some _ => none
  | fuel + 1, ts, index, ends, some tok =>
    match ts[tok]? with
    | none => none
    | some t =>
      if 1 < t.subtrack && t.isMerge then
        match t.previousFieldToken.bind (fun p => ts[p]?) with
        | none => none
        | some pt =>
          if pt.isMerge then some (setLast ends index tok)
          else strandWalk fuel ts index ends t.nextTokens.head?
      else if t.isTerminateInterpretation then some (setLast ends index tok)
      else
        match t.nextTokens.tail.foldlM
            (fun e n => strandWalk fuel ts e.length (e ++ [{ first := some n }]) (some n))
            ends with
        | none => none
        | some ends1 => strandWalk fuel ts index ends1 t.nextTokens.head?

/-- Embedding of `HumdrumFileStructure::analyzeSpineStrands`: append the strand
`(starttok, NULL)` and walk it.  `isTerminator` is read from the field
`isTerminateInterpretation`. -/
def analyzeSpineStrands (fuel : Nat) (ts : List HumdrumToken) (ends : List TokenPair)
    (starttok : Nat) : Option (List TokenPair) :=
  strandWalk fuel ts ends.length (ends ++ [{ first := some starttok }]) (some starttok)

/-- Line index of the first token of a strand (`0` when there is none). -/
def strandLine (ts : List HumdrumToken) (p : TokenPair) : Nat :=
  match p.first.bind (fun a => ts[a]?) with
  | some t => t.lineIndex
  | none => 0

/-- Modelled from the spec: `std::sort` with `sortTokenPairsByLineIndex`
orders the strands of a spine by the line index of their first token. -/
def sortTokenPairsByLineIndex (ts : List HumdrumToken) (ends : List TokenPair) :
    List TokenPair :=
  ends.insertionSort (fun a b => strandLine ts a ≤ strandLine ts b)

/-- Loop `while (tok != NULL)` of `assignStrandsToTokens` for the strand `i`. -/
def labelWalk : Nat → List HumdrumToken → (Nat → Int) → Int → Option Nat →
    Option (Nat → Int)
  | _, _, tbl, _, none => some tbl
  | 0, _, _, _, some _ => none
  | fuel + 1, ts, tbl, i, some tok =>
    match ts[tok]? with
    | none => none
    | some t => labelWalk fuel ts (Function.update tbl tok i) i t.nextTokens.head?

/-- Embedding of `HumdrumFileStructure::assignStrandsToTokens`. -/
def assignStrandsToTokens (f : HumdrumFile) : Option HumdrumFile :=
  (f.strand1d.enum.foldlM
    (fun tbl p => labelWalk f.walkBound f.tokens tbl (p.1 : Int) p.2.first)
    f.strandIndex).map (fun tbl => { f with strandIndex := tbl })

/-- Loop `while (token != strandend)` of `resolveNullTokens` for one strand;
the result holds the null resolutions and the carried `data` token. -/
def nullWalk : Nat → List HumdrumToken → (Nat → Option Nat) → Option Nat → Option Nat →
    Option Nat → Option ((Nat → Option Nat) × Option Nat)
  | 0, _, res, data, strandend, token =>
    if token = strandend then some (res, data) else none
  | fuel + 1, ts, res, data, strandend, token =>
    if token = strandend then some (res, data)
    else
      match token with
      | none => none
      | some tok =>
        match ts[tok]? with
        | none => none
        | some t =>
          if !t.isData then nullWalk fuel ts res data strandend t.nextTokens.head?
          else
            match data with
            | none =>
              nullWalk fuel ts (Function.update res tok (some tok)) (some tok) strandend
                t.nextTokens.head?
            | some d =>
              if t.isNull then
                nullWalk fuel ts (Function.update res tok (some d)) data strandend
                  t.nextTokens.head?
              else nullWalk fuel ts res (some tok) strandend t.nextTokens.head?

/-- Strand loop of `resolveNullTokens`; `data` is carried from one strand to
the next. -/
def resolveNullLoop (f : HumdrumFile) : Option HumdrumFile :=
  (f.strand1d.foldlM
    (fun acc p => nullWalk f.walkBound f.tokens acc.1 acc.2 p.last p.first)
    (f.nullResolution, none)).map (fun acc => { f with nullResolution := acc.1 })

/-- Part of `analyzeStrands` before its call of `resolveNullTokens`: the
strands of every spine, the sorted and flattened list, the strand labels. -/
def analyzeStrandsCore (f : HumdrumFile) : Option HumdrumFile :=
  let f1 := { f with strandsAnalyzed := true, strand1d := [], strand2d := [] }
  match (List.range f1.getSpineCount).mapM (fun i =>
      match f1.getSpineStart i with
      | none => none
      | some tok => analyzeSpineStrands f1.walkBound f1.tokens [] tok) with
  | none => none
  | some s2 =>
    let sorted := s2.map (sortTokenPairsByLineIndex f1.tokens)
    assignStrandsToTokens { f1 with strand2d := sorted, strand1d := sorted.flatten }

/-- Embedding of `HumdrumFileStructure::resolveNullTokens`.  The call of
`analyzeStrands` made when the strands are not analysed runs with
`m_nulls_analyzed` set, so that its own call of `resolveNullTokens` returns at
once. -/
def resolveNullTokens (f : HumdrumFile) : Option HumdrumFile :=
  if f.nullsAnalyzed then some f
  else
    let f1 := { f with nullsAnalyzed := true }
    (if !f1.areStrandsAnalyzed then analyzeStrandsCore f1 else some f1).bind resolveNullLoop

/-- Embedding of `HumdrumFileStructure::analyzeStrands`; the first component is
the returned `isValid()`. -/
def analyzeStrands (f : HumdrumFile) : Option (Bool × HumdrumFile) :=
  ((analyzeStrandsCore f).bind resolveNullTokens).map (fun g => (g.isValid, g))

/-- Getter `getStrandStart(index)` on a file whose strands are analysed. -/
def getStrandStart (f : HumdrumFile) (index : Nat) : Option Nat :=
  (f.strand1d[index]?).bind (fun p => p.first)

/-- Getter `getStrandEnd(index)` on a file whose strands are analysed. -/
def getStrandEnd (f : HumdrumFile) (index : Nat) : Option Nat :=
  (f.strand1d[index]?).bind (fun p => p.last)

/-- Getter `getStrandCount()` on a file whose strands are analysed. -/
def getStrandCount (f : HumdrumFile) : Nat := f.strand1d.length

/-- Whether the strand walk stops at a token: a merge token of a subtrack above
`1` stops it when its left neighbour is a merge token too, any other token when
it is a spine terminator. -/
def endsStrand (ts : List HumdrumToken) (t : HumdrumToken) : Bool :=
  if 1 < t.subtrack && t.isMerge then
    match t.previousFieldToken.bind (fun p => ts[p]?) with
    | some pt => pt.isMerge
    | none => false
  else t.isTerminateInterpretation

/-- Closed spines: a token without successor is a spine terminator, a spine
terminator is no merge token, and a merge token of a subtrack above `1` has a
token to its left. -/
def closedSpines (f : HumdrumFile) : Bool :=
  f.tokens.all fun t =>
    (!t.nextTokens.isEmpty || t.isTerminateInterpretation) &&
    (!t.isTerminateInterpretation || !t.isMerge) &&
    (!(1 < t.subtrack && t.isMerge) ||
      (t.previousFieldToken.bind (fun p => f.tokens[p]?)).isSome)

/-- The token `a` is a successor of index at least `1` of some token, i.e. the
start of a secondary branch of a split. -/
def SplitSuccessor (ts : List HumdrumToken) (a : Nat) : Prop :=
  ∃ (w : Nat) (tw : HumdrumToken) (j : Nat),
    ts[w]? = some tw ∧ 1 ≤ j ∧ tw.nextTokens[j]? = some a

/-- The token `b` is the first token on the path of `getNextToken()` links
from `a` at which the strand walk stops: the walk stops at `b` and at no token
of the path before `b`. -/
def StrandEnd (ts : List HumdrumToken) (a b : Nat) : Prop :=
  ∃ (m : Nat) (tb : HumdrumToken) (pre post : List Nat),
    ts[b]? = some tb ∧ endsStrand ts tb = true ∧
    primaryPath ts m (some a) = pre ++ b :: post ∧
    ∀ x ∈ pre, ∀ tx, ts[x]? = some tx → endsStrand ts tx = false

/-- Whether every track start is a token of the file. -/
def validStarts (f : HumdrumFile) : Bool :=
  f.trackstarts.all fun a => decide (a < f.tokens.length)

/-- From `f` to `g` the state counter of every token is unchanged or goes from
`state` to `state + 1`: no token is incremented twice. -/
def IncrementedOnce (state : Int) (f g : HumdrumFile) : Prop :=
  ∀ tok, g.rhycheck tok = f.rhycheck tok ∨
    (f.rhycheck tok = state ∧ g.rhycheck tok = state + 1)

/-- Way in which the forward search of `analyzeRhythmOfFloatingSpine` leaves
its `while (tcount > 0)` loop. -/
inductive SearchExit where
  /-- The `break` at a token on a line with a resolved `durationFromStart`. -/
  | found (founddur dursum : Rat)
  /-- After `steps` iterations `getNextToken(0)` was asked of `token`, which has
  no successor; the next iteration dereferences the NULL it returned. -/
  | nullSuccessor (token steps : Nat)
  /-- The token is not in the arena. -/
  | missingToken
  /-- The step bound is exhausted. -/
  | outOfSteps
  deriving DecidableEq, Repr

/-- The loop of `floatingSearch` with its exit and the number of iterations
made; `steps` counts the iterations before the current one. -/
def floatingExit : Nat → HumdrumFile → Nat → Rat → Nat → SearchExit
  | 0, _, _, _, _ => .outOfSteps
  | fuel + 1, f, token, dursum, steps =>
    match f.tokens[token]? with
    | none => .missingToken
    | some t =>
      if 0 ≤ f.durationFromStart t.lineIndex then
        .found (f.durationFromStart t.lineIndex) dursum
      else
        match t.nextTokens.head? with
        | none => .nullSuccessor token (steps + 1)
        | some n => floatingExit fuel f n (advance dursum t) (steps + 1)

/-- Result of the search for an exit: the pair at the `break`, nothing else. -/
def SearchExit.result : SearchExit → Option (Rat × Rat)
  | .found a b => some (a, b)
  | _ => none

/-- Body of the loop of `resolveNullTokens` at one token: the null resolutions
and the carried `data` token after the iteration. -/
def governStep (ts : List HumdrumToken) (acc : (Nat → Option Nat) × Option Nat) (x : Nat) :
    (Nat → Option Nat) × Option Nat :=
  match ts[x]? with
  | none => acc
  | some t =>
    if !t.isData then acc
    else
      match acc.2 with
      | none => (Function.update acc.1 x (some x), some x)
      | some d =>
        if t.isNull then (Function.update acc.1 x (some d), acc.2)
        else (acc.1, some x)

/-- Tokens of a strand that the loop `while (token != strandend)` visits: the
path of `getNextToken()` links from the first token up to, and without, the
last token. -/
def strandTokens (ts : List HumdrumToken) (fuel : Nat) (p : TokenPair) : List Nat :=
  (primaryPath ts fuel p.first).takeWhile (fun x => decide (some x ≠ p.last))

/-- Tokens visited by `resolveNullTokens`, in the order of the visits: strand
after strand of the 1D list. -/
def walkOrder (f : HumdrumFile) : List Nat :=
  (f.strand1d.map (strandTokens f.tokens f.walkBound)).flatten

/-- Every strand of the 1D list has a first and a last token, and the last
token lies on the path of `getNextToken()` links from the first. -/
def strandsClosed (f : HumdrumFile) : Bool :=
  f.strand1d.all fun p =>
    match p.first, p.last with
    | some a, some b => decide (b ∈ primaryPath f.tokens f.walkBound (some a))
    | _, _ => false

/-- Whether the token is a data token that is not null. -/
def isNonNullData (ts : List HumdrumToken) (x : Nat) : Bool :=
  match ts[x]? with
  | some t => t.isData && !t.isNull
  | none => false

/-- Whether the token is a data token. -/
def isDataToken (ts : List HumdrumToken) (x : Nat) : Bool :=
  match ts[x]? with
  | some t => t.isData
  | none => false

/-- Whether the token is a null data token. -/
def isNullData (ts : List HumdrumToken) (x : Nat) : Bool :=
  match ts[x]? with
  | some t => t.isData && t.isNull
  | none => false

/-- Governing token after a list of visited tokens: the last non-null data
token of the list, or, when the list has none, its first data token. -/
def governing (ts : List HumdrumToken) (visited : List Nat) : Option Nat :=
  match (visited.reverse.find? (isNonNullData ts)) with
  | some n => some n
  | none => visited.find? (isDataToken ts)

/-- Whether the line is a global comment whose text contains `!!LO:`: the
lines that `analyzeGlobalParameters` buffers. -/
def isGlobalLayout (l : HumdrumLine) : Bool :=
  l.isCommentGlobal && l.hasGlobalLayout

/-- Token `0` of line `k` (`m_lines[k]->token(0)`). -/
def lineToken0 (ls : List HumdrumLine) (k : Nat) : Option Nat :=
  (ls[k]?).bind (fun l => l.tokens.head?)

/-- Modelled from the spec: `addLinkedParameter` records the parameter token
at the end of the list of parameters linked to the token. -/
def addLinkedParameter (tbl : Nat → List Nat) (token param : Nat) : Nat → List Nat :=
  Function.update tbl token (tbl token ++ [param])

/-- Inner loops of `analyzeGlobalParameters` on one line: every field of the
line is linked to token `0` of every buffered line; `none` when a buffered
line has no token `0`. -/
def linkGlobals (ls : List HumdrumLine) (fields globals : List Nat) (tbl : Nat → List Nat) :
    Option (Nat → List Nat) :=
  fields.foldlM (fun tbl1 j =>
    globals.foldlM (fun tbl2 k =>
      match lineToken0 ls k with
      | none => none
      | some p => some (addLinkedParameter tbl2 j p)) tbl1) tbl

/-- Loop of `analyzeGlobalParameters` from line `i` on, with the buffer
`globals` of line indices. -/
def globalLoop (ls : List HumdrumLine) : List HumdrumLine → Nat → List Nat →
    (Nat → List Nat) → Option (Nat → List Nat)
  | [], _, _, tbl => some tbl
  | l :: rest, i, globals, tbl =>
    if l.isCommentGlobal && l.hasGlobalLayout then
      globalLoop ls rest (i + 1) (globals ++ [i]) tbl
    else if !l.hasSpines then globalLoop ls rest (i + 1) globals tbl
    else if l.isAllNull then globalLoop ls rest (i + 1) globals tbl
    else if l.isCommentLocal then globalLoop ls rest (i + 1) globals tbl
    else if globals.isEmpty then globalLoop ls rest (i + 1) globals tbl
    else
      match linkGlobals ls l.tokens globals tbl with
      | none => none
      | some tbl1 => globalLoop ls rest (i + 1) [] tbl1

/-- Embedding of `HumdrumFileStructure::analyzeGlobalParameters`; the first
component is the returned `isValid()`.  The calls of
`storeGlobalLinkedParameters` are recorded on the lines. -/
def analyzeGlobalParameters (f : HumdrumFile) : Option (Bool × HumdrumFile) :=
  (globalLoop f.lines f.lines 0 [] f.linkedParameters).map (fun tbl =>
    (f.isValid, { f with
      lines := f.lines.map (fun l =>
        if l.isCommentGlobal && l.hasGlobalLayout then
          { l with globalParametersStored := true } else l),
      linkedParameters := tbl }))

/-- Whether `analyzeGlobalParameters` attaches its buffer to the line: the
line is not itself buffered, has spines, is not all-null and is no local
comment. -/
def receivesGlobals (l : HumdrumLine) : Bool :=
  !isGlobalLayout l && l.hasSpines && !l.isAllNull && !l.isCommentLocal

/-- The list `G` holds, in file order, the global layout lines `c` before
line `i` that are still buffered at line `i`: no line strictly between `c` and
`i` receives the buffer. -/
def Buffered (ls : List HumdrumLine) (i : Nat) (G : List Nat) : Prop :=
  G.Pairwise (fun a b => a < b) ∧
  ∀ c, c ∈ G ↔
    (c < i ∧ (∃ l, ls[c]? = some l ∧ isGlobalLayout l = true) ∧
      ∀ (k : Nat) (lk : HumdrumLine), c < k → k < i → ls[k]? = some lk →
        receivesGlobals lk = false)

/-- Every global layout line has a token `0`. -/
def globalsHaveToken (f : HumdrumFile) : Bool :=
  f.lines.all fun l => !isGlobalLayout l || !l.tokens.isEmpty

/-- Every token index occurs only once among the fields of all lines. -/
def distinctFields (f : HumdrumFile) : Prop :=
  (f.lines.map (fun l => l.tokens)).flatten.Nodup

/-- Whether `processLocalParametersForStrand` makes the token the current
target `dtok`: a data token, a barline token or a non-null interpretation. -/
def governsParameters (t : HumdrumToken) : Bool :=
  t.isData || t.isBarline || (t.isInterpretation && !t.isNullInterpretation)

/-- Whether the token is handled as a layout parameter by
`processLocalParametersForStrand`: a local comment starting with `!LO:` that
is no target token. -/
def isLocalLayout (t : HumdrumToken) : Bool :=
  !governsParameters t && t.isCommentLocal && t.hasLocalLayout

/-- State of the loop of `processLocalParametersForStrand`: the linked
parameters, the tokens whose parameters are stored, and `dtok`. -/
structure LocalScan where
  linked : Nat → List Nat
  stored : Nat → Bool
  dtok : Option Nat

/-- Body of the loop of `processLocalParametersForStrand` at the token `tok`
before the test `tok == sstart`. -/
def localStep (ts : List HumdrumToken) (s : LocalScan) (tok : Nat) : LocalScan :=
  match ts[tok]? with
  | none => s
  | some t =>
    if t.isData then { s with dtok := some tok }
    else if t.isBarline then { s with dtok := some tok }
    else if t.isInterpretation && !t.isNullInterpretation then { s with dtok := some tok }
    else if t.isCommentLocal then
      if t.hasLocalLayout then
        { s with
          stored := Function.update s.stored tok true,
          linked :=
            match s.dtok with
            | some d => addLinkedParameter s.linked d tok
            | none => s.linked }
      else s
    else s

/-- Loop `while (tok)` of `processLocalParametersForStrand`, walking
`getPreviousToken()` links until the strand start has been handled. -/
def localWalk : Nat → List HumdrumToken → Option Nat → LocalScan → Option Nat →
    Option LocalScan
  | _, _, _, s, none => some s
  | 0, _, _, _, some _ => none
  | fuel + 1, ts, sstart, s, some tok =>
    match ts[tok]? with
    | none => none
    | some t =>
      if some tok = sstart then some (localStep ts s tok)
      else localWalk fuel ts sstart (localStep ts s tok) t.previousTokens.head?

/-- Embedding of `HumdrumFileStructure::processLocalParametersForStrand`;
`none` also when the strand index is out of range. -/
def processLocalParametersForStrand (f : HumdrumFile) (index : Nat) : Option HumdrumFile :=
  match f.strand1d[index]? with
  | none => none
  | some p =>
    (localWalk f.walkBound f.tokens p.first
      { linked := f.linkedParameters, stored := f.parametersStored, dtok := none }
      p.last).map (fun s =>
        { f with linkedParameters := s.linked, parametersStored := s.stored })

/-- Embedding of `HumdrumFileStructure::analyzeLocalParameters`; the strands
are analysed first when `getStrandCount` finds them not analysed. -/
def analyzeLocalParameters (f : HumdrumFile) : Option (Bool × HumdrumFile) :=
  ((if f.areStrandsAnalyzed then some f else (f.analyzeStrands).map (fun r => r.2)).bind
    (fun f1 => (List.range f1.getStrandCount).foldlM
      (fun acc i => acc.processLocalParametersForStrand i) f1)).map
    (fun g => (g.isValid, g))

/-- Tokens visited by the loop of `processLocalParametersForStrand` from `tok`,
in the order of the visits: backwards along `getPreviousToken()` up to and
with the strand start. -/
def backPath (ts : List HumdrumToken) : Nat → Option Nat → Option Nat → List Nat
  | 0, _, _ => []
  | _ + 1, _, none => []
  | fuel + 1, sstart, some c =>
    match ts[c]? with
    | none => []
    | some t =>
      if some c = sstart then [c]
      else c :: backPath ts fuel sstart t.previousTokens.head?

/-- Back-linked file: every token lies on a line of the file and every
predecessor of a token is a token of an earlier line. -/
def backLinked (f : HumdrumFile) : Bool :=
  f.tokens.all fun t =>
    decide (t.lineIndex < f.lines.length) &&
    t.previousTokens.all fun j =>
      match f.tokens[j]? with
      | some u => decide (u.lineIndex < t.lineIndex)
      | none => false

/-- Whether the token index is a target token of the arena. -/
def governsAt (ts : List HumdrumToken) (x : Nat) : Bool :=
  match ts[x]? with
  | some t => governsParameters t
  | none => false

/-- Whether the token index is a layout parameter comment of the arena. -/
def isLocalLayoutAt (ts : List HumdrumToken) (x : Nat) : Bool :=
  match ts[x]? with
  | some t => isLocalLayout t
  | none => false

/-- Assignment `token->setDuration(d)` on a token of the arena. -/
def setTokenDuration (f : HumdrumFile) (token : Nat) (d : Rat) : HumdrumFile :=
  match f.tokens[token]? with
  | some t => { f with tokens := f.tokens.set token { t with duration := d } }
  | none => f

/-- Getter `token->getDurationFromStart()`: the `durationFromStart` of the line
of the token; `-1` for a token that does not exist. -/
def tokenDurationFromStart (f : HumdrumFile) (token : Nat) : Rat :=
  match f.tokens[token]? with
  | some t => f.durationFromStart t.lineIndex
  | none => -1

/-- Whether the spine information contains the letter `b`. -/
def spineInfoHasB (s : String) : Bool :=
  decide ((Char.ofNat 98) ∈ s.data)

/-- Loop `while (token)` of `assignDurationsToNonRhythmicTrack` for the spine
information `spineinfo` of the end token.  A recursive call on a predecessor
of index at least `1` starts the loop with the spine information of that
predecessor; when it returns `false` (the file is invalid) the function
returns.  `none` is a NULL dereference or the exhaustion of the step bound. -/
def nonRhythmicWalk : Nat → HumdrumFile → String → Nat → Option Nat → Option HumdrumFile
  | _, f, _, _, none => some f
  | 0, _, _, _, some _ => none
  | fuel + 1, f, spineinfo, current, some token =>
    match f.tokens[token]? with
    | none => none
    | some t =>
      if t.spineInfo ≠ spineinfo ∧
          (spineInfoHasB t.spineInfo = true ∨ spineInfoHasB spineinfo = true) then some f
      else if t.previousTokens.length = 0 then some f
      else
        match t.previousTokens.tail.foldlM
            (fun (acc : HumdrumFile × Bool) ptok =>
              if acc.2 then some acc
              else
                match acc.1.tokens[ptok]? with
                | none => none
                | some pt =>
                  match nonRhythmicWalk fuel acc.1 pt.spineInfo current (some ptok) with
                  | none => none
                  | some g => some (g, !g.isValid))
            (f, false) with
        | none => none
        | some (g, true) => some g
        | some (g, false) =>
          if t.isData && !t.isNull then
            nonRhythmicWalk fuel
              (g.setTokenDuration token
                (g.tokenDurationFromStart current - g.tokenDurationFromStart token))
              spineinfo token t.previousTokens.head?
          else nonRhythmicWalk fuel g spineinfo current t.previousTokens.head?

/-- Embedding of `HumdrumFileStructure::assignDurationsToNonRhythmicTrack`; the
first component is the returned `isValid()`. -/
def assignDurationsToNonRhythmicTrack (f : HumdrumFile) (endtoken current : Nat) :
    Option (Bool × HumdrumFile) :=
  match f.tokens[endtoken]? with
  | none => none
  | some t =>
    (nonRhythmicWalk f.walkBound f t.spineInfo current (some endtoken)).map
      (fun g => (g.isValid, g))

/-- Embedding of `HumdrumFileStructure::analyzeDurationsOfNonRhythmicSpines`:
the loops over the tracks and their end tokens. -/
def analyzeDurationsOfNonRhythmicSpines (f : HumdrumFile) : Option (Bool × HumdrumFile) :=
  (f.trackends.flatten.foldlM
    (fun (acc : HumdrumFile × Bool) e =>
      if acc.2 then some acc
      else
        match acc.1.tokens[e]? with
        | none => none
        | some t =>
          if t.hasRhythm then some acc
          else
            match acc.1.assignDurationsToNonRhythmicTrack e e with
            | none => none
            | some r => some (r.2, !r.1))
    (f, false)).map (fun acc => (acc.1.isValid, acc.1))

/-- Arena `ts` with the durations of its tokens replaced by the values of a
table, the first token having index `i`. -/
def withDurationsFrom : List HumdrumToken → Nat → (Nat → Rat) → List HumdrumToken
  | [], _, _ => []
  | t :: ts, i, tbl => { t with duration := tbl i } :: withDurationsFrom ts (i + 1) tbl

/-- Body of the loop of `assignDurationsToNonRhythmicTrack` at a token that has
one predecessor, on the table of token durations and `current`. -/
def nonRhythmicStep (f : HumdrumFile) (acc : (Nat → Rat) × Nat) (x : Nat) : (Nat → Rat) × Nat :=
  if isNonNullData f.tokens x then
    (Function.update acc.1 x (f.tokenDurationFromStart acc.2 - f.tokenDurationFromStart x), x)
  else acc

/-- Getter `token->getDuration()`; `-1` for a token that does not exist. -/
def tokenDuration (f : HumdrumFile) (token : Nat) : Rat :=
  match f.tokens[token]? with
  | some t => t.duration
  | none => -1

/-- Sequencing of the idiom `if (!step()) { return isValid(); }`: when the
step reports `false` the caller returns the validity flag of the file at that
point, otherwise it goes on with the file the step left. -/
def checked (r : Option (Bool × HumdrumFile))
    (k : HumdrumFile → Option (Bool × HumdrumFile)) : Option (Bool × HumdrumFile) :=
  match r with
  | none => none
  | some (false, g) => some (g.isValid, g)
  | some (true, g) => k g

/-- Embedding of `HumdrumFileStructure::analyzeTokenDurations`.  The loop body
`HumdrumLine::analyzeTokenDurations` is declared outside the analysed sources;
it recomputes the duration of every token of the line from the token text,
given here as the table `textDuration`.  The function returns `isValid()` on
both of its exits. -/
def analyzeTokenDurations (f : HumdrumFile) (textDuration : Nat → Rat) :
    Bool × HumdrumFile :=
  (f.isValid, { f with tokens := withDurationsFrom f.tokens 0 textDuration })

/-- Embedding of `HumdrumFileStructure::analyzeStructureNoRhythm`.  The call of
`analyzeSignifiers` writes only the signifier table, which is not embedded. -/
def analyzeStructureNoRhythm (f : HumdrumFile) (textDuration : Nat → Rat) :
    Option (Bool × HumdrumFile) :=
  let f1 : HumdrumFile := { f with structureAnalyzed := true }
  checked (if !f1.strandsAnalyzed then f1.analyzeStrands else some (true, f1)) fun g =>
  checked g.analyzeGlobalParameters fun g1 =>
  checked g1.analyzeLocalParameters fun g2 =>
  checked (some (g2.analyzeTokenDurations textDuration)) fun g3 =>
  some (g3.isValid, g3)

/-- Embedding of `HumdrumFileStructure::analyzeRhythmStructure`; `nonNull` is
the value returned by `analyzeNonNullDataTokens`. -/
def analyzeRhythmStructure (f : HumdrumFile) (textDuration : Nat → Rat) (nonNull : Bool) :
    Option (Bool × HumdrumFile) :=
  let f1 : HumdrumFile := ({ f with rhythmAnalyzed := true } : HumdrumFile).setLineRhythmAnalyzed
  checked (if !f1.structureAnalyzed then f1.analyzeStructureNoRhythm textDuration
      else some (true, f1)) fun g =>
    let general : Option (Bool × HumdrumFile) :=
      checked (g.analyzeRhythm nonNull) fun h =>
      checked h.analyzeDurationsOfNonRhythmicSpines fun h1 =>
      some (h1.isValid, h1)
    match g.getSpineStart 0 with
    | none => general
    | some firstspine =>
      match g.tokens[firstspine]? with
      | none => none
      | some t =>
        if t.isRecip then
          (g.assignRhythmFromRecip firstspine nonNull).map (fun r => (r.2.isValid, r.2))
        else general

/-- Embedding of `HumdrumFileStructure::analyzeStructure`.  The call of
`analyzeSignifiers` writes only the signifier table, which is not embedded. -/
def analyzeStructure (f : HumdrumFile) (textDuration : Nat → Rat) (nonNull : Bool) :
    Option (Bool × HumdrumFile) :=
  let f1 : HumdrumFile := { f with structureAnalyzed := false }
  checked (if !f1.strandsAnalyzed then f1.analyzeStrands else some (true, f1)) fun g =>
  checked g.analyzeGlobalParameters fun g1 =>
  checked g1.analyzeLocalParameters fun g2 =>
  checked (some (g2.analyzeTokenDurations textDuration)) fun g3 =>
  checked (some (g3.analyzeTokenDurations textDuration)) fun g4 =>
  checked (({ g4 with structureAnalyzed := true } : HumdrumFile).analyzeRhythmStructure
      textDuration nonNull) fun h =>
  some (h.isValid, h)

/-- The line with the fields written by the analysis passes (start time,
durations, distances to the barlines, the two "analysed" marks) blanked: what
is left is fixed by the text of the file. -/
def lineStatic (l : HumdrumLine) : HumdrumLine :=
  { l with durationFromStart := 0, duration := 0, durationFromBarline := 0,
           durationToBarline := 0, rhythmAnalyzed := false, globalParametersStored := false }

/-- The token with its duration blanked. -/
def tokenStatic (t : HumdrumToken) : HumdrumToken := { t with duration := 0 }

/-- Barline list registered by the first loop of `analyzeMeter` on the lines:
line `0` for a pickup measure, then the barline lines in file order. -/
def registeredBarlines (ls : List HumdrumLine) : List Nat :=
  (if hasPickup ls then [0] else []) ++ barlinesFrom ls 0

/-- Whether every track end and every strand end is a token of the file. -/
def validEnds (f : HumdrumFile) : Bool :=
  (f.trackends.flatten.all fun e => decide (e < f.tokens.length)) &&
  f.strand1d.all fun p =>
    match p.last with
    | some b => decide (b < f.tokens.length)
    | none => true

/-- Whether the start token of every rhythmic track lies on a line whose
`durationFromStart` is resolved (not negative). -/
def startsResolved (f : HumdrumFile) : Bool :=
  f.trackstarts.all fun s =>
    match f.tokens[s]? with
    | some t => !t.hasRhythm || decide (0 ≤ f.durationFromStart t.lineIndex)
    | none => true

/-- Part of the file that is fixed by its text and by the strand analysis: the
static views of lines and tokens, the track starts and ends, the strand lists
and the mark of the strand analysis. -/
def skeleton (f : HumdrumFile) :
    List HumdrumLine × List HumdrumToken × List Nat × List (List Nat) ×
      List TokenPair × List (List TokenPair) × Bool :=
  (f.lines.map lineStatic, f.tokens.map tokenStatic, f.trackstarts, f.trackends,
    f.strand1d, f.strand2d, f.strandsAnalyzed)

end HumdrumFile

/-! ## Example files -/

/-- Two `**kern` spines that end on different lines:
```
line 0:  **kern  **kern      tokens 0 1
line 1:  4c      1c          tokens 2 3
line 2:  .       1d          tokens 4 5
line 3:  *       *-          tokens 6 7
line 4:  4e                  token  8
line 5:  *-                  token  9
```
Durations are in quarter notes (`4c` is `1`, `1c` is `4`). -/
def twoEndings : HumdrumFile :=
  { lines := [
      { tokens := [0, 1] },
      { tokens := [2, 3], isData := true },
      { tokens := [4, 5], isData := true },
      { tokens := [6, 7] },
      { tokens := [8], isData := true },
      { tokens := [9] } ],
    tokens := [
      { lineIndex := 0, nextTokens := [2] },
      { lineIndex := 0, nextTokens := [3] },
      { lineIndex := 1, nextTokens := [4], duration := 1, isData := true },
      { lineIndex := 1, nextTokens := [5], duration := 4, isData := true },
      { lineIndex := 2, nextTokens := [6], isData := true, isNull := true },
      { lineIndex := 2, nextTokens := [7], duration := 4, isData := true },
      { lineIndex := 3, nextTokens := [8], isNull := true },
      { lineIndex := 3, isTerminateInterpretation := true },
      { lineIndex := 4, nextTokens := [9], duration := 1, isData := true },
      { lineIndex := 5, isTerminateInterpretation := true } ],
    trackstarts := [0, 1] }

/-- Lines of a file after the track passes, with comment lines that are still
unresolved around two resolved data lines:
```
line 0:  !! comment          unresolved
line 1:  4c                  durationFromStart 0
line 2:  !                   unresolved
line 3:  2d                  durationFromStart 2
line 4:  !! comment          unresolved
```
-/
def commentGaps : HumdrumFile :=
  { lines := [
      { hasSpines := false },
      { durationFromStart := 0, isData := true },
      { },
      { durationFromStart := 2, isData := true },
      { hasSpines := false } ] }

/-- Three data lines of one spine, the middle one a null line, after the track
passes have resolved the outer two:
```
line 0:  4c      durationFromStart 0
line 1:  .       unresolved, all-rhythmically-null
line 2:  4d      durationFromStart 2
```
-/
def midpointLines : HumdrumFile :=
  { lines := [
      { durationFromStart := 0, isData := true },
      { isData := true, isAllRhythmicNull := true },
      { durationFromStart := 2, isData := true } ] }

/-- The lines of `midpointLines` preceded by a data line that is not
all-rhythmically-null and is still unresolved:
```
line 0:  4a      unresolved
line 1:  4c      durationFromStart 0
line 2:  .       unresolved, all-rhythmically-null
line 3:  4d      durationFromStart 2
```
-/
def unresolvedFirst : HumdrumFile :=
  { lines := [
      { isData := true },
      { durationFromStart := 0, isData := true },
      { isData := true, isAllRhythmicNull := true },
      { durationFromStart := 2, isData := true } ] }

/-- One `**kern` spine that splits into two subtracks holding the durations
`1, 1` and `2`, merges again and ends:
```
line 0:  **kern              token  0
line 1:  *^                  token  1
line 2:  4c      2e          tokens 2 3
line 3:  4d      .           tokens 4 5
line 4:  *v      *v          tokens 6 7
line 5:  *-                  token  8
```
-/
def splitSpine : HumdrumFile :=
  { lines := [
      { tokens := [0] },
      { tokens := [1] },
      { tokens := [2, 3], isData := true },
      { tokens := [4, 5], isData := true },
      { tokens := [6, 7] },
      { tokens := [8] } ],
    tokens := [
      { lineIndex := 0, nextTokens := [1] },
      { lineIndex := 1, nextTokens := [2, 3] },
      { lineIndex := 2, nextTokens := [4], duration := 1, isData := true },
      { lineIndex := 2, nextTokens := [5], duration := 2, isData := true },
      { lineIndex := 3, nextTokens := [6], duration := 1, isData := true },
      { lineIndex := 3, nextTokens := [7], isData := true, isNull := true },
      { lineIndex := 4, nextTokens := [8] },
      { lineIndex := 4, nextTokens := [8] },
      { lineIndex := 5, isTerminateInterpretation := true } ],
    trackstarts := [0] }

/-- A `**recip` spine with the codes `4, 4, 4, 4` and its terminator, before
any rhythm analysis (recip values are in quarter notes):
```
line 0:  **recip     token 0
line 1:  4           token 1
line 2:  4           token 2
line 3:  4           token 3
line 4:  4           token 4
line 5:  *-          token 5
```
-/
def recipQuarters : HumdrumFile :=
  { lines := [
      { tokens := [0] },
      { tokens := [1], isData := true },
      { tokens := [2], isData := true },
      { tokens := [3], isData := true },
      { tokens := [4], isData := true },
      { tokens := [5] } ],
    tokens := [
      { lineIndex := 0, nextTokens := [1], isRecip := true },
      { lineIndex := 1, nextTokens := [2], isRecip := true, isData := true,
        duration := 1, recip := 1 },
      { lineIndex := 2, nextTokens := [3], isRecip := true, isData := true,
        duration := 1, recip := 1 },
      { lineIndex := 3, nextTokens := [4], isRecip := true, isData := true,
        duration := 1, recip := 1 },
      { lineIndex := 4, nextTokens := [5], isRecip := true, isData := true,
        duration := 1, recip := 1 },
      { lineIndex := 5, isRecip := true, isTerminateInterpretation := true } ],
    trackstarts := [0] }

/-- A `**recip` spine that splits; on line 2 the primary subspine holds a null
token and the secondary subspine the code `4`:
```
line 0:  **recip             token  0
line 1:  *^                  token  1
line 2:  .       4           tokens 2 3
line 3:  *v      *v          tokens 4 5
line 4:  *-                  token  6
```
-/
def recipSplit : HumdrumFile :=
  { lines := [
      { tokens := [0] },
      { tokens := [1] },
      { tokens := [2, 3], isData := true },
      { tokens := [4, 5] },
      { tokens := [6] } ],
    tokens := [
      { lineIndex := 0, nextTokens := [1], isRecip := true },
      { lineIndex := 1, nextTokens := [2, 3], isRecip := true },
      { lineIndex := 2, nextTokens := [4], isRecip := true, isData := true,
        isNull := true },
      { lineIndex := 2, nextTokens := [5], isRecip := true, isData := true,
        duration := 1, recip := 1 },
      { lineIndex := 3, nextTokens := [6], isRecip := true },
      { lineIndex := 3, nextTokens := [6], isRecip := true },
      { lineIndex := 4, isRecip := true, isTerminateInterpretation := true } ],
    trackstarts := [0] }

/-- A second `**kern` spine added by `*+` before the first note; the new spine
(track 2, start token 3) starts on line 2, after the first track start:
```
line 0:  **kern              token  0
line 1:  *+                  token  1
line 2:  *       **kern      tokens 2 3
line 3:  4c      4c          tokens 4 5
line 4:  *-      *-          tokens 6 7
```
-/
def addedSpine : HumdrumFile :=
  { lines := [
      { tokens := [0] },
      { tokens := [1] },
      { tokens := [2, 3] },
      { tokens := [4, 5], isData := true },
      { tokens := [6, 7] } ],
    tokens := [
      { lineIndex := 0, nextTokens := [1] },
      { lineIndex := 1, nextTokens := [2] },
      { lineIndex := 2, nextTokens := [4], isNull := true },
      { lineIndex := 2, nextTokens := [5] },
      { lineIndex := 3, nextTokens := [6], duration := 1, isData := true },
      { lineIndex := 3, nextTokens := [7], duration := 1, isData := true },
      { lineIndex := 4, isTerminateInterpretation := true },
      { lineIndex := 4, isTerminateInterpretation := true } ],
    trackstarts := [0, 3] }

/-- The spine added in `addedSpine`, entering one quarter note later, after the
first note of the first spine:
```
line 0:  **kern              token  0
line 1:  4a                  token  1
line 2:  *+                  token  2
line 3:  *       **kern      tokens 3 4
line 4:  4c      4c          tokens 5 6
line 5:  *-      *-          tokens 7 8
```
-/
def lateSpine : HumdrumFile :=
  { lines := [
      { tokens := [0] },
      { tokens := [1], isData := true },
      { tokens := [2] },
      { tokens := [3, 4] },
      { tokens := [5, 6], isData := true },
      { tokens := [7, 8] } ],
    tokens := [
      { lineIndex := 0, nextTokens := [1] },
      { lineIndex := 1, nextTokens := [2], duration := 1, isData := true },
      { lineIndex := 2, nextTokens := [3] },
      { lineIndex := 3, nextTokens := [5], isNull := true },
      { lineIndex := 3, nextTokens := [6] },
      { lineIndex := 4, nextTokens := [7], duration := 1, isData := true },
      { lineIndex := 4, nextTokens := [8], duration := 1, isData := true },
      { lineIndex := 5, isTerminateInterpretation := true },
      { lineIndex := 5, isTerminateInterpretation := true } ],
    trackstarts := [0, 4] }

/-- Two `**kern` spines with a grace note (`cq`, duration `0`) and a quarter
note on the same line:
```
line 0:  **kern  **kern      tokens 0 1
line 1:  cq      4c          tokens 2 3
line 2:  4d      .           tokens 4 5
line 3:  *-      *-          tokens 6 7
```
-/
def graceWithNote : HumdrumFile :=
  { lines := [
      { tokens := [0, 1] },
      { tokens := [2, 3], isData := true },
      { tokens := [4, 5], isData := true },
      { tokens := [6, 7] } ],
    tokens := [
      { lineIndex := 0, nextTokens := [2] },
      { lineIndex := 0, nextTokens := [3] },
      { lineIndex := 1, nextTokens := [4], duration := 0, isData := true, hasQ := true },
      { lineIndex := 1, nextTokens := [5], duration := 1, isData := true },
      { lineIndex := 2, nextTokens := [6], duration := 1, isData := true },
      { lineIndex := 2, nextTokens := [7], isData := true, isNull := true },
      { lineIndex := 3, isTerminateInterpretation := true },
      { lineIndex := 3, isTerminateInterpretation := true } ],
    trackstarts := [0, 1] }

/-- One `**kern` spine with two measures of a whole note each:
```
line 0:  **kern      token 0
line 1:  =1          token 1   barline
line 2:  1c          token 2
line 3:  =2          token 3   barline
line 4:  1d          token 4
line 5:  *-          token 5
```
-/
def twoMeasures : HumdrumFile :=
  { lines := [
      { tokens := [0] },
      { tokens := [1], isBarline := true },
      { tokens := [2], isData := true },
      { tokens := [3], isBarline := true },
      { tokens := [4], isData := true },
      { tokens := [5] } ],
    tokens := [
      { lineIndex := 0, nextTokens := [1] },
      { lineIndex := 1, nextTokens := [2] },
      { lineIndex := 2, nextTokens := [3], duration := 4, isData := true },
      { lineIndex := 3, nextTokens := [4] },
      { lineIndex := 4, nextTokens := [5], duration := 4, isData := true },
      { lineIndex := 5, isTerminateInterpretation := true } ],
    trackstarts := [0] }

/-- Analysed lines with the durations `1/2`, `1/3`, `3/2`, `0` and `1` (an
eighth note, a triplet eighth, a dotted quarter, an interpretation line and a
quarter note):
```
line 0:  8c      duration 1/2    durationFromStart 0
line 1:  12d     duration 1/3    durationFromStart 1/2
line 2:  4.e     duration 3/2    durationFromStart 5/6
line 3:  *       duration 0      durationFromStart 7/3
line 4:  4f      duration 1      durationFromStart 7/3
```
-/
def mixedDurations : HumdrumFile :=
  { lines := [
      { durationFromStart := 0, duration := 1/2, isData := true },
      { durationFromStart := 1/2, duration := 1/3, isData := true },
      { durationFromStart := 5/6, duration := 3/2, isData := true },
      { durationFromStart := 7/3, duration := 0 },
      { durationFromStart := 7/3, duration := 1, isData := true } ] }

/-- Analysed lines of one spine with two barlines, before `analyzeMeter`:
```
line 0:  **kern    duration 0
line 1:  =1        duration 0    barline
line 2:  4c        duration 1
line 3:  4d        duration 1
line 4:  =2        duration 0    barline
line 5:  2e        duration 2
line 6:  *-        duration 0
```
-/
def barredLines : HumdrumFile :=
  { lines := [
      { durationFromStart := 0, duration := 0 },
      { durationFromStart := 0, duration := 0, isBarline := true },
      { durationFromStart := 0, duration := 1, isData := true },
      { durationFromStart := 1, duration := 1, isData := true },
      { durationFromStart := 2, duration := 0, isBarline := true },
      { durationFromStart := 2, duration := 2, isData := true },
      { durationFromStart := 4, duration := 0 } ] }

/-- Analysed lines of one spine that starts with a pickup beat, before
`analyzeMeter`:
```
line 0:  **kern    duration 0
line 1:  4c        duration 1
line 2:  =1        duration 0    barline
line 3:  2d        duration 2
line 4:  =2        duration 0    barline
line 5:  *-        duration 0
```
-/
def pickupLines : HumdrumFile :=
  { lines := [
      { durationFromStart := 0, duration := 0 },
      { durationFromStart := 0, duration := 1, isData := true },
      { durationFromStart := 1, duration := 0, isBarline := true },
      { durationFromStart := 1, duration := 2, isData := true },
      { durationFromStart := 3, duration := 0, isBarline := true },
      { durationFromStart := 3, duration := 0 } ] }

/-- One `**kern` spine that splits, merges again and continues:
```
line 0:  **kern              token  0
line 1:  *^                  token  1
line 2:  4c      4e          tokens 2 3    subtracks 1 2
line 3:  *v      *v          tokens 4 5    subtracks 1 2
line 4:  4d                  token  6
line 5:  *-                  token  7
```
-/
def splitMerge : HumdrumFile :=
  { lines := [
      { tokens := [0] },
      { tokens := [1] },
      { tokens := [2, 3], isData := true },
      { tokens := [4, 5] },
      { tokens := [6], isData := true },
      { tokens := [7] } ],
    tokens := [
      { lineIndex := 0, nextTokens := [1] },
      { lineIndex := 1, nextTokens := [2, 3] },
      { lineIndex := 2, nextTokens := [4], duration := 1, isData := true, subtrack := 1 },
      { lineIndex := 2, nextTokens := [5], duration := 1, isData := true, subtrack := 2,
        previousFieldToken := some 2 },
      { lineIndex := 3, nextTokens := [6], subtrack := 1, isMerge := true },
      { lineIndex := 3, nextTokens := [6], subtrack := 2, isMerge := true,
        previousFieldToken := some 4 },
      { lineIndex := 4, nextTokens := [7], duration := 1, isData := true },
      { lineIndex := 5, isTerminateInterpretation := true } ],
    trackstarts := [0] }

/-- Two `**kern` spines, the first of which splits and merges again:
```
line 0:  **kern          **kern      tokens 0 1
line 1:  *^              *           tokens 2 3
line 2:  4c      4e      4g          tokens 4 5 6    subtracks 1 2 0
line 3:  *v      *v      *           tokens 7 8 9    subtracks 1 2 0
line 4:  *-              *-          tokens 10 11
```
-/
def twoSpinesSplit : HumdrumFile :=
  { lines := [
      { tokens := [0, 1] },
      { tokens := [2, 3] },
      { tokens := [4, 5, 6], isData := true },
      { tokens := [7, 8, 9] },
      { tokens := [10, 11] } ],
    tokens := [
      { lineIndex := 0, nextTokens := [2] },
      { lineIndex := 0, nextTokens := [3], previousFieldToken := some 0 },
      { lineIndex := 1, nextTokens := [4, 5] },
      { lineIndex := 1, nextTokens := [6], previousFieldToken := some 2 },
      { lineIndex := 2, nextTokens := [7], duration := 1, isData := true, subtrack := 1 },
      { lineIndex := 2, nextTokens := [8], duration := 1, isData := true, subtrack := 2,
        previousFieldToken := some 4 },
      { lineIndex := 2, nextTokens := [9], duration := 1, isData := true,
        previousFieldToken := some 5 },
      { lineIndex := 3, nextTokens := [10], subtrack := 1, isMerge := true },
      { lineIndex := 3, nextTokens := [10], subtrack := 2, isMerge := true,
        previousFieldToken := some 7 },
      { lineIndex := 3, nextTokens := [11], previousFieldToken := some 8 },
      { lineIndex := 4, isTerminateInterpretation := true },
      { lineIndex := 4, isTerminateInterpretation := true, previousFieldToken := some 10 } ],
    trackstarts := [0, 1] }

/-- One `**kern` spine that splits twice; the two right subspines merge first,
then the result merges with the left subspine:
```
line 0:  **kern                  token  0
line 1:  *^                      token  1
line 2:  *       *^              tokens 2 3       subtracks 1 2
line 3:  4c      4e      4g      tokens 4 5 6     subtracks 1 2 3
line 4:  *       *v      *v      tokens 7 8 9     subtracks 1 2 3
line 5:  *v      *v              tokens 10 11     subtracks 1 2
line 6:  *-                      token  12
```
Token `8` is a merge token whose left neighbour `7` is not merging. -/
def nestedSplit : HumdrumFile :=
  { lines := [
      { tokens := [0] },
      { tokens := [1] },
      { tokens := [2, 3] },
      { tokens := [4, 5, 6], isData := true },
      { tokens := [7, 8, 9] },
      { tokens := [10, 11] },
      { tokens := [12] } ],
    tokens := [
      { lineIndex := 0, nextTokens := [1] },
      { lineIndex := 1, nextTokens := [2, 3] },
      { lineIndex := 2, nextTokens := [4], subtrack := 1 },
      { lineIndex := 2, nextTokens := [5, 6], subtrack := 2, previousFieldToken := some 2 },
      { lineIndex := 3, nextTokens := [7], duration := 1, isData := true, subtrack := 1 },
      { lineIndex := 3, nextTokens := [8], duration := 1, isData := true, subtrack := 2,
        previousFieldToken := some 4 },
      { lineIndex := 3, nextTokens := [9], duration := 1, isData := true, subtrack := 3,
        previousFieldToken := some 5 },
      { lineIndex := 4, nextTokens := [10], subtrack := 1 },
      { lineIndex := 4, nextTokens := [11], subtrack := 2, isMerge := true,
        previousFieldToken := some 7 },
      { lineIndex := 4, nextTokens := [11], subtrack := 3, isMerge := true,
        previousFieldToken := some 8 },
      { lineIndex := 5, nextTokens := [12], subtrack := 1, isMerge := true },
      { lineIndex := 5, nextTokens := [12], subtrack := 2, isMerge := true,
        previousFieldToken := some 10 },
      { lineIndex := 6, isTerminateInterpretation := true } ],
    trackstarts := [0] }

/-- A `**text` spine, which has no rhythm, and a `**kern` spine added after it,
before any rhythm analysis:
```
line 0:  **text              token  0
line 1:  *+                  token  1
line 2:  *       **kern      tokens 2 3
line 3:  la      4c          tokens 4 5
line 4:  *-      *-          tokens 6 7
```
-/
def floatingKern : HumdrumFile :=
  { lines := [
      { tokens := [0] },
      { tokens := [1] },
      { tokens := [2, 3] },
      { tokens := [4, 5], isData := true },
      { tokens := [6, 7] } ],
    tokens := [
      { lineIndex := 0, nextTokens := [1], hasRhythm := false },
      { lineIndex := 1, nextTokens := [2], hasRhythm := false },
      { lineIndex := 2, nextTokens := [4], hasRhythm := false },
      { lineIndex := 2, nextTokens := [5], previousFieldToken := some 2 },
      { lineIndex := 3, nextTokens := [6], hasRhythm := false, isData := true },
      { lineIndex := 3, nextTokens := [7], duration := 1, isData := true,
        previousFieldToken := some 4 },
      { lineIndex := 4, isTerminateInterpretation := true, hasRhythm := false },
      { lineIndex := 4, isTerminateInterpretation := true, previousFieldToken := some 6 } ],
    trackstarts := [0, 3] }

/-- A `**dynam` spine that starts with null tokens, next to a `**kern` spine:
```
line 0:  **dynam     **kern      tokens 0 1
line 1:  .           4c          tokens 2 3
line 2:  .           4d          tokens 4 5
line 3:  f           4e          tokens 6 7
line 4:  *-          *-          tokens 8 9
```
-/
def dynamKern : HumdrumFile :=
  { lines := [
      { tokens := [0, 1] },
      { tokens := [2, 3], isData := true },
      { tokens := [4, 5], isData := true },
      { tokens := [6, 7], isData := true },
      { tokens := [8, 9] } ],
    tokens := [
      { lineIndex := 0, nextTokens := [2], hasRhythm := false },
      { lineIndex := 0, nextTokens := [3], previousFieldToken := some 0 },
      { lineIndex := 1, nextTokens := [4], hasRhythm := false, isData := true, isNull := true },
      { lineIndex := 1, nextTokens := [5], duration := 1, isData := true,
        previousFieldToken := some 2 },
      { lineIndex := 2, nextTokens := [6], hasRhythm := false, isData := true, isNull := true },
      { lineIndex := 2, nextTokens := [7], duration := 1, isData := true,
        previousFieldToken := some 4 },
      { lineIndex := 3, nextTokens := [8], hasRhythm := false, isData := true },
      { lineIndex := 3, nextTokens := [9], duration := 1, isData := true,
        previousFieldToken := some 6 },
      { lineIndex := 4, isTerminateInterpretation := true, hasRhythm := false },
      { lineIndex := 4, isTerminateInterpretation := true, previousFieldToken := some 8 } ],
    trackstarts := [0, 1] }

/-- A `**kern` spine next to a `**dynam` spine that starts with a null token:
```
line 0:  **kern      **dynam     tokens 0 1
line 1:  4c          .           tokens 2 3
line 2:  4d          f           tokens 4 5
line 3:  4e          .           tokens 6 7
line 4:  *-          *-          tokens 8 9
```
-/
def kernDynam : HumdrumFile :=
  { lines := [
      { tokens := [0, 1] },
      { tokens := [2, 3], isData := true },
      { tokens := [4, 5], isData := true },
      { tokens := [6, 7], isData := true },
      { tokens := [8, 9] } ],
    tokens := [
      { lineIndex := 0, nextTokens := [2] },
      { lineIndex := 0, nextTokens := [3], hasRhythm := false, previousFieldToken := some 0 },
      { lineIndex := 1, nextTokens := [4], duration := 1, isData := true },
      { lineIndex := 1, nextTokens := [5], hasRhythm := false, isData := true, isNull := true,
        previousFieldToken := some 2 },
      { lineIndex := 2, nextTokens := [6], duration := 1, isData := true },
      { lineIndex := 2, nextTokens := [7], hasRhythm := false, isData := true,
        previousFieldToken := some 4 },
      { lineIndex := 3, nextTokens := [8], duration := 1, isData := true },
      { lineIndex := 3, nextTokens := [9], hasRhythm := false, isData := true, isNull := true,
        previousFieldToken := some 6 },
      { lineIndex := 4, isTerminateInterpretation := true },
      { lineIndex := 4, isTerminateInterpretation := true, hasRhythm := false,
        previousFieldToken := some 8 } ],
    trackstarts := [0, 1] }

/-- The file `kernDynam` with the strands that `analyzeStrands` records for it,
before the null tokens are resolved. -/
def kernDynamStrands : HumdrumFile :=
  { kernDynam with
    strandsAnalyzed := true,
    strand2d := [[{ first := some 0, last := some 8 }], [{ first := some 1, last := some 9 }]],
    strand1d := [{ first := some 0, last := some 8 }, { first := some 1, last := some 9 }] }

/-- The file `dynamKern` with the strands that `analyzeStrands` records for it,
before the null tokens are resolved. -/
def dynamKernStrands : HumdrumFile :=
  { dynamKern with
    strandsAnalyzed := true,
    strand2d := [[{ first := some 0, last := some 8 }], [{ first := some 1, last := some 9 }]],
    strand1d := [{ first := some 0, last := some 8 }, { first := some 1, last := some 9 }] }

/-- One `**kern` spine with global layout comments before a split, before a
merge and after the end of the data:
```
line 0:  **kern                  token  0
line 1:  !!LO:TX:a:t=dolce       token  1      global layout comment
line 2:  !!LO:TX:b:t=cresc.      token  2      global layout comment
line 3:  !! second section       token  3      global comment
line 4:  *^                      token  4      spine manipulator
line 5:  4c      4e              tokens 5 6
line 6:  !!LO:N:vis=x            token  7      global layout comment
line 7:  *v      *v              tokens 8 9    spine manipulator
line 8:  *-                      token  10     spine manipulator
line 9:  !!LO:TX:t=fine          token  11     global layout comment
```
-/
def layoutComments : HumdrumFile :=
  { lines := [
      { tokens := [0] },
      { tokens := [1], hasSpines := false, isCommentGlobal := true, hasGlobalLayout := true },
      { tokens := [2], hasSpines := false, isCommentGlobal := true, hasGlobalLayout := true },
      { tokens := [3], hasSpines := false, isCommentGlobal := true },
      { tokens := [4], isManipulator := true },
      { tokens := [5, 6], isData := true },
      { tokens := [7], hasSpines := false, isCommentGlobal := true, hasGlobalLayout := true },
      { tokens := [8, 9], isManipulator := true },
      { tokens := [10], isManipulator := true },
      { tokens := [11], hasSpines := false, isCommentGlobal := true, hasGlobalLayout := true } ],
    tokens := [
      { lineIndex := 0, nextTokens := [4], isInterpretation := true },
      { lineIndex := 1, hasRhythm := false },
      { lineIndex := 2, hasRhythm := false },
      { lineIndex := 3, hasRhythm := false },
      { lineIndex := 4, nextTokens := [5, 6], previousTokens := [0], isInterpretation := true },
      { lineIndex := 5, nextTokens := [8], previousTokens := [4], duration := 1,
        isData := true, subtrack := 1 },
      { lineIndex := 5, nextTokens := [9], previousTokens := [4], duration := 1,
        isData := true, subtrack := 2, previousFieldToken := some 5 },
      { lineIndex := 6, hasRhythm := false },
      { lineIndex := 7, nextTokens := [10], previousTokens := [5], subtrack := 1,
        isMerge := true, isInterpretation := true },
      { lineIndex := 7, nextTokens := [10], previousTokens := [6], subtrack := 2,
        isMerge := true, isInterpretation := true, previousFieldToken := some 8 },
      { lineIndex := 8, previousTokens := [8, 9], isTerminateInterpretation := true,
        isInterpretation := true },
      { lineIndex := 9, hasRhythm := false } ],
    trackstarts := [0] }

/-- One `**kern` spine with local layout comments; its single strand runs from
token `0` to token `8`:
```
line 0:  **kern              token 0
line 1:  !LO:N:vis=1         token 1      local layout comment
line 2:  ! fingering         token 2      local comment
line 3:  4c                  token 3
line 4:  !LO:B:a             token 4      local layout comment
line 5:  *                   token 5      null interpretation
line 6:  =2                  token 6      barline
line 7:  !LO:TX:t=end        token 7      local layout comment
line 8:  *-                  token 8
```
-/
def localComments : HumdrumFile :=
  { lines := [
      { tokens := [0] },
      { tokens := [1], isCommentLocal := true },
      { tokens := [2], isCommentLocal := true },
      { tokens := [3], isData := true },
      { tokens := [4], isCommentLocal := true },
      { tokens := [5], isAllNull := true },
      { tokens := [6], isBarline := true },
      { tokens := [7], isCommentLocal := true },
      { tokens := [8], isManipulator := true } ],
    tokens := [
      { lineIndex := 0, nextTokens := [1], isInterpretation := true },
      { lineIndex := 1, nextTokens := [2], previousTokens := [0], isCommentLocal := true,
        hasLocalLayout := true },
      { lineIndex := 2, nextTokens := [3], previousTokens := [1], isCommentLocal := true },
      { lineIndex := 3, nextTokens := [4], previousTokens := [2], duration := 1,
        isData := true },
      { lineIndex := 4, nextTokens := [5], previousTokens := [3], isCommentLocal := true,
        hasLocalLayout := true },
      { lineIndex := 5, nextTokens := [6], previousTokens := [4], isInterpretation := true,
        isNullInterpretation := true },
      { lineIndex := 6, nextTokens := [7], previousTokens := [5], isBarline := true },
      { lineIndex := 7, nextTokens := [8], previousTokens := [6], isCommentLocal := true,
        hasLocalLayout := true },
      { lineIndex := 8, previousTokens := [7], isTerminateInterpretation := true,
        isInterpretation := true } ],
    trackstarts := [0],
    strandsAnalyzed := true,
    strand2d := [[{ first := some 0, last := some 8 }]],
    strand1d := [{ first := some 0, last := some 8 }] }

/-- Example file with a rhythmic and a non-rhythmic spine, after the rhythm
analysis of the lines:
```
**kern  **text
4c      la
4d      .
=       =
2e      li
*-      *-
```
Tokens are numbered row by row. -/
def kernText : HumdrumFile :=
  { lines := [
      { tokens := [0, 1], durationFromStart := 0, duration := 0 },
      { tokens := [2, 3], durationFromStart := 0, duration := 1, isData := true },
      { tokens := [4, 5], durationFromStart := 1, duration := 1, isData := true },
      { tokens := [6, 7], durationFromStart := 2, duration := 0, isBarline := true },
      { tokens := [8, 9], durationFromStart := 2, duration := 2, isData := true },
      { tokens := [10, 11], durationFromStart := 4, duration := 0, isManipulator := true } ],
    tokens := [
      { lineIndex := 0, nextTokens := [2], isInterpretation := true, spineInfo := "1" },
      { lineIndex := 0, nextTokens := [3], isInterpretation := true, hasRhythm := false,
        spineInfo := "2" },
      { lineIndex := 1, nextTokens := [4], previousTokens := [0], duration := 1,
        isData := true, spineInfo := "1" },
      { lineIndex := 1, nextTokens := [5], previousTokens := [1], isData := true,
        hasRhythm := false, spineInfo := "2" },
      { lineIndex := 2, nextTokens := [6], previousTokens := [2], duration := 1,
        isData := true, spineInfo := "1" },
      { lineIndex := 2, nextTokens := [7], previousTokens := [3], isData := true,
        isNull := true, hasRhythm := false, spineInfo := "2" },
      { lineIndex := 3, nextTokens := [8], previousTokens := [4], isBarline := true,
        spineInfo := "1" },
      { lineIndex := 3, nextTokens := [9], previousTokens := [5], isBarline := true,
        hasRhythm := false, spineInfo := "2" },
      { lineIndex := 4, nextTokens := [10], previousTokens := [6], duration := 2,
        isData := true, spineInfo := "1" },
      { lineIndex := 4, nextTokens := [11], previousTokens := [7], isData := true,
        hasRhythm := false, spineInfo := "2" },
      { lineIndex := 5, previousTokens := [8], isTerminateInterpretation := true,
        isInterpretation := true, spineInfo := "1" },
      { lineIndex := 5, previousTokens := [9], isTerminateInterpretation := true,
        isInterpretation := true, hasRhythm := false, spineInfo := "2" } ],
    trackstarts := [0, 1],
    trackends := [[10], [11]] }

/-- Example file before any analysis, with a null data line right after a
barline:
```
**kern
4c
=
.
4d
*-
```
Token `i` is the token of line `i`. -/
def nullAfterBarline : HumdrumFile :=
  { lines := [
      { tokens := [0] },
      { tokens := [1], isData := true },
      { tokens := [2], isBarline := true },
      { tokens := [3], isData := true, isAllRhythmicNull := true, isAllNull := true },
      { tokens := [4], isData := true },
      { tokens := [5], isManipulator := true } ],
    tokens := [
      { lineIndex := 0, nextTokens := [1], isInterpretation := true },
      { lineIndex := 1, nextTokens := [2], previousTokens := [0], duration := 1,
        isData := true },
      { lineIndex := 2, nextTokens := [3], previousTokens := [1], isBarline := true },
      { lineIndex := 3, nextTokens := [4], previousTokens := [2], isData := true,
        isNull := true },
      { lineIndex := 4, nextTokens := [5], previousTokens := [3], duration := 1,
        isData := true },
      { lineIndex := 5, previousTokens := [4], isTerminateInterpretation := true,
        isInterpretation := true } ],
    trackstarts := [0],
    trackends := [[5]] }

/-- Example file before any analysis, with a spine added in mid-file whose
first data line is a null line:
```
**kern
2a
*+
*       **kern
.       .
2b      2c
*-      *-
```
Tokens are numbered row by row. -/
def floatingNull : HumdrumFile :=
  { lines := [
      { tokens := [0] },
      { tokens := [1], isData := true },
      { tokens := [2], isManipulator := true },
      { tokens := [3, 4], isManipulator := true },
      { tokens := [5, 6], isData := true, isAllRhythmicNull := true, isAllNull := true },
      { tokens := [7, 8], isData := true },
      { tokens := [9, 10], isManipulator := true } ],
    tokens := [
      { lineIndex := 0, nextTokens := [1], isInterpretation := true },
      { lineIndex := 1, nextTokens := [2], previousTokens := [0], duration := 2,
        isData := true },
      { lineIndex := 2, nextTokens := [3], previousTokens := [1], isInterpretation := true },
      { lineIndex := 3, nextTokens := [5], previousTokens := [2], isInterpretation := true,
        isNull := true, isNullInterpretation := true },
      { lineIndex := 3, nextTokens := [6], isInterpretation := true,
        previousFieldToken := some 3 },
      { lineIndex := 4, nextTokens := [7], previousTokens := [3], isData := true,
        isNull := true },
      { lineIndex := 4, nextTokens := [8], previousTokens := [4], isData := true,
        isNull := true, previousFieldToken := some 5 },
      { lineIndex := 5, nextTokens := [9], previousTokens := [5], duration := 2,
        isData := true },
      { lineIndex := 5, nextTokens := [10], previousTokens := [6], duration := 2,
        isData := true, previousFieldToken := some 7 },
      { lineIndex := 6, previousTokens := [7], isTerminateInterpretation := true,
        isInterpretation := true },
      { lineIndex := 6, previousTokens := [8], isTerminateInterpretation := true,
        isInterpretation := true, previousFieldToken := some 9 } ],
    trackstarts := [0, 4],
    trackends := [[9], [10]] }

/-- The file `nullAfterBarline` as the first call of `analyzeStructure` leaves
it (the file itself should the call not return). -/
def nullAfterBarlineAnalysed : HumdrumFile :=
  ((nullAfterBarline.analyzeStructure nullAfterBarline.tokenDuration true).map
    Prod.snd).getD nullAfterBarline

/-! ## Theorems -/

open HumdrumFile

theorem assignLineDurationsLoop_getElem? (ls : List HumdrumLine) :
    ∀ (i : Nat) (l : HumdrumLine), ls[i]? = some l →
      (assignLineDurationsLoop ls)[i]? = some { l with duration :=
        match ls[i + 1]? with
        | some m => m.durationFromStart - l.durationFromStart
        | none => 0 } := by
  induction ls using assignLineDurationsLoop.induct with
  | case1 => intro i l h; simp at h
  | case2 l0 =>
    intro i l h
    cases i with
    | zero => simp at h; subst h; simp [assignLineDurationsLoop]
    | succ i => simp at h
  | case3 l0 m rest ih =>
    intro i l h
    cases i with
    | zero => simp at h; subst h; simp [assignLineDurationsLoop]
    | succ i =>
      simp only [List.getElem?_cons_succ] at h
      simpa [assignLineDurationsLoop] using ih i l h

theorem assignLineDurationsLoop_length (ls : List HumdrumLine) :
    (assignLineDurationsLoop ls).length = ls.length := by
  induction ls using assignLineDurationsLoop.induct with
  | case1 => rfl
  | case2 l0 => rfl
  | case3 l0 m rest ih => simp [assignLineDurationsLoop, ih]



/-- C2: after `assignLineDurations` the line count and every `durationFromStart`
are unchanged, every line but the last has as duration the difference between
the next line's `durationFromStart` and its own, the last line has duration `0`,
and a file without lines is left as it was. -/
theorem assignLineDurations_spec (f : HumdrumFile) :
    f.assignLineDurations.lines.length = f.lines.length ∧
    (∀ i, f.assignLineDurations.durationFromStart i = f.durationFromStart i) ∧
    (∀ i, i + 1 < f.lines.length →
      f.assignLineDurations.duration i =
        f.durationFromStart (i + 1) - f.durationFromStart i) ∧
    (∀ i, i + 1 = f.lines.length → f.assignLineDurations.duration i = 0) ∧
    (f.lines = [] → f.assignLineDurations = f) := by
  refine ⟨assignLineDurationsLoop_length f.lines, ?_, ?_, ?_, ?_⟩
  · intro i
    unfold HumdrumFile.durationFromStart assignLineDurations
    cases h : f.lines[i]? with
    | none =>
      have : (assignLineDurationsLoop f.lines)[i]? = none := by
        rw [List.getElem?_eq_none_iff] at h ⊢
        rw [assignLineDurationsLoop_length]; exact h
      simp [this]
    | some l => simp [assignLineDurationsLoop_getElem? f.lines i l h]
  · intro i hi
    have h0 : i < f.lines.length := by omega
    have e0 : f.lines[i]? = some f.lines[i] := List.getElem?_eq_getElem h0
    have e1 : f.lines[i + 1]? = some f.lines[i + 1] := List.getElem?_eq_getElem hi
    unfold HumdrumFile.duration HumdrumFile.durationFromStart assignLineDurations
    simp [assignLineDurationsLoop_getElem? f.lines i _ e0, e0, e1]
  · intro i hi
    have h0 : i < f.lines.length := by omega
    have e0 : f.lines[i]? = some f.lines[i] := List.getElem?_eq_getElem h0
    have e1 : f.lines[i + 1]? = none := by
      rw [List.getElem?_eq_none_iff]; omega
    unfold HumdrumFile.duration assignLineDurations
    simp [assignLineDurationsLoop_getElem? f.lines i _ e0, e1]
  · intro h
    unfold assignLineDurations
    rw [h]; simp [assignLineDurationsLoop]
    cases f; simp_all

theorem lt_length_of_getElem? {α : Type} (l : List α) (i : Nat) (a : α)
    (h : l[i]? = some a) : i < l.length := by
  by_contra hc
  rw [List.getElem?_eq_none_iff.mpr (by omega)] at h
  cases h

theorem list_set_eq_self {α : Type} (l : List α) (i : Nat) (a : α)
    (h : l[i]? = some a) : l.set i a = l := by
  have hi := lt_length_of_getElem? l i a h
  apply List.ext_getElem?
  intro j
  rw [List.getElem?_set]
  split
  · next hij => subst hij; simp [hi, h]
  · rfl

theorem setDurationFromStart_self (f : HumdrumFile) (i : Nat) (l : HumdrumLine)
    (h : f.lines[i]? = some l) :
    f.setDurationFromStart i l.durationFromStart = f := by
  unfold setDurationFromStart
  rw [h]
  have hi : i < f.lines.length := by
    by_contra hc
    rw [List.getElem?_eq_none_iff.mpr (by omega)] at h
    cases h
  have e : f.lines.set i { l with durationFromStart := l.durationFromStart } = f.lines :=
    list_set_eq_self f.lines i _ h
  simp only [e]

theorem durationFromStart_setDurationFromStart (f : HumdrumFile) (i j : Nat) (d : Rat) :
    (f.setDurationFromStart i d).durationFromStart j =
      if i = j ∧ j < f.lines.length then d else f.durationFromStart j := by
  unfold setDurationFromStart
  cases h : f.lines[i]? with
  | none =>
    have hi : f.lines.length ≤ i := List.getElem?_eq_none_iff.mp h
    have : ¬ (i = j ∧ j < f.lines.length) := by omega
    simp [this]
  | some l =>
    have hi : i < f.lines.length := by
      by_contra hc
      rw [List.getElem?_eq_none_iff.mpr (by omega)] at h
      cases h
    unfold HumdrumFile.durationFromStart
    by_cases hij : i = j
    · subst hij
      simp [hi]
    · have : ¬ (i = j ∧ j < f.lines.length) := by omega
      simp [this, List.getElem?_set_ne hij]

/-- C4: `setLineDurationFromStart(token, d)` on a token of the file.  For a
non-terminator token of negative duration the call changes nothing.  For a
terminator or a token of non-negative duration the call returns, and it records
a diagnostic exactly when the line of the token already has a non-negative
`durationFromStart` different from `d`; then the validity flag (which is the
returned value) is false and the lines are untouched.  When the line was
negative it becomes `d` and nothing is reported, and when it already equals `d`
the file is left as it was. -/
theorem setLineDurationFromStart_spec (f : HumdrumFile) (token : Nat) (d : Rat)
    (t : HumdrumToken) (line : HumdrumLine)
    (ht : f.tokens[token]? = some t) (hl : f.lines[t.lineIndex]? = some line) :
    ((t.isTerminateInterpretation = false ∧ t.duration < 0) →
      f.setLineDurationFromStart token d = some f) ∧
    ((t.isTerminateInterpretation = true ∨ 0 ≤ t.duration) →
      ∃ g, f.setLineDurationFromStart token d = some g ∧
        (g.diagnostics ≠ f.diagnostics ↔
          (0 ≤ line.durationFromStart ∧ line.durationFromStart ≠ d)) ∧
        ((0 ≤ line.durationFromStart ∧ line.durationFromStart ≠ d) →
          g.isValid = false ∧ g.lines = f.lines ∧
          g.diagnostics = f.diagnostics ++
            [ParseError.inconsistentRhythm token d line.durationFromStart]) ∧
        (line.durationFromStart < 0 →
          g = f.setDurationFromStart t.lineIndex d ∧
          g.durationFromStart t.lineIndex = d ∧
          g.isValid = f.isValid ∧ g.diagnostics = f.diagnostics) ∧
        (line.durationFromStart = d → g = f)) := by
  have hi : t.lineIndex < f.lines.length := by
    by_contra hc
    rw [List.getElem?_eq_none_iff.mpr (by omega)] at hl
    cases hl
  constructor
  · rintro ⟨h1, h2⟩
    simp [setLineDurationFromStart, ht, h1, h2]
  · intro h
    have hc : (!t.isTerminateInterpretation && decide (t.duration < 0)) = false := by
      rcases h with h | h
      · simp [h]
      · simp [not_lt.mpr h]
    by_cases hneg : line.durationFromStart < 0
    · refine ⟨f.setDurationFromStart t.lineIndex d, ?_, ?_, ?_, ?_, ?_⟩
      · simp [setLineDurationFromStart, ht, hl, hc, hneg]
      · have : (f.setDurationFromStart t.lineIndex d).diagnostics = f.diagnostics := by
          simp [setDurationFromStart, hl]
        simp [this, not_le.mpr hneg]
      · intro h'; exact absurd h'.1 (not_le.mpr hneg)
      · intro _
        refine ⟨rfl, ?_, ?_, ?_⟩
        · rw [durationFromStart_setDurationFromStart]; simp [hi]
        · simp [setDurationFromStart, hl, isValid]
        · simp [setDurationFromStart, hl]
      · intro he
        rw [← he]; exact setDurationFromStart_self f _ line hl
    · by_cases hne : line.durationFromStart = d
      · refine ⟨f, ?_, ?_, ?_, ?_, ?_⟩
        · simp [setLineDurationFromStart, ht, hl, hc, hneg]
          intro h'; exact absurd hne h'
        · simp [hne]
        · intro h'; exact absurd hne h'.2
        · intro h'; exact absurd h' hneg
        · intro _; rfl
      · refine ⟨f.setParseError (.inconsistentRhythm token d line.durationFromStart),
          ?_, ?_, ?_, ?_, ?_⟩
        · simp [setLineDurationFromStart, ht, hl, hc, hneg, hne]
        · simp [setParseError, hne, not_lt.mp hneg]
        · intro _; simp [setParseError, isValid]
        · intro h'; exact absurd h' hneg
        · intro h'; exact absurd h' hne

/-- Witness of C4 on `twoEndings`: token 2 (`4c`, line 1) with `d = 5` on the
unresolved line 1 sets the line to `5` and reports nothing. -/
theorem setLineDurationFromStart_spec_witness :
    twoEndings.tokens[2]? = some { lineIndex := 1, nextTokens := [4], duration := 1, isData := true } ∧
    twoEndings.lines[1]? = some { tokens := [2, 3], isData := true } ∧
    ∃ g, twoEndings.setLineDurationFromStart 2 5 = some g ∧
      g.durationFromStart 1 = 5 ∧ g.diagnostics = [] :=
  ⟨rfl, rfl,
    match (setLineDurationFromStart_spec twoEndings 2 5 _ _ rfl rfl).2 (Or.inr (by decide!)) with
    | ⟨g, hg, _, _, h3, _⟩ => ⟨g, hg, (h3 (by decide!)).2.1, (h3 (by decide!)).2.2.2⟩⟩

theorem durationFromStart_eq_dfsAt (f : HumdrumFile) (i : Nat) :
    f.durationFromStart i = dfsAt f.lines i := rfl

@[simp] theorem dfsAt_cons_zero (l : HumdrumLine) (ls : List HumdrumLine) :
    dfsAt (l :: ls) 0 = l.durationFromStart := by
  simp [dfsAt]

@[simp] theorem dfsAt_cons_succ (l : HumdrumLine) (ls : List HumdrumLine) (i : Nat) :
    dfsAt (l :: ls) (i + 1) = dfsAt ls i := by
  simp [dfsAt]

theorem fillBackward_length (ls : List HumdrumLine) :
    (fillBackward ls).1.length = ls.length := by
  induction ls with
  | nil => rfl
  | cons l rest ih => simp [fillBackward, ih]

theorem fillBackward_snd_neg (ls : List HumdrumLine)
    (h : ∀ i, i < ls.length → dfsAt ls i < 0) : (fillBackward ls).2 = -1 := by
  induction ls with
  | nil => rfl
  | cons l rest ih =>
    have h0 : l.durationFromStart < 0 := by simpa using h 0 (by simp)
    have hr : ∀ i, i < rest.length → dfsAt rest i < 0 := fun i hi => by
      have := h (i + 1) (by simp; omega)
      simpa using this
    simp [fillBackward, not_le.mpr h0, ih hr]

theorem fillBackward_snd_pos (ls : List HumdrumLine) :
    ∀ j, j < ls.length → 0 ≤ dfsAt ls j → (∀ k, k < j → dfsAt ls k < 0) →
      (fillBackward ls).2 = dfsAt ls j := by
  induction ls with
  | nil => intro j hj; simp at hj
  | cons l rest ih =>
    intro j hj hpos hbefore
    cases j with
    | zero =>
      have h0 : 0 ≤ l.durationFromStart := by simpa using hpos
      simp [fillBackward, h0]
    | succ j =>
      have h0 : l.durationFromStart < 0 := by simpa using hbefore 0 (by omega)
      have := ih j (by simpa using hj) (by simpa using hpos)
        (fun k hk => by simpa using hbefore (k + 1) (by omega))
      simp [fillBackward, not_le.mpr h0, this]

theorem fillBackward_keep (ls : List HumdrumLine) :
    ∀ i, 0 ≤ dfsAt ls i → dfsAt (fillBackward ls).1 i = dfsAt ls i := by
  induction ls with
  | nil => intro i _; rfl
  | cons l rest ih =>
    intro i hi
    cases i with
    | zero =>
      have h0 : 0 ≤ l.durationFromStart := by simpa using hi
      simp [fillBackward, not_lt.mpr h0]
    | succ i =>
      simpa [fillBackward] using ih i (by simpa using hi)

theorem fillBackward_fill (ls : List HumdrumLine) :
    ∀ i j, i < j → j < ls.length → dfsAt ls i < 0 → 0 ≤ dfsAt ls j →
      (∀ k, i < k → k < j → dfsAt ls k < 0) →
      dfsAt (fillBackward ls).1 i = dfsAt ls j := by
  induction ls with
  | nil => intro i j _ hj; simp at hj
  | cons l rest ih =>
    intro i j hij hj hneg hpos hbetween
    obtain ⟨j, rfl⟩ : ∃ j0, j = j0 + 1 := ⟨j - 1, by omega⟩
    cases i with
    | zero =>
      have h0 : l.durationFromStart < 0 := by simpa using hneg
      have hs := fillBackward_snd_pos rest j (by simpa using hj) (by simpa using hpos)
        (fun k hk => by simpa using hbetween (k + 1) (by omega) (by omega))
      have hp : 0 ≤ dfsAt rest j := by simpa using hpos
      simp [fillBackward, h0, hs, hp]
    | succ i =>
      have := ih i j (by omega) (by simpa using hj) (by simpa using hneg)
        (by simpa using hpos)
        (fun k hk1 hk2 => by simpa using hbetween (k + 1) (by omega) (by omega))
      simpa [fillBackward] using this

theorem fillBackward_tail (ls : List HumdrumLine) :
    ∀ i, (∀ k, i ≤ k → k < ls.length → dfsAt ls k < 0) →
      dfsAt (fillBackward ls).1 i = dfsAt ls i := by
  induction ls with
  | nil => intro i _; rfl
  | cons l rest ih =>
    intro i h
    cases i with
    | zero =>
      have hs := fillBackward_snd_neg rest
        (fun k hk => by simpa using h (k + 1) (by omega) (by simp; omega))
      simp only [fillBackward, hs, dfsAt_cons_zero]
      rw [if_neg (by norm_num)]
    | succ i =>
      have := ih i (fun k hk1 hk2 => by
        simpa using h (k + 1) (by omega) (by simp; omega))
      simpa [fillBackward] using this

theorem fillForward_length (ls : List HumdrumLine) :
    ∀ d, (fillForward d ls).length = ls.length := by
  induction ls with
  | nil => intro d; rfl
  | cons l rest ih =>
    intro d
    by_cases h : 0 ≤ l.durationFromStart <;> simp [fillForward, h, ih]

theorem fillForward_keep (ls : List HumdrumLine) :
    ∀ d i, 0 ≤ dfsAt ls i → dfsAt (fillForward d ls) i = dfsAt ls i := by
  induction ls with
  | nil => intro d i _; rfl
  | cons l rest ih =>
    intro d i hi
    by_cases h : 0 ≤ l.durationFromStart
    · cases i with
      | zero => simp [fillForward, h]
      | succ i => simpa [fillForward, h] using ih _ i (by simpa using hi)
    · cases i with
      | zero => exact absurd (by simpa using hi) h
      | succ i => simpa [fillForward, h] using ih _ i (by simpa using hi)

theorem fillForward_none (ls : List HumdrumLine) :
    ∀ d i, i < ls.length → (∀ k, k ≤ i → dfsAt ls k < 0) →
      dfsAt (fillForward d ls) i = d := by
  induction ls with
  | nil => intro d i hi; simp at hi
  | cons l rest ih =>
    intro d i hi h
    have h0 : ¬ 0 ≤ l.durationFromStart := not_le.mpr (by simpa using h 0 (by omega))
    cases i with
    | zero => simp [fillForward, h0]
    | succ i =>
      have := ih d i (by simpa using hi) (fun k hk => by simpa using h (k + 1) (by omega))
      simpa [fillForward, h0] using this

theorem fillForward_prev (ls : List HumdrumLine) :
    ∀ d i j, j < i → i < ls.length → 0 ≤ dfsAt ls j →
      (∀ k, j < k → k ≤ i → dfsAt ls k < 0) →
      dfsAt (fillForward d ls) i = dfsAt ls j := by
  induction ls with
  | nil => intro d i j _ hi; simp at hi
  | cons l rest ih =>
    intro d i j hji hi hpos hbetween
    obtain ⟨i, rfl⟩ : ∃ i0, i = i0 + 1 := ⟨i - 1, by omega⟩
    cases j with
    | zero =>
      have h0 : 0 ≤ l.durationFromStart := by simpa using hpos
      have := fillForward_none rest l.durationFromStart i (by simpa using hi)
        (fun k hk => by simpa using hbetween (k + 1) (by omega) (by omega))
      simpa [fillForward, h0] using this
    | succ j =>
      have key : ∀ d0, dfsAt (fillForward d0 rest) i = dfsAt rest j := fun d0 =>
        ih d0 i j (by omega) (by simpa using hi) (by simpa using hpos)
          (fun k hk1 hk2 => by simpa using hbetween (k + 1) (by omega) (by omega))
      by_cases h : 0 ≤ l.durationFromStart <;> simp [fillForward, h, key]

theorem fillForward_nonneg (ls : List HumdrumLine) :
    ∀ d i, 0 ≤ d → i < ls.length → 0 ≤ dfsAt (fillForward d ls) i := by
  induction ls with
  | nil => intro d i _ hi; simp at hi
  | cons l rest ih =>
    intro d i hd hi
    by_cases h : 0 ≤ l.durationFromStart
    · cases i with
      | zero => simp [fillForward, h]
      | succ i => simpa [fillForward, h] using ih _ i h (by simpa using hi)
    · cases i with
      | zero => simpa [fillForward, h] using hd
      | succ i => simpa [fillForward, h] using ih _ i hd (by simpa using hi)

theorem fillBackward_snd_nonneg (ls : List HumdrumLine) :
    ∀ j, j < ls.length → 0 ≤ dfsAt ls j → 0 ≤ (fillBackward ls).2 := by
  induction ls with
  | nil => intro j hj; simp at hj
  | cons l rest ih =>
    intro j hj hpos
    by_cases h : 0 ≤ l.durationFromStart
    · simp [fillBackward, h]
    · cases j with
      | zero => exact absurd (by simpa using hpos) h
      | succ j =>
        simpa [fillBackward, h] using ih j (by simpa using hj) (by simpa using hpos)

/-- C7: `fillInNegativeStartTimes` keeps the line count and every line whose
`durationFromStart` was non-negative; a line that was negative takes the value
of the nearest later line that was non-negative, and when there is no later
such line the value of the nearest earlier one; and when some line was
non-negative no line is negative afterwards. -/
theorem fillInNegativeStartTimes_spec (f : HumdrumFile) :
    f.fillInNegativeStartTimes.lines.length = f.lines.length ∧
    (∀ i, 0 ≤ f.durationFromStart i →
      f.fillInNegativeStartTimes.durationFromStart i = f.durationFromStart i) ∧
    (∀ i j, i < j → j < f.lines.length → f.durationFromStart i < 0 →
      0 ≤ f.durationFromStart j →
      (∀ k, i < k → k < j → f.durationFromStart k < 0) →
      f.fillInNegativeStartTimes.durationFromStart i = f.durationFromStart j) ∧
    (∀ i j, j < i → i < f.lines.length → f.durationFromStart i < 0 →
      0 ≤ f.durationFromStart j →
      (∀ k, j < k → k < f.lines.length → f.durationFromStart k < 0) →
      f.fillInNegativeStartTimes.durationFromStart i = f.durationFromStart j) ∧
    ((∃ j, j < f.lines.length ∧ 0 ≤ f.durationFromStart j) →
      ∀ i, i < f.lines.length → 0 ≤ f.fillInNegativeStartTimes.durationFromStart i) := by
  simp only [durationFromStart_eq_dfsAt, fillInNegativeStartTimes]
  refine ⟨?_, ?_, ?_, ?_, ?_⟩
  · rw [fillForward_length, fillBackward_length]
  · intro i hi
    have h1 := fillBackward_keep f.lines i hi
    rw [fillForward_keep _ _ _ (by rw [h1]; exact hi), h1]
  · intro i j hij hj hneg hpos hbetween
    have h1 := fillBackward_fill f.lines i j hij hj hneg hpos hbetween
    rw [fillForward_keep _ _ _ (by rw [h1]; exact hpos), h1]
  · intro i j hji hi hneg hpos hafter
    have hj := fillBackward_keep f.lines j hpos
    have ht : ∀ k, j < k → k ≤ i → dfsAt (fillBackward f.lines).1 k < 0 := by
      intro k hk1 hk2
      rw [fillBackward_tail f.lines k (fun m hm1 hm2 => hafter m (by omega) hm2)]
      exact hafter k hk1 (by omega)
    rw [fillForward_prev _ _ i j hji (by rw [fillBackward_length]; exact hi)
      (by rw [hj]; exact hpos) ht, hj]
  · rintro ⟨j, hj, hpos⟩ i hi
    exact fillForward_nonneg _ _ i (fillBackward_snd_nonneg f.lines j hj hpos)
      (by rw [fillBackward_length]; exact hi)


/-- Witness of C7 on `commentGaps`: line 2 takes the value of line 3 (nearest later
resolved line), line 4 takes the value of line 3 (nearest earlier one), and no
line stays negative. -/
theorem fillInNegativeStartTimes_spec_witness :
    commentGaps.fillInNegativeStartTimes.durationFromStart 2 =
      commentGaps.durationFromStart 3 ∧
    commentGaps.fillInNegativeStartTimes.durationFromStart 4 =
      commentGaps.durationFromStart 3 ∧
    ∀ i, i < commentGaps.lines.length →
      0 ≤ commentGaps.fillInNegativeStartTimes.durationFromStart i :=
  ⟨(fillInNegativeStartTimes_spec commentGaps).2.2.1 2 3 (by decide) (by decide)
      (by decide!) (by decide!) (fun k h1 h2 => by omega),
    (fillInNegativeStartTimes_spec commentGaps).2.2.2.1 4 3 (by decide) (by decide)
      (by decide!) (by decide!)
      (fun k h1 h2 => by
        have h3 : k < 5 := h2
        have hk : k = 4 := by omega
        subst hk; decide!),
    (fillInNegativeStartTimes_spec commentGaps).2.2.2.2 ⟨1, by decide, by decide!⟩⟩

theorem setDurationFromStart_lines_ne (g : HumdrumFile) (i k : Nat) (d : Rat) (h : i ≠ k) :
    (g.setDurationFromStart i d).lines[k]? = g.lines[k]? := by
  unfold setDurationFromStart
  cases hi : g.lines[i]? with
  | none => rfl
  | some l => simp [List.getElem?_set_ne h]

theorem setDurationFromStart_length (g : HumdrumFile) (i : Nat) (d : Rat) :
    (g.setDurationFromStart i d).lines.length = g.lines.length := by
  unfold setDurationFromStart
  cases hi : g.lines[i]? with
  | none => rfl
  | some l => simp

theorem assignNullLines_length (nulls : List Nat) :
    ∀ (g : HumdrumFile) (sd nd : Rat) (j0 : Nat),
      (assignNullLines g sd nd nulls j0).lines.length = g.lines.length := by
  induction nulls with
  | nil => intro g sd nd j0; rfl
  | cons k rest ih =>
    intro g sd nd j0
    simp [assignNullLines, ih, setDurationFromStart_length]

theorem assignNullLines_lines_not_mem (nulls : List Nat) :
    ∀ (g : HumdrumFile) (sd nd : Rat) (j0 k : Nat), k ∉ nulls →
      (assignNullLines g sd nd nulls j0).lines[k]? = g.lines[k]? := by
  induction nulls with
  | nil => intro g sd nd j0 k _; rfl
  | cons m rest ih =>
    intro g sd nd j0 k hk
    have h1 : m ≠ k := fun h => hk (by simp [h])
    have h2 : k ∉ rest := fun h => hk (by simp [h])
    simp [assignNullLines, ih _ _ _ _ k h2, setDurationFromStart_lines_ne _ _ _ _ h1]

theorem assignNullLines_value (nulls : List Nat) :
    ∀ (g : HumdrumFile) (sd nd : Rat) (j0 : Nat), nulls.Nodup →
      (∀ k ∈ nulls, k < g.lines.length) →
      ∀ j k, nulls[j]? = some k →
        (assignNullLines g sd nd nulls j0).durationFromStart k =
          sd + nd * (((j0 + j : Nat) : Rat) + 1) := by
  induction nulls with
  | nil => intro g sd nd j0 _ _ j k h; simp at h
  | cons m rest ih =>
    intro g sd nd j0 hnd hlt j k h
    have hnd' := List.nodup_cons.mp hnd
    cases j with
    | zero =>
      simp at h; subst h
      unfold assignNullLines HumdrumFile.durationFromStart
      rw [assignNullLines_lines_not_mem rest _ _ _ _ m hnd'.1]
      have := durationFromStart_setDurationFromStart g m m (sd + nd * ((j0 : Rat) + 1))
      unfold HumdrumFile.durationFromStart at this
      rw [this]
      simp [hlt m (by simp)]
    | succ j =>
      simp only [List.getElem?_cons_succ] at h
      unfold assignNullLines
      rw [ih _ sd nd (j0 + 1) hnd'.2
        (fun x hx => by rw [setDurationFromStart_length]; exact hlt x (by simp [hx])) j k h]
      push_cast; ring

theorem nullLineStep_frame (s : NullScan) (i : Nat) :
    (∀ k, k ∉ s.nulllines → (nullLineStep s i).file.lines[k]? = s.file.lines[k]?) ∧
    (∀ k, k ∈ (nullLineStep s i).nulllines → k ∈ s.nulllines ∨ k = i) ∧
    (nullLineStep s i).file.lines.length = s.file.lines.length := by
  unfold nullLineStep
  by_cases hh : s.halted = true
  · simp [hh]
    try (exact fun k hk => Or.inl hk)
  · cases hl : s.file.lines[i]? with
    | none =>
      simp [hh]
      try (exact fun k hk => Or.inl hk)
    | some l =>
      by_cases h1 : l.hasSpines = true
      · by_cases h2 : l.isAllRhythmicNull = true
        · by_cases h3 : l.isData = true
          · simp [hh, h1, h2, h3]
            try (exact fun k hk => hk)
          · simp [hh, h1, h2, h3]
            try (exact fun k hk => Or.inl hk)
        · by_cases h4 : l.durationFromStart < 0
          · by_cases h3 : l.isData = true
            · simp [hh, h1, h2, h3, h4, setParseError]
              try (exact fun k hk => Or.inl hk)
            · simp [hh, h1, h2, h3, h4]
              try (exact fun k hk => Or.inl hk)
          · cases hp : s.previous with
            | none => simp [hh, h1, h2, h4]
            | some p =>
              simp only [hh, h1, h2, h4]
              refine ⟨?_, ?_, ?_⟩
              · intro k hk
                simpa using assignNullLines_lines_not_mem _ _ _ _ _ k hk
              · intro k hk; simp at hk
              · simpa using assignNullLines_length _ _ _ _ _
      · simp [hh, h1]
        try (exact fun k hk => Or.inl hk)


theorem nullScan_cons (s : NullScan) (i : Nat) (is : List Nat) :
    nullScan s (i :: is) = nullScan (nullLineStep s i) is := rfl

theorem nullScan_append (s : NullScan) (is js : List Nat) :
    nullScan s (is ++ js) = nullScan (nullScan s is) js := by
  simp [nullScan, List.foldl_append]

theorem nullLineStep_halted (s : NullScan) (i : Nat) (hh : s.halted = false)
    (hne : ∀ l, s.file.lines[i]? = some l →
      ¬ (l.hasSpines = true ∧ l.isAllRhythmicNull = false ∧
        l.durationFromStart < 0 ∧ l.isData = true)) :
    (nullLineStep s i).halted = false := by
  unfold nullLineStep
  cases hl : s.file.lines[i]? with
  | none => simp [hh]
  | some l =>
    have hne := hne l hl
    by_cases h1 : l.hasSpines = true
    · by_cases h2 : l.isAllRhythmicNull = true
      · by_cases h3 : l.isData = true <;> simp [hh, h1, h2, h3]
      · by_cases h4 : l.durationFromStart < 0
        · by_cases h3 : l.isData = true
          · exact absurd ⟨h1, by simpa using h2, h4, h3⟩ hne
          · simp [hh, h1, h2, h3, h4]
        · cases hp : s.previous <;> simp [hh, h1, h2, h4]
    · simp [hh, h1]

theorem nullScan_before (n : Nat) :
    ∀ (a : Nat) (s : NullScan), (∀ k, k ∈ s.nulllines → k < a) →
      (∀ k, k ∈ (nullScan s (List.range' a n)).nulllines → k < a + n) ∧
      (∀ k, a + n ≤ k →
        (nullScan s (List.range' a n)).file.lines[k]? = s.file.lines[k]?) ∧
      (nullScan s (List.range' a n)).file.lines.length = s.file.lines.length ∧
      (s.halted = false →
        (∀ k l, a ≤ k → k < a + n → s.file.lines[k]? = some l →
          ¬ (l.hasSpines = true ∧ l.isAllRhythmicNull = false ∧
            l.durationFromStart < 0 ∧ l.isData = true)) →
        (nullScan s (List.range' a n)).halted = false) := by
  induction n with
  | zero =>
    intro a s hs
    exact ⟨fun k hk => by simpa [nullScan] using hs k hk, fun k _ => rfl, rfl,
      fun hh _ => hh⟩
  | succ n ih =>
    intro a s hs
    rw [List.range'_succ, nullScan_cons]
    obtain ⟨f1, f2, f3⟩ := nullLineStep_frame s a
    have hs1 : ∀ k, k ∈ (nullLineStep s a).nulllines → k < a + 1 := by
      intro k hk
      rcases f2 k hk with h | h
      · have := hs k h; omega
      · omega
    have keep : ∀ k, a ≤ k → (nullLineStep s a).file.lines[k]? = s.file.lines[k]? :=
      fun k hk => f1 k (fun hmem => by have := hs k hmem; omega)
    obtain ⟨i1, i2, i3, i4⟩ := ih (a + 1) (nullLineStep s a) hs1
    refine ⟨fun k hk => by have := i1 k hk; omega, ?_, by rw [i3, f3], ?_⟩
    · intro k hk
      rw [i2 k (by omega), keep k (by omega)]
    · intro hh hne
      refine i4 (nullLineStep_halted s a hh (fun l hl => hne a l (by omega) (by omega) hl)) ?_
      intro k l hk1 hk2 hl
      rw [keep k (by omega)] at hl
      exact hne k l (by omega) (by omega) hl

theorem nullScan_after (n : Nat) :
    ∀ (a lo : Nat) (s : NullScan), (∀ k, k ∈ s.nulllines → lo ≤ k) → lo ≤ a →
      ∀ k, k < lo →
        (nullScan s (List.range' a n)).file.lines[k]? = s.file.lines[k]? := by
  induction n with
  | zero => intro a lo s _ _ k _; rfl
  | succ n ih =>
    intro a lo s hs hlo k hk
    rw [List.range'_succ, nullScan_cons]
    obtain ⟨f1, f2, _⟩ := nullLineStep_frame s a
    have hs1 : ∀ m, m ∈ (nullLineStep s a).nulllines → lo ≤ m := by
      intro m hm
      rcases f2 m hm with h | h
      · exact hs m h
      · omega
    rw [ih (a + 1) lo _ hs1 (by omega) k hk]
    exact f1 k (fun hmem => by have := hs k hmem; omega)

theorem nullLineStep_between (sf : HumdrumFile) (sp : Option Nat) (sn : List Nat)
    (a : Nat)
    (hne : ∀ l, sf.lines[a]? = some l →
        ¬ (l.hasSpines = true ∧ l.isAllRhythmicNull = false ∧
            0 ≤ l.durationFromStart) ∧
        ¬ (l.hasSpines = true ∧ l.isAllRhythmicNull = false ∧
            l.durationFromStart < 0 ∧ l.isData = true)) :
    nullLineStep { file := sf, previous := sp, nulllines := sn, halted := false } a =
      { file := sf, previous := sp, halted := false, nulllines := sn ++
        if (match sf.lines[a]? with
            | some l => l.hasSpines && l.isAllRhythmicNull && l.isData
            | none => false) = true then [a] else [] } := by
  unfold nullLineStep
  cases hl : sf.lines[a]? with
  | none => simp [hl]
  | some l =>
    obtain ⟨n1, n2⟩ := hne l hl
    by_cases h1 : l.hasSpines = true
    · by_cases h2 : l.isAllRhythmicNull = true
      · by_cases h3 : l.isData = true <;> simp [hl, h1, h2, h3]
      · by_cases h4 : l.durationFromStart < 0
        · by_cases h3 : l.isData = true
          · exact absurd ⟨h1, by simpa using h2, h4, h3⟩ n2
          · simp [hl, h1, h2, h3, h4]
        · exact absurd ⟨h1, by simpa using h2, not_lt.mp h4⟩ n1
    · simp [hl, h1]

theorem nullScan_between (n : Nat) :
    ∀ (a : Nat) (sf : HumdrumFile) (sp : Option Nat) (sn : List Nat),
      (∀ k l, a ≤ k → k < a + n → sf.lines[k]? = some l →
        ¬ (l.hasSpines = true ∧ l.isAllRhythmicNull = false ∧
            0 ≤ l.durationFromStart) ∧
        ¬ (l.hasSpines = true ∧ l.isAllRhythmicNull = false ∧
            l.durationFromStart < 0 ∧ l.isData = true)) →
      nullScan { file := sf, previous := sp, nulllines := sn, halted := false }
          (List.range' a n) =
        { file := sf, previous := sp, halted := false,
          nulllines := sn ++ (List.range' a n).filter fun k =>
            match sf.lines[k]? with
            | some l => l.hasSpines && l.isAllRhythmicNull && l.isData
            | none => false } := by
  induction n with
  | zero => intro a sf sp sn _; simp [nullScan]
  | succ n ih =>
    intro a sf sp sn hne
    rw [List.range'_succ, nullScan_cons,
      nullLineStep_between sf sp sn a (fun l hl => hne a l (by omega) (by omega) hl),
      ih (a + 1) sf sp _ (fun k l hk1 hk2 hl => hne k l (by omega) (by omega) hl)]
    simp only [List.filter_cons, List.append_assoc]
    split <;> simp


theorem durationFromStart_congr (g f : HumdrumFile) (k : Nat)
    (h : g.lines[k]? = f.lines[k]?) : g.durationFromStart k = f.durationFromStart k := by
  unfold HumdrumFile.durationFromStart
  rw [h]

theorem nullLineStep_anchor (s : NullScan) (i : Nat) (l : HumdrumLine)
    (hh : s.halted = false) (hl : s.file.lines[i]? = some l)
    (h1 : l.hasSpines = true) (h2 : l.isAllRhythmicNull = false)
    (h3 : 0 ≤ l.durationFromStart) :
    nullLineStep s i =
      { file := match s.previous with
          | none => s.file
          | some p => assignNullLines s.file (s.file.durationFromStart p)
              ((l.durationFromStart - s.file.durationFromStart p) /
                ((s.nulllines.length : Rat) + 1)) s.nulllines 0,
        previous := some i, nulllines := [], halted := false } := by
  unfold nullLineStep
  cases hp : s.previous <;> simp [hh, hl, h1, h2, not_lt.mpr h3]

/-- C6 (amended): let `p < q` be two lines with spines that are not
all-rhythmically-null and have a non-negative `durationFromStart`, with no other
such line between them, and suppose the scan reaches `q` without its error
exit, that is, no data line before `q` that has spines and is not
all-rhythmically-null has a negative `durationFromStart`.  Then after
`analyzeNullLineRhythms` the `j`-th (counting from `1`) of the `n`
all-rhythmically-null data lines between `p` and `q` has `durationFromStart`
equal to `dfs(p) + j * (dfs(q) - dfs(p)) / (n + 1)`. -/
theorem analyzeNullLineRhythms_interpolates (f : HumdrumFile) (p q : Nat)
    (lp lq : HumdrumLine) (hpq : p < q)
    (hp : f.lines[p]? = some lp) (hq : f.lines[q]? = some lq)
    (hpa : lp.hasSpines = true ∧ lp.isAllRhythmicNull = false ∧
      0 ≤ lp.durationFromStart)
    (hqa : lq.hasSpines = true ∧ lq.isAllRhythmicNull = false ∧
      0 ≤ lq.durationFromStart)
    (hbetween : ∀ k l, p < k → k < q → f.lines[k]? = some l →
      ¬ (l.hasSpines = true ∧ l.isAllRhythmicNull = false ∧
        0 ≤ l.durationFromStart))
    (hnoerr : ∀ k l, k < q → f.lines[k]? = some l →
      ¬ (l.hasSpines = true ∧ l.isAllRhythmicNull = false ∧
        l.durationFromStart < 0 ∧ l.isData = true)) :
    ∀ (j k : Nat), (f.nullLinesBetween p q)[j]? = some k →
      f.analyzeNullLineRhythms.durationFromStart k =
        lp.durationFromStart +
          ((j : Rat) + 1) * (lq.durationFromStart - lp.durationFromStart) /
            (((f.nullLinesBetween p q).length : Rat) + 1) := by
  intro j k hjk
  have hqn : q < f.lines.length := lt_length_of_getElem? _ _ _ hq
  -- the scan, cut at `p` and at `q`
  have hsplit : List.range f.lines.length =
      List.range' 0 p ++ (p :: List.range' (p + 1) (q - p - 1)) ++
        (q :: List.range' (q + 1) (f.lines.length - q - 1)) := by
    rw [List.range_eq_range', ← List.range'_succ, ← List.range'_succ]
    have e1 : q - p - 1 + 1 = q - p := by omega
    have e2 : f.lines.length - q - 1 + 1 = f.lines.length - q := by omega
    rw [e1, e2]
    have e3 : List.range' 0 p ++ List.range' p (q - p) = List.range' 0 q := by
      have := List.range'_append_1 0 p (q - p)
      rw [Nat.zero_add] at this
      rw [this]; congr 1; omega
    rw [e3]
    have := List.range'_append_1 0 q (f.lines.length - q)
    rw [Nat.zero_add] at this
    rw [this]; congr 1; omega
  -- before `p`
  obtain ⟨b1, b2, b3, b4⟩ := nullScan_before p 0 { file := f } (by intro k hk; simp at hk)
  simp only [Nat.zero_add] at b1 b2 b3 b4
  have b4 := b4 trivial (fun k l _ hk hl => hnoerr k l (by omega) hl)
  generalize hs1 : nullScan { file := f } (List.range' 0 p) = s1 at b1 b2 b3 b4
  -- at `p`
  have hlp : s1.file.lines[p]? = some lp := by rw [b2 p (le_refl p)]; exact hp
  have hstep := nullLineStep_anchor s1 p lp b4 hlp hpa.1 hpa.2.1 hpa.2.2
  obtain ⟨fr1, _, fr3⟩ := nullLineStep_frame s1 p
  generalize hF2 : (nullLineStep s1 p).file = F2 at fr1 fr3
  have hs2 : nullLineStep s1 p =
      { file := F2, previous := some p, nulllines := [], halted := false } := by
    rw [← hF2, hstep]
  have hF2f : ∀ m, p ≤ m → F2.lines[m]? = f.lines[m]? := by
    intro m hm
    rw [fr1 m (fun hmem => by have := b1 m hmem; omega), b2 m hm]
  have hF2len : F2.lines.length = f.lines.length := by rw [fr3, b3]
  -- between `p` and `q`
  have hbet := nullScan_between (q - p - 1) (p + 1) F2 (some p) []
    (fun m l hm1 hm2 hl => by
      rw [hF2f m (by omega)] at hl
      exact ⟨hbetween m l (by omega) (by omega) hl, hnoerr m l (by omega) hl⟩)
  have hfilter : ((List.range' (p + 1) (q - p - 1)).filter fun m =>
      match F2.lines[m]? with
      | some l => l.hasSpines && l.isAllRhythmicNull && l.isData
      | none => false) = f.nullLinesBetween p q := by
    unfold nullLinesBetween
    apply List.filter_congr
    intro m hm
    rw [hF2f m (by simp at hm; omega)]
  rw [hfilter, List.nil_append] at hbet
  -- at `q`
  have hlq : F2.lines[q]? = some lq := by rw [hF2f q (by omega)]; exact hq
  have hstepq := nullLineStep_anchor
    { file := F2, previous := some p, nulllines := f.nullLinesBetween p q, halted := false }
    q lq rfl hlq hqa.1 hqa.2.1 hqa.2.2
  simp only at hstepq
  have hdp : F2.durationFromStart p = lp.durationFromStart := by
    rw [durationFromStart_congr F2 f p (hF2f p (le_refl p))]
    unfold HumdrumFile.durationFromStart; rw [hp]
  rw [hdp] at hstepq
  -- after `q`
  have hk : k ∈ f.nullLinesBetween p q := List.getElem?_mem hjk
  have hkq : p < k ∧ k < q := by
    unfold nullLinesBetween at hk
    have := (List.mem_filter.mp hk).1
    simp at this; omega
  have hnodup : (f.nullLinesBetween p q).Nodup := by
    unfold nullLinesBetween
    exact (List.nodup_range' _ _).filter _
  have hall : ∀ m ∈ f.nullLinesBetween p q, m < F2.lines.length := by
    intro m hm
    unfold nullLinesBetween at hm
    have := (List.mem_filter.mp hm).1
    simp at this; omega
  have hval := assignNullLines_value (f.nullLinesBetween p q) F2 lp.durationFromStart
    ((lq.durationFromStart - lp.durationFromStart) /
      (((f.nullLinesBetween p q).length : Rat) + 1)) 0 hnodup hall j k hjk
  unfold analyzeNullLineRhythms
  rw [hsplit]
  change (nullScan _ _).file.durationFromStart k = _
  rw [nullScan_append, nullScan_append, hs1, nullScan_cons s1 p, hs2, hbet,
    nullScan_cons _ q, hstepq]
  rw [durationFromStart_congr _ _ k
    (nullScan_after _ (q + 1) (q + 1) _ (by intro m hm; simp at hm) (le_refl _) k (by omega))]
  rw [hval]
  push_cast
  ring


/-- Witness of C6 (amended) on `midpointLines`: with `durationFromStart` `0` and
`2` around one null line, the null line gets `1`. -/
theorem analyzeNullLineRhythms_interpolates_witness :
    midpointLines.nullLinesBetween 0 2 = [1] ∧
    midpointLines.analyzeNullLineRhythms.durationFromStart 1 = 1 :=
  ⟨by decide,
    (analyzeNullLineRhythms_interpolates midpointLines 0 2 _ _ (by decide) rfl rfl
      (by decide!) (by decide!)
      (fun k l h1 h2 hl => by
        have hk : k = 1 := by omega
        subst hk
        simp [midpointLines] at hl
        subst hl
        simp)
      (fun k l h1 hl => by
        have hk : k = 0 ∨ k = 1 := by omega
        rcases hk with hk | hk <;> subst hk <;> simp [midpointLines] at hl <;>
          subst hl <;> simp)
      0 1 (by decide)).trans (by decide!)⟩

/-- C6 as stated fails: in `unresolvedFirst` the lines `p = 1` and `q = 3`
satisfy the conditions of the claim with one null data line between them, but
the scan leaves through its error exit at line `0`, and the null line keeps its
unresolved `durationFromStart` instead of receiving the midpoint `1`. -/
theorem analyzeNullLineRhythms_counterexample :
    ¬ (∀ (f : HumdrumFile) (p q : Nat) (lp lq : HumdrumLine), p < q →
        f.lines[p]? = some lp → f.lines[q]? = some lq →
        (lp.hasSpines = true ∧ lp.isAllRhythmicNull = false ∧
          0 ≤ lp.durationFromStart) →
        (lq.hasSpines = true ∧ lq.isAllRhythmicNull = false ∧
          0 ≤ lq.durationFromStart) →
        (∀ k l, p < k → k < q → f.lines[k]? = some l →
          ¬ (l.hasSpines = true ∧ l.isAllRhythmicNull = false ∧
            0 ≤ l.durationFromStart)) →
        ∀ (j k : Nat), (f.nullLinesBetween p q)[j]? = some k →
          f.analyzeNullLineRhythms.durationFromStart k =
            lp.durationFromStart +
              ((j : Rat) + 1) * (lq.durationFromStart - lp.durationFromStart) /
                (((f.nullLinesBetween p q).length : Rat) + 1)) := by
  intro h
  have h1 := h unresolvedFirst 1 3 _ _ (by decide) rfl rfl (by decide!) (by decide!)
    (fun k l h1 h2 hl => by
      have hk : k = 2 := by omega
      subst hk
      simp [unresolvedFirst] at hl
      subst hl
      simp)
    0 2 (by decide)
  revert h1
  decide!

theorem advance_eq (ts : List HumdrumToken) (w : Nat) (tw : HumdrumToken) (v : Rat)
    (h : ts[w]? = some tw) : advance v tw = v + positiveDuration ts w := by
  unfold advance positiveDuration
  rw [h]
  by_cases h0 : 0 < tw.duration <;> simp [h0]

theorem Reach.refl (ts : List HumdrumToken) (a : Nat) (s : Rat) : Reach ts a s (a, s) :=
  ⟨[], rfl, by simp⟩

theorem Reach.cons (ts : List HumdrumToken) (c n : Nat) (tc : HumdrumToken) (vc : Rat)
    (e : Nat × Rat) (hc : ts[c]? = some tc) (hn : n ∈ tc.nextTokens)
    (h : Reach ts n (advance vc tc) e) : Reach ts c vc e := by
  obtain ⟨path, hp, hv⟩ := h
  refine ⟨c :: path, ⟨rfl, tc, n, hc, hn, hp⟩, ?_⟩
  rw [hv, advance_eq ts c tc vc hc]
  simp [add_assoc]

theorem isNextPath_append (ts : List HumdrumToken) (P : List Nat) :
    ∀ (a b c : Nat) (Q : List Nat), isNextPath ts a P b → isNextPath ts b Q c →
      isNextPath ts a (P ++ Q) c := by
  induction P with
  | nil => intro a b c Q h1 h2; simp only [isNextPath] at h1; subst h1; simpa using h2
  | cons x rest ih =>
    intro a b c Q h1 h2
    obtain ⟨hx, t, n, ht, hn, hrest⟩ := h1
    exact ⟨hx, t, n, ht, hn, ih n b c Q hrest h2⟩

theorem Reach.trans (ts : List HumdrumToken) (a b : Nat) (s d : Rat) (e : Nat × Rat)
    (h1 : Reach ts a s (b, d)) (h2 : Reach ts b d e) : Reach ts a s e := by
  obtain ⟨P, hP, hv⟩ := h1
  obtain ⟨Q, hQ, hw⟩ := h2
  refine ⟨P ++ Q, isNextPath_append ts P a b e.1 Q hP hQ, ?_⟩
  simp only at hv
  rw [hw, hv]
  simp [add_assoc]

theorem PredIn.mono (ts : List HumdrumToken) (L L2 : List (Nat × Rat)) (e : Nat × Rat)
    (hsub : ∀ x, x ∈ L → x ∈ L2) (h : PredIn ts L e) : PredIn ts L2 e := by
  obtain ⟨w, v, tw, hm, ht, hn, hv⟩ := h
  exact ⟨w, v, tw, hsub _ hm, ht, hn, hv⟩

theorem setLineDurationFromStart_frame (f g : HumdrumFile) (token : Nat) (d : Rat)
    (h : f.setLineDurationFromStart token d = some g) :
    g.tokens = f.tokens ∧ g.lines.length = f.lines.length ∧ g.rhycheck = f.rhycheck := by
  unfold setLineDurationFromStart at h
  cases ht : f.tokens[token]? with
  | none => simp [ht] at h
  | some t =>
    simp only [ht] at h
    split at h
    · cases h; exact ⟨rfl, rfl, rfl⟩
    · cases hl : f.lines[t.lineIndex]? with
      | none => simp [hl] at h
      | some line =>
        simp only [hl] at h
        split at h
        · cases h
          refine ⟨?_, setDurationFromStart_length _ _ _, ?_⟩ <;>
            simp [setDurationFromStart, hl]
        · split at h <;> cases h <;> exact ⟨rfl, rfl, rfl⟩


theorem incrementState_tokens (f : HumdrumFile) (k : Nat) :
    (f.incrementState k).tokens = f.tokens ∧
    (f.incrementState k).lines = f.lines := ⟨rfl, rfl⟩

theorem primaryWalk_sound (ts : List HumdrumToken)
    (hterm : ∀ (i : Nat) (t : HumdrumToken), ts[i]? = some t →
      t.isTerminateInterpretation = true →
      t.duration ≤ 0) :
    ∀ (fuel : Nat) (f : HumdrumFile) (state : Int) (c : Nat) (vc : Rat)
      (tc : HumdrumToken) (res : List (Nat × Rat)) (r : WalkResult),
      f.tokens = ts → ts[c]? = some tc →
      primaryWalk fuel f state c (advance vc tc) res = some r →
      r.file.tokens = ts ∧ r.file.lines.length = f.lines.length ∧
      (∀ e, e ∈ r.log →
        Reach ts c vc e ∧ (e = (c, vc) ∨ PredIn ts ((c, vc) :: r.log) e)) ∧
      (∀ e, e ∈ r.reservoir →
        e ∈ res ∨ (Reach ts c vc e ∧ PredIn ts ((c, vc) :: r.log) e)) := by
  intro fuel
  induction fuel with
  | zero => intro f state c vc tc res r _ _ h; simp [primaryWalk] at h
  | succ fuel ih =>
    intro f state c vc tc res r hts hc h
    have hc' : f.tokens[c]? = some tc := by rw [hts]; exact hc
    simp only [primaryWalk, hc'] at h
    cases hnt : tc.nextTokens with
    | nil =>
      simp only [hnt] at h
      by_cases hterm' : tc.isTerminateInterpretation = true
      · have hadv : advance vc tc = vc := by
          unfold advance
          rw [if_neg (not_lt.mpr (hterm c tc hc hterm'))]
        rw [hadv] at h
        simp only [hterm', if_true] at h
        cases hs : f.setLineDurationFromStart c vc with
        | none => simp [hs] at h
        | some g =>
          obtain ⟨g1, g2, _⟩ := setLineDurationFromStart_frame f g c vc hs
          simp only [hs] at h
          have g1' : g.tokens = ts := by rw [g1]; exact hts
          have hlog : ∀ e, e ∈ [(c, vc)] →
              Reach ts c vc e ∧ (e = (c, vc) ∨ PredIn ts ((c, vc) :: [(c, vc)]) e) := by
            intro e he
            simp only [List.mem_singleton] at he
            subst he
            exact ⟨Reach.refl ts c vc, Or.inl rfl⟩
          split at h <;> cases h
          · exact ⟨g1', g2, hlog, by simp [WalkResult.reservoir]⟩
          · exact ⟨g1', g2, hlog, fun e he => Or.inl he⟩
      · simp only [hterm', Bool.false_eq_true, if_false] at h
        cases h
        exact ⟨hts, rfl, by simp [WalkResult.log], fun e he => Or.inl he⟩
    | cons n0 higher =>
      simp only [hnt] at h
      have hn0 : n0 ∈ tc.nextTokens := by simp [hnt]
      have hhigher : ∀ n, n ∈ higher → n ∈ tc.nextTokens := fun n hn => by simp [hnt, hn]
      have hreach0 : Reach ts c vc (n0, advance vc tc) :=
        Reach.cons ts c n0 tc vc _ hc hn0 (Reach.refl ts n0 _)
      have hres1 : ∀ e, e ∈ res ++ higher.map (fun n => (n, advance vc tc)) →
          ∀ L, e ∈ res ∨ (Reach ts c vc e ∧ PredIn ts ((c, vc) :: L) e) := by
        intro e he L
        rcases List.mem_append.mp he with he | he
        · exact Or.inl he
        · obtain ⟨n, hn, rfl⟩ := List.mem_map.mp he
          exact Or.inr ⟨Reach.cons ts c n tc vc _ hc (hhigher n hn) (Reach.refl ts n _),
            c, vc, tc, by simp, hc, hhigher n hn, rfl⟩
      cases hu : f.tokens[n0]? with
      | none => simp [hu] at h
      | some u =>
        have hu' : ts[n0]? = some u := by rw [← hts]; exact hu
        simp only [hu] at h
        by_cases hst : state ≠ f.rhycheck n0
        · rw [if_pos hst] at h
          cases h
          exact ⟨hts, rfl, by simp [WalkResult.log],
            fun e he => hres1 e he []⟩
        · rw [if_neg hst] at h
          cases hs : (f.incrementState n0).setLineDurationFromStart n0 (advance vc tc) with
          | none => simp [hs] at h
          | some g =>
            obtain ⟨g1, g2, _⟩ := setLineDurationFromStart_frame _ g n0 _ hs
            have g1' : g.tokens = ts := by rw [g1]; exact hts
            have g2' : g.lines.length = f.lines.length := g2
            have hpred0 : ∀ L, PredIn ts ((c, vc) :: L) (n0, advance vc tc) :=
              fun L => ⟨c, vc, tc, by simp, hc, hn0, rfl⟩
            simp only [hs] at h
            by_cases hv : (!g.isValid) = true
            · rw [if_pos hv] at h
              cases h
              refine ⟨g1', g2', ?_, by simp [WalkResult.reservoir]⟩
              intro e he
              simp only [WalkResult.log, List.mem_singleton] at he
              subst he
              exact ⟨hreach0, Or.inr (hpred0 _)⟩
            · rw [if_neg hv] at h
              cases hw : primaryWalk fuel g state n0 (advance (advance vc tc) u)
                  (res ++ higher.map (fun n => (n, advance vc tc))) with
              | none => simp [hw] at h
              | some r1 =>
                obtain ⟨i1, i2, i3, i4⟩ := ih g state n0 (advance vc tc) u _ r1 g1' hu' hw
                have lift : ∀ e L, Reach ts n0 (advance vc tc) e ∧
                    (e = (n0, advance vc tc) ∨
                      PredIn ts ((n0, advance vc tc) :: L) e) →
                    Reach ts c vc e ∧
                      PredIn ts ((c, vc) :: (n0, advance vc tc) :: L) e := by
                  intro e L ⟨h1, h2⟩
                  refine ⟨Reach.trans ts c n0 vc _ e hreach0 h1, ?_⟩
                  rcases h2 with h2 | h2
                  · subst h2; exact hpred0 _
                  · exact PredIn.mono ts _ _ e (fun x hx => List.mem_cons_of_mem _ hx) h2
                simp only [hw] at h
                cases r1 with
                | aborted h1 log1 =>
                  cases h
                  simp only [WalkResult.file, WalkResult.log, WalkResult.reservoir] at i1 i2 i3 i4 ⊢
                  refine ⟨i1, by rw [i2, g2'], ?_, by simp⟩
                  intro e he
                  rcases List.mem_cons.mp he with he | he
                  · subst he; exact ⟨hreach0, Or.inr (hpred0 _)⟩
                  · have := lift e log1 (i3 e he)
                    exact ⟨this.1, Or.inr this.2⟩
                | done h1 log1 rr =>
                  cases h
                  simp only [WalkResult.file, WalkResult.log, WalkResult.reservoir] at i1 i2 i3 i4 ⊢
                  refine ⟨i1, by rw [i2, g2'], ?_, ?_⟩
                  · intro e he
                    rcases List.mem_cons.mp he with he | he
                    · subst he; exact ⟨hreach0, Or.inr (hpred0 _)⟩
                    · have := lift e log1 (i3 e he)
                      exact ⟨this.1, Or.inr this.2⟩
                  · intro e he
                    rcases i4 e he with h4 | h4
                    · exact hres1 e h4 _
                    · exact Or.inr (lift e log1 ⟨h4.1, Or.inr h4.2⟩)


theorem reservoirFold_sound (ts : List HumdrumToken) (fuel : Nat) (state : Int)
    (token : Nat) (s : Rat)
    (F : HumdrumFile × List (Nat × Rat) → Nat × Rat →
      Option (HumdrumFile × List (Nat × Rat)))
    (hF : ∀ acc r acc2, F acc r = some acc2 →
      ∃ res, prepareDurations fuel acc.1 r.1 state r.2 = some res ∧
        acc2 = (res.1, acc.2 ++ res.2))
    (ih : ∀ (f : HumdrumFile) (tok : Nat) (d : Rat) (g : HumdrumFile)
      (log : List (Nat × Rat)), f.tokens = ts →
      prepareDurations fuel f tok state d = some (g, log) →
      g.tokens = ts ∧ g.lines.length = f.lines.length ∧
      ∀ e, e ∈ log → Reach ts tok d e ∧ (e = (tok, d) ∨ PredIn ts log e)) :
    ∀ (rs : List (Nat × Rat)) (acc : HumdrumFile × List (Nat × Rat))
      (g : HumdrumFile) (log : List (Nat × Rat)),
      acc.1.tokens = ts →
      (∀ e, e ∈ rs → Reach ts token s e ∧ PredIn ts acc.2 e) →
      (∀ e, e ∈ acc.2 → Reach ts token s e ∧ (e = (token, s) ∨ PredIn ts acc.2 e)) →
      rs.foldlM F acc = some (g, log) →
      g.tokens = ts ∧ g.lines.length = acc.1.lines.length ∧
      ∀ e, e ∈ log → Reach ts token s e ∧ (e = (token, s) ∨ PredIn ts log e) := by
  intro rs
  induction rs with
  | nil =>
    intro acc g log hts _ hacc h
    simp only [List.foldlM_nil] at h
    cases h
    exact ⟨hts, rfl, hacc⟩
  | cons r rest ihr =>
    intro acc g log hts hrs hacc h
    simp only [List.foldlM_cons] at h
    cases hFr : F acc r with
    | none => simp [hFr] at h
    | some acc2 =>
      simp only [hFr] at h
      obtain ⟨res, hres, rfl⟩ := hF acc r acc2 hFr
      obtain ⟨j1, j2, j3⟩ := ih acc.1 r.1 r.2 res.1 res.2 hts hres
      obtain ⟨hr1, hr2⟩ := hrs r (by simp)
      have sub1 : ∀ x, x ∈ acc.2 → x ∈ acc.2 ++ res.2 :=
        fun x hx => List.mem_append_left _ hx
      have sub2 : ∀ x, x ∈ res.2 → x ∈ acc.2 ++ res.2 :=
        fun x hx => List.mem_append_right _ hx
      obtain ⟨k1, k2, k3⟩ := ihr (res.1, acc.2 ++ res.2) g log j1
        (fun e he => ⟨(hrs e (by simp [he])).1,
          PredIn.mono ts _ _ e sub1 (hrs e (by simp [he])).2⟩)
        (fun e he => by
          rcases List.mem_append.mp he with he | he
          · obtain ⟨a1, a2⟩ := hacc e he
            refine ⟨a1, ?_⟩
            rcases a2 with a2 | a2
            · exact Or.inl a2
            · exact Or.inr (PredIn.mono ts _ _ e sub1 a2)
          · obtain ⟨a1, a2⟩ := j3 e he
            refine ⟨Reach.trans ts token r.1 s r.2 e hr1 a1, Or.inr ?_⟩
            rcases a2 with a2 | a2
            · rw [a2]; exact PredIn.mono ts _ _ _ sub1 hr2
            · exact PredIn.mono ts _ _ e sub2 a2)
        h
      exact ⟨k1, by rw [k2]; exact j2, k3⟩

theorem prepareDurations_sound (ts : List HumdrumToken)
    (hterm : ∀ (i : Nat) (t : HumdrumToken), ts[i]? = some t →
      t.isTerminateInterpretation = true → t.duration ≤ 0) :
    ∀ (fuel : Nat) (state : Int) (f : HumdrumFile) (token : Nat) (s : Rat)
      (g : HumdrumFile) (log : List (Nat × Rat)), f.tokens = ts →
      prepareDurations fuel f token state s = some (g, log) →
      g.tokens = ts ∧ g.lines.length = f.lines.length ∧
      ∀ e, e ∈ log → Reach ts token s e ∧ (e = (token, s) ∨ PredIn ts log e) := by
  intro fuel state
  induction fuel with
  | zero => intro f token s g log _ h; simp [prepareDurations] at h
  | succ fuel ih =>
    intro f token s g log hts h
    simp only [prepareDurations] at h
    cases ht : f.tokens[token]? with
    | none => simp [ht] at h
    | some t =>
      have ht' : ts[token]? = some t := by rw [← hts]; exact ht
      simp only [ht] at h
      by_cases hst : state ≠ f.rhycheck token
      · rw [if_pos hst] at h
        cases h
        exact ⟨hts, rfl, by simp⟩
      · rw [if_neg hst] at h
        cases hs : (f.incrementState token).setLineDurationFromStart token s with
        | none => simp [hs] at h
        | some g1 =>
          obtain ⟨a1, a2, _⟩ := setLineDurationFromStart_frame _ g1 token s hs
          have a1' : g1.tokens = ts := by rw [a1]; exact hts
          have a2' : g1.lines.length = f.lines.length := a2
          simp only [hs] at h
          by_cases hv : (!g1.isValid) = true
          · rw [if_pos hv] at h
            cases h
            refine ⟨a1', a2', ?_⟩
            intro e he
            simp only [List.mem_singleton] at he
            subst he
            exact ⟨Reach.refl ts token s, Or.inl rfl⟩
          · rw [if_neg hv] at h
            cases hw : primaryWalk fuel g1 state token (advance s t) [] with
            | none => simp [hw] at h
            | some r =>
              obtain ⟨w1, w2, w3, w4⟩ :=
                primaryWalk_sound ts hterm fuel g1 state token s t [] r a1' ht' hw
              have hlog : ∀ e, e ∈ (token, s) :: r.log →
                  Reach ts token s e ∧
                    (e = (token, s) ∨ PredIn ts ((token, s) :: r.log) e) := by
                intro e he
                rcases List.mem_cons.mp he with he | he
                · subst he; exact ⟨Reach.refl ts token s, Or.inl rfl⟩
                · exact w3 e he
              simp only [hw] at h
              cases r with
              | aborted h1 log1 =>
                cases h
                exact ⟨w1, by rw [← a2']; exact w2, hlog⟩
              | done h1 log1 rr =>
                simp only at h
                obtain ⟨k1, k2, k3⟩ := reservoirFold_sound ts fuel state token s _
                  (fun acc r acc2 hF => by
                    cases hp : prepareDurations fuel acc.1 r.1 state r.2 with
                    | none => simp [hp] at hF
                    | some res =>
                      simp only [hp] at hF
                      exact ⟨res, rfl, (Option.some.inj hF).symm⟩)
                  (fun f0 tok d g0 log0 h0 hp => ih f0 tok d g0 log0 h0 hp)
                  rr.reverse (h1, (token, s) :: log1) g log w1
                  (fun e he => by
                    rcases w4 e (List.mem_reverse.mp he) with h4 | h4
                    · simp at h4
                    · exact h4)
                  hlog h
                exact ⟨k1, by rw [k2]; exact w2.trans a2', k3⟩


theorem wellLinked_spec (f : HumdrumFile) (h : f.wellLinked = true) :
    ∀ (i : Nat) (t : HumdrumToken), f.tokens[i]? = some t →
      t.lineIndex < f.lines.length ∧
      ∀ j, j ∈ t.nextTokens →
        ∃ u, f.tokens[j]? = some u ∧ t.lineIndex < u.lineIndex := by
  intro i t ht
  unfold wellLinked at h
  rw [List.all_eq_true] at h
  have h1 := h t (List.getElem?_mem ht)
  simp only [Bool.and_eq_true, decide_eq_true_eq, List.all_eq_true] at h1
  refine ⟨h1.1, fun j hj => ?_⟩
  have h2 := h1.2 j hj
  cases hu : f.tokens[j]? with
  | none => simp [hu] at h2
  | some u => exact ⟨u, rfl, by simpa [hu] using h2⟩

theorem setLineDurationFromStart_total (f : HumdrumFile) (token : Nat) (d : Rat)
    (t : HumdrumToken) (ht : f.tokens[token]? = some t)
    (hl : t.lineIndex < f.lines.length) :
    ∃ g, f.setLineDurationFromStart token d = some g := by
  unfold setLineDurationFromStart
  simp only [ht, List.getElem?_eq_getElem hl]
  split
  · exact ⟨_, rfl⟩
  · split
    · exact ⟨_, rfl⟩
    · split <;> exact ⟨_, rfl⟩

theorem primaryWalk_total (ts : List HumdrumToken) (n : Nat)
    (hwl : ∀ (i : Nat) (t : HumdrumToken), ts[i]? = some t →
      t.lineIndex < n ∧
      ∀ j, j ∈ t.nextTokens → ∃ u, ts[j]? = some u ∧ t.lineIndex < u.lineIndex) :
    ∀ (fuel : Nat) (f : HumdrumFile) (state : Int) (c : Nat) (tc : HumdrumToken)
      (dursum : Rat) (res : List (Nat × Rat)),
      f.tokens = ts → f.lines.length = n → ts[c]? = some tc →
      n - tc.lineIndex ≤ fuel →
      ∃ r, primaryWalk fuel f state c dursum res = some r ∧
        r.file.tokens = ts ∧ r.file.lines.length = n ∧
        ∀ e, e ∈ r.reservoir →
          e ∈ res ∨ ∃ u, ts[e.1]? = some u ∧ tc.lineIndex < u.lineIndex := by
  intro fuel
  induction fuel with
  | zero =>
    intro f state c tc dursum res _ _ hc hfuel
    have := (hwl c tc hc).1
    omega
  | succ fuel ih =>
    intro f state c tc dursum res hts hlen hc hfuel
    have hc' : f.tokens[c]? = some tc := by rw [hts]; exact hc
    obtain ⟨hcl, hcn⟩ := hwl c tc hc
    simp only [primaryWalk, hc']
    cases hnt : tc.nextTokens with
    | nil =>
      simp only []
      by_cases hterm' : tc.isTerminateInterpretation = true
      · simp only [hterm', if_true]
        obtain ⟨g, hg⟩ := setLineDurationFromStart_total f c dursum tc hc'
          (by rw [hlen]; exact hcl)
        obtain ⟨g1, g2, _⟩ := setLineDurationFromStart_frame f g c dursum hg
        simp only [hg]
        split
        · exact ⟨_, rfl, by rw [← hts]; exact g1, by rw [← hlen]; exact g2,
            by simp [WalkResult.reservoir]⟩
        · exact ⟨_, rfl, by rw [← hts]; exact g1, by rw [← hlen]; exact g2,
            fun e he => Or.inl he⟩
      · simp only [hterm', Bool.false_eq_true, if_false]
        exact ⟨_, rfl, hts, hlen, fun e he => Or.inl he⟩
    | cons n0 higher =>
      simp only []
      have hres1 : ∀ e, e ∈ res ++ higher.map (fun k => (k, dursum)) →
          e ∈ res ∨ ∃ u, ts[e.1]? = some u ∧ tc.lineIndex < u.lineIndex := by
        intro e he
        rcases List.mem_append.mp he with he | he
        · exact Or.inl he
        · obtain ⟨k, hk, rfl⟩ := List.mem_map.mp he
          exact Or.inr (hcn k (by simp [hnt, hk]))
      obtain ⟨u, hu, hlu⟩ := hcn n0 (by simp [hnt])
      have hu' : f.tokens[n0]? = some u := by rw [hts]; exact hu
      simp only [hu']
      by_cases hst : state ≠ f.rhycheck n0
      · rw [if_pos hst]
        exact ⟨_, rfl, hts, hlen, hres1⟩
      · rw [if_neg hst]
        obtain ⟨g, hg⟩ := setLineDurationFromStart_total (f.incrementState n0) n0 dursum u
          hu' (by rw [show (f.incrementState n0).lines = f.lines from rfl, hlen]
                  exact (hwl n0 u hu).1)
        obtain ⟨g1, g2, _⟩ := setLineDurationFromStart_frame _ g n0 dursum hg
        have g1' : g.tokens = ts := by rw [g1]; exact hts
        have g2' : g.lines.length = n := by rw [g2]; exact hlen
        simp only [hg]
        by_cases hv : (!g.isValid) = true
        · rw [if_pos hv]
          exact ⟨_, rfl, g1', g2', by simp [WalkResult.reservoir]⟩
        · rw [if_neg hv]
          obtain ⟨r, hr, r1, r2, r3⟩ := ih g state n0 u (advance dursum u)
            (res ++ higher.map (fun k => (k, dursum))) g1' g2' hu (by omega)
          simp only [hr]
          cases r with
          | aborted h1 log1 =>
            exact ⟨_, rfl, r1, r2, by simp [WalkResult.reservoir]⟩
          | done h1 log1 rr =>
            refine ⟨_, rfl, r1, r2, ?_⟩
            intro e he
            rcases r3 e he with h3 | ⟨w, hw1, hw2⟩
            · exact hres1 e h3
            · exact Or.inr ⟨w, hw1, by omega⟩

theorem reservoirFold_total (ts : List HumdrumToken) (n fuel : Nat) (state : Int)
    (F : HumdrumFile × List (Nat × Rat) → Nat × Rat →
      Option (HumdrumFile × List (Nat × Rat)))
    (hF : ∀ acc r res, prepareDurations fuel acc.1 r.1 state r.2 = some res →
      F acc r = some (res.1, acc.2 ++ res.2))
    (ih : ∀ (f : HumdrumFile) (tok : Nat) (d : Rat) (t : HumdrumToken),
      f.tokens = ts → f.lines.length = n → ts[tok]? = some t →
      n - t.lineIndex + 1 ≤ fuel →
      ∃ g log, prepareDurations fuel f tok state d = some (g, log) ∧
        g.tokens = ts ∧ g.lines.length = n) :
    ∀ (rs : List (Nat × Rat)) (acc : HumdrumFile × List (Nat × Rat)),
      acc.1.tokens = ts → acc.1.lines.length = n →
      (∀ e, e ∈ rs → ∃ u, ts[e.1]? = some u ∧ n - u.lineIndex + 1 ≤ fuel) →
      ∃ g log, rs.foldlM F acc = some (g, log) ∧ g.tokens = ts ∧ g.lines.length = n := by
  intro rs
  induction rs with
  | nil =>
    intro acc h1 h2 _
    exact ⟨acc.1, acc.2, by simp, h1, h2⟩
  | cons r rest ihr =>
    intro acc h1 h2 hrs
    obtain ⟨u, hu, hfu⟩ := hrs r (by simp)
    obtain ⟨g, log, hp, p1, p2⟩ := ih acc.1 r.1 r.2 u h1 h2 hu hfu
    simp only [List.foldlM_cons, hF acc r (g, log) hp]
    exact ihr (g, acc.2 ++ log) p1 p2 (fun e he => hrs e (by simp [he]))

theorem prepareDurations_total (ts : List HumdrumToken) (n : Nat)
    (hwl : ∀ (i : Nat) (t : HumdrumToken), ts[i]? = some t →
      t.lineIndex < n ∧
      ∀ j, j ∈ t.nextTokens → ∃ u, ts[j]? = some u ∧ t.lineIndex < u.lineIndex) :
    ∀ (fuel : Nat) (state : Int) (f : HumdrumFile) (token : Nat) (s : Rat)
      (t : HumdrumToken), f.tokens = ts → f.lines.length = n →
      ts[token]? = some t → n - t.lineIndex + 1 ≤ fuel →
      ∃ g log, prepareDurations fuel f token state s = some (g, log) ∧
        g.tokens = ts ∧ g.lines.length = n := by
  intro fuel state
  induction fuel with
  | zero => intro f token s t _ _ _ hfuel; omega
  | succ fuel ih =>
    intro f token s t hts hlen ht hfuel
    have ht' : f.tokens[token]? = some t := by rw [hts]; exact ht
    obtain ⟨htl, _⟩ := hwl token t ht
    simp only [prepareDurations, ht']
    by_cases hst : state ≠ f.rhycheck token
    · rw [if_pos hst]
      exact ⟨f, [], rfl, hts, hlen⟩
    · rw [if_neg hst]
      obtain ⟨g1, hg⟩ := setLineDurationFromStart_total (f.incrementState token) token s t
        ht' (by rw [show (f.incrementState token).lines = f.lines from rfl, hlen]
                exact htl)
      obtain ⟨a1, a2, _⟩ := setLineDurationFromStart_frame _ g1 token s hg
      have a1' : g1.tokens = ts := by rw [a1]; exact hts
      have a2' : g1.lines.length = n := by rw [a2]; exact hlen
      simp only [hg]
      by_cases hv : (!g1.isValid) = true
      · rw [if_pos hv]
        exact ⟨_, _, rfl, a1', a2'⟩
      · rw [if_neg hv]
        obtain ⟨r, hr, r1, r2, r3⟩ := primaryWalk_total ts n hwl fuel g1 state token t
          (advance s t) [] a1' a2' ht (by omega)
        simp only [hr]
        cases r with
        | aborted h1 log1 => exact ⟨_, _, rfl, r1, r2⟩
        | done h1 log1 rr =>
          simp only []
          exact reservoirFold_total ts n fuel state _
            (fun acc r res hp => by simp only [hp])
            (fun f0 tok d t0 h0 h1 h2 h3 => ih f0 tok d t0 h0 h1 h2 h3)
            rr.reverse (h1, (token, s) :: log1) r1 r2
            (fun e he => by
              rcases r3 e (List.mem_reverse.mp he) with h3 | ⟨u, hu1, hu2⟩
              · simp at h3
              · exact ⟨u, hu1, by omega⟩)


theorem terminatorsWithoutDuration_spec (f : HumdrumFile)
    (h : f.terminatorsWithoutDuration = true) :
    ∀ (i : Nat) (t : HumdrumToken), f.tokens[i]? = some t →
      t.isTerminateInterpretation = true → t.duration ≤ 0 := by
  intro i t ht hterm
  unfold terminatorsWithoutDuration at h
  rw [List.all_eq_true] at h
  have := h t (List.getElem?_mem ht)
  simpa [hterm] using this

/-- C5: on a well-linked file whose terminators carry no duration,
`prepareDurations` started at a token with offset `s` returns, and every value
it offers to a line through `setLineDurationFromStart` is, for some path of
next-token links from the start token to the offered token, `s` plus the sum of
the positive self durations of the tokens before it on that path.  Moreover each
offer other than the first continues an offer to a predecessor `w`: whatever
the index of the successor, it is started with the value reached at `w`, that
is the value offered to `w` advanced by the positive duration of `w`. -/
theorem prepareDurations_offers (f : HumdrumFile) (token : Nat) (state : Int) (s : Rat)
    (t : HumdrumToken) (ht : f.tokens[token]? = some t)
    (hwl : f.wellLinked = true) (hterm : f.terminatorsWithoutDuration = true) :
    ∃ g log, prepareDurations f.walkBound f token state s = some (g, log) ∧
      (∀ u v, (u, v) ∈ log →
        ∃ path, isNextPath f.tokens token path u ∧
          v = s + (path.map (positiveDuration f.tokens)).sum) ∧
      (∀ u v, (u, v) ∈ log →
        (u, v) = (token, s) ∨
        ∃ w v0 tw, (w, v0) ∈ log ∧ f.tokens[w]? = some tw ∧
          u ∈ tw.nextTokens ∧ v = advance v0 tw) := by
  obtain ⟨g, log, h, _, _⟩ := prepareDurations_total f.tokens f.lines.length
    (wellLinked_spec f hwl) f.walkBound state f token s t rfl rfl ht
    (by unfold walkBound; omega)
  obtain ⟨_, _, h3⟩ := prepareDurations_sound f.tokens
    (terminatorsWithoutDuration_spec f hterm) f.walkBound state f token s g log rfl h
  exact ⟨g, log, h, fun u v huv => (h3 (u, v) huv).1, fun u v huv => (h3 (u, v) huv).2⟩

theorem splitSpine_run :
    (prepareDurations splitSpine.walkBound splitSpine 0 0 0).map
      (fun r => (r.2, r.1.valid, r.1.diagnostics, r.1.lines.map (fun l => l.durationFromStart))) =
    some ([(0, 0), (1, 0), (2, 0), (4, 1), (6, 2), (8, 2), (8, 2), (3, 0), (5, 2), (7, 2)],
      true, [], [-1, -1, 0, 1, -1, 2]) := by
  decide!

/-- Witness of C5 on `splitSpine`: both subtrack starts after the split (tokens 2
and 3) are offered `0`, line 2 gets `durationFromStart` `0` and no diagnostic is
recorded. -/
theorem prepareDurations_offers_witness :
    splitSpine.wellLinked = true ∧ splitSpine.terminatorsWithoutDuration = true ∧
    ∃ g log, prepareDurations splitSpine.walkBound splitSpine 0 0 0 = some (g, log) ∧
      (2, (0 : Rat)) ∈ log ∧ (3, (0 : Rat)) ∈ log ∧
      g.durationFromStart 2 = 0 ∧ g.valid = true ∧ g.diagnostics = [] := by
  refine ⟨by decide, by decide!, ?_⟩
  obtain ⟨g, log, h, _, _⟩ :=
    prepareDurations_offers splitSpine 0 0 0 _ rfl (by decide) (by decide!)
  have hrun := splitSpine_run
  rw [h] at hrun
  simp only [Option.map_some', Option.some.injEq, Prod.mk.injEq] at hrun
  obtain ⟨h1, h2, h3, h4⟩ := hrun
  refine ⟨g, log, h, by rw [h1]; simp, by rw [h1]; simp, ?_, h2, h3⟩
  unfold HumdrumFile.durationFromStart
  have : (g.lines.map (fun l => l.durationFromStart))[2]? = some 0 := by rw [h4]; rfl
  rw [List.getElem?_map] at this
  cases hl : g.lines[2]? with
  | none => simp [hl] at this
  | some l => simpa [hl] using this

theorem duration_setDuration (f : HumdrumFile) (i j : Nat) (d : Rat) :
    (f.setDuration i d).duration j =
      if i = j ∧ j < f.lines.length then d else f.duration j := by
  unfold setDuration
  cases h : f.lines[i]? with
  | none =>
    have hi : f.lines.length ≤ i := List.getElem?_eq_none_iff.mp h
    have : ¬ (i = j ∧ j < f.lines.length) := by omega
    simp [this]
  | some l =>
    have hi : i < f.lines.length := lt_length_of_getElem? _ _ _ h
    unfold HumdrumFile.duration
    by_cases hij : i = j
    · subst hij
      simp [hi]
    · have : ¬ (i = j ∧ j < f.lines.length) := by omega
      simp [this, List.getElem?_set_ne hij]

theorem setDuration_frame (f : HumdrumFile) (i : Nat) (d : Rat) :
    (f.setDuration i d).tokens = f.tokens ∧
    (f.setDuration i d).lines.length = f.lines.length := by
  unfold setDuration
  cases h : f.lines[i]? <;> simp

theorem primaryPath_none (ts : List HumdrumToken) (fuel : Nat) :
    primaryPath ts fuel none = [] := by
  cases fuel <;> rfl

theorem primaryPath_lineIndex (ts : List HumdrumToken) (n : Nat)
    (hwl : ∀ (i : Nat) (t : HumdrumToken), ts[i]? = some t →
      t.lineIndex < n ∧
      ∀ j, j ∈ t.nextTokens → ∃ u, ts[j]? = some u ∧ t.lineIndex < u.lineIndex) :
    ∀ (fuel c : Nat) (tc : HumdrumToken), ts[c]? = some tc →
      ∀ tok t, tok ∈ primaryPath ts fuel (some c) → ts[tok]? = some t →
        tc.lineIndex ≤ t.lineIndex := by
  intro fuel
  induction fuel with
  | zero => intro c tc _ tok t h; simp [primaryPath] at h
  | succ fuel ih =>
    intro c tc hc tok t h ht
    simp only [primaryPath, hc, List.mem_cons] at h
    rcases h with h | h
    · subst h
      rw [hc] at ht
      cases ht
      exact le_refl _
    · cases hn : tc.nextTokens with
      | nil => simp [hn, primaryPath_none] at h
      | cons n0 rest =>
        simp only [hn, List.head?_cons] at h
        obtain ⟨u, hu, hlu⟩ := (hwl c tc hc).2 n0 (by simp [hn])
        have := ih n0 u hu tok t h ht
        omega


theorem recipWalk_spec (ts : List HumdrumToken) (n : Nat)
    (hwl : ∀ (i : Nat) (t : HumdrumToken), ts[i]? = some t →
      t.lineIndex < n ∧
      ∀ j, j ∈ t.nextTokens → ∃ u, ts[j]? = some u ∧ t.lineIndex < u.lineIndex) :
    ∀ (fuel : Nat) (f : HumdrumFile) (c : Nat) (tc : HumdrumToken),
      f.tokens = ts → f.lines.length = n → ts[c]? = some tc →
      n - tc.lineIndex ≤ fuel →
      ∃ g, recipWalk fuel f (some c) = some g ∧
        g.tokens = ts ∧ g.lines.length = n ∧
        (∀ tok t, tok ∈ primaryPath ts fuel (some c) → ts[tok]? = some t →
          t.isData = true → t.isNull = false →
          g.duration t.lineIndex = if t.hasQ = true then 0 else t.recip) ∧
        (∀ i, (∀ tok t, tok ∈ primaryPath ts fuel (some c) → ts[tok]? = some t →
            t.isData = true → t.isNull = false → t.lineIndex ≠ i) →
          g.duration i = f.duration i) := by
  intro fuel
  induction fuel with
  | zero =>
    intro f c tc _ _ hc hfuel
    have := (hwl c tc hc).1
    omega
  | succ fuel ih =>
    intro f c tc hts hlen hc hfuel
    have hc' : f.tokens[c]? = some tc := by rw [hts]; exact hc
    obtain ⟨hcl, hcn⟩ := hwl c tc hc
    -- the rest of the walk, from any file with the same tokens and line count
    have rest : ∀ (f1 : HumdrumFile), f1.tokens = ts → f1.lines.length = n →
        ∃ g, recipWalk fuel f1 tc.nextTokens.head? = some g ∧
          g.tokens = ts ∧ g.lines.length = n ∧
          (∀ tok t, tok ∈ primaryPath ts fuel tc.nextTokens.head? → ts[tok]? = some t →
            t.isData = true → t.isNull = false →
            g.duration t.lineIndex = if t.hasQ = true then 0 else t.recip) ∧
          (∀ i, (∀ tok t, tok ∈ primaryPath ts fuel tc.nextTokens.head? →
              ts[tok]? = some t → t.isData = true → t.isNull = false →
              t.lineIndex ≠ i) →
            g.duration i = f1.duration i) := by
      intro f1 h1 h2
      cases hn : tc.nextTokens with
      | nil =>
        refine ⟨f1, by cases fuel <;> simp [recipWalk], h1, h2, ?_, fun i _ => rfl⟩
        intro tok t htok
        simp [primaryPath_none] at htok
      | cons n0 more =>
        obtain ⟨u, hu, hlu⟩ := hcn n0 (by simp [hn])
        simpa using ih f1 n0 u h1 h2 hu (by omega)
    have later : ∀ tok t, tok ∈ primaryPath ts fuel tc.nextTokens.head? →
        ts[tok]? = some t → tc.lineIndex < t.lineIndex := by
      intro tok t htok ht
      cases hn : tc.nextTokens with
      | nil => simp [hn, primaryPath_none] at htok
      | cons n0 more =>
        simp only [hn, List.head?_cons] at htok
        obtain ⟨u, hu, hlu⟩ := hcn n0 (by simp [hn])
        have := primaryPath_lineIndex ts n hwl fuel n0 u hu tok t htok ht
        omega
    simp only [recipWalk, hc', primaryPath, hc, List.mem_cons]
    by_cases hd : tc.isData = true
    · by_cases hnull : tc.isNull = true
      · simp only [hd, hnull, Bool.not_true, Bool.false_eq_true, if_false, if_true]
        obtain ⟨g, r1, r2, r3, r4, r5⟩ := rest f hts hlen
        refine ⟨g, r1, r2, r3, ?_, ?_⟩
        · intro tok t htok ht h1 h2
          rcases htok with htok | htok
          · subst htok
            rw [hc] at ht; cases ht
            rw [hnull] at h2; cases h2
          · exact r4 tok t htok ht h1 h2
        · intro i hi
          exact r5 i (fun tok t htok => hi tok t (Or.inr htok))
      · simp only [hd, hnull, Bool.not_true, Bool.false_eq_true, if_false]
        obtain ⟨s1, s2⟩ := setDuration_frame f tc.lineIndex
          (if tc.hasQ = true then 0 else tc.recip)
        obtain ⟨g, r1, r2, r3, r4, r5⟩ := rest _ (s1.trans hts) (s2.trans hlen)
        refine ⟨g, r1, r2, r3, ?_, ?_⟩
        · intro tok t htok ht h1 h2
          rcases htok with htok | htok
          · subst htok
            rw [hc] at ht; cases ht
            rw [r5 tc.lineIndex (fun tok2 t2 htok2 ht2 _ _ => by
              have := later tok2 t2 htok2 ht2; omega)]
            rw [duration_setDuration]
            simp [hlen, hcl]
          · exact r4 tok t htok ht h1 h2
        · intro i hi
          rw [r5 i (fun tok t htok => hi tok t (Or.inr htok)), duration_setDuration]
          have hne : tc.lineIndex ≠ i := hi c tc (Or.inl rfl) hc hd (by simpa using hnull)
          simp [hne]
    · simp only [hd, Bool.not_false, if_true]
      obtain ⟨g, r1, r2, r3, r4, r5⟩ := rest f hts hlen
      refine ⟨g, r1, r2, r3, ?_, ?_⟩
      · intro tok t htok ht h1 h2
        rcases htok with htok | htok
        · subst htok
          rw [hc] at ht; cases ht
          exact absurd h1 hd
        · exact r4 tok t htok ht h1 h2
      · intro i hi
        exact r5 i (fun tok t htok => hi tok t (Or.inr htok))


theorem duration_eq_durAt (f : HumdrumFile) (i : Nat) :
    f.duration i = durAt f.lines i := rfl

@[simp] theorem durAt_cons_zero (l : HumdrumLine) (ls : List HumdrumLine) :
    durAt (l :: ls) 0 = l.duration := by
  simp [durAt]

@[simp] theorem durAt_cons_succ (l : HumdrumLine) (ls : List HumdrumLine) (i : Nat) :
    durAt (l :: ls) (i + 1) = durAt ls i := by
  simp [durAt]

theorem recipSums_length (ls : List HumdrumLine) :
    ∀ s, (recipSums s ls).length = ls.length := by
  induction ls with
  | nil => intro s; rfl
  | cons l rest ih => intro s; simp [recipSums, ih]

theorem recipSums_duration (ls : List HumdrumLine) :
    ∀ s i, i < ls.length →
      durAt (recipSums s ls) i = if durAt ls i < 0 then 0 else durAt ls i := by
  induction ls with
  | nil => intro s i hi; simp at hi
  | cons l rest ih =>
    intro s i hi
    cases i with
    | zero => simp [recipSums]
    | succ i => simpa [recipSums] using ih _ i (by simpa using hi)

theorem recipSums_start (ls : List HumdrumLine) (s : Rat) (h : 0 < ls.length) :
    dfsAt (recipSums s ls) 0 = s := by
  cases ls with
  | nil => simp at h
  | cons l rest => simp [recipSums]

theorem recipSums_step (ls : List HumdrumLine) :
    ∀ s i, i + 1 < ls.length →
      dfsAt (recipSums s ls) (i + 1) =
        dfsAt (recipSums s ls) i + durAt (recipSums s ls) i := by
  induction ls with
  | nil => intro s i hi; simp at hi
  | cons l rest ih =>
    intro s i hi
    cases i with
    | zero =>
      have hr : 0 < rest.length := by simpa using hi
      simp [recipSums, recipSums_start rest _ hr]
    | succ i => simpa [recipSums] using ih _ i (by simpa using hi)

theorem dfsAt_durAt_of_map_eq (ls ms : List HumdrumLine)
    (h : ms.map (fun l => (l.durationFromStart, l.duration)) =
      ls.map (fun l => (l.durationFromStart, l.duration))) (i : Nat) :
    dfsAt ms i = dfsAt ls i ∧ durAt ms i = durAt ls i := by
  have hi := congrArg (fun xs => xs[i]?) h
  simp only [List.getElem?_map] at hi
  unfold dfsAt durAt
  cases h1 : ms[i]? <;> cases h2 : ls[i]? <;> simp [h1, h2] at hi ⊢
  exact hi

theorem meterForward_frame (ls : List HumdrumLine) :
    ∀ (i : Nat) (sum : Rat) (found : Bool) (bars : List Nat),
      (meterForward ls i sum found bars).1.map
          (fun l => (l.durationFromStart, l.duration)) =
        ls.map (fun l => (l.durationFromStart, l.duration)) := by
  induction ls with
  | nil => intro i sum found bars; rfl
  | cons l rest ih => intro i sum found bars; simp [meterForward, ih]

theorem meterBackward_frame (ls : List HumdrumLine) :
    (meterBackward ls).1.map (fun l => (l.durationFromStart, l.duration)) =
      ls.map (fun l => (l.durationFromStart, l.duration)) := by
  induction ls with
  | nil => rfl
  | cons l rest ih => simp [meterBackward, ih]

theorem analyzeMeter_frame (f : HumdrumFile) :
    f.analyzeMeter.lines.length = f.lines.length ∧
    (∀ i, f.analyzeMeter.durationFromStart i = f.durationFromStart i) ∧
    (∀ i, f.analyzeMeter.duration i = f.duration i) ∧
    f.analyzeMeter.tokens = f.tokens ∧ f.analyzeMeter.valid = f.valid ∧
    f.analyzeMeter.diagnostics = f.diagnostics := by
  have hmap : f.analyzeMeter.lines.map (fun l => (l.durationFromStart, l.duration)) =
      f.lines.map (fun l => (l.durationFromStart, l.duration)) := by
    unfold analyzeMeter
    simp only [meterBackward_frame, meterForward_frame]
  refine ⟨?_, fun i => (dfsAt_durAt_of_map_eq _ _ hmap i).1,
    fun i => (dfsAt_durAt_of_map_eq _ _ hmap i).2, rfl, rfl, rfl⟩
  have := congrArg List.length hmap
  simpa using this


/-- C3 (amended): on a well-linked file, with `recipToDuration` non-negative on
the tokens of the walk, `assignRhythmFromRecip` returns and
* every line holding a non-null data token of the primary path of the spine
  (the tokens reached from the spine start through `getNextToken()`) gets the
  duration `recipToDuration(token)`, or `0` when the token text contains `q`;
* every other line keeps its duration when it is non-negative and gets `0`
  when it is negative;
* `durationFromStart` is the running sum: `0` on the first line and
  `durationFromStart(i) + duration(i)` on line `i + 1`. -/
theorem assignRhythmFromRecip_spec (f : HumdrumFile) (spinestart : Nat) (nonNull : Bool)
    (t0 : HumdrumToken) (hs : f.tokens[spinestart]? = some t0)
    (hwl : f.wellLinked = true)
    (hrecip : ∀ tok t, tok ∈ primaryPath f.tokens f.walkBound (some spinestart) →
      f.tokens[tok]? = some t → 0 ≤ t.recip) :
    ∃ g, f.assignRhythmFromRecip spinestart nonNull = some (nonNull, g) ∧
      g.lines.length = f.lines.length ∧
      (∀ tok t, tok ∈ primaryPath f.tokens f.walkBound (some spinestart) →
        f.tokens[tok]? = some t → t.isData = true → t.isNull = false →
        g.duration t.lineIndex = if t.hasQ = true then 0 else t.recip) ∧
      (∀ i, i < f.lines.length →
        (∀ tok t, tok ∈ primaryPath f.tokens f.walkBound (some spinestart) →
          f.tokens[tok]? = some t → t.isData = true → t.isNull = false →
          t.lineIndex ≠ i) →
        g.duration i = if f.duration i < 0 then 0 else f.duration i) ∧
      (0 < f.lines.length → g.durationFromStart 0 = 0) ∧
      (∀ i, i + 1 < f.lines.length →
        g.durationFromStart (i + 1) = g.durationFromStart i + g.duration i) := by
  have hwl' := wellLinked_spec f hwl
  obtain ⟨g1, w1, w2, w3, w4, w5⟩ := recipWalk_spec f.tokens f.lines.length hwl'
    f.walkBound f spinestart t0 rfl rfl hs (by unfold walkBound; omega)
  obtain ⟨m1, m2, m3, _⟩ :=
    analyzeMeter_frame ({ g1 with lines := recipSums 0 g1.lines } : HumdrumFile)
  simp only [durationFromStart_eq_dfsAt, duration_eq_durAt] at m2 m3 w4 w5
  refine ⟨({ g1 with lines := recipSums 0 g1.lines } : HumdrumFile).analyzeMeter,
    by simp only [assignRhythmFromRecip, w1], ?_, ?_, ?_, ?_, ?_⟩
  · rw [m1]; simp only [recipSums_length]; exact w3
  · intro tok t htok ht hd hn
    have hl : t.lineIndex < g1.lines.length := by rw [w3]; exact (hwl' tok t ht).1
    simp only [duration_eq_durAt]
    rw [m3, recipSums_duration _ _ _ hl, w4 tok t htok ht hd hn]
    have h0 : ¬ (if t.hasQ = true then (0 : Rat) else t.recip) < 0 := by
      have := hrecip tok t htok ht
      split <;> simp [this]
    rw [if_neg h0]
  · intro i hi hnot
    simp only [duration_eq_durAt]
    rw [m3, recipSums_duration _ _ _ (by rw [w3]; exact hi), w5 i hnot]
  · intro h0
    simp only [durationFromStart_eq_dfsAt]
    rw [m2]
    exact recipSums_start _ _ (by rw [w3]; exact h0)
  · intro i hi
    simp only [durationFromStart_eq_dfsAt, duration_eq_durAt]
    rw [m2, m2, m3]
    exact recipSums_step _ _ _ (by rw [w3]; exact hi)

theorem recipQuarters_run :
    (recipQuarters.assignRhythmFromRecip 0 true).map
      (fun r => ([1, 2, 3, 4].map r.2.durationFromStart, [1, 2, 3, 4].map r.2.duration,
        r.2.getScoreDuration)) =
    some ([0, 1, 2, 3], [1, 1, 1, 1], 4) := by
  decide!

/-- Witness of C3 (amended) on `recipQuarters`: the four data lines get
`durationFromStart` `0, 1, 2, 3` and durations `1, 1, 1, 1`, and the score
duration is `4`. -/
theorem assignRhythmFromRecip_spec_witness :
    recipQuarters.getSpineStart 0 = some 0 ∧ recipQuarters.wellLinked = true ∧
    ∃ g, recipQuarters.assignRhythmFromRecip 0 true = some (true, g) ∧
      [1, 2, 3, 4].map g.durationFromStart = [0, 1, 2, 3] ∧
      [1, 2, 3, 4].map g.duration = [1, 1, 1, 1] ∧
      g.getScoreDuration = 4 := by
  refine ⟨by decide, by decide, ?_⟩
  obtain ⟨g, h, _⟩ := assignRhythmFromRecip_spec recipQuarters 0 true _ rfl (by decide)
    (fun tok t htok ht =>
      (show ∀ t ∈ recipQuarters.tokens, 0 ≤ t.recip by decide!) t (List.getElem?_mem ht))
  have hrun := recipQuarters_run
  rw [h] at hrun
  simp only [Option.map_some', Option.some.injEq, Prod.mk.injEq] at hrun
  exact ⟨g, h, hrun.1, hrun.2.1, hrun.2.2⟩

/-- C3 as stated fails on a `**recip` spine that splits: in `recipSplit` line 2
holds the non-null data token `4` (token 3, reached from the spine start through
the tokens 0 and 1, `recipToDuration` equal to `1`, no `q`), but the walk
follows the primary subspine only and the line ends with duration `0`. -/
theorem assignRhythmFromRecip_counterexample :
    recipSplit.getSpineStart 0 = some 0 ∧
    (recipSplit.tokens[0]?).map (fun t => t.isRecip) = some true ∧
    isNextPath recipSplit.tokens 0 [0, 1] 3 ∧
    (recipSplit.tokens[3]?).map
        (fun t => (t.lineIndex, t.isData, t.isNull, t.hasQ, t.recip)) =
      some (2, true, false, false, 1) ∧
    (recipSplit.assignRhythmFromRecip 0 true).map (fun r => (r.1, r.2.duration 2)) =
      some (true, 0) := by
  refine ⟨by decide, by decide, ?_, by decide!, by decide!⟩
  exact ⟨rfl, _, 1, rfl, by decide, rfl, _, 3, rfl, by decide, rfl⟩

theorem fillBackward_sorted (ls : List HumdrumLine)
    (hmono : ∀ i j, i < j → j < ls.length → 0 ≤ dfsAt ls i → 0 ≤ dfsAt ls j →
      dfsAt ls i ≤ dfsAt ls j) :
    (∀ i, i + 1 < ls.length → 0 ≤ dfsAt (fillBackward ls).1 i →
      0 ≤ dfsAt (fillBackward ls).1 (i + 1) →
      dfsAt (fillBackward ls).1 i ≤ dfsAt (fillBackward ls).1 (i + 1)) ∧
    (∀ i, i < ls.length → 0 ≤ dfsAt (fillBackward ls).1 i →
      ∃ j, i ≤ j ∧ j < ls.length ∧ 0 ≤ dfsAt ls j ∧
        dfsAt (fillBackward ls).1 i = dfsAt ls j) ∧
    (0 ≤ (fillBackward ls).2 →
      0 < ls.length ∧ dfsAt (fillBackward ls).1 0 = (fillBackward ls).2) := by
  induction ls with
  | nil =>
    refine ⟨fun i hi => by simp at hi, fun i hi => by simp at hi, fun h => ?_⟩
    simp [fillBackward] at h
    exact absurd h (by norm_num)
  | cons l rest ih =>
    have hmono' : ∀ i j, i < j → j < rest.length → 0 ≤ dfsAt rest i → 0 ≤ dfsAt rest j →
        dfsAt rest i ≤ dfsAt rest j := fun i j hij hj h1 h2 => by
      simpa using hmono (i + 1) (j + 1) (by omega) (by simpa using hj)
        (by simpa using h1) (by simpa using h2)
    obtain ⟨c, e, f⟩ := ih hmono'
    have hlen := fillBackward_length rest
    by_cases h0 : 0 ≤ l.durationFromStart
    · -- the line is resolved and kept
      have hfb : fillBackward (l :: rest) = (l :: (fillBackward rest).1, l.durationFromStart) := by
        simp [fillBackward, h0, not_lt.mpr h0]
      rw [hfb]
      refine ⟨?_, ?_, fun _ => ⟨by simp, by simp⟩⟩
      · intro i hi a1 a2
        cases i with
        | zero =>
          simp only [dfsAt_cons_zero, dfsAt_cons_succ] at a1 a2 ⊢
          obtain ⟨j, _, hj2, hj3, hj4⟩ := e 0 (by simpa using hi) a2
          rw [hj4]
          simpa using hmono 0 (j + 1) (by omega) (by simpa using hj2) (by simpa using h0)
            (by simpa using hj3)
        | succ i =>
          simp only [dfsAt_cons_succ] at a1 a2 ⊢
          exact c i (by simpa using hi) a1 a2
      · intro i hi a1
        cases i with
        | zero => exact ⟨0, le_refl _, by simp, by simpa using h0, by simp⟩
        | succ i =>
          simp only [dfsAt_cons_succ] at a1 ⊢
          obtain ⟨j, hj1, hj2, hj3, hj4⟩ := e i (by simpa using hi) a1
          exact ⟨j + 1, by omega, by simpa using hj2, by simpa using hj3, by simpa using hj4⟩
    · by_cases hd : 0 ≤ (fillBackward rest).2
      · -- the line is unresolved and takes the next resolved value
        have hfb : fillBackward (l :: rest) =
            ({ l with durationFromStart := (fillBackward rest).2 } :: (fillBackward rest).1,
              (fillBackward rest).2) := by
          simp [fillBackward, h0, not_le.mp h0, hd]
        obtain ⟨f1, f2⟩ := f hd
        rw [hfb]
        refine ⟨?_, ?_, fun _ => ⟨by simp, by simp⟩⟩
        · intro i hi a1 a2
          cases i with
          | zero =>
            simp only [dfsAt_cons_zero, dfsAt_cons_succ]
            rw [f2]
          | succ i =>
            simp only [dfsAt_cons_succ] at a1 a2 ⊢
            exact c i (by simpa using hi) a1 a2
        · intro i hi a1
          cases i with
          | zero =>
            obtain ⟨j, _, hj2, hj3, hj4⟩ := e 0 f1 (by rw [f2]; exact hd)
            refine ⟨j + 1, by omega, by simpa using hj2, by simpa using hj3, ?_⟩
            simp only [dfsAt_cons_zero, dfsAt_cons_succ]
            rw [← hj4, f2]
          | succ i =>
            simp only [dfsAt_cons_succ] at a1 ⊢
            obtain ⟨j, hj1, hj2, hj3, hj4⟩ := e i (by simpa using hi) a1
            exact ⟨j + 1, by omega, by simpa using hj2, by simpa using hj3,
              by simpa using hj4⟩
      · -- nothing resolved from here on
        have hfb : fillBackward (l :: rest) = (l :: (fillBackward rest).1, (fillBackward rest).2) := by
          simp [fillBackward, h0, hd]
        rw [hfb]
        refine ⟨?_, ?_, fun h => absurd h hd⟩
        · intro i hi a1 a2
          cases i with
          | zero => exact absurd (by simpa using a1) h0
          | succ i =>
            simp only [dfsAt_cons_succ] at a1 a2 ⊢
            exact c i (by simpa using hi) a1 a2
        · intro i hi a1
          cases i with
          | zero => exact absurd (by simpa using a1) h0
          | succ i =>
            simp only [dfsAt_cons_succ] at a1 ⊢
            obtain ⟨j, hj1, hj2, hj3, hj4⟩ := e i (by simpa using hi) a1
            exact ⟨j + 1, by omega, by simpa using hj2, by simpa using hj3,
              by simpa using hj4⟩

theorem fillBackward_trailing (ls : List HumdrumLine) :
    ∀ i, i + 1 < ls.length → dfsAt (fillBackward ls).1 i < 0 →
      dfsAt (fillBackward ls).1 (i + 1) < 0 := by
  induction ls with
  | nil => intro i hi; simp at hi
  | cons l rest ih =>
    intro i hi hneg
    cases i with
    | zero =>
      by_contra hc
      have hpos : 0 ≤ dfsAt (fillBackward rest).1 0 := by
        simpa [fillBackward] using not_lt.mp hc
      -- some line of `rest` is resolved, hence `lastdur` is resolved
      have hex : ∃ j, j < rest.length ∧ 0 ≤ dfsAt rest j := by
        by_contra hno
        have hall : ∀ k, 0 ≤ k → k < rest.length → dfsAt rest k < 0 := by
          intro k _ hk
          by_contra hk2
          exact hno ⟨k, hk, not_lt.mp hk2⟩
        rw [fillBackward_tail rest 0 hall] at hpos
        exact absurd hpos (not_le.mpr (hall 0 (le_refl _) (by simpa using hi)))
      obtain ⟨j, hj, hjp⟩ := hex
      have hd := fillBackward_snd_nonneg rest j hj hjp
      simp only [fillBackward, dfsAt_cons_zero] at hneg
      by_cases h0 : l.durationFromStart < 0
      · simp [h0, hd] at hneg
        exact absurd hd (not_le.mpr hneg)
      · simp [h0] at hneg
    | succ i =>
      simp only [fillBackward, dfsAt_cons_succ] at hneg ⊢
      exact ih i (by simpa using hi) hneg

theorem fillForward_all_neg (ls : List HumdrumLine) :
    ∀ d i, i < ls.length → (∀ k, k + 1 < ls.length → dfsAt ls k < 0 → dfsAt ls (k + 1) < 0) →
      dfsAt ls 0 < 0 → dfsAt (fillForward d ls) i = d := by
  intro d i hi htrail h0
  apply fillForward_none ls d i hi
  intro k hk
  induction k with
  | zero => exact h0
  | succ k ihk => exact htrail k (by omega) (ihk (by omega))

theorem fillForward_sorted (ls : List HumdrumLine) :
    ∀ d, (∀ k, k + 1 < ls.length → dfsAt ls k < 0 → dfsAt ls (k + 1) < 0) →
      (∀ k, k + 1 < ls.length → 0 ≤ dfsAt ls k → 0 ≤ dfsAt ls (k + 1) →
        dfsAt ls k ≤ dfsAt ls (k + 1)) →
      ∀ i, i + 1 < ls.length →
        dfsAt (fillForward d ls) i ≤ dfsAt (fillForward d ls) (i + 1) := by
  induction ls with
  | nil => intro d _ _ i hi; simp at hi
  | cons l rest ih =>
    intro d htrail hsort i hi
    have htrail' : ∀ k, k + 1 < rest.length → dfsAt rest k < 0 → dfsAt rest (k + 1) < 0 :=
      fun k hk h => by simpa using htrail (k + 1) (by simpa using hk) (by simpa using h)
    have hsort' : ∀ k, k + 1 < rest.length → 0 ≤ dfsAt rest k → 0 ≤ dfsAt rest (k + 1) →
        dfsAt rest k ≤ dfsAt rest (k + 1) :=
      fun k hk h1 h2 => by
        simpa using hsort (k + 1) (by simpa using hk) (by simpa using h1) (by simpa using h2)
    have hr : 0 < rest.length := by simp at hi; omega
    by_cases h0 : 0 ≤ l.durationFromStart
    · cases i with
      | zero =>
        simp only [fillForward, h0, if_true, dfsAt_cons_zero, dfsAt_cons_succ]
        by_cases h1 : 0 ≤ dfsAt rest 0
        · rw [fillForward_keep rest _ 0 h1]
          simpa using hsort 0 (by simpa using hi) (by simpa using h0) (by simpa using h1)
        · rw [fillForward_all_neg rest _ 0 hr htrail' (not_le.mp h1)]
      | succ i =>
        simp only [fillForward, h0, if_true, dfsAt_cons_succ]
        exact ih _ htrail' hsort' i (by simpa using hi)
    · have h1 : dfsAt rest 0 < 0 := by
        simpa using htrail 0 (by simpa using hr) (by simpa using not_le.mp h0)
      cases i with
      | zero =>
        simp only [fillForward, h0, if_false, dfsAt_cons_zero, dfsAt_cons_succ]
        rw [fillForward_all_neg rest _ 0 hr htrail' h1]
      | succ i =>
        simp only [fillForward, h0, if_false, dfsAt_cons_succ]
        exact ih _ htrail' hsort' i (by simpa using hi)

theorem fillInNegativeStartTimes_sorted (h : HumdrumFile)
    (hmono : ∀ i j, i < j → j < h.lines.length → 0 ≤ h.durationFromStart i →
      0 ≤ h.durationFromStart j → h.durationFromStart i ≤ h.durationFromStart j) :
    ∀ i, i + 1 < h.lines.length →
      h.fillInNegativeStartTimes.durationFromStart i ≤
        h.fillInNegativeStartTimes.durationFromStart (i + 1) := by
  simp only [durationFromStart_eq_dfsAt] at hmono ⊢
  intro i hi
  unfold fillInNegativeStartTimes
  have hlen := fillBackward_length h.lines
  exact fillForward_sorted _ _
    (fun k hk => fillBackward_trailing h.lines k (by rw [← hlen]; exact hk))
    (fun k hk => (fillBackward_sorted h.lines hmono).1 k (by rw [← hlen]; exact hk))
    i (by rw [hlen]; exact hi)


theorem analyzeRhythmSpines_valid (f h : HumdrumFile)
    (hs : f.analyzeRhythmSpines = some (true, h)) : h.isValid = true := by
  unfold analyzeRhythmSpines at hs
  split at hs
  · cases hs
  · split at hs
    · cases hs
    · dsimp only at hs
      split at hs
      · cases hs
      · cases hs
      · split at hs
        · cases hs
        · cases hs
        · split at hs
          · cases hs
          · next hv =>
            simp only [Option.some.injEq, Prod.mk.injEq, true_and] at hs
            subst hs
            simpa using hv

theorem fillInNegativeStartTimes_length (h : HumdrumFile) :
    h.fillInNegativeStartTimes.lines.length = h.lines.length := by
  unfold fillInNegativeStartTimes
  rw [fillForward_length, fillBackward_length]

theorem assignLineDurations_sorted_iff (h : HumdrumFile) :
    (∀ i, i + 1 < h.lines.length →
        h.durationFromStart i ≤ h.durationFromStart (i + 1)) ↔
      (∀ i, i < h.lines.length → 0 ≤ h.assignLineDurations.duration i) := by
  have hdur : ∀ i, i + 1 < h.lines.length → h.assignLineDurations.duration i =
      h.durationFromStart (i + 1) - h.durationFromStart i := by
    intro i hi
    have h0 : i < h.lines.length := by omega
    have e0 : h.lines[i]? = some h.lines[i] := List.getElem?_eq_getElem h0
    have e1 : h.lines[i + 1]? = some h.lines[i + 1] := List.getElem?_eq_getElem hi
    unfold HumdrumFile.duration HumdrumFile.durationFromStart assignLineDurations
    simp [assignLineDurationsLoop_getElem? h.lines i _ e0, e0, e1]
  have hlast : ∀ i, i + 1 = h.lines.length → h.assignLineDurations.duration i = 0 := by
    intro i hi
    have h0 : i < h.lines.length := by omega
    have e0 : h.lines[i]? = some h.lines[i] := List.getElem?_eq_getElem h0
    have e1 : h.lines[i + 1]? = none := by
      rw [List.getElem?_eq_none_iff]; omega
    unfold HumdrumFile.duration assignLineDurations
    simp [assignLineDurationsLoop_getElem? h.lines i _ e0, e1]
  constructor
  · intro hs i hi
    by_cases hl : i + 1 < h.lines.length
    · rw [hdur i hl]; linarith [hs i hl]
    · rw [hlast i (by omega)]
  · intro hd i hi
    have := hd i (by omega)
    rw [hdur i hi] at this
    linarith

theorem assignLineDurations_durationFromStart (h : HumdrumFile) (i : Nat) :
    h.assignLineDurations.durationFromStart i = h.durationFromStart i := by
  unfold HumdrumFile.durationFromStart assignLineDurations
  cases hl : h.lines[i]? with
  | none =>
    have : (assignLineDurationsLoop h.lines)[i]? = none := by
      rw [List.getElem?_eq_none_iff] at hl ⊢
      rw [assignLineDurationsLoop_length]; exact hl
    simp [this]
  | some l => simp [assignLineDurationsLoop_getElem? h.lines i l hl]

/-- C1 (amended): when `analyzeRhythm` returns `true` on a file with at least one
track, the file is valid and the result is the state `h` left by the spine
passes (track loops and `analyzeNullLineRhythms`) followed by
`fillInNegativeStartTimes`, `assignLineDurations` and `analyzeMeter`.  On that
result `durationFromStart` is non-decreasing across consecutive lines exactly
when every line duration is non-negative, and both hold whenever the values
already resolved in `h` (the non-negative ones) are non-decreasing in line
order, which is what `analyzeRhythm` does not check. -/
theorem analyzeRhythm_monotone (f : HumdrumFile) (nonNull : Bool) (g : HumdrumFile)
    (hrun : f.analyzeRhythm nonNull = some (true, g)) (hne : f.getMaxTrack ≠ 0) :
    ∃ h, f.setLineRhythmAnalyzed.analyzeRhythmSpines = some (true, h) ∧
      g = h.fillInNegativeStartTimes.assignLineDurations.analyzeMeter ∧
      g.isValid = true ∧
      ((∀ i, i + 1 < g.lines.length →
          g.durationFromStart i ≤ g.durationFromStart (i + 1)) ↔
        (∀ i, i < g.lines.length → 0 ≤ g.duration i)) ∧
      ((∀ i j, i < j → j < h.lines.length → 0 ≤ h.durationFromStart i →
          0 ≤ h.durationFromStart j → h.durationFromStart i ≤ h.durationFromStart j) →
        (∀ i, i + 1 < g.lines.length →
          g.durationFromStart i ≤ g.durationFromStart (i + 1))) := by
  have hne' : ¬ f.setLineRhythmAnalyzed.getMaxTrack = 0 := hne
  unfold analyzeRhythm at hrun
  simp only [hne', if_false] at hrun
  cases hs : f.setLineRhythmAnalyzed.analyzeRhythmSpines with
  | none => simp [hs] at hrun
  | some r =>
    obtain ⟨b, h⟩ := r
    cases b with
    | false => simp [hs] at hrun
    | true =>
      simp only [hs] at hrun
      have hg : g = h.fillInNegativeStartTimes.assignLineDurations.analyzeMeter := by
        split at hrun
        · cases hrun
        · exact (Prod.mk.inj (Option.some.inj hrun)).2.symm
      obtain ⟨m1, m2, m3, _, m5, _⟩ :=
        analyzeMeter_frame h.fillInNegativeStartTimes.assignLineDurations
      have hlen : g.lines.length = h.lines.length := by
        rw [hg, m1]
        exact (assignLineDurationsLoop_length _).trans (fillInNegativeStartTimes_length h)
      have hlen2 : h.fillInNegativeStartTimes.assignLineDurations.lines.length =
          h.fillInNegativeStartTimes.lines.length := assignLineDurationsLoop_length _
      have hdfs : ∀ i, g.durationFromStart i =
          h.fillInNegativeStartTimes.durationFromStart i := by
        intro i; rw [hg, m2, assignLineDurations_durationFromStart]
      have hdur : ∀ i, g.duration i =
          h.fillInNegativeStartTimes.assignLineDurations.duration i := by
        intro i; rw [hg, m3]
      refine ⟨h, rfl, hg, ?_, ?_, ?_⟩
      · rw [hg]
        have := analyzeRhythmSpines_valid _ h hs
        unfold isValid at this ⊢
        rw [m5]
        exact this
      · have key := assignLineDurations_sorted_iff h.fillInNegativeStartTimes
        rw [fillInNegativeStartTimes_length] at key
        simp only [hdfs, hdur, hlen]
        exact key
      · intro hmono i hi
        rw [hdfs, hdfs]
        exact fillInNegativeStartTimes_sorted h hmono i (by rw [← hlen]; exact hi)

theorem twoEndings_run :
    (twoEndings.analyzeRhythm true).map
      (fun r => (r.1, r.2.isValid, r.2.lines.length, r.2.durationFromStart 3,
        r.2.durationFromStart 4)) =
    some (true, true, 6, 8, 1) := by
  decide!

/-- C1 as stated fails: on `twoEndings` the two spines end on different lines,
no line receives two different offers, `analyzeRhythm` returns `true` with the
file valid, and `durationFromStart` drops from `8` on line 3 to `1` on line 4. -/
theorem analyzeRhythm_counterexample :
    ¬ (∀ (f g : HumdrumFile) (nonNull : Bool),
        f.analyzeRhythm nonNull = some (true, g) → g.isValid = true →
        ∀ i, i + 1 < g.lines.length →
          g.durationFromStart i ≤ g.durationFromStart (i + 1)) := by
  intro hclaim
  have hrun := twoEndings_run
  cases hr : twoEndings.analyzeRhythm true with
  | none => rw [hr] at hrun; cases hrun
  | some r =>
    obtain ⟨b, g⟩ := r
    rw [hr] at hrun
    simp only [Option.map_some', Option.some.injEq, Prod.mk.injEq] at hrun
    obtain ⟨h1, h2, h3, h4, h5⟩ := hrun
    subst h1
    have := hclaim twoEndings g true hr h2 3 (by rw [h3]; decide)
    rw [h4, h5] at this
    exact absurd this (by norm_num)

theorem splitSpine_rhythm_run :
    (splitSpine.analyzeRhythm true).map
      (fun r => (r.1, r.2.lines.map (fun l => l.durationFromStart),
        r.2.lines.map (fun l => l.duration))) =
    some (true, [0, 0, 0, 1, 2, 2], [0, 0, 1, 1, 0, 0]) := by
  decide!

theorem durAt_of_map (ls : List HumdrumLine) (vs : List Rat)
    (h : ls.map (fun l => l.duration) = vs) (i : Nat) :
    durAt ls i = (vs[i]?).getD (-1) := by
  subst h
  unfold durAt
  rw [List.getElem?_map]
  cases ls[i]? <;> rfl

theorem dfsAt_of_map (ls : List HumdrumLine) (vs : List Rat)
    (h : ls.map (fun l => l.durationFromStart) = vs) (i : Nat) :
    dfsAt ls i = (vs[i]?).getD (-1) := by
  subst h
  unfold dfsAt
  rw [List.getElem?_map]
  cases ls[i]? <;> rfl

theorem splitSpine_spines_run :
    (splitSpine.setLineRhythmAnalyzed.analyzeRhythmSpines).map
      (fun r => r.2.lines.map (fun l => l.durationFromStart)) =
    some [-1, -1, 0, 1, -1, 2] := by
  decide!

/-- Witness of C1 (amended) on `splitSpine`: the spine passes resolve the lines
2, 3 and 5 to `0, 1, 2`, in order, and the result of `analyzeRhythm` has a
non-decreasing `durationFromStart` and non-negative line durations. -/
theorem analyzeRhythm_monotone_witness :
    splitSpine.getMaxTrack ≠ 0 ∧
    ∃ g, splitSpine.analyzeRhythm true = some (true, g) ∧
      (∀ i, i + 1 < g.lines.length →
        g.durationFromStart i ≤ g.durationFromStart (i + 1)) ∧
      (∀ i, i < g.lines.length → 0 ≤ g.duration i) := by
  refine ⟨by decide, ?_⟩
  have hrun := splitSpine_rhythm_run
  cases hr : splitSpine.analyzeRhythm true with
  | none => rw [hr] at hrun; cases hrun
  | some r =>
    obtain ⟨b, g⟩ := r
    rw [hr] at hrun
    simp only [Option.map_some', Option.some.injEq, Prod.mk.injEq] at hrun
    obtain ⟨h1, _, _⟩ := hrun
    subst h1
    obtain ⟨h, hs, _, _, hiff, hmono⟩ :=
      analyzeRhythm_monotone splitSpine true g hr (by decide)
    have hsp := splitSpine_spines_run
    rw [hs] at hsp
    simp only [Option.map_some', Option.some.injEq] at hsp
    have hlen : h.lines.length = 6 := by
      have := congrArg List.length hsp
      simpa using this
    have hsorted := hmono (fun i j hij hj => by
      rw [durationFromStart_eq_dfsAt, durationFromStart_eq_dfsAt,
        dfsAt_of_map _ _ hsp, dfsAt_of_map _ _ hsp]
      rw [hlen] at hj
      interval_cases j <;> interval_cases i <;> norm_num)
    exact ⟨g, rfl, hsorted, hiff.mp hsorted⟩

theorem floatingSearch_finds (ts : List HumdrumToken) :
    ∀ (fuel : Nat) (f : HumdrumFile) (c : Nat) (dursum : Rat)
      (pre : List Nat) (a : Nat) (ta : HumdrumToken) (post : List Nat),
      f.tokens = ts →
      primaryPath ts fuel (some c) = pre ++ a :: post →
      ts[a]? = some ta → 0 ≤ f.durationFromStart ta.lineIndex →
      (∀ x tx, x ∈ pre → ts[x]? = some tx → f.durationFromStart tx.lineIndex < 0) →
      floatingSearch fuel f (some c) dursum =
        some (f.durationFromStart ta.lineIndex,
          dursum + (pre.map (positiveDuration ts)).sum) := by
  intro fuel
  induction fuel with
  | zero => intro f c dursum pre a ta post _ hp; simp [primaryPath] at hp
  | succ fuel ih =>
    intro f c dursum pre a ta post hts hp ha hF hpre
    cases hc : ts[c]? with
    | none => simp [primaryPath, hc] at hp
    | some tc =>
      have hc' : f.tokens[c]? = some tc := by rw [hts]; exact hc
      simp only [primaryPath, hc] at hp
      simp only [floatingSearch, hc']
      cases pre with
      | nil =>
        simp only [List.nil_append, List.cons.injEq] at hp
        obtain ⟨h1, _⟩ := hp
        subst h1
        rw [hc] at ha; cases ha
        simp [hF]
      | cons x pre1 =>
        simp only [List.cons_append, List.cons.injEq] at hp
        obtain ⟨h1, h2⟩ := hp
        subst h1
        have hneg := hpre c tc (by simp) hc
        rw [if_neg (not_le.mpr hneg)]
        cases hn : tc.nextTokens.head? with
        | none =>
          rw [hn, primaryPath_none] at h2
          simp at h2
        | some n0 =>
          rw [hn] at h2
          rw [ih f n0 (advance dursum tc) pre1 a ta post hts h2 ha hF
            (fun y ty hy hty => hpre y ty (by simp [hy]) hty)]
          rw [advance_eq ts c tc dursum hc]
          simp [add_assoc]

/-- Supporting C8: when the first token on the primary path of the spine whose
line has a non-negative `durationFromStart` has the value `F` different from
zero, and the tokens before it on the path have positive durations summing to
`D`, `analyzeRhythmOfFloatingSpine` is `assignDurationsToTrack(spinestart, F - D)`. -/
theorem analyzeRhythmOfFloatingSpine_propagates (f : HumdrumFile) (spinestart : Nat)
    (pre : List Nat) (a : Nat) (ta : HumdrumToken) (post : List Nat)
    (hpath : primaryPath f.tokens f.walkBound (some spinestart) = pre ++ a :: post)
    (ha : f.tokens[a]? = some ta)
    (hF : 0 ≤ f.durationFromStart ta.lineIndex)
    (hpre : ∀ x tx, x ∈ pre → f.tokens[x]? = some tx →
      f.durationFromStart tx.lineIndex < 0)
    (hnz : f.durationFromStart ta.lineIndex ≠ 0) :
    f.analyzeRhythmOfFloatingSpine spinestart =
      f.assignDurationsToTrack spinestart
        (f.durationFromStart ta.lineIndex - (pre.map (positiveDuration f.tokens)).sum) := by
  have hsearch := floatingSearch_finds f.tokens f.walkBound f spinestart 0 pre a ta post
    rfl hpath ha hF hpre
  have hanchor : f.floatingAnchor spinestart =
      some (f.durationFromStart ta.lineIndex,
        (pre.map (positiveDuration f.tokens)).sum) := by
    unfold floatingAnchor
    cases hs : f.tokens[spinestart]? with
    | none => simp [walkBound, primaryPath, hs] at hpath
    | some t =>
      simp only
      have hp2 := hpath
      simp only [walkBound, primaryPath, hs] at hp2
      by_cases h0 : 0 ≤ f.durationFromStart t.lineIndex
      · rw [if_pos h0]
        cases pre with
        | nil =>
          simp only [List.nil_append, List.cons.injEq] at hp2
          obtain ⟨h1, _⟩ := hp2
          subst h1
          rw [hs] at ha; cases ha
          simp
        | cons x pre1 =>
          simp only [List.cons_append, List.cons.injEq] at hp2
          obtain ⟨h1, _⟩ := hp2
          subst h1
          exact absurd h0 (not_le.mpr (hpre spinestart t (by simp) hs))
      · rw [if_neg h0]
        have hnext : 0 < t.nextTokens.length := by
          cases pre with
          | nil =>
            simp only [List.nil_append, List.cons.injEq] at hp2
            obtain ⟨h1, _⟩ := hp2
            subst h1
            rw [hs] at ha; cases ha
            exact absurd hF h0
          | cons x pre1 =>
            simp only [List.cons_append, List.cons.injEq] at hp2
            obtain ⟨_, h2⟩ := hp2
            cases hn : t.nextTokens with
            | nil => rw [hn] at h2; simp [primaryPath_none] at h2
            | cons n0 more => simp
        rw [if_pos hnext, hsearch]
        simp
  unfold analyzeRhythmOfFloatingSpine
  rw [hanchor]
  simp only [hnz, if_false]

/-- C8 at the failing input `addedSpine`: after the first track has been
analysed, the search on the added spine (start token 3) stops with `F = 0` and
`D = 0`; `assignDurationsToTrack(spinestart, F - D)` would visit the start
token (state counter `1`) and keep the file valid, but
`analyzeRhythmOfFloatingSpine` leaves the spine unvisited (state counter `0`)
and the file invalid. -/
theorem analyzeRhythmOfFloatingSpine_skips_zero_anchor :
    (analyzeRhythmTracks 0 addedSpine.trackstarts addedSpine).bind (fun r =>
      (r.2.analyzeRhythmOfFloatingSpine 3).bind (fun g =>
        (r.2.assignDurationsToTrack 3 (0 - 0)).map (fun p =>
          (r.2.floatingAnchor 3, g.rhycheck 3, p.rhycheck 3, g.isValid, p.isValid)))) =
      some (some (0, 0), 0, 1, false, true) := by
  decide!

/-- C9 at the failing input `addedSpine`: after the first track has been
analysed, token 5 of the primary path `3, 5, 7` of the added spine lies on
line 3, whose `durationFromStart` is resolved (`0`), and yet
`analyzeRhythmOfFloatingSpine` reports that the spine cannot be linked. -/
theorem analyzeRhythmOfFloatingSpine_reports_zero_anchor :
    (analyzeRhythmTracks 0 addedSpine.trackstarts addedSpine).bind (fun r =>
      (r.2.analyzeRhythmOfFloatingSpine 3).map (fun g =>
        (primaryPath r.2.tokens r.2.walkBound (some 3),
          (r.2.tokens[5]?).map (fun t => t.lineIndex), r.2.durationFromStart 3,
          g.isValid, g.diagnostics))) =
      some ([3, 5, 7], some 3, 0, false, [ParseError.cannotLinkFloatingSpine]) := by
  decide!

theorem cleanDurs_spec (f : HumdrumFile) (durs : List Rat) (line : Nat) :
    (((∃ d, d ∈ durs ∧ d = 0) ∧ (∃ d, d ∈ durs ∧ 0 < d)) →
      f.cleanDurs durs line = f.setParseError (.graceAndRegular line)) ∧
    (¬ ((∃ d, d ∈ durs ∧ d = 0) ∧ (∃ d, d ∈ durs ∧ 0 < d)) →
      f.cleanDurs durs line = f) := by
  have hz : (durs.any (fun d => !decide (0 < d) && decide (d = 0))) = true ↔
      ∃ d, d ∈ durs ∧ d = 0 := by
    rw [List.any_eq_true]
    constructor
    · rintro ⟨d, hd, h⟩
      simp only [Bool.and_eq_true, decide_eq_true_eq] at h
      exact ⟨d, hd, h.2⟩
    · rintro ⟨d, hd, h⟩
      refine ⟨d, hd, ?_⟩
      subst h
      simp
  have hp : (durs.any (fun d => decide (0 < d))) = true ↔ ∃ d, d ∈ durs ∧ 0 < d := by
    rw [List.any_eq_true]
    constructor
    · rintro ⟨d, hd, h⟩
      exact ⟨d, hd, by simpa using h⟩
    · rintro ⟨d, hd, h⟩
      exact ⟨d, hd, by simpa using h⟩
  unfold cleanDurs
  constructor
  · rintro ⟨h1, h2⟩
    simp only [hz.mpr h1, hp.mpr h2, Bool.and_self, if_true]
  · intro h
    have : ¬ ((durs.any (fun d => !decide (0 < d) && decide (d = 0))) = true ∧
        (durs.any (fun d => decide (0 < d))) = true) := by
      rw [hz, hp]; exact h
    simp only [Bool.and_eq_true, this, if_false]

/-- C10 (amended): `getTokenDurations` on a line of the file returns the self
durations of the tokens of the line; when one of them is zero and another one is
positive the file ends invalid with the grace-note-and-regular-note diagnostic
recorded, and otherwise the file is left as it was. -/
theorem getTokenDurations_spec (f : HumdrumFile) (line : Nat) (l : HumdrumLine)
    (ts : List HumdrumToken) (hl : f.lines[line]? = some l)
    (hts : l.tokens.mapM (fun k => f.tokens[k]?) = some ts) :
    ∃ g, f.getTokenDurations line = some (ts.map (fun t => t.duration), g) ∧
      (((∃ t, t ∈ ts ∧ t.duration = 0) ∧ (∃ t, t ∈ ts ∧ 0 < t.duration)) →
        g.isValid = false ∧
        g.diagnostics = f.diagnostics ++ [ParseError.graceAndRegular line] ∧
        g.lines = f.lines) ∧
      (¬ ((∃ t, t ∈ ts ∧ t.duration = 0) ∧ (∃ t, t ∈ ts ∧ 0 < t.duration)) → g = f) := by
  refine ⟨f.cleanDurs (ts.map (fun t => t.duration)) line, ?_, ?_, ?_⟩
  · simp only [getTokenDurations, hl, hts]
  · rintro ⟨⟨a, ha, ha0⟩, ⟨b, hb, hb0⟩⟩
    rw [(cleanDurs_spec f _ line).1
      ⟨⟨a.duration, List.mem_map.mpr ⟨a, ha, rfl⟩, ha0⟩,
        ⟨b.duration, List.mem_map.mpr ⟨b, hb, rfl⟩, hb0⟩⟩]
    exact ⟨rfl, rfl, rfl⟩
  · intro h
    apply (cleanDurs_spec f _ line).2
    rintro ⟨⟨d, hd, hd0⟩, ⟨e, he, he0⟩⟩
    obtain ⟨a, ha, rfl⟩ := List.mem_map.mp hd
    obtain ⟨b, hb, rfl⟩ := List.mem_map.mp he
    exact h ⟨⟨a, ha, hd0⟩, ⟨b, hb, he0⟩⟩

/-- Witness of C10 (amended) on line 1 of `graceWithNote`: the durations are
`0, 1` and the grace-note-and-regular-note diagnostic is recorded. -/
theorem getTokenDurations_spec_witness :
    ∃ g, graceWithNote.getTokenDurations 1 = some ([0, 1], g) ∧
      g.isValid = false ∧ g.diagnostics = [ParseError.graceAndRegular 1] :=
  match getTokenDurations_spec graceWithNote 1 _ _ rfl rfl with
  | ⟨g, h1, h2, _⟩ =>
    ⟨g, h1,
      (h2 ⟨⟨_, List.mem_cons_self _ _, rfl⟩,
        ⟨_, List.mem_cons_of_mem _ (List.mem_cons_self _ _), by decide!⟩⟩).1,
      (h2 ⟨⟨_, List.mem_cons_self _ _, rfl⟩,
        ⟨_, List.mem_cons_of_mem _ (List.mem_cons_self _ _), by decide!⟩⟩).2.1⟩

/-- C10 as stated fails: line 1 of `graceWithNote` holds a token of duration `0`
and a token of duration `1`, and `analyzeRhythm` returns `true` with the file
valid and no diagnostic recorded. -/
theorem analyzeRhythm_accepts_grace_with_note :
    (graceWithNote.getTokenDurations 1).map (fun r => r.1) = some [0, 1] ∧
    (graceWithNote.analyzeRhythm true).map
        (fun r => (r.1, r.2.isValid, r.2.diagnostics)) =
      some (true, true, []) := by
  constructor <;> decide!


theorem lateSpine_run :
    (analyzeRhythmTracks 0 lateSpine.trackstarts lateSpine).bind (fun r =>
      (r.2.analyzeRhythmOfFloatingSpine 4).map (fun g =>
        (primaryPath r.2.tokens r.2.walkBound (some 4), r.2.durationFromStart 4,
          g.rhycheck 4, g.isValid, g.diagnostics))) =
      some ([4, 6, 8], 1, 1, true, []) := by
  decide!

/-- C11: `getScoreDuration` is `0` for a file without lines and otherwise the
duration from the start of the last line; it is a function of the file alone
and returns no changed file. -/
theorem getScoreDuration_spec (f : HumdrumFile) :
    f.getScoreDuration =
      if f.getLineCount = 0 then 0 else f.durationFromStart (f.getLineCount - 1) := by
  unfold getScoreDuration getLineCount durationFromStart
  rcases List.eq_nil_or_concat f.lines with h | ⟨ls, l, h⟩
  · simp [h]
  · simp [h]

/-- C13: with `n` registered barlines, `getBarline index` is the barline
`index` for `0 ≤ index < n`, the barline `n + index` for `-n ≤ index < 0`, and
NULL otherwise; it is a barline exactly for `-n ≤ index < n`. -/
theorem getBarline_spec (f : HumdrumFile) (index : Int) :
    f.getBarline index =
      (if 0 ≤ index ∧ index < f.getBarlineCount then f.barlines[index.toNat]?
       else if -f.getBarlineCount ≤ index ∧ index < 0 then
         f.barlines[(f.getBarlineCount + index).toNat]?
       else none) ∧
    (f.getBarline index).isSome =
      decide (-f.getBarlineCount ≤ index ∧ index < f.getBarlineCount) := by
  unfold getBarline getBarlineCount
  by_cases h0 : index < 0
  · by_cases h1 : index + (f.barlines.length : Int) < 0
    · have h2 : ¬ (-(f.barlines.length : Int) ≤ index) := by omega
      have h3 : ¬ (0 ≤ index) := by omega
      simp [h0, h1, h2, h3]
    · have h2 : (-(f.barlines.length : Int) ≤ index) := by omega
      have h3 : ¬ (0 ≤ index) := by omega
      have h4 : ¬ ((f.barlines.length : Int) ≤ index + f.barlines.length) := by omega
      have h5 : (index + (f.barlines.length : Int)).toNat < f.barlines.length := by omega
      have h6 : index < (f.barlines.length : Int) := by omega
      simp [h0, h1, h2, h3, h4, h5, h6, add_comm]
  · by_cases h1 : index < (f.barlines.length : Int)
    · have h5 : index.toNat < f.barlines.length := by omega
      have h2 : (-(f.barlines.length : Int) ≤ index) := by omega
      have h3 : 0 ≤ index := by omega
      simp [h0, h1, h2, h3, h5]
    · have h3 : 0 ≤ index := by omega
      simp [h0, h1, h3]

/-- C14 (evaluation): on `twoMeasures` the barlines are lines `1` and `3` with
start times `0` and `4`, the score lasts `8`, and `getBarlineDuration 0` is `8`,
the distance to the end of the score, not the distance `4` to barline `1`. -/
theorem getBarlineDuration_second_to_last :
    (twoMeasures.analyzeRhythm true).map (fun r =>
      (r.2.barlines, r.2.durationFromStart 1, r.2.durationFromStart 3,
        r.2.getScoreDuration, r.2.getBarlineDuration 0, r.2.getBarlineDuration 1)) =
      some ([1, 3], 0, 4, 8, 8, 4) := by
  decide!

theorem foldl_lcm_dvd (l : List Nat) : ∀ (a N : Nat),
    (l.foldl Nat.lcm a ∣ N ↔ a ∣ N ∧ ∀ x ∈ l, x ∣ N) := by
  induction l with
  | nil => intro a N; simp
  | cons x xs ih =>
    intro a N
    simp only [List.foldl_cons, ih, Nat.lcm_dvd_iff, List.mem_cons, forall_eq_or_imp]
    tauto

theorem mem_getPositiveLineDurations (f : HumdrumFile) (d : Rat) :
    d ∈ f.getPositiveLineDurations ↔ ∃ l ∈ f.lines, l.duration = d ∧ 0 < d := by
  unfold getPositiveLineDurations
  rw [(List.perm_insertionSort _ _).mem_iff, List.mem_dedup, List.mem_filter, List.mem_map]
  simp only [decide_eq_true_eq]
  constructor
  · rintro ⟨⟨l, hl, rfl⟩, hd⟩
    exact ⟨l, hl, rfl, hd⟩
  · rintro ⟨l, hl, rfl, hd⟩
    exact ⟨⟨l, hl, rfl⟩, hd⟩

theorem rat_mul_isInt_iff (N : Int) (d : Rat) :
    (∃ z : Int, (N : Rat) * d = z) ↔ (d.den : Int) ∣ N := by
  constructor
  · rintro ⟨z, hz⟩
    have hden : (d.den : Rat) ≠ 0 := by exact_mod_cast d.den_nz
    have h1 : (N : Rat) * d.num = z * d.den := by
      have := Rat.num_div_den d
      rw [← this] at hz
      field_simp at hz
      exact hz
    have h2 : N * d.num = z * d.den := by exact_mod_cast h1
    have h3 : (d.den : Int) ∣ N * d.num := ⟨z, by rw [h2]; ring⟩
    have hc : IsCoprime (d.den : Int) d.num := by
      rw [Int.isCoprime_iff_gcd_eq_one, Int.gcd_comm]
      simpa [Int.gcd] using d.reduced
    exact hc.dvd_of_dvd_mul_right h3
  · rintro ⟨k, hk⟩
    refine ⟨k * d.num, ?_⟩
    have hden : (d.den : Rat) ≠ 0 := by exact_mod_cast d.den_nz
    conv_lhs => rw [← Rat.num_div_den d]
    rw [hk]
    push_cast
    field_simp
    ring

theorem tpq_value (f : HumdrumFile) (hfirst : f.ticksperquarternote ≤ 0) :
    tpq f =
      (((getLcm ((f.getPositiveLineDurations.filter (fun d => decide (1 < d.den))).map
          (fun d => d.den)) : Nat) : Int),
        { f with ticksperquarternote :=
            ((getLcm ((f.getPositiveLineDurations.filter (fun d => decide (1 < d.den))).map
              (fun d => d.den)) : Nat) : Int) }) := by
  unfold tpq
  rw [if_neg (by omega)]
  generalize ((f.getPositiveLineDurations.filter (fun d => decide (1 < d.den))).map
          (fun d => d.den)) = dems
  cases dems with
  | nil => simp [getLcm]
  | cons x xs => simp

theorem getLcm_tpq_dvd (f : HumdrumFile) (N : Nat) :
    getLcm ((f.getPositiveLineDurations.filter (fun d => decide (1 < d.den))).map
        (fun d => d.den)) ∣ N ↔
      ∀ l ∈ f.lines, 0 < l.duration → l.duration.den ∣ N := by
  unfold getLcm
  rw [foldl_lcm_dvd]
  simp only [one_dvd, true_and, List.mem_map, List.mem_filter, decide_eq_true_eq,
    mem_getPositiveLineDurations]
  constructor
  · intro h l hl hpos
    by_cases hd : 1 < l.duration.den
    · exact h _ ⟨l.duration, ⟨⟨l, hl, rfl, hpos⟩, hd⟩, rfl⟩
    · have : l.duration.den = 1 := by
        have := l.duration.den_pos
        omega
      rw [this]; exact one_dvd _
  · rintro h x ⟨d, ⟨⟨l, hl, rfl, hpos⟩, _⟩, rfl⟩
    exact h l hl hpos

theorem foldl_lcm_pos (l : List Nat) : ∀ a : Nat, 0 < a → (∀ x ∈ l, 0 < x) →
    0 < l.foldl Nat.lcm a := by
  induction l with
  | nil => intro a ha _; simpa using ha
  | cons x xs ih =>
    intro a ha h
    simp only [List.foldl_cons]
    exact ih _ (Nat.lcm_pos ha (h x (List.mem_cons_self _ _)))
      (fun y hy => h y (List.mem_cons_of_mem _ hy))

/-- C12: on a call with no memoized value `tpq` returns a positive `n` that is
the least common multiple of the denominators of the positive line durations
(it divides exactly the common multiples of these denominators), that is `1`
when no positive line duration has a denominator above `1`, and that is the
least positive integer whose product with every positive line duration is an
integer; the value is stored, and every call on a file holding the stored
value returns it again. -/
theorem tpq_spec (f : HumdrumFile) (hfirst : f.ticksperquarternote ≤ 0) :
    ∃ n : Nat, (tpq f).1 = (n : Int) ∧
      (∀ N : Nat, n ∣ N ↔ ∀ l ∈ f.lines, 0 < l.duration → l.duration.den ∣ N) ∧
      ((∀ l ∈ f.lines, 0 < l.duration → ¬ 1 < l.duration.den) → n = 1) ∧
      0 < n ∧
      (∀ l ∈ f.lines, 0 < l.duration → ∃ z : Int, (((n : Int) : Rat)) * l.duration = z) ∧
      (∀ N : Int, 0 < N →
        (∀ l ∈ f.lines, 0 < l.duration → ∃ z : Int, (N : Rat) * l.duration = z) →
        (n : Int) ≤ N) ∧
      (tpq f).2.ticksperquarternote = (n : Int) ∧
      (tpq f).2.lines = f.lines ∧
      (tpq (tpq f).2).1 = (n : Int) ∧
      ∀ g : HumdrumFile, g.ticksperquarternote = (n : Int) → tpq g = ((n : Int), g) := by
  rw [tpq_value f hfirst]
  have key := getLcm_tpq_dvd f
  have hpos : 0 < getLcm ((f.getPositiveLineDurations.filter
      (fun d => decide (1 < d.den))).map (fun d => d.den)) := by
    unfold getLcm
    apply foldl_lcm_pos _ 1 Nat.one_pos
    intro x hx
    simp only [List.mem_map, List.mem_filter, decide_eq_true_eq] at hx
    obtain ⟨d, ⟨_, hd⟩, rfl⟩ := hx
    omega
  generalize getLcm ((f.getPositiveLineDurations.filter (fun d => decide (1 < d.den))).map
        (fun d => d.den)) = n at key hpos
  have hint : ∀ l ∈ f.lines, 0 < l.duration → ∃ z : Int, (((n : Int) : Rat)) * l.duration = z := by
    intro l hl hp
    rw [rat_mul_isInt_iff]
    exact Int.natCast_dvd_natCast.mpr ((key n).1 (dvd_refl n) l hl hp)
  refine ⟨n, rfl, key, ?_, hpos, hint, ?_, rfl, rfl, ?_, ?_⟩
  · intro h
    have h1 : n ∣ 1 := (key 1).2 (fun l hl hp => by
      have := l.duration.den_pos
      have h2 := h l hl hp
      have : l.duration.den = 1 := by omega
      rw [this])
    exact Nat.dvd_one.mp h1
  · intro N hN h
    have h1 : n ∣ N.toNat := (key N.toNat).2 (fun l hl hp => by
      have h2 := (rat_mul_isInt_iff N l.duration).1 (h l hl hp)
      have h3 : ((N.toNat : Nat) : Int) = N := Int.toNat_of_nonneg hN.le
      rw [← h3] at h2
      exact Int.natCast_dvd_natCast.mp h2)
    have h2 := Nat.le_of_dvd (by omega) h1
    omega
  · unfold tpq
    simp only
    rw [if_pos (by exact_mod_cast hpos)]
  · intro g hg
    unfold tpq
    rw [if_pos (by rw [hg]; exact_mod_cast hpos), hg]

theorem tpq_spec_witness :
    ∃ n : Nat, (tpq mixedDurations).1 = (n : Int) ∧
      (∀ N : Nat, n ∣ N ↔ ∀ l ∈ mixedDurations.lines, 0 < l.duration → l.duration.den ∣ N) ∧
      ((∀ l ∈ mixedDurations.lines, 0 < l.duration → ¬ 1 < l.duration.den) → n = 1) ∧
      0 < n ∧
      (∀ l ∈ mixedDurations.lines, 0 < l.duration →
        ∃ z : Int, (((n : Int) : Rat)) * l.duration = z) ∧
      (∀ N : Int, 0 < N →
        (∀ l ∈ mixedDurations.lines, 0 < l.duration → ∃ z : Int, (N : Rat) * l.duration = z) →
        (n : Int) ≤ N) ∧
      (tpq mixedDurations).2.ticksperquarternote = (n : Int) ∧
      (tpq mixedDurations).2.lines = mixedDurations.lines ∧
      (tpq (tpq mixedDurations).2).1 = (n : Int) ∧
      ∀ g : HumdrumFile, g.ticksperquarternote = (n : Int) → tpq g = ((n : Int), g) :=
  tpq_spec mixedDurations (by decide)

theorem tpq_mixedDurations :
    (mixedDurations.getPositiveLineDurations, (tpq mixedDurations).1,
      (tpq (tpq mixedDurations).2).1) = ([1/3, 1/2, 1, 3/2], 6, 6) := by
  decide!

theorem meterForward_getElem? (ls : List HumdrumLine) :
    ∀ (i : Nat) (sum : Rat) (found : Bool) (bars : List Nat) (k : Nat),
      (meterForward ls i sum found bars).1[k]? =
        (ls[k]?).map (fun l => { l with durationFromBarline :=
          match (meterForward ls i sum found bars).1[k]? with
          | some m => m.durationFromBarline
          | none => 0 }) := by
  induction ls with
  | nil => intro i sum found bars k; simp [meterForward]
  | cons l rest ih =>
    intro i sum found bars k
    cases k with
    | zero => simp [meterForward]
    | succ k =>
      simp only [meterForward, List.getElem?_cons_succ]
      exact ih _ _ _ _ k

theorem meterForward_head (l : HumdrumLine) (rest : List HumdrumLine)
    (i : Nat) (sum : Rat) (found : Bool) (bars : List Nat) :
    ∃ m, (meterForward (l :: rest) i sum found bars).1[0]? = some m ∧
      m.durationFromBarline = sum := by
  simp [meterForward]

theorem meterForward_step (ls : List HumdrumLine) :
    ∀ (i : Nat) (sum : Rat) (found : Bool) (bars : List Nat) (k : Nat)
      (l : HumdrumLine), ls[k]? = some l → k + 1 < ls.length →
      ∃ m m1, (meterForward ls i sum found bars).1[k]? = some m ∧
        (meterForward ls i sum found bars).1[k + 1]? = some m1 ∧
        m1.durationFromBarline =
          if l.isBarline then 0 else m.durationFromBarline + l.duration := by
  induction ls with
  | nil => intro i sum found bars k l h; simp at h
  | cons l0 rest ih =>
    intro i sum found bars k l h hk
    cases k with
    | zero =>
      simp at h; subst h
      cases rest with
      | nil => simp at hk
      | cons l1 rest1 =>
        obtain ⟨m1, h1, h2⟩ := meterForward_head l1 rest1 (i + 1)
          (if l0.isBarline then 0 else sum + l0.duration)
          ((found || l0.isBarline) || (l0.isData && !(found || l0.isBarline)))
          (if (l0.isData && !(found || l0.isBarline)) then
            (if l0.isBarline then bars ++ [i] else bars) ++ [0]
            else (if l0.isBarline then bars ++ [i] else bars))
        refine ⟨{ l0 with durationFromBarline := sum }, m1, ?_, ?_, ?_⟩
        · simp only [meterForward, List.getElem?_cons_zero]
        · simp only [meterForward, List.getElem?_cons_succ]
          simpa [meterForward] using h1
        · simpa using h2
    | succ k =>
      simp only [List.getElem?_cons_succ] at h
      simp only [List.length_cons, add_lt_add_iff_right] at hk
      simp only [meterForward, List.getElem?_cons_succ]
      exact ih _ _ _ _ k l h hk
theorem meterBackward_getElem? (ls : List HumdrumLine) :
    ∀ (k : Nat), (meterBackward ls).1[k]? =
        (ls[k]?).map (fun l => { l with durationToBarline :=
          match (meterBackward ls).1[k]? with
          | some m => m.durationToBarline
          | none => 0 }) := by
  induction ls with
  | nil => intro k; simp [meterBackward]
  | cons l rest ih =>
    intro k
    cases k with
    | zero => simp [meterBackward]
    | succ k =>
      simp only [meterBackward, List.getElem?_cons_succ]
      exact ih k

theorem meterBackward_snd (ls : List HumdrumLine) :
    (meterBackward ls).2 =
      match ls[0]?, (meterBackward ls).1[0]? with
      | some l, some m => if l.isBarline then 0 else m.durationToBarline
      | _, _ => 0 := by
  cases ls with
  | nil => simp [meterBackward]
  | cons l rest => simp [meterBackward]

theorem meterBackward_step (ls : List HumdrumLine) :
    ∀ (k : Nat) (l : HumdrumLine), ls[k]? = some l →
      ∃ m, (meterBackward ls).1[k]? = some m ∧
        m.durationToBarline = l.duration +
          match ls[k + 1]?, (meterBackward ls).1[k + 1]? with
          | some l1, some m1 => if l1.isBarline then 0 else m1.durationToBarline
          | _, _ => 0 := by
  induction ls with
  | nil => intro k l h; simp at h
  | cons l0 rest ih =>
    intro k l h
    cases k with
    | zero =>
      simp at h; subst h
      refine ⟨{ l0 with durationToBarline := (meterBackward rest).2 + l0.duration }, ?_, ?_⟩
      · simp [meterBackward]
      · simp only [meterBackward, List.getElem?_cons_succ, zero_add]
        rw [add_comm]
        congr 1
        exact meterBackward_snd rest
    | succ k =>
      simp only [List.getElem?_cons_succ] at h
      simp only [meterBackward, List.getElem?_cons_succ]
      exact ih k l h
theorem meterForward_at (ls : List HumdrumLine) (i : Nat) (sum : Rat) (found : Bool)
    (bars : List Nat) (k : Nat) (l : HumdrumLine) (h : ls[k]? = some l) :
    ∃ a, (meterForward ls i sum found bars).1[k]? =
      some { l with durationFromBarline := a } := by
  have h1 := meterForward_getElem? ls i sum found bars k
  rw [h] at h1
  exact ⟨_, h1⟩

theorem meterBackward_at (ls : List HumdrumLine) (k : Nat) (l : HumdrumLine)
    (h : ls[k]? = some l) :
    ∃ a, (meterBackward ls).1[k]? = some { l with durationToBarline := a } := by
  have h1 := meterBackward_getElem? ls k
  rw [h] at h1
  exact ⟨_, h1⟩

theorem analyzeMeter_at (f : HumdrumFile) (k : Nat) (l : HumdrumLine)
    (h : f.lines[k]? = some l) :
    ∃ a b, (meterForward f.lines 0 0 false []).1[k]? =
        some { l with durationFromBarline := a } ∧
      f.analyzeMeter.lines[k]? =
        some { l with durationFromBarline := a, durationToBarline := b } := by
  obtain ⟨a, ha⟩ := meterForward_at f.lines 0 0 false [] k l h
  obtain ⟨b, hb⟩ := meterBackward_at _ k _ ha
  exact ⟨a, b, ha, hb⟩

theorem analyzeMeter_flags (f : HumdrumFile) (k : Nat) :
    f.analyzeMeter.isBarline k = f.isBarline k ∧
    f.analyzeMeter.isData k = f.isData k ∧
    f.analyzeMeter.duration k = f.duration k := by
  refine ⟨?_, ?_, (analyzeMeter_frame f).2.2.1 k⟩
  · unfold isBarline
    cases h : f.lines[k]? with
    | none =>
      have : f.analyzeMeter.lines[k]? = none := by
        rw [List.getElem?_eq_none_iff] at h ⊢
        rw [(analyzeMeter_frame f).1]; exact h
      rw [this]
    | some l =>
      obtain ⟨a, b, _, hb⟩ := analyzeMeter_at f k l h
      rw [hb]
  · unfold isData
    cases h : f.lines[k]? with
    | none =>
      have : f.analyzeMeter.lines[k]? = none := by
        rw [List.getElem?_eq_none_iff] at h ⊢
        rw [(analyzeMeter_frame f).1]; exact h
      rw [this]
    | some l =>
      obtain ⟨a, b, _, hb⟩ := analyzeMeter_at f k l h
      rw [hb]

theorem analyzeMeter_fromBarline_zero (f : HumdrumFile) (h : 0 < f.lines.length) :
    f.analyzeMeter.durationFromBarline 0 = 0 := by
  obtain ⟨l, hl⟩ : ∃ l, f.lines[0]? = some l := ⟨f.lines[0], by simp⟩
  obtain ⟨a, b, ha, hb⟩ := analyzeMeter_at f 0 l hl
  unfold durationFromBarline
  rw [hb]
  cases hls : f.lines with
  | nil => rw [hls] at h; simp at h
  | cons l0 rest =>
    rw [hls] at ha
    obtain ⟨m, hm, hm2⟩ := meterForward_head l0 rest 0 0 false []
    rw [hm] at ha
    simp only [Option.some.injEq] at ha
    rw [ha] at hm2
    exact hm2

theorem analyzeMeter_fromBarline_succ (f : HumdrumFile) (k : Nat)
    (h : k + 1 < f.lines.length) :
    f.analyzeMeter.durationFromBarline (k + 1) =
      if f.analyzeMeter.isBarline k then 0
      else f.analyzeMeter.durationFromBarline k + f.analyzeMeter.duration k := by
  obtain ⟨l, hl⟩ : ∃ l, f.lines[k]? = some l := ⟨f.lines[k], by simp⟩
  obtain ⟨l1, hl1⟩ : ∃ l, f.lines[k + 1]? = some l := ⟨f.lines[k + 1], by simp⟩
  obtain ⟨a, b, ha, hb⟩ := analyzeMeter_at f k l hl
  obtain ⟨a1, b1, ha1, hb1⟩ := analyzeMeter_at f (k + 1) l1 hl1
  obtain ⟨m, m1, hm, hm1, hstep⟩ := meterForward_step f.lines 0 0 false [] k l hl h
  rw [hm] at ha
  rw [hm1] at ha1
  simp only [Option.some.injEq] at ha ha1
  rw [ha, ha1] at hstep
  rw [(analyzeMeter_flags f k).1, (analyzeMeter_flags f k).2.2]
  unfold durationFromBarline isBarline duration
  rw [hb, hb1, hl]
  exact hstep

theorem analyzeMeter_toBarline (f : HumdrumFile) (k : Nat) (h : k < f.lines.length) :
    f.analyzeMeter.durationToBarline k = f.analyzeMeter.duration k +
      if k + 1 < f.lines.length ∧ f.analyzeMeter.isBarline (k + 1) = false then
        f.analyzeMeter.durationToBarline (k + 1)
      else 0 := by
  obtain ⟨l, hl⟩ : ∃ l, f.lines[k]? = some l := ⟨f.lines[k], by simp⟩
  obtain ⟨a, b, ha, hb⟩ := analyzeMeter_at f k l hl
  obtain ⟨m, hm, hstep⟩ := meterBackward_step _ k _ ha
  have hg : f.analyzeMeter.lines = (meterBackward (meterForward f.lines 0 0 false []).1).1 := rfl
  rw [← hg, hb] at hm
  simp only [Option.some.injEq] at hm
  rw [← hm] at hstep
  rw [(analyzeMeter_flags f (k + 1)).1, (analyzeMeter_flags f k).2.2]
  unfold durationToBarline isBarline duration
  rw [hb, hl]
  simp only at hstep ⊢
  rw [hstep]
  congr 1
  by_cases h1 : k + 1 < f.lines.length
  · obtain ⟨l1, hl1⟩ : ∃ l, f.lines[k + 1]? = some l := ⟨f.lines[k + 1], by simp⟩
    obtain ⟨a1, b1, ha1, hb1⟩ := analyzeMeter_at f (k + 1) l1 hl1
    rw [ha1, ← hg, hb1, hl1]
    by_cases hbar : l1.isBarline = true <;> simp [hbar, h1]
  · have hn : f.lines[k + 1]? = none := by
      rw [List.getElem?_eq_none_iff]; omega
    have hn1 : (meterForward f.lines 0 0 false []).1[k + 1]? = none := by
      have := meterForward_getElem? f.lines 0 0 false [] (k + 1)
      rw [hn] at this
      simpa using this
    rw [hn1]
    simp [h1]

theorem isBarline_lt (f : HumdrumFile) (k : Nat) (h : f.isBarline k = true) :
    k < f.lines.length := by
  unfold isBarline at h
  cases hk : f.lines[k]? with
  | none => rw [hk] at h; simp at h
  | some l => exact lt_length_of_getElem? _ _ _ hk

/-- C16: after `analyzeMeter` the duration from the barline is `0` on line `0`
and on every line that directly follows a barline line; after a line `i` that
is no barline it is `durationFromBarline(i) + duration(i)`; hence it does not
decrease from `i` to `j` when no line from `i` up to `j` is a barline and the
durations of these lines are non-negative. -/
theorem analyzeMeter_durationFromBarline (f : HumdrumFile) :
    (0 < f.analyzeMeter.getLineCount → f.analyzeMeter.durationFromBarline 0 = 0) ∧
    (∀ i, i + 1 < f.analyzeMeter.getLineCount → f.analyzeMeter.isBarline i = true →
      f.analyzeMeter.durationFromBarline (i + 1) = 0) ∧
    (∀ i, i + 1 < f.analyzeMeter.getLineCount → f.analyzeMeter.isBarline i = false →
      f.analyzeMeter.durationFromBarline (i + 1) =
        f.analyzeMeter.durationFromBarline i + f.analyzeMeter.duration i) ∧
    (∀ i j, i ≤ j → j < f.analyzeMeter.getLineCount →
      (∀ k, i ≤ k → k < j →
        f.analyzeMeter.isBarline k = false ∧ 0 ≤ f.analyzeMeter.duration k) →
      f.analyzeMeter.durationFromBarline i ≤ f.analyzeMeter.durationFromBarline j) := by
  have hlen : f.analyzeMeter.getLineCount = f.lines.length := (analyzeMeter_frame f).1
  rw [hlen]
  have hbar : ∀ i, i + 1 < f.lines.length → f.analyzeMeter.isBarline i = true →
      f.analyzeMeter.durationFromBarline (i + 1) = 0 := by
    intro i hi hb
    rw [analyzeMeter_fromBarline_succ f i hi, if_pos hb]
  have hstep : ∀ i, i + 1 < f.lines.length → f.analyzeMeter.isBarline i = false →
      f.analyzeMeter.durationFromBarline (i + 1) =
        f.analyzeMeter.durationFromBarline i + f.analyzeMeter.duration i := by
    intro i hi hb
    rw [analyzeMeter_fromBarline_succ f i hi, if_neg (by simp [hb])]
  refine ⟨analyzeMeter_fromBarline_zero f, hbar, hstep, ?_⟩
  intro i j hij
  induction j, hij using Nat.le_induction with
  | base => intro _ _; exact le_refl _
  | succ j hij ih =>
    intro hj h
    have h1 := ih (by omega) (fun k hk1 hk2 => h k hk1 (by omega))
    have h2 := h j hij (by omega)
    rw [hstep j hj h2.1]
    linarith [h2.2]

theorem analyzeMeter_fromBarline_sum (f : HumdrumFile) (b b1 : Nat)
    (hb : f.analyzeMeter.isBarline b = true) (hn : b1 < f.lines.length)
    (hbetween : ∀ k, b < k → k < b1 → f.analyzeMeter.isBarline k = false) :
    ∀ d, b + 1 + d ≤ b1 → f.analyzeMeter.durationFromBarline (b + 1 + d) =
      ∑ k ∈ Finset.Ico (b + 1) (b + 1 + d), f.analyzeMeter.duration k := by
  intro d
  induction d with
  | zero =>
    intro h
    rw [Nat.add_zero, analyzeMeter_fromBarline_succ f b (by omega), if_pos hb]
    simp
  | succ d ih =>
    intro h
    have h1 := ih (by omega)
    have h2 := hbetween (b + 1 + d) (by omega) (by omega)
    rw [← Nat.add_assoc, analyzeMeter_fromBarline_succ f (b + 1 + d) (by omega),
      if_neg (by simp [h2]), h1, Finset.sum_Ico_succ_top (by omega)]

theorem analyzeMeter_toBarline_sum (f : HumdrumFile) (b b1 : Nat)
    (hb1 : f.analyzeMeter.isBarline b1 = true) (hn : b1 < f.lines.length)
    (hbetween : ∀ k, b < k → k < b1 → f.analyzeMeter.isBarline k = false) :
    ∀ d i, i + d + 1 = b1 → b ≤ i → f.analyzeMeter.durationToBarline i =
      ∑ k ∈ Finset.Ico i b1, f.analyzeMeter.duration k := by
  intro d
  induction d with
  | zero =>
    intro i hi _
    have : b1 = i + 1 := by omega
    subst this
    rw [analyzeMeter_toBarline f i (by omega), if_neg (by simp [hb1])]
    simp
  | succ d ih =>
    intro i hi hbi
    have h1 := ih (i + 1) (by omega) (by omega)
    have h2 := hbetween (i + 1) (by omega) (by omega)
    rw [analyzeMeter_toBarline f i (by omega), if_pos ⟨by omega, h2⟩, h1,
      Finset.sum_eq_sum_Ico_succ_bot (show i < b1 by omega)
        (fun k => f.analyzeMeter.duration k)]

/-- C17: after `analyzeMeter`, for barline lines `b < b1` with no barline line
between them, every line `i` with `b < i < b1` has
`durationFromBarline(i) + durationToBarline(i)` equal to the sum of
`duration(k)` over `b < k < b1`, and the barline line `b` has
`durationToBarline(b)` equal to the sum of `duration(k)` over `b ≤ k < b1`. -/
theorem analyzeMeter_measure (f : HumdrumFile) (b b1 : Nat)
    (hb : f.analyzeMeter.isBarline b = true) (hb1 : f.analyzeMeter.isBarline b1 = true)
    (hlt : b < b1)
    (hbetween : ∀ k, b < k → k < b1 → f.analyzeMeter.isBarline k = false) :
    (∀ i, b < i → i < b1 →
      f.analyzeMeter.durationFromBarline i + f.analyzeMeter.durationToBarline i =
        ∑ k ∈ Finset.Ico (b + 1) b1, f.analyzeMeter.duration k) ∧
    f.analyzeMeter.durationToBarline b =
      ∑ k ∈ Finset.Ico b b1, f.analyzeMeter.duration k := by
  have hn : b1 < f.lines.length := by
    have := isBarline_lt _ _ hb1
    rwa [(analyzeMeter_frame f).1] at this
  constructor
  · intro i h1 h2
    have hA := analyzeMeter_fromBarline_sum f b b1 hb hn hbetween (i - (b + 1)) (by omega)
    have hB := analyzeMeter_toBarline_sum f b b1 hb1 hn hbetween (b1 - i - 1) i (by omega)
      (by omega)
    have e : b + 1 + (i - (b + 1)) = i := by omega
    rw [e] at hA
    rw [hA, hB, Finset.sum_Ico_consecutive _ (by omega) (by omega)]
  · exact analyzeMeter_toBarline_sum f b b1 hb1 hn hbetween (b1 - b - 1) b (by omega)
      (le_refl b)

theorem analyzeMeter_measure_witness :
    barredLines.analyzeMeter.isBarline 1 = true ∧
    barredLines.analyzeMeter.isBarline 4 = true ∧
    ((∀ i, 1 < i → i < 4 →
      barredLines.analyzeMeter.durationFromBarline i +
          barredLines.analyzeMeter.durationToBarline i =
        ∑ k ∈ Finset.Ico (1 + 1) 4, barredLines.analyzeMeter.duration k) ∧
    barredLines.analyzeMeter.durationToBarline 1 =
      ∑ k ∈ Finset.Ico 1 4, barredLines.analyzeMeter.duration k) :=
  ⟨by decide!, by decide!,
    analyzeMeter_measure barredLines 1 4 (by decide!) (by decide!) (by decide)
      (fun k h1 h2 => by
        have : k = 2 ∨ k = 3 := by omega
        rcases this with rfl | rfl <;> decide!)⟩

theorem analyzeMeter_barredLines :
    (barredLines.analyzeMeter.barlines,
      barredLines.analyzeMeter.lines.map
        (fun l => (l.durationFromBarline, l.durationToBarline))) =
      ([1, 4], [(0, 0), (0, 2), (0, 2), (1, 1), (2, 2), (0, 2), (2, 0)]) := by
  decide!

theorem meterForward_bars (ls : List HumdrumLine) :
    ∀ (i : Nat) (sum : Rat) (found : Bool) (bars : List Nat),
      (meterForward ls i sum found bars).2 =
        bars ++ (if !found && hasPickup ls then [0] else []) ++ barlinesFrom ls i := by
  induction ls with
  | nil => intro i sum found bars; simp [meterForward, hasPickup, barlinesFrom]
  | cons l rest ih =>
    intro i sum found bars
    simp only [meterForward, ih, hasPickup, barlinesFrom]
    by_cases hb : l.isBarline = true <;> by_cases hd : l.isData = true <;>
      by_cases hf : found = true <;> by_cases hp : hasPickup rest = true <;>
      simp [hb, hd, hf, hp]

theorem hasPickup_iff (ls : List HumdrumLine) :
    hasPickup ls = true ↔
      ∃ (k : Nat) (l : HumdrumLine), ls[k]? = some l ∧ l.isData = true ∧
        ∀ (j : Nat) (m : HumdrumLine), j ≤ k → ls[j]? = some m → m.isBarline = false := by
  induction ls with
  | nil => simp [hasPickup]
  | cons l0 rest ih =>
    simp only [hasPickup, Bool.and_eq_true, Bool.not_eq_true', Bool.or_eq_true, ih]
    constructor
    · rintro ⟨hb, hd | ⟨k, l, hk, hd, hall⟩⟩
      · refine ⟨0, l0, by simp, hd, ?_⟩
        intro j m hj hm
        have : j = 0 := by omega
        subst this
        simp at hm; subst hm; exact hb
      · refine ⟨k + 1, l, by simpa using hk, hd, ?_⟩
        intro j m hj hm
        cases j with
        | zero => simp at hm; subst hm; exact hb
        | succ j => exact hall j m (by omega) (by simpa using hm)
    · rintro ⟨k, l, hk, hd, hall⟩
      refine ⟨hall 0 l0 (by omega) (by simp), ?_⟩
      cases k with
      | zero => simp at hk; subst hk; exact Or.inl hd
      | succ k =>
        refine Or.inr ⟨k, l, by simpa using hk, hd, ?_⟩
        intro j m hj hm
        exact hall (j + 1) m (by omega) (by simpa using hm)

theorem barlinesFrom_eq (ls : List HumdrumLine) : ∀ (i : Nat),
    barlinesFrom ls i =
      ((List.range ls.length).filter (fun k =>
        match ls[k]? with
        | some l => l.isBarline
        | none => false)).map (fun k => k + i) := by
  induction ls with
  | nil => intro i; simp [barlinesFrom]
  | cons l rest ih =>
    intro i
    simp only [barlinesFrom, ih, List.length_cons, List.range_succ_eq_map, List.filter_cons,
      List.getElem?_cons_zero, List.filter_map, List.map_map]
    have e : ((fun k => k + i) ∘ Nat.succ) = (fun k => k + (i + 1)) := by
      funext k; simp; omega
    have e2 : ((fun k => match (l :: rest)[k]? with
        | some l => l.isBarline
        | none => false) ∘ Nat.succ) = (fun k => match rest[k]? with
        | some l => l.isBarline
        | none => false) := by
      funext k; simp
    rw [e2]
    cases hb : l.isBarline <;> simp [e]

theorem analyzeMeter_barlines (f : HumdrumFile) :
    f.analyzeMeter.barlines =
      (if hasPickup f.lines then [0] else []) ++ f.barlineLines := by
  have h := meterForward_bars f.lines 0 0 false []
  have h2 := barlinesFrom_eq f.lines 0
  simp only [Nat.add_zero, List.map_id'] at h2
  unfold analyzeMeter barlineLines
  simp only [h, h2, List.nil_append, Bool.not_false, Bool.true_and]
  rfl

theorem hasPickup_file (f : HumdrumFile) :
    hasPickup f.lines = true ↔
      ∃ k, f.isData k = true ∧ ∀ j, j ≤ k → f.isBarline j = false := by
  rw [hasPickup_iff]
  constructor
  · rintro ⟨k, l, hk, hd, hall⟩
    refine ⟨k, by simp [isData, hk, hd], ?_⟩
    intro j hj
    unfold isBarline
    cases hm : f.lines[j]? with
    | none => rfl
    | some m => exact hall j m hj hm
  · rintro ⟨k, hd, hall⟩
    unfold isData at hd
    cases hk : f.lines[k]? with
    | none => rw [hk] at hd; simp at hd
    | some l =>
      rw [hk] at hd
      refine ⟨k, l, hk, hd, ?_⟩
      intro j m hj hm
      have := hall j hj
      unfold isBarline at this
      rw [hm] at this
      exact this

theorem analyzeMeter_barlineLines (f : HumdrumFile) :
    f.analyzeMeter.barlineLines = f.barlineLines := by
  unfold barlineLines
  rw [(analyzeMeter_frame f).1]
  apply List.filter_congr
  intro k _
  exact (analyzeMeter_flags f k).1

theorem barlineLines_sorted (f : HumdrumFile) :
    f.barlineLines.Pairwise (fun a b => a ≤ b) := by
  unfold barlineLines
  apply List.Pairwise.filter
  exact (List.pairwise_lt_range _).imp (fun h => Nat.le_of_lt h)

/-- C15: after `analyzeMeter`, when a data line occurs before any barline line
the registered barlines are line `0` followed by the barline lines, so that
`getBarline 0` is line `0` and `getBarlineCount` is the number of barline lines
plus one; when every data line has a barline line before it the registered
barlines are the barline lines alone; in both cases the registered barlines
are in non-decreasing line order. -/
theorem analyzeMeter_registers_barlines (f : HumdrumFile) :
    ((∃ k, f.analyzeMeter.isData k = true ∧
        ∀ j, j ≤ k → f.analyzeMeter.isBarline j = false) →
      f.analyzeMeter.barlines = 0 :: f.analyzeMeter.barlineLines ∧
      f.analyzeMeter.getBarline 0 = some 0 ∧
      f.analyzeMeter.getBarlineCount = (f.analyzeMeter.barlineLines.length : Int) + 1) ∧
    ((∀ k, f.analyzeMeter.isData k = true →
        ∃ j, j ≤ k ∧ f.analyzeMeter.isBarline j = true) →
      f.analyzeMeter.barlines = f.analyzeMeter.barlineLines ∧
      f.analyzeMeter.getBarlineCount = (f.analyzeMeter.barlineLines.length : Int)) ∧
    f.analyzeMeter.barlines.Pairwise (fun a b => a ≤ b) := by
  have hflags := analyzeMeter_flags f
  have hiff : hasPickup f.lines = true ↔
      ∃ k, f.analyzeMeter.isData k = true ∧
        ∀ j, j ≤ k → f.analyzeMeter.isBarline j = false := by
    rw [hasPickup_file]
    simp only [hflags]
  have hbars := analyzeMeter_barlines f
  rw [analyzeMeter_barlineLines]
  refine ⟨?_, ?_, ?_⟩
  · intro hp
    have h1 : f.analyzeMeter.barlines = 0 :: f.barlineLines := by
      rw [hbars, if_pos (hiff.2 hp)]; rfl
    refine ⟨h1, ?_, ?_⟩
    · simp [getBarline, h1]
    · simp [getBarlineCount, h1]
  · intro hnp
    have hno : ¬ hasPickup f.lines = true := by
      intro hp
      obtain ⟨k, hd, hall⟩ := hiff.1 hp
      obtain ⟨j, hj, hb⟩ := hnp k hd
      rw [hall j hj] at hb
      exact Bool.noConfusion hb
    have h1 : f.analyzeMeter.barlines = f.barlineLines := by
      rw [hbars, if_neg hno]; rfl
    exact ⟨h1, by simp [getBarlineCount, h1]⟩
  · rw [hbars]
    by_cases hp : hasPickup f.lines = true
    · rw [if_pos hp]
      simp only [List.singleton_append, List.pairwise_cons]
      exact ⟨fun a _ => Nat.zero_le a, barlineLines_sorted f⟩
    · rw [if_neg hp]
      simpa using barlineLines_sorted f

theorem analyzeMeter_pickupLines :
    (pickupLines.analyzeMeter.barlines, pickupLines.analyzeMeter.barlineLines,
      pickupLines.analyzeMeter.getBarline 0, pickupLines.analyzeMeter.getBarlineCount,
      barredLines.analyzeMeter.barlineLines,
      barredLines.analyzeMeter.getBarline 0, barredLines.analyzeMeter.getBarlineCount) =
      ([0, 2, 4], [2, 4], some 0, 3, [1, 4], some 1, 2) := by
  decide!

theorem setLast_append_left (ends x : List TokenPair) (index b : Nat)
    (h : index < ends.length) :
    setLast (ends ++ x) index b = setLast ends index b ++ x := by
  unfold setLast
  rw [List.getElem?_append_left h, List.getElem?_eq_getElem h]
  simp only
  rw [List.set_append_left _ _ h]

theorem setLast_snoc (e : List TokenPair) (p : TokenPair) (b : Nat) :
    setLast (e ++ [p]) e.length b = e ++ [{ p with last := some b }] := by
  unfold setLast
  simp

theorem closedSpines_spec (f : HumdrumFile) (h : f.closedSpines = true) :
    ∀ (i : Nat) (t : HumdrumToken), f.tokens[i]? = some t →
      (t.nextTokens = [] → t.isTerminateInterpretation = true) ∧
      (t.isTerminateInterpretation = true → t.isMerge = false) ∧
      ((1 < t.subtrack && t.isMerge) = true →
        ∃ pt, t.previousFieldToken.bind (fun p => f.tokens[p]?) = some pt) := by
  intro i t ht
  unfold closedSpines at h
  rw [List.all_eq_true] at h
  have h1 := h t (List.getElem?_mem ht)
  simp only [Bool.and_eq_true, Bool.or_eq_true, Bool.not_eq_true', List.isEmpty_eq_true] at h1
  obtain ⟨⟨h1, h2⟩, h3⟩ := h1
  refine ⟨?_, ?_, ?_⟩
  · intro hn
    rcases h1 with h1 | h1
    · rw [hn] at h1; simp at h1
    · exact h1
  · intro hterm
    rcases h2 with h2 | h2
    · rw [hterm] at h2; exact Bool.noConfusion h2
    · exact h2
  · intro hm
    rcases h3 with h3 | h3
    · rw [hm] at h3; exact Bool.noConfusion h3
    · exact Option.isSome_iff_exists.mp h3

theorem StrandEnd.here (ts : List HumdrumToken) (tok : Nat) (t : HumdrumToken)
    (ht : ts[tok]? = some t) (hend : endsStrand ts t = true) : StrandEnd ts tok tok := by
  refine ⟨1, t, [], [], ht, hend, ?_, ?_⟩
  · simp [primaryPath, ht, primaryPath_none]
  · intro x hx; simp at hx

theorem StrandEnd.step (ts : List HumdrumToken) (tok : Nat) (t : HumdrumToken)
    (ht : ts[tok]? = some t) (hend : endsStrand ts t = false) (n0 b : Nat)
    (hn : t.nextTokens.head? = some n0) (h : StrandEnd ts n0 b) : StrandEnd ts tok b := by
  obtain ⟨m, tb, pre, post, htb, hb, hpath, hpre⟩ := h
  refine ⟨m + 1, tb, tok :: pre, post, htb, hb, ?_, ?_⟩
  · simp [primaryPath, ht, hn, hpath]
  · intro x hx tx htx
    rcases List.mem_cons.mp hx with rfl | hx
    · rw [ht] at htx
      simp only [Option.some.injEq] at htx
      rw [← htx]; exact hend
    · exact hpre x hx tx htx

theorem strandWalk_spec (ts : List HumdrumToken) (n : Nat)
    (hwl : ∀ (i : Nat) (t : HumdrumToken), ts[i]? = some t →
      t.lineIndex < n ∧
      ∀ j, j ∈ t.nextTokens → ∃ u, ts[j]? = some u ∧ t.lineIndex < u.lineIndex)
    (hcl : ∀ (i : Nat) (t : HumdrumToken), ts[i]? = some t →
      (t.nextTokens = [] → t.isTerminateInterpretation = true) ∧
      (t.isTerminateInterpretation = true → t.isMerge = false) ∧
      ((1 < t.subtrack && t.isMerge) = true →
        ∃ pt, t.previousFieldToken.bind (fun p => ts[p]?) = some pt)) :
    ∀ (fuel index : Nat) (ends : List TokenPair) (tok : Nat) (t : HumdrumToken),
      ts[tok]? = some t → n < fuel + t.lineIndex → index < ends.length →
      ∃ b new, strandWalk fuel ts index ends (some tok) = some (setLast ends index b ++ new) ∧
        StrandEnd ts tok b ∧
        ∀ p ∈ new, ∃ a c, p = ⟨some a, some c⟩ ∧ SplitSuccessor ts a ∧ StrandEnd ts a c := by
  intro fuel
  induction fuel with
  | zero =>
    intro index ends tok t ht hfuel _
    have := (hwl tok t ht).1
    omega
  | succ fuel ih =>
    intro index ends tok t ht hfuel hidx
    obtain ⟨hlt, hsucc⟩ := hwl tok t ht
    obtain ⟨hc1, hc2, hc3⟩ := hcl tok t ht
    -- the continuation along the primary successor
    have hcont : ∀ (ends1 : List TokenPair), index < ends1.length →
        endsStrand ts t = false → t.isTerminateInterpretation = false →
        ∃ b new, strandWalk fuel ts index ends1 t.nextTokens.head? =
            some (setLast ends1 index b ++ new) ∧
          StrandEnd ts tok b ∧
          ∀ p ∈ new, ∃ a c, p = ⟨some a, some c⟩ ∧ SplitSuccessor ts a ∧ StrandEnd ts a c := by
      intro ends1 hidx1 hend hterm
      cases hnt : t.nextTokens with
      | nil => rw [hc1 hnt] at hterm; exact Bool.noConfusion hterm
      | cons n0 higher =>
        obtain ⟨u, hu, hlu⟩ := hsucc n0 (by rw [hnt]; exact List.mem_cons_self _ _)
        obtain ⟨b, new, hrun, hse, hnew⟩ := ih index ends1 n0 u hu (by omega) hidx1
        refine ⟨b, new, by simpa using hrun, ?_, hnew⟩
        exact StrandEnd.step ts tok t ht hend n0 b (by rw [hnt]; rfl) hse
    unfold strandWalk
    simp only [ht]
    by_cases hm : (1 < t.subtrack && t.isMerge) = true
    · rw [if_pos hm]
      obtain ⟨pt, hpt⟩ := hc3 hm
      simp only [hpt]
      by_cases hpm : pt.isMerge = true
      · rw [if_pos hpm]
        refine ⟨tok, [], by simp, ?_, by simp⟩
        apply StrandEnd.here ts tok t ht
        unfold endsStrand
        rw [if_pos hm, hpt]
        exact hpm
      · rw [if_neg hpm]
        have hend : endsStrand ts t = false := by
          unfold endsStrand
          rw [if_pos hm, hpt]
          simpa using hpm
        have hterm : t.isTerminateInterpretation = false := by
          cases hti : t.isTerminateInterpretation with
          | false => rfl
          | true =>
            have := hc2 hti
            simp [this] at hm
        exact hcont ends hidx hend hterm
    · rw [if_neg hm]
      by_cases hti : t.isTerminateInterpretation = true
      · rw [if_pos hti]
        refine ⟨tok, [], by simp, ?_, by simp⟩
        apply StrandEnd.here ts tok t ht
        unfold endsStrand
        rw [if_neg hm]
        exact hti
      · rw [if_neg hti]
        have hterm : t.isTerminateInterpretation = false := by simpa using hti
        have hend : endsStrand ts t = false := by
          unfold endsStrand
          rw [if_neg hm]
          exact hterm
        -- the branches of a split
        have hfold : ∀ (hs : List Nat) (e : List TokenPair),
            (∀ x ∈ hs, SplitSuccessor ts x ∧ x ∈ t.nextTokens) →
            ∃ new, hs.foldlM (fun e n =>
                strandWalk fuel ts e.length (e ++ [{ first := some n }]) (some n)) e =
                some (e ++ new) ∧
              ∀ p ∈ new, ∃ a c, p = ⟨some a, some c⟩ ∧ SplitSuccessor ts a ∧
                StrandEnd ts a c := by
          intro hs
          induction hs with
          | nil => intro e _; exact ⟨[], by simp, by simp⟩
          | cons x xs ihx =>
            intro e hx
            obtain ⟨hsx, hxm⟩ := hx x (List.mem_cons_self _ _)
            obtain ⟨u, hu, hlu⟩ := hsucc x hxm
            obtain ⟨b, new, hrun, hse, hnew⟩ :=
              ih e.length (e ++ [{ first := some x }]) x u hu (by omega) (by simp)
            rw [setLast_snoc] at hrun
            obtain ⟨new2, hrun2, hnew2⟩ := ihx (e ++ [{ first := some x, last := some b }] ++ new)
              (fun y hy => hx y (List.mem_cons_of_mem _ hy))
            refine ⟨{ first := some x, last := some b } :: new ++ new2, ?_, ?_⟩
            · rw [List.foldlM_cons, hrun]
              simp only [Option.bind_eq_bind, Option.some_bind]
              rw [hrun2]
              simp
            · intro p hp
              simp only [List.cons_append, List.mem_cons, List.mem_append] at hp
              rcases hp with rfl | hp | hp
              · exact ⟨x, b, rfl, hsx, hse⟩
              · exact hnew p hp
              · exact hnew2 p hp
        obtain ⟨newAll, hrunAll, hnewAll⟩ := hfold t.nextTokens.tail ends (by
          intro x hx
          refine ⟨?_, List.mem_of_mem_tail hx⟩
          obtain ⟨j, hj, hjx⟩ := List.getElem_of_mem hx
          refine ⟨tok, t, j + 1, ht, by omega, ?_⟩
          cases hnt : t.nextTokens with
          | nil => rw [hnt] at hx; simp at hx
          | cons n0 higher =>
            simp only [hnt, List.tail_cons, List.length_cons] at hj hjx ⊢
            rw [List.getElem?_cons_succ, List.getElem?_eq_getElem hj, hjx])
        rw [hrunAll]
        simp only
        obtain ⟨b, new, hrun, hse, hnew⟩ := hcont (ends ++ newAll)
          (by rw [List.length_append]; omega) hend hterm
        rw [setLast_append_left _ _ _ _ hidx] at hrun
        refine ⟨b, newAll ++ new, by rw [hrun]; simp, hse, ?_⟩
        intro p hp
        rcases List.mem_append.mp hp with hp | hp
        · exact hnewAll p hp
        · exact hnew p hp

theorem analyzeSpineStrands_splitMerge :
    analyzeSpineStrands splitMerge.walkBound splitMerge.tokens [] 0 =
      some [{ first := some 0, last := some 7 }, { first := some 3, last := some 5 }] := by
  decide!

theorem analyzeSpineStrands_nestedSplit :
    (analyzeSpineStrands nestedSplit.walkBound nestedSplit.tokens [] 0,
      primaryPath nestedSplit.tokens nestedSplit.walkBound (some 3)) =
      (some [{ first := some 0, last := some 12 }, { first := some 3, last := some 11 },
        { first := some 6, last := some 9 }], [3, 5, 8, 11, 12]) := by
  decide!

theorem primaryPath_length (ts : List HumdrumToken) (n : Nat)
    (hwl : ∀ (i : Nat) (t : HumdrumToken), ts[i]? = some t →
      t.lineIndex < n ∧
      ∀ j, j ∈ t.nextTokens → ∃ u, ts[j]? = some u ∧ t.lineIndex < u.lineIndex) :
    ∀ (m c : Nat) (tc : HumdrumToken), ts[c]? = some tc →
      (primaryPath ts m (some c)).length + tc.lineIndex ≤ n := by
  intro m
  induction m with
  | zero => intro c tc hc; have := (hwl c tc hc).1; simp [primaryPath]; omega
  | succ m ih =>
    intro c tc hc
    obtain ⟨hlt, hsucc⟩ := hwl c tc hc
    simp only [primaryPath, hc, List.length_cons]
    cases hnt : tc.nextTokens with
    | nil => simp [primaryPath_none]; omega
    | cons n0 higher =>
      obtain ⟨u, hu, hlu⟩ := hsucc n0 (by rw [hnt]; exact List.mem_cons_self _ _)
      have := ih n0 u hu
      simp only [List.head?_cons]
      omega

theorem StrandEnd.valid (ts : List HumdrumToken) (a b : Nat) (h : StrandEnd ts a b) :
    ∃ t, ts[a]? = some t := by
  obtain ⟨m, tb, pre, post, _, _, hpath, _⟩ := h
  cases m with
  | zero => simp [primaryPath] at hpath
  | succ m =>
    cases ha : ts[a]? with
    | none => simp [primaryPath, ha] at hpath
    | some t => exact ⟨t, rfl⟩

theorem labelWalk_total (ts : List HumdrumToken) (n : Nat)
    (hwl : ∀ (i : Nat) (t : HumdrumToken), ts[i]? = some t →
      t.lineIndex < n ∧
      ∀ j, j ∈ t.nextTokens → ∃ u, ts[j]? = some u ∧ t.lineIndex < u.lineIndex) :
    ∀ (fuel : Nat) (tbl : Nat → Int) (i : Int) (tok : Nat) (t : HumdrumToken),
      ts[tok]? = some t → n < fuel + t.lineIndex →
      ∃ tbl1, labelWalk fuel ts tbl i (some tok) = some tbl1 := by
  intro fuel
  induction fuel with
  | zero => intro tbl i tok t ht hf; have := (hwl tok t ht).1; omega
  | succ fuel ih =>
    intro tbl i tok t ht hf
    obtain ⟨hlt, hsucc⟩ := hwl tok t ht
    simp only [labelWalk, ht]
    cases hnt : t.nextTokens with
    | nil => cases fuel <;> exact ⟨_, rfl⟩
    | cons n0 higher =>
      obtain ⟨u, hu, hlu⟩ := hsucc n0 (by rw [hnt]; exact List.mem_cons_self _ _)
      exact ih _ i n0 u hu (by omega)

theorem nullWalk_total (ts : List HumdrumToken) (b : Nat) (post : List Nat) :
    ∀ (pre : List Nat) (m fuel a : Nat) (res : Nat → Option Nat) (data : Option Nat),
      primaryPath ts m (some a) = pre ++ b :: post → pre.length < fuel →
      ∃ r, nullWalk fuel ts res data (some b) (some a) = some r := by
  intro pre
  induction pre with
  | nil =>
    intro m fuel a res data hpath hf
    have hab : a = b := by
      cases m with
      | zero => simp [primaryPath] at hpath
      | succ m =>
        cases ha : ts[a]? with
        | none => simp [primaryPath, ha] at hpath
        | some t => simp [primaryPath, ha] at hpath; exact hpath.1
    subst hab
    cases fuel with
    | zero => omega
    | succ fuel => exact ⟨(res, data), by simp [nullWalk]⟩
  | cons x pre ih =>
    intro m fuel a res data hpath hf
    cases fuel with
    | zero => omega
    | succ fuel =>
      by_cases hab : a = b
      · subst hab; exact ⟨(res, data), by simp [nullWalk]⟩
      · cases m with
        | zero => simp [primaryPath] at hpath
        | succ m =>
          cases ha : ts[a]? with
          | none => simp [primaryPath, ha] at hpath
          | some t =>
            simp only [primaryPath, ha, List.cons_append, List.cons.injEq] at hpath
            obtain ⟨_, hpath⟩ := hpath
            cases hnt : t.nextTokens.head? with
            | none => rw [hnt, primaryPath_none] at hpath; simp at hpath
            | some n0 =>
              rw [hnt] at hpath
              simp only [List.length_cons, add_lt_add_iff_right] at hf
              have hne : ¬ (some a = some b) := by simpa using hab
              unfold nullWalk
              rw [if_neg hne]
              simp only [ha, hnt]
              split
              · exact ih m fuel n0 _ _ hpath hf
              · split
                · exact ih m fuel n0 _ _ hpath hf
                · split
                  · exact ih m fuel n0 _ _ hpath hf
                  · exact ih m fuel n0 _ _ hpath hf

theorem analyzeSpineStrands_good (f : HumdrumFile) (start : Nat) (t0 : HumdrumToken)
    (hstart : f.tokens[start]? = some t0) (hwl : f.wellLinked = true)
    (hcl : f.closedSpines = true) :
    ∃ ends, analyzeSpineStrands f.walkBound f.tokens [] start = some ends ∧
      ∀ p ∈ ends, ∃ (a b : Nat), p = ⟨some a, some b⟩ ∧ StrandEnd f.tokens a b := by
  obtain ⟨b, new, hrun, hse, hnew⟩ := strandWalk_spec f.tokens f.lines.length
    (wellLinked_spec f hwl) (closedSpines_spec f hcl)
    f.walkBound 0 [{ first := some start }] start t0 hstart
    (by unfold walkBound; omega) (by simp)
  refine ⟨_, by unfold analyzeSpineStrands; simpa using hrun, ?_⟩
  intro p hp
  rw [show setLast [({ first := some start } : TokenPair)] 0 b =
    [{ first := some start, last := some b }] from rfl] at hp
  rcases List.mem_append.mp hp with hp | hp
  · simp only [List.mem_singleton] at hp
    exact ⟨start, b, hp, hse⟩
  · obtain ⟨a, c, hpe, _, hsc⟩ := hnew p hp
    exact ⟨a, c, hpe, hsc⟩

theorem optionMapM_total {α β : Type} (g : α → Option β) :
    ∀ (l : List α), (∀ x ∈ l, ∃ y, g x = some y) →
      ∃ ys, l.mapM g = some ys ∧ ys.length = l.length ∧
        ∀ (i : Nat) (y : β), ys[i]? = some y → ∃ x, l[i]? = some x ∧ g x = some y := by
  intro l
  induction l with
  | nil => intro _; exact ⟨[], rfl, rfl, by simp⟩
  | cons a as ih =>
    intro h
    obtain ⟨y, hy⟩ := h a (List.mem_cons_self _ _)
    obtain ⟨ys, hys, hlen, hget⟩ := ih (fun x hx => h x (List.mem_cons_of_mem _ hx))
    refine ⟨y :: ys, ?_, by simp [hlen], ?_⟩
    · rw [List.mapM_cons, hy, hys]; rfl
    · intro i z hz
      cases i with
      | zero => simp at hz; subst hz; exact ⟨a, by simp, hy⟩
      | succ i => simpa using hget i z (by simpa using hz)

theorem assignStrandsToTokens_total (f : HumdrumFile) (hwl : f.wellLinked = true)
    (hgood : ∀ p ∈ f.strand1d, ∃ (a b : Nat), p = ⟨some a, some b⟩ ∧
      StrandEnd f.tokens a b) :
    ∃ tbl, f.assignStrandsToTokens = some { f with strandIndex := tbl } := by
  have hw := wellLinked_spec f hwl
  have hfold : ∀ (l : List (Nat × TokenPair)) (tbl : Nat → Int),
      (∀ q ∈ l, ∃ (a b : Nat), q.2 = ⟨some a, some b⟩ ∧ StrandEnd f.tokens a b) →
      ∃ tbl1, l.foldlM (fun tbl p =>
        labelWalk f.walkBound f.tokens tbl (p.1 : Int) p.2.first) tbl = some tbl1 := by
    intro l
    induction l with
    | nil => intro tbl _; exact ⟨tbl, rfl⟩
    | cons q qs ih =>
      intro tbl h
      obtain ⟨a, b, hq, hse⟩ := h q (List.mem_cons_self _ _)
      obtain ⟨t, ht⟩ := StrandEnd.valid _ _ _ hse
      obtain ⟨tbl1, h1⟩ := labelWalk_total f.tokens f.lines.length hw f.walkBound tbl
        (q.1 : Int) a t ht (by unfold walkBound; omega)
      obtain ⟨tbl2, h2⟩ := ih tbl1 (fun x hx => h x (List.mem_cons_of_mem _ hx))
      refine ⟨tbl2, ?_⟩
      rw [List.foldlM_cons, hq]
      simp only
      rw [h1]
      simpa using h2
  obtain ⟨tbl, h⟩ := hfold f.strand1d.enum f.strandIndex
    (fun q hq => hgood q.2 (List.snd_mem_of_mem_enum hq))
  exact ⟨tbl, by unfold assignStrandsToTokens; rw [h]; rfl⟩

theorem resolveNullLoop_total (f : HumdrumFile) (hwl : f.wellLinked = true)
    (hgood : ∀ p ∈ f.strand1d, ∃ (a b : Nat), p = ⟨some a, some b⟩ ∧
      StrandEnd f.tokens a b) :
    ∃ res, f.resolveNullLoop = some { f with nullResolution := res } := by
  have hw := wellLinked_spec f hwl
  have hfold : ∀ (l : List TokenPair) (acc : (Nat → Option Nat) × Option Nat),
      (∀ q ∈ l, ∃ (a b : Nat), q = ⟨some a, some b⟩ ∧ StrandEnd f.tokens a b) →
      ∃ acc1, l.foldlM (fun acc p =>
        nullWalk f.walkBound f.tokens acc.1 acc.2 p.last p.first) acc = some acc1 := by
    intro l
    induction l with
    | nil => intro acc _; exact ⟨acc, rfl⟩
    | cons q qs ih =>
      intro acc h
      obtain ⟨a, b, hq, hse⟩ := h q (List.mem_cons_self _ _)
      obtain ⟨t, ht⟩ := StrandEnd.valid _ _ _ hse
      obtain ⟨m, tb, pre, post, _, _, hpath, _⟩ := hse
      have hlen := primaryPath_length f.tokens f.lines.length hw m a t ht
      rw [hpath] at hlen
      simp only [List.length_append, List.length_cons] at hlen
      obtain ⟨acc1, h1⟩ := nullWalk_total f.tokens b post pre m f.walkBound a acc.1 acc.2
        hpath (by unfold walkBound; omega)
      obtain ⟨acc2, h2⟩ := ih acc1 (fun x hx => h x (List.mem_cons_of_mem _ hx))
      refine ⟨acc2, ?_⟩
      rw [List.foldlM_cons, hq]
      simp only
      rw [h1]
      simpa using h2
  obtain ⟨acc, h⟩ := hfold f.strand1d (f.nullResolution, none) hgood
  exact ⟨acc.1, by unfold resolveNullLoop; rw [h]; rfl⟩

theorem sortTokenPairsByLineIndex_spec (ts : List HumdrumToken) (ends : List TokenPair) :
    (sortTokenPairsByLineIndex ts ends).Perm ends ∧
    (sortTokenPairsByLineIndex ts ends).Pairwise
      (fun p q => strandLine ts p ≤ strandLine ts q) := by
  unfold sortTokenPairsByLineIndex
  haveI : IsTotal TokenPair (fun a b => strandLine ts a ≤ strandLine ts b) :=
    ⟨fun a b => Nat.le_total _ _⟩
  haveI : IsTrans TokenPair (fun a b => strandLine ts a ≤ strandLine ts b) :=
    ⟨fun a b c h1 h2 => Nat.le_trans h1 h2⟩
  exact ⟨List.perm_insertionSort _ _, List.sorted_insertionSort _ _⟩

theorem validStarts_spec (f : HumdrumFile) (h : f.validStarts = true) (i : Nat)
    (hi : i < f.getSpineCount) :
    ∃ tok t, f.getSpineStart i = some tok ∧ f.tokens[tok]? = some t := by
  unfold getSpineCount getMaxTrack at hi
  unfold validStarts at h
  rw [List.all_eq_true] at h
  have h1 := h (f.trackstarts[i]) (List.getElem_mem hi)
  simp only [decide_eq_true_eq] at h1
  refine ⟨f.trackstarts[i], f.tokens[f.trackstarts[i]], ?_, ?_⟩
  · unfold getSpineStart getTrackStart
    simp [List.getElem?_eq_getElem hi]
  · exact List.getElem?_eq_getElem h1

theorem analyzeStrandsCore_spec (f : HumdrumFile) (hwl : f.wellLinked = true)
    (hcl : f.closedSpines = true) (hst : f.validStarts = true) :
    ∃ (raws : List (List TokenPair)) (tbl : Nat → Int),
      raws.length = f.getSpineCount ∧
      (∀ (i : Nat) (ends : List TokenPair), raws[i]? = some ends →
        ∃ tok, f.getSpineStart i = some tok ∧
          analyzeSpineStrands f.walkBound f.tokens [] tok = some ends ∧
          ∀ p ∈ ends, ∃ (a b : Nat), p = ⟨some a, some b⟩ ∧ StrandEnd f.tokens a b) ∧
      f.analyzeStrandsCore = some { f with
        strandsAnalyzed := true,
        strand2d := raws.map (sortTokenPairsByLineIndex f.tokens),
        strand1d := (raws.map (sortTokenPairsByLineIndex f.tokens)).flatten,
        strandIndex := tbl } := by
  obtain ⟨raws, hraws, hlen, hget⟩ := optionMapM_total
    (fun i => match f.getSpineStart i with
      | none => none
      | some tok => analyzeSpineStrands f.walkBound f.tokens [] tok)
    (List.range f.getSpineCount) (by
      intro i hi
      obtain ⟨tok, t, htok, ht⟩ := validStarts_spec f hst i (List.mem_range.mp hi)
      obtain ⟨ends, hends, _⟩ := analyzeSpineStrands_good f tok t ht hwl hcl
      exact ⟨ends, by simp only [htok]; exact hends⟩)
  have hinfo : ∀ (i : Nat) (ends : List TokenPair), raws[i]? = some ends →
      ∃ tok, f.getSpineStart i = some tok ∧
        analyzeSpineStrands f.walkBound f.tokens [] tok = some ends ∧
        ∀ p ∈ ends, ∃ (a b : Nat), p = ⟨some a, some b⟩ ∧ StrandEnd f.tokens a b := by
    intro i ends hi
    obtain ⟨x, hx, hrun⟩ := hget i ends hi
    have hxi : x = i := by
      have hlt := lt_length_of_getElem? _ _ _ hx
      rw [List.getElem?_eq_getElem hlt, List.getElem_range] at hx
      simpa using hx.symm
    subst hxi
    have hlt : x < f.getSpineCount := by
      have := lt_length_of_getElem? _ _ _ hx
      simpa using this
    obtain ⟨tok, t, htok, ht⟩ := validStarts_spec f hst x hlt
    simp only [htok] at hrun
    obtain ⟨ends1, hends1, hgood⟩ := analyzeSpineStrands_good f tok t ht hwl hcl
    rw [hends1] at hrun
    simp only [Option.some.injEq] at hrun
    subst hrun
    exact ⟨tok, htok, hends1, hgood⟩
  have hgood : ∀ p ∈ (raws.map (sortTokenPairsByLineIndex f.tokens)).flatten,
      ∃ (a b : Nat), p = ⟨some a, some b⟩ ∧ StrandEnd f.tokens a b := by
    intro p hp
    simp only [List.mem_flatten, List.mem_map] at hp
    obtain ⟨s, ⟨ends, hends, rfl⟩, hps⟩ := hp
    have hpe : p ∈ ends := (sortTokenPairsByLineIndex_spec f.tokens ends).1.mem_iff.mp hps
    obtain ⟨i, hi, hie⟩ := List.getElem_of_mem hends
    obtain ⟨tok, _, _, hg⟩ := hinfo i ends (by rw [List.getElem?_eq_getElem hi, hie])
    exact hg p hpe
  obtain ⟨tbl, htbl⟩ := assignStrandsToTokens_total
    { f with
      strandsAnalyzed := true,
      strand2d := raws.map (sortTokenPairsByLineIndex f.tokens),
      strand1d := (raws.map (sortTokenPairsByLineIndex f.tokens)).flatten } hwl hgood
  refine ⟨raws, tbl, by simpa using hlen, hinfo, ?_⟩
  unfold analyzeStrandsCore
  simp only
  have hraws1 : (List.range
      ({ f with strandsAnalyzed := true, strand1d := [], strand2d := [] } :
        HumdrumFile).getSpineCount).mapM (fun i =>
      match ({ f with strandsAnalyzed := true, strand1d := [], strand2d := [] } :
          HumdrumFile).getSpineStart i with
      | none => none
      | some tok => analyzeSpineStrands
          ({ f with strandsAnalyzed := true, strand1d := [], strand2d := [] } :
            HumdrumFile).walkBound f.tokens [] tok) = some raws := hraws
  rw [hraws1]
  simp only
  exact htbl

theorem analyzeStrands_spec (f : HumdrumFile) (hwl : f.wellLinked = true)
    (hcl : f.closedSpines = true) (hst : f.validStarts = true) :
    ∃ (raws : List (List TokenPair)) (tbl : Nat → Int) (res : Nat → Option Nat),
      raws.length = f.getSpineCount ∧
      (∀ (i : Nat) (ends : List TokenPair), raws[i]? = some ends →
        ∃ tok, f.getSpineStart i = some tok ∧
          analyzeSpineStrands f.walkBound f.tokens [] tok = some ends ∧
          ∀ p ∈ ends, ∃ (a b : Nat), p = ⟨some a, some b⟩ ∧ StrandEnd f.tokens a b) ∧
      f.analyzeStrands = some (f.valid, { f with
        strandsAnalyzed := true,
        nullsAnalyzed := true,
        strand2d := raws.map (sortTokenPairsByLineIndex f.tokens),
        strand1d := (raws.map (sortTokenPairsByLineIndex f.tokens)).flatten,
        strandIndex := tbl,
        nullResolution := res }) := by
  obtain ⟨raws, tbl, hlen, hinfo, hcore⟩ := analyzeStrandsCore_spec f hwl hcl hst
  have hgood : ∀ p ∈ (raws.map (sortTokenPairsByLineIndex f.tokens)).flatten,
      ∃ (a b : Nat), p = ⟨some a, some b⟩ ∧ StrandEnd f.tokens a b := by
    intro p hp
    simp only [List.mem_flatten, List.mem_map] at hp
    obtain ⟨s, ⟨ends, hends, rfl⟩, hps⟩ := hp
    have hpe : p ∈ ends := (sortTokenPairsByLineIndex_spec f.tokens ends).1.mem_iff.mp hps
    obtain ⟨i, hi, hie⟩ := List.getElem_of_mem hends
    obtain ⟨tok, _, _, hg⟩ := hinfo i ends (by rw [List.getElem?_eq_getElem hi, hie])
    exact hg p hpe
  by_cases hn : f.nullsAnalyzed = true
  · refine ⟨raws, tbl, f.nullResolution, hlen, hinfo, ?_⟩
    unfold analyzeStrands
    rw [hcore]
    simp only [Option.some_bind]
    unfold resolveNullTokens
    simp only [hn, if_true, Option.map_some', isValid]
  · obtain ⟨res, hres⟩ := resolveNullLoop_total
      { f with
        strandsAnalyzed := true,
        nullsAnalyzed := true,
        strand2d := raws.map (sortTokenPairsByLineIndex f.tokens),
        strand1d := (raws.map (sortTokenPairsByLineIndex f.tokens)).flatten,
        strandIndex := tbl } hwl hgood
    refine ⟨raws, tbl, res, hlen, hinfo, ?_⟩
    unfold analyzeStrands
    rw [hcore]
    simp only [Option.some_bind]
    unfold resolveNullTokens
    simp only [hn, areStrandsAnalyzed, Bool.not_true, Bool.false_eq_true, if_false,
      Option.some_bind]
    rw [hres]
    rfl

/-- C19 (amended): on a well-linked file with closed spines and valid track
starts `analyzeStrands` returns; the 1D strand list is the concatenation, in
spine order, of the strand lists of the spines, and the list of each spine
holds the strands found by `analyzeSpineStrands` from the spine start, ordered
by the line index of their first token. -/
theorem analyzeStrands_sorted_within_spine (f : HumdrumFile) (hwl : f.wellLinked = true)
    (hcl : f.closedSpines = true) (hst : f.validStarts = true) :
    ∃ v g, f.analyzeStrands = some (v, g) ∧
      g.strand2d.length = f.getSpineCount ∧
      g.strand1d = g.strand2d.flatten ∧
      ∀ (i : Nat) (s : List TokenPair), g.strand2d[i]? = some s →
        (∃ tok ends, f.getSpineStart i = some tok ∧
          analyzeSpineStrands f.walkBound f.tokens [] tok = some ends ∧ s.Perm ends) ∧
        s.Pairwise (fun p q => strandLine g.tokens p ≤ strandLine g.tokens q) := by
  obtain ⟨raws, tbl, res, hlen, hinfo, hrun⟩ := analyzeStrands_spec f hwl hcl hst
  refine ⟨_, _, hrun, by simpa using hlen, rfl, ?_⟩
  intro i s hs
  simp only [List.getElem?_map, Option.map_eq_some'] at hs
  obtain ⟨ends, hends, rfl⟩ := hs
  obtain ⟨tok, htok, hrunS, _⟩ := hinfo i ends hends
  have hsort := sortTokenPairsByLineIndex_spec f.tokens ends
  exact ⟨⟨tok, ends, htok, hrunS, hsort.1⟩, hsort.2⟩

theorem twoSpinesSplit_strands :
    (twoSpinesSplit.analyzeStrands).map (fun r => (r.1, r.2.strand2d, r.2.strand1d,
      (List.range 12).map r.2.strandIndex)) =
      some (true,
        [[{ first := some 0, last := some 10 }, { first := some 5, last := some 8 }],
          [{ first := some 1, last := some 11 }]],
        [{ first := some 0, last := some 10 }, { first := some 5, last := some 8 },
          { first := some 1, last := some 11 }],
        [0, 2, 0, 2, 0, 1, 2, 0, 1, 2, 1, 2]) := by
  decide!

theorem analyzeStrands_sorted_within_spine_witness :
    twoSpinesSplit.wellLinked = true ∧ twoSpinesSplit.closedSpines = true ∧
    twoSpinesSplit.validStarts = true ∧
    ∃ v g, twoSpinesSplit.analyzeStrands = some (v, g) ∧
      g.strand2d.length = twoSpinesSplit.getSpineCount ∧
      g.strand1d = g.strand2d.flatten ∧
      ∀ (i : Nat) (s : List TokenPair), g.strand2d[i]? = some s →
        (∃ tok ends, twoSpinesSplit.getSpineStart i = some tok ∧
          analyzeSpineStrands twoSpinesSplit.walkBound twoSpinesSplit.tokens [] tok =
            some ends ∧ s.Perm ends) ∧
        s.Pairwise (fun p q => strandLine g.tokens p ≤ strandLine g.tokens q) :=
  ⟨by decide!, by decide!, by decide!,
    analyzeStrands_sorted_within_spine twoSpinesSplit (by decide!) (by decide!)
      (by decide!)⟩

/-- C19 (counterexample): on `twoSpinesSplit` the 1D strand list after
`analyzeStrands` holds the strands starting at tokens `0`, `5` and `1`, whose
lines are `0`, `2` and `0`: strand `1` starts on a later line than strand `2`. -/
theorem analyzeStrands_counterexample :
    (twoSpinesSplit.analyzeStrands).map (fun r =>
      (r.2.getStrandCount, (List.range 3).map r.2.getStrandStart,
        r.2.strand1d.map (strandLine r.2.tokens),
        decide (strandLine r.2.tokens (r.2.strand1d.getD 1 {}) ≤
          strandLine r.2.tokens (r.2.strand1d.getD 2 {})))) =
      some (3, [some 0, some 5, some 1], [0, 2, 0], false) := by
  decide!

/-- C20 (evaluation): on `splitMerge` strand `0` runs from token `0` to token
`7` along the tokens `0, 1, 2, 4, 6, 7`, and after `analyzeStrands` the tokens
`6` and `7` of this path carry the strand index `1`. -/
theorem assignStrandsToTokens_overruns :
    (splitMerge.analyzeStrands).map (fun r =>
      (r.2.strand1d, (r.2.getStrandStart 0, r.2.getStrandEnd 0),
        primaryPath r.2.tokens r.2.walkBound (r.2.getStrandStart 0),
        (List.range 8).map r.2.strandIndex)) =
      some ([{ first := some 0, last := some 7 }, { first := some 3, last := some 5 }],
        (some 0, some 7), [0, 1, 2, 4, 6, 7], [0, 0, 0, 1, 0, 1, 1, 1]) := by
  decide!

theorem assignLineDurationsLoop_sum (ls : List HumdrumLine) :
    ((assignLineDurationsLoop ls).map (fun l => l.duration)).sum =
      match ls.getLast?, ls.head? with
      | some z, some a => z.durationFromStart - a.durationFromStart
      | _, _ => 0 := by
  induction ls using assignLineDurationsLoop.induct with
  | case1 => simp [assignLineDurationsLoop]
  | case2 l0 => simp [assignLineDurationsLoop]
  | case3 l0 m rest ih =>
    simp only [assignLineDurationsLoop, List.map_cons, List.sum_cons, ih]
    cases hl : (m :: rest).getLast? with
    | none => simp at hl
    | some z =>
      have : (l0 :: m :: rest).getLast? = some z := by
        rw [List.getLast?_cons_cons]; exact hl
      rw [this]
      simp only [List.head?_cons]
      ring

theorem assignLineDurationsLoop_getLast? (ls : List HumdrumLine) :
    (assignLineDurationsLoop ls).getLast?.map (fun l => l.durationFromStart) =
      ls.getLast?.map (fun l => l.durationFromStart) := by
  induction ls using assignLineDurationsLoop.induct with
  | case1 => simp [assignLineDurationsLoop]
  | case2 l0 => simp [assignLineDurationsLoop]
  | case3 l0 m rest ih =>
    have h1 : assignLineDurationsLoop (l0 :: m :: rest) =
        { l0 with duration := m.durationFromStart - l0.durationFromStart } ::
          assignLineDurationsLoop (m :: rest) := by
      simp [assignLineDurationsLoop]
    rw [h1]
    cases hr : assignLineDurationsLoop (m :: rest) with
    | nil =>
      have := assignLineDurationsLoop_length (m :: rest)
      rw [hr] at this; simp at this
    | cons x xs =>
      rw [List.getLast?_cons_cons, List.getLast?_cons_cons, ← hr]
      exact ih

/-- C29: after `assignLineDurations` on a file with at least one line the sum
of all line durations is the `durationFromStart` of the last line, which is
`getScoreDuration`, minus the `durationFromStart` of the first line, whatever
the `durationFromStart` values are. -/
theorem assignLineDurations_telescopes (f : HumdrumFile) (h : 0 < f.getLineCount) :
    (f.assignLineDurations.lines.map (fun l => l.duration)).sum =
      f.assignLineDurations.getScoreDuration - f.assignLineDurations.durationFromStart 0 ∧
    f.assignLineDurations.getScoreDuration =
      f.assignLineDurations.durationFromStart (f.assignLineDurations.getLineCount - 1) := by
  have hsum := assignLineDurationsLoop_sum f.lines
  have hlast := assignLineDurationsLoop_getLast? f.lines
  have hdfs := assignLineDurations_durationFromStart f
  have hlen : f.assignLineDurations.getLineCount = f.lines.length :=
    assignLineDurationsLoop_length f.lines
  unfold getLineCount at h
  obtain ⟨a, rest, hls⟩ : ∃ a rest, f.lines = a :: rest := by
    cases hl : f.lines with
    | nil => rw [hl] at h; simp at h
    | cons a rest => exact ⟨a, rest, rfl⟩
  obtain ⟨z, hz⟩ : ∃ z, f.lines.getLast? = some z := by
    rw [hls]; exact ⟨_, List.getLast?_eq_getLast _ (by simp)⟩
  have hscore : f.assignLineDurations.getScoreDuration = z.durationFromStart := by
    unfold getScoreDuration
    have h1 : f.assignLineDurations.lines = assignLineDurationsLoop f.lines := rfl
    rw [h1]
    rw [hz] at hlast
    cases hg : (assignLineDurationsLoop f.lines).getLast? with
    | none => rw [hg] at hlast; simp at hlast
    | some y => rw [hg] at hlast; simpa using hlast
  have hfirst : f.durationFromStart 0 = a.durationFromStart := by
    unfold durationFromStart; rw [hls]; simp
  have hlastidx : f.durationFromStart (f.lines.length - 1) = z.durationFromStart := by
    unfold durationFromStart
    rw [List.getLast?_eq_getElem?] at hz
    rw [hz]
  refine ⟨?_, ?_⟩
  · have h1 : f.assignLineDurations.lines = assignLineDurationsLoop f.lines := rfl
    rw [h1, hsum, hz, hscore, hdfs 0, hfirst, hls]
    rfl
  · rw [hscore, hlen, hdfs, hlastidx]

theorem assignLineDurations_telescopes_witness :
    0 < mixedDurations.getLineCount ∧
    ((mixedDurations.assignLineDurations.lines.map (fun l => l.duration)).sum =
      mixedDurations.assignLineDurations.getScoreDuration -
        mixedDurations.assignLineDurations.durationFromStart 0 ∧
    mixedDurations.assignLineDurations.getScoreDuration =
      mixedDurations.assignLineDurations.durationFromStart
        (mixedDurations.assignLineDurations.getLineCount - 1)) :=
  ⟨by decide, assignLineDurations_telescopes mixedDurations (by decide)⟩

theorem incrementedOnce_refl (state : Int) (f : HumdrumFile) : IncrementedOnce state f f :=
  fun _ => Or.inl rfl

theorem incrementedOnce_trans (state : Int) (f g h : HumdrumFile)
    (h1 : IncrementedOnce state f g) (h2 : IncrementedOnce state g h) :
    IncrementedOnce state f h := by
  intro tok
  rcases h1 tok with a | ⟨a1, a2⟩ <;> rcases h2 tok with b | ⟨b1, b2⟩
  · exact Or.inl (by rw [b, a])
  · exact Or.inr ⟨by rw [← a]; exact b1, b2⟩
  · exact Or.inr ⟨a1, by rw [b, a2]⟩
  · omega

theorem IncrementedOnce.of_rhycheck (state : Int) (f g : HumdrumFile)
    (h : g.rhycheck = f.rhycheck) : IncrementedOnce state f g :=
  fun _ => Or.inl (by rw [h])

theorem incrementedOnce_step (state : Int) (f g : HumdrumFile) (k : Nat) (d : Rat)
    (hst : ¬ state ≠ f.rhycheck k)
    (h : (f.incrementState k).setLineDurationFromStart k d = some g) :
    IncrementedOnce state f g := by
  have hr := (setLineDurationFromStart_frame _ _ _ _ h).2.2
  have hk : f.rhycheck k = state := by
    by_contra hne; exact hst (fun e => hne e.symm)
  intro tok
  rw [hr]
  unfold incrementState
  simp only
  by_cases e : tok = k
  · subst e
    right
    exact ⟨hk, by simp [hk]⟩
  · left
    simp [Function.update, e]

theorem primaryWalk_once :
    ∀ (fuel : Nat) (f : HumdrumFile) (state : Int) (c : Nat) (dursum : Rat)
      (res : List (Nat × Rat)) (r : WalkResult),
      primaryWalk fuel f state c dursum res = some r →
      IncrementedOnce state f r.file := by
  intro fuel
  induction fuel with
  | zero => intro f state c dursum res r h; simp [primaryWalk] at h
  | succ fuel ih =>
    intro f state c dursum res r h
    simp only [primaryWalk] at h
    cases hc : f.tokens[c]? with
    | none => simp [hc] at h
    | some tc =>
      simp only [hc] at h
      cases hnt : tc.nextTokens with
      | nil =>
        simp only [hnt] at h
        split at h
        · cases hs : f.setLineDurationFromStart c dursum with
          | none => simp [hs] at h
          | some g =>
            simp only [hs] at h
            have hg : IncrementedOnce state f g :=
              IncrementedOnce.of_rhycheck _ _ _ (setLineDurationFromStart_frame _ _ _ _ hs).2.2
            split at h <;> cases h <;> exact hg
        · cases h; exact incrementedOnce_refl _ _
      | cons n0 higher =>
        simp only [hnt] at h
        cases hu : f.tokens[n0]? with
        | none => simp [hu] at h
        | some u =>
          simp only [hu] at h
          by_cases hst : state ≠ f.rhycheck n0
          · rw [if_pos hst] at h
            cases h; exact incrementedOnce_refl _ _
          · rw [if_neg hst] at h
            cases hs : (f.incrementState n0).setLineDurationFromStart n0 dursum with
            | none => simp [hs] at h
            | some g =>
              simp only [hs] at h
              have hg := incrementedOnce_step state f g n0 dursum hst hs
              split at h
              · cases h; exact hg
              · cases hw : primaryWalk fuel g state n0 (advance dursum u)
                    (res ++ higher.map (fun n => (n, dursum))) with
                | none => simp [hw] at h
                | some r1 =>
                  have h1 := ih _ _ _ _ _ _ hw
                  simp only [hw] at h
                  cases r1 with
                  | aborted h0 log =>
                    cases h
                    exact incrementedOnce_trans _ _ _ _ hg h1
                  | done h0 log rr =>
                    cases h
                    exact incrementedOnce_trans _ _ _ _ hg h1

theorem prepareDurations_once :
    ∀ (fuel : Nat) (state : Int) (f : HumdrumFile) (token : Nat) (s : Rat)
      (g : HumdrumFile) (log : List (Nat × Rat)),
      prepareDurations fuel f token state s = some (g, log) →
      IncrementedOnce state f g := by
  intro fuel state
  induction fuel with
  | zero => intro f token s g log h; simp [prepareDurations] at h
  | succ fuel ih =>
    intro f token s g log h
    simp only [prepareDurations] at h
    cases ht : f.tokens[token]? with
    | none => simp [ht] at h
    | some t =>
      simp only [ht] at h
      by_cases hst : state ≠ f.rhycheck token
      · rw [if_pos hst] at h
        cases h; exact incrementedOnce_refl _ _
      · rw [if_neg hst] at h
        cases hs : (f.incrementState token).setLineDurationFromStart token s with
        | none => simp [hs] at h
        | some g1 =>
          simp only [hs] at h
          have hg1 := incrementedOnce_step state f g1 token s hst hs
          split at h
          · cases h; exact hg1
          · cases hw : primaryWalk fuel g1 state token (advance s t) [] with
            | none => simp [hw] at h
            | some r =>
              have hr := primaryWalk_once _ _ _ _ _ _ _ hw
              simp only [hw] at h
              cases r with
              | aborted h0 log0 =>
                cases h
                exact incrementedOnce_trans _ _ _ _ hg1 hr
              | done h0 log0 reservoir =>
                simp only at h
                have hfold : ∀ (rs : List (Nat × Rat))
                    (acc res : HumdrumFile × List (Nat × Rat)),
                    rs.foldlM (fun acc r =>
                      match prepareDurations fuel acc.1 r.1 state r.2 with
                      | none => none
                      | some res => some (res.1, acc.2 ++ res.2)) acc = some res →
                    IncrementedOnce state acc.1 res.1 := by
                  intro rs
                  induction rs with
                  | nil =>
                    intro acc res hr2
                    simp at hr2
                    subst hr2
                    exact incrementedOnce_refl _ _
                  | cons x xs ihx =>
                    intro acc res hr2
                    rw [List.foldlM_cons] at hr2
                    cases hp : prepareDurations fuel acc.1 x.1 state x.2 with
                    | none => simp [hp] at hr2
                    | some y =>
                      simp only [hp, Option.bind_eq_bind, Option.some_bind] at hr2
                      have h1 := ih acc.1 x.1 x.2 y.1 y.2 hp
                      have h2 := ihx _ _ hr2
                      exact incrementedOnce_trans _ _ _ _ h1 h2
                have := hfold _ _ _ h
                exact incrementedOnce_trans _ _ _ _ hg1
                  (incrementedOnce_trans _ _ _ _ hr this)

/-- C28: `prepareDurations` called on a token whose state counter differs from
`state` returns the file as it is, with no value offered to any line; and on a
well-linked file `assignDurationsToTrack` returns with the state counter of
every token unchanged or raised by one, from the state of the start token. -/
theorem prepareDurations_visits_once (f : HumdrumFile) (start : Nat) (d : Rat)
    (t : HumdrumToken) (ht : f.tokens[start]? = some t) (hwl : f.wellLinked = true) :
    (∀ (fuel tok : Nat) (tt : HumdrumToken) (state : Int) (s : Rat),
      f.tokens[tok]? = some tt → state ≠ f.rhycheck tok →
      prepareDurations (fuel + 1) f tok state s = some (f, [])) ∧
    ∃ g, f.assignDurationsToTrack start d = some g ∧
      ∀ tok, g.rhycheck tok = f.rhycheck tok ∨
        (f.rhycheck tok = f.rhycheck start ∧ g.rhycheck tok = f.rhycheck start + 1) := by
  constructor
  · intro fuel tok tt state s htt hst
    simp only [prepareDurations, htt]
    rw [if_pos hst]
  · unfold assignDurationsToTrack
    simp only [ht]
    by_cases hr : t.hasRhythm = true
    · simp only [hr, Bool.not_true, Bool.false_eq_true, if_false]
      obtain ⟨g, log, hp, _, _⟩ := prepareDurations_total f.tokens f.lines.length
        (wellLinked_spec f hwl) f.walkBound (f.rhycheck start) f start d t rfl rfl ht
        (by unfold walkBound; have := (wellLinked_spec f hwl start t ht).1; omega)
      rw [hp]
      exact ⟨g, rfl, prepareDurations_once _ _ _ _ _ _ _ hp⟩
    · simp only [hr, Bool.not_false, if_true]
      exact ⟨f, rfl, fun _ => Or.inl rfl⟩

theorem prepareDurations_visits_once_witness :
    splitSpine.wellLinked = true ∧
    ((∀ (fuel tok : Nat) (tt : HumdrumToken) (state : Int) (s : Rat),
      splitSpine.tokens[tok]? = some tt → state ≠ splitSpine.rhycheck tok →
      prepareDurations (fuel + 1) splitSpine tok state s = some (splitSpine, [])) ∧
    ∃ g, splitSpine.assignDurationsToTrack 0 0 = some g ∧
      ∀ tok, g.rhycheck tok = splitSpine.rhycheck tok ∨
        (splitSpine.rhycheck tok = splitSpine.rhycheck 0 ∧
          g.rhycheck tok = splitSpine.rhycheck 0 + 1)) :=
  ⟨by decide!, prepareDurations_visits_once splitSpine 0 0 _ (by rfl) (by decide!)⟩

theorem splitSpine_states :
    (splitSpine.assignDurationsToTrack 0 0).map (fun g => (List.range 9).map g.rhycheck) =
      some [1, 1, 1, 1, 1, 1, 1, 1, 1] := by
  decide!

theorem floatingSearch_eq_exit :
    ∀ (fuel : Nat) (f : HumdrumFile) (token : Nat) (dursum : Rat) (steps : Nat),
      floatingSearch fuel f (some token) dursum =
        (floatingExit fuel f token dursum steps).result := by
  intro fuel
  induction fuel with
  | zero => intro f token dursum steps; rfl
  | succ fuel ih =>
    intro f token dursum steps
    simp only [floatingSearch, floatingExit]
    cases ht : f.tokens[token]? with
    | none => rfl
    | some t =>
      simp only
      split
      · rfl
      · cases hn : t.nextTokens.head? with
        | none => cases fuel <;> rfl
        | some n => exact ih f n _ _

theorem floatingExit_unresolved (f : HumdrumFile)
    (hwl : ∀ (i : Nat) (t : HumdrumToken), f.tokens[i]? = some t →
      t.lineIndex < f.lines.length ∧
      ∀ j, j ∈ t.nextTokens → ∃ u, f.tokens[j]? = some u ∧ t.lineIndex < u.lineIndex) :
    ∀ (fuel tok : Nat) (t : HumdrumToken) (d : Rat) (k : Nat),
      f.tokens[tok]? = some t → f.lines.length < fuel + t.lineIndex →
      (∀ x ∈ primaryPath f.tokens fuel (some tok), ∀ tx, f.tokens[x]? = some tx →
        f.durationFromStart tx.lineIndex < 0) →
      ∃ last tl, floatingExit fuel f tok d k =
          .nullSuccessor last (k + (primaryPath f.tokens fuel (some tok)).length) ∧
        (primaryPath f.tokens fuel (some tok)).getLast? = some last ∧
        f.tokens[last]? = some tl ∧ tl.nextTokens = [] := by
  intro fuel
  induction fuel with
  | zero => intro tok t d k ht hf _; have := (hwl tok t ht).1; omega
  | succ fuel ih =>
    intro tok t d k ht hf hneg
    obtain ⟨hlt, hsucc⟩ := hwl tok t ht
    have hme : f.durationFromStart t.lineIndex < 0 :=
      hneg tok (by simp [primaryPath, ht]) t ht
    simp only [floatingExit, ht, primaryPath]
    rw [if_neg (by linarith)]
    cases hnt : t.nextTokens with
    | nil =>
      refine ⟨tok, t, ?_, ?_, ht, hnt⟩
      · simp [primaryPath_none]
      · simp [primaryPath_none]
    | cons n0 higher =>
      obtain ⟨u, hu, hlu⟩ := hsucc n0 (by rw [hnt]; exact List.mem_cons_self _ _)
      simp only [List.head?_cons]
      obtain ⟨last, tl, h1, h2, h3, h4⟩ := ih n0 u (advance d t) (k + 1) hu (by omega)
        (fun x hx tx htx => hneg x (by
          simp only [primaryPath, ht, hnt, List.head?_cons]
          exact List.mem_cons_of_mem _ hx) tx htx)
      refine ⟨last, tl, ?_, ?_, h3, h4⟩
      · rw [h1]; simp only [List.length_cons]; congr 1; omega
      · cases hp : primaryPath f.tokens fuel (some n0) with
        | nil => rw [hp] at h2; simp at h2
        | cons y ys => rw [hp] at h2; rw [List.getLast?_cons_cons]; exact h2

/-- C30 (evaluation): on `floatingKern` the added `**kern` spine has the primary
path `3, 5, 7` and none of these tokens lies on a line with a resolved
`durationFromStart`; the search makes three iterations and then asks token `7`,
the terminator, for its successor, so that `analyzeRhythmOfFloatingSpine` and
`analyzeRhythm` do not return. -/
theorem floatingSearch_runs_off_end :
    (primaryPath floatingKern.tokens floatingKern.walkBound (some 3),
      floatingExit floatingKern.walkBound floatingKern 3 0 0,
      floatingKern.floatingAnchor 3,
      (floatingKern.analyzeRhythmOfFloatingSpine 3).map (fun g => g.valid),
      (floatingKern.analyzeRhythm true).map (fun r => r.1)) =
      ([3, 5, 7], .nullSuccessor 7 3, none, none, none) := by
  decide!

theorem nullWalk_eq_foldl (ts : List HumdrumToken) (b : Nat) (post : List Nat) :
    ∀ (pre : List Nat) (m fuel a : Nat) (res : Nat → Option Nat) (data : Option Nat),
      primaryPath ts m (some a) = pre ++ b :: post → b ∉ pre → pre.length < fuel →
      nullWalk fuel ts res data (some b) (some a) =
        some (pre.foldl (governStep ts) (res, data)) := by
  intro pre
  induction pre with
  | nil =>
    intro m fuel a res data hpath _ hf
    have hab : a = b := by
      cases m with
      | zero => simp [primaryPath] at hpath
      | succ m =>
        cases ha : ts[a]? with
        | none => simp [primaryPath, ha] at hpath
        | some t => simp [primaryPath, ha] at hpath; exact hpath.1
    subst hab
    cases fuel with
    | zero => omega
    | succ fuel => simp [nullWalk]
  | cons x pre ih =>
    intro m fuel a res data hpath hb hf
    cases fuel with
    | zero => omega
    | succ fuel =>
      cases m with
      | zero => simp [primaryPath] at hpath
      | succ m =>
        cases ha : ts[a]? with
        | none => simp [primaryPath, ha] at hpath
        | some t =>
          simp only [primaryPath, ha, List.cons_append, List.cons.injEq] at hpath
          obtain ⟨hax, hpath⟩ := hpath
          subst hax
          have hab : a ≠ b := fun e => hb (by rw [e]; exact List.mem_cons_self _ _)
          have hb2 : b ∉ pre := fun e => hb (List.mem_cons_of_mem _ e)
          cases hnt : t.nextTokens.head? with
          | none => rw [hnt, primaryPath_none] at hpath; simp at hpath
          | some n0 =>
            rw [hnt] at hpath
            simp only [List.length_cons, add_lt_add_iff_right] at hf
            have hne : ¬ (some a = some b) := by simpa using hab
            unfold nullWalk
            rw [if_neg hne]
            simp only [ha, hnt, List.foldl_cons]
            have hstep : ∀ (r : Nat → Option Nat) (d : Option Nat),
                nullWalk fuel ts r d (some b) (some n0) =
                  some (pre.foldl (governStep ts) (r, d)) :=
              fun r d => ih m fuel n0 r d hpath hb2 hf
            by_cases hd : t.isData = true
            · simp only [hd, Bool.not_true, Bool.false_eq_true, if_false]
              cases data with
              | none =>
                have key : governStep ts (res, none) a =
                    (Function.update res a (some a), some a) := by
                  simp [governStep, ha, hd]
                rw [key]; exact hstep _ _
              | some d =>
                simp only
                by_cases hn : t.isNull = true
                · have key : governStep ts (res, some d) a =
                      (Function.update res a (some d), some d) := by
                    simp [governStep, ha, hd, hn]
                  rw [key]; simp only [hn, if_true]; exact hstep _ _
                · have key : governStep ts (res, some d) a = (res, some a) := by
                    simp [governStep, ha, hd, hn]
                  rw [key]; simp only [hn, Bool.false_eq_true, if_false]; exact hstep _ _
            · have hd2 : t.isData = false := by simpa using hd
              have key : governStep ts (res, data) a = (res, data) := by
                simp [governStep, ha, hd2]
              rw [key]
              simp only [hd2, Bool.not_false, if_true]
              exact hstep _ _

theorem takeWhile_ne_split (l : List Nat) (b : Nat) (h : b ∈ l) :
    ∃ post, l = l.takeWhile (fun x => decide (some x ≠ some b)) ++ b :: post ∧
      b ∉ l.takeWhile (fun x => decide (some x ≠ some b)) := by
  induction l with
  | nil => simp at h
  | cons x xs ih =>
    by_cases hx : x = b
    · subst hx
      exact ⟨xs, by simp, by simp⟩
    · have hb : b ∈ xs := by
        rcases List.mem_cons.mp h with e | e
        · exact absurd e.symm hx
        · exact e
      obtain ⟨post, h1, h2⟩ := ih hb
      refine ⟨post, ?_, ?_⟩
      · simp only [List.takeWhile_cons, ne_eq, Option.some.injEq, hx, not_false_eq_true,
          decide_True, if_true, List.cons_append, List.cons.injEq, true_and]
        simpa using h1
      · simp only [List.takeWhile_cons, ne_eq, Option.some.injEq, hx, not_false_eq_true,
          decide_True, if_true, List.mem_cons, not_or]
        exact ⟨fun e => hx e.symm, by simpa using h2⟩

theorem strandsClosed_spec (f : HumdrumFile) (h : f.strandsClosed = true) :
    ∀ p ∈ f.strand1d, ∃ (a b : Nat), p = ⟨some a, some b⟩ ∧
      b ∈ primaryPath f.tokens f.walkBound (some a) := by
  intro p hp
  unfold strandsClosed at h
  rw [List.all_eq_true] at h
  have h1 := h p hp
  obtain ⟨pf, pl⟩ := p
  cases pf with
  | none => simp at h1
  | some a =>
    cases pl with
    | none => simp at h1
    | some b => exact ⟨a, b, rfl, by simpa using h1⟩

theorem primaryPath_valid (ts : List HumdrumToken) (m a x : Nat)
    (h : x ∈ primaryPath ts m (some a)) : ∃ t, ts[a]? = some t := by
  cases m with
  | zero => simp [primaryPath] at h
  | succ m =>
    cases ha : ts[a]? with
    | none => simp [primaryPath, ha] at h
    | some t => exact ⟨t, rfl⟩

theorem resolveNullLoop_eq (f : HumdrumFile) (hwl : f.wellLinked = true)
    (hcl : f.strandsClosed = true) :
    f.resolveNullLoop = some { f with nullResolution :=
      (f.walkOrder.foldl (governStep f.tokens) (f.nullResolution, none)).1 } := by
  have hw := wellLinked_spec f hwl
  have hfold : ∀ (l : List TokenPair) (acc : (Nat → Option Nat) × Option Nat),
      (∀ p ∈ l, ∃ (a b : Nat), p = ⟨some a, some b⟩ ∧
        b ∈ primaryPath f.tokens f.walkBound (some a)) →
      l.foldlM (fun acc p =>
        nullWalk f.walkBound f.tokens acc.1 acc.2 p.last p.first) acc =
        some ((l.map (strandTokens f.tokens f.walkBound)).flatten.foldl
          (governStep f.tokens) acc) := by
    intro l
    induction l with
    | nil => intro acc _; rfl
    | cons q qs ih =>
      intro acc h
      obtain ⟨a, b, hq, hb⟩ := h q (List.mem_cons_self _ _)
      obtain ⟨t, ht⟩ := primaryPath_valid _ _ _ _ hb
      obtain ⟨post, hsplit, hnot⟩ := takeWhile_ne_split _ b hb
      have hlen := primaryPath_length f.tokens f.lines.length hw f.walkBound a t ht
      have hlen2 : ((primaryPath f.tokens f.walkBound (some a)).takeWhile
          (fun x => decide (some x ≠ some b))).length < f.walkBound := by
        have := congrArg List.length hsplit
        simp only [List.length_append, List.length_cons] at this
        unfold walkBound at *
        omega
      have hrun := nullWalk_eq_foldl f.tokens b post _ f.walkBound f.walkBound a acc.1 acc.2
        hsplit hnot hlen2
      have hst : strandTokens f.tokens f.walkBound q =
          (primaryPath f.tokens f.walkBound (some a)).takeWhile
            (fun x => decide (some x ≠ some b)) := by
        rw [hq]; rfl
      rw [List.foldlM_cons, hq]
      simp only
      rw [hrun]
      simp only [Option.bind_eq_bind, Option.some_bind]
      rw [ih _ (fun x hx => h x (List.mem_cons_of_mem _ hx))]
      simp only [List.map_cons, List.flatten_cons, List.foldl_append]
      rw [← hq, hst]
  unfold resolveNullLoop
  rw [hfold f.strand1d _ (strandsClosed_spec f hcl)]
  rfl

theorem governStep_snd (ts : List HumdrumToken) (acc : (Nat → Option Nat) × Option Nat)
    (x : Nat) :
    (governStep ts acc x).2 =
      if isNonNullData ts x then some x
      else match acc.2 with
        | some d => some d
        | none => if isDataToken ts x then some x else none := by
  obtain ⟨r, d⟩ := acc
  unfold governStep isNonNullData isDataToken
  cases hx : ts[x]? with
  | none => cases d <;> simp
  | some t =>
    cases hd : t.isData <;> cases hn : t.isNull <;> cases d <;> simp [hd, hn]

theorem governStep_fst (ts : List HumdrumToken) (acc : (Nat → Option Nat) × Option Nat)
    (x : Nat) :
    (governStep ts acc x).1 =
      if isDataToken ts x then
        match acc.2 with
        | none => Function.update acc.1 x (some x)
        | some d => if isNullData ts x then Function.update acc.1 x (some d) else acc.1
      else acc.1 := by
  obtain ⟨r, d⟩ := acc
  unfold governStep isNullData isDataToken
  cases hx : ts[x]? with
  | none => cases d <;> simp
  | some t =>
    cases hd : t.isData <;> cases hn : t.isNull <;> cases d <;> simp [hd, hn]

theorem governing_snoc (ts : List HumdrumToken) (l : List Nat) (x : Nat) :
    governing ts (l ++ [x]) =
      if isNonNullData ts x then some x
      else match governing ts l with
        | some d => some d
        | none => if isDataToken ts x then some x else none := by
  unfold governing
  simp only [List.reverse_append, List.reverse_cons, List.reverse_nil, List.nil_append,
    List.singleton_append, List.find?_cons, List.find?_append]
  by_cases hnn : isNonNullData ts x = true
  · simp [hnn]
  · have hnn2 : isNonNullData ts x = false := by simpa using hnn
    simp only [hnn2, Bool.false_eq_true, if_false]
    cases hr : l.reverse.find? (isNonNullData ts) with
    | some n => simp
    | none =>
      simp only
      cases hf : l.find? (isDataToken ts) with
      | some d => simp
      | none =>
        by_cases hd : isDataToken ts x = true
        · simp [hd]
        · have hd2 : isDataToken ts x = false := by simpa using hd
          simp [hd2]

theorem governFold_data (ts : List HumdrumToken) (res : Nat → Option Nat) (l : List Nat) :
    (l.foldl (governStep ts) (res, none)).2 = governing ts l := by
  induction l using List.reverseRecOn with
  | nil => rfl
  | append_singleton l x ih =>
    rw [List.foldl_append, List.foldl_cons, List.foldl_nil, governStep_snd, governing_snoc, ih]

theorem governFold_notMem (ts : List HumdrumToken) (x : Nat) :
    ∀ (l : List Nat) (acc : (Nat → Option Nat) × Option Nat), x ∉ l →
      (l.foldl (governStep ts) acc).1 x = acc.1 x := by
  intro l
  induction l with
  | nil => intro acc _; rfl
  | cons y ys ih =>
    intro acc h
    have hxy : x ≠ y := fun e => h (by rw [e]; exact List.mem_cons_self _ _)
    rw [List.foldl_cons, ih _ (fun e => h (List.mem_cons_of_mem _ e)), governStep_fst]
    split
    · split
      · simp [Function.update, hxy]
      · split
        · simp [Function.update, hxy]
        · rfl
    · rfl

theorem governFold_at (ts : List HumdrumToken) (res : Nat → Option Nat)
    (A B : List Nat) (x : Nat) (hA : x ∉ A) (hB : x ∉ B) :
    ((A ++ x :: B).foldl (governStep ts) (res, none)).1 x =
      if isDataToken ts x then
        match governing ts A with
        | none => some x
        | some d => if isNullData ts x then some d else res x
      else res x := by
  rw [List.foldl_append, List.foldl_cons, governFold_notMem ts x B _ hB, governStep_fst,
    governFold_data]
  have hres : (A.foldl (governStep ts) (res, none)).1 x = res x :=
    governFold_notMem ts x A _ hA
  split
  · cases hg : governing ts A with
    | none => simp [Function.update]
    | some d =>
      simp only
      split
      · simp [Function.update]
      · exact hres
  · exact hres

theorem isNonNullData_isDataToken (ts : List HumdrumToken) (x : Nat)
    (h : isNonNullData ts x = true) : isDataToken ts x = true := by
  unfold isNonNullData at h
  unfold isDataToken
  cases hx : ts[x]? with
  | none => rw [hx] at h; exact h
  | some t => rw [hx] at h; simp at h ⊢; exact h.1

theorem isNullData_of (ts : List HumdrumToken) (x : Nat)
    (h1 : isDataToken ts x = true) (h2 : isNonNullData ts x = false) :
    isNullData ts x = true := by
  unfold isDataToken at h1
  unfold isNonNullData at h2
  unfold isNullData
  cases hx : ts[x]? with
  | none => rw [hx] at h1; exact h1
  | some t =>
    rw [hx] at h1 h2
    simp only at h1 h2 ⊢
    rw [h1] at h2 ⊢
    simpa using h2

theorem find?_split {α : Type} (p : α → Bool) (l : List α) (d : α)
    (h : l.find? p = some d) :
    ∃ as bs, l = as ++ d :: bs ∧ ∀ a ∈ as, p a = false := by
  induction l with
  | nil => simp at h
  | cons y ys ih =>
    rw [List.find?_cons] at h
    cases hy : p y with
    | true =>
      rw [hy] at h
      simp only [Option.some.injEq] at h
      subst h
      exact ⟨[], ys, rfl, by simp⟩
    | false =>
      rw [hy] at h
      obtain ⟨as, bs, h1, h2⟩ := ih h
      refine ⟨y :: as, bs, by rw [h1]; rfl, ?_⟩
      intro a ha
      rcases List.mem_cons.mp ha with e | e
      · rw [e]; exact hy
      · exact h2 a e

theorem governing_none (ts : List HumdrumToken) (A : List Nat)
    (h : governing ts A = none) : ∀ a ∈ A, isDataToken ts a = false := by
  unfold governing at h
  cases hr : A.reverse.find? (isNonNullData ts) with
  | some n => rw [hr] at h; simp at h
  | none =>
    rw [hr] at h
    simp only at h
    rw [List.find?_eq_none] at h
    intro a ha
    simpa using h a ha

theorem governing_of_noData (ts : List HumdrumToken) (A : List Nat)
    (h : ∀ a ∈ A, isDataToken ts a = false) : governing ts A = none := by
  unfold governing
  have h1 : A.reverse.find? (isNonNullData ts) = none := by
    rw [List.find?_eq_none]
    intro a ha hnn
    have := isNonNullData_isDataToken ts a hnn
    rw [h a (List.mem_reverse.mp ha)] at this
    exact Bool.noConfusion this
  have h2 : A.find? (isDataToken ts) = none := by
    rw [List.find?_eq_none]
    intro a ha
    simp [h a ha]
  rw [h1]
  exact h2

theorem governing_some (ts : List HumdrumToken) (A : List Nat) (d : Nat)
    (h : governing ts A = some d) :
    isNonNullData ts d = true ∨
      (A.find? (isDataToken ts) = some d ∧ isNullData ts d = true) := by
  unfold governing at h
  cases hr : A.reverse.find? (isNonNullData ts) with
  | some n =>
    rw [hr] at h
    simp only [Option.some.injEq] at h
    subst h
    exact Or.inl (List.find?_some hr)
  | none =>
    rw [hr] at h
    simp only at h
    by_cases hnn : isNonNullData ts d = true
    · exact Or.inl hnn
    · exact Or.inr ⟨h, isNullData_of ts d (List.find?_some h) (by simpa using hnn)⟩

theorem governing_nearest (ts : List HumdrumToken) (A mid : List Nat) (n : Nat)
    (hn : isNonNullData ts n = true) (hmid : ∀ y ∈ mid, isNonNullData ts y = false) :
    governing ts (A ++ n :: mid) = some n := by
  unfold governing
  have : (A ++ n :: mid).reverse.find? (isNonNullData ts) = some n := by
    simp only [List.reverse_append, List.reverse_cons, List.append_assoc,
      List.singleton_append, List.find?_append, List.find?_cons, hn]
    have hm : mid.reverse.find? (isNonNullData ts) = none := by
      rw [List.find?_eq_none]
      intro y hy
      simp [hmid y (List.mem_reverse.mp hy)]
    rw [hm]
    rfl
  rw [this]

theorem resolveNullTokens_eq (f : HumdrumFile) (hs : f.strandsAnalyzed = true)
    (hn : f.nullsAnalyzed = false) (hwl : f.wellLinked = true)
    (hcl : f.strandsClosed = true) :
    f.resolveNullTokens = some { f with
      nullsAnalyzed := true,
      nullResolution :=
        (f.walkOrder.foldl (governStep f.tokens) (f.nullResolution, none)).1 } := by
  have h1 := resolveNullLoop_eq { f with nullsAnalyzed := true } hwl hcl
  unfold resolveNullTokens
  rw [if_neg (by simp [hn])]
  have h2 : (!({ f with nullsAnalyzed := true } : HumdrumFile).areStrandsAnalyzed) = false := by
    simp [areStrandsAnalyzed, hs]
  simp only [h2, Bool.false_eq_true, if_false, Option.some_bind]
  exact h1

theorem walkOrder_split (f : HumdrumFile) (h : f.walkOrder.Nodup) (A B : List Nat) (x : Nat)
    (hW : f.walkOrder = A ++ x :: B) : x ∉ A ∧ x ∉ B := by
  rw [hW, List.nodup_middle, List.nodup_cons] at h
  exact ⟨fun e => h.1 (List.mem_append_left _ e), fun e => h.1 (List.mem_append_right _ e)⟩

/-- Null resolutions computed by the loop of `resolveNullTokens`, whose variable
`data` is declared before the loop over the strands: on a well-linked file with
analysed, closed strands whose visited tokens are pairwise distinct the
function returns; a null data token gets the governing token of the tokens
visited before it, strand after strand in 1D order (their last non-null data
token, else their first data token), and itself when no data token was visited
before it.  When its strand has a non-null data token before it, this is the
nearest such token of the strand. -/
theorem resolveNullTokens_governing (f : HumdrumFile) (hs : f.strandsAnalyzed = true)
    (hn : f.nullsAnalyzed = false) (hwl : f.wellLinked = true)
    (hcl : f.strandsClosed = true) (hnd : f.walkOrder.Nodup) :
    ∃ g, f.resolveNullTokens = some g ∧
      (∀ (A B : List Nat) (x : Nat), f.walkOrder = A ++ x :: B →
        isNullData f.tokens x = true →
        g.nullResolution x = some ((governing f.tokens A).getD x)) ∧
      (∀ p ∈ f.strand1d, ∀ (pre mid post : List Nat) (n x : Nat),
        strandTokens f.tokens f.walkBound p = pre ++ n :: mid ++ x :: post →
        isNonNullData f.tokens n = true →
        (∀ y ∈ mid, isNonNullData f.tokens y = false) →
        isNullData f.tokens x = true →
        g.nullResolution x = some n) := by
  have hfirst : ∀ (A B : List Nat) (x : Nat), f.walkOrder = A ++ x :: B →
      isNullData f.tokens x = true →
      (f.walkOrder.foldl (governStep f.tokens) (f.nullResolution, none)).1 x =
        some ((governing f.tokens A).getD x) := by
    intro A B x hW hx
    obtain ⟨hA, hB⟩ := walkOrder_split f hnd A B x hW
    have hd : isDataToken f.tokens x = true := by
      unfold isNullData at hx
      unfold isDataToken
      cases hxx : f.tokens[x]? with
      | none => rw [hxx] at hx; exact hx
      | some t => rw [hxx] at hx; simp at hx ⊢; exact hx.1
    rw [hW, governFold_at f.tokens _ A B x hA hB, if_pos hd]
    cases hg : governing f.tokens A with
    | none => rfl
    | some d => simp [hx]
  refine ⟨_, resolveNullTokens_eq f hs hn hwl hcl, hfirst, ?_⟩
  intro p hp pre mid post n x hst hnn hmid hx
  obtain ⟨s1, s2, hsplit⟩ := List.append_of_mem hp
  have hW : f.walkOrder =
      ((s1.map (strandTokens f.tokens f.walkBound)).flatten ++ pre ++ n :: mid) ++
        x :: (post ++ (s2.map (strandTokens f.tokens f.walkBound)).flatten) := by
    unfold walkOrder
    rw [hsplit]
    simp only [List.map_append, List.map_cons, List.flatten_append, List.flatten_cons, hst,
      List.append_assoc, List.cons_append]
  have h1 := hfirst _ _ x hW hx
  rw [governing_nearest f.tokens _ mid n hnn hmid] at h1
  exact h1

theorem resolveNullTokens_governing_witness :
    kernDynamStrands.strandsAnalyzed = true ∧ kernDynamStrands.nullsAnalyzed = false ∧
    kernDynamStrands.wellLinked = true ∧ kernDynamStrands.strandsClosed = true ∧
    kernDynamStrands.walkOrder.Nodup ∧
    ∃ g, kernDynamStrands.resolveNullTokens = some g ∧
      (∀ (A B : List Nat) (x : Nat), kernDynamStrands.walkOrder = A ++ x :: B →
        isNullData kernDynamStrands.tokens x = true →
        g.nullResolution x = some ((governing kernDynamStrands.tokens A).getD x)) ∧
      (∀ p ∈ kernDynamStrands.strand1d, ∀ (pre mid post : List Nat) (n x : Nat),
        strandTokens kernDynamStrands.tokens kernDynamStrands.walkBound p =
          pre ++ n :: mid ++ x :: post →
        isNonNullData kernDynamStrands.tokens n = true →
        (∀ y ∈ mid, isNonNullData kernDynamStrands.tokens y = false) →
        isNullData kernDynamStrands.tokens x = true →
        g.nullResolution x = some n) :=
  ⟨by decide!, by decide!, by decide!, by decide!, by decide!,
    resolveNullTokens_governing kernDynamStrands (by decide!) (by decide!) (by decide!)
      (by decide!) (by decide!)⟩

theorem kernDynam_strands :
    (kernDynam.analyzeStrandsCore).map (fun g =>
      (g.strandsAnalyzed, g.nullsAnalyzed, g.strand2d, g.strand1d)) =
      some (kernDynamStrands.strandsAnalyzed, kernDynamStrands.nullsAnalyzed,
        kernDynamStrands.strand2d, kernDynamStrands.strand1d) := by
  decide!

/-- C21 (evaluation): in `kernDynam` token `3` is a null data token of strand
`1`, whose visited tokens are `1, 3, 5, 7`; no non-null data token of the
strand precedes it, and `resolveNullTokens` resolves it to token `6`, the last
note of strand `0`, which lies two lines after it and in another strand: the
null resolution is not a preceding token of the same strand.  The later null
token `7` of the strand is resolved to token `5`, the nearest non-null data
token before it in the strand. -/
theorem resolveNullTokens_counterexample :
    (kernDynam.analyzeStrands).map (fun r =>
      (r.2.strand1d.map (strandTokens r.2.tokens r.2.walkBound),
        isNullData r.2.tokens 3, isNonNullData r.2.tokens 1,
        r.2.nullResolution 3, r.2.nullResolution 7)) =
      some ([[0, 2, 4, 6], [1, 3, 5, 7]], true, false, some 6, some 5) := by
  decide!

/-- C22 (amended): on a fresh well-linked file with analysed, closed strands
whose visited tokens are pairwise distinct, every null-resolution link set by
`resolveNullTokens` starts at a visited data token `x` and is of one of three
kinds: `x` is the first data token visited and is linked to itself (null or
not); or `x` is a null data token linked to a non-null data token; or `x` is a
null data token linked to the first data token visited, which is null and
linked to itself.  Following links therefore stops after at most one step at a
non-null data token or at the self-linked first data token. -/
theorem resolveNullTokens_links (f : HumdrumFile) (hs : f.strandsAnalyzed = true)
    (hn : f.nullsAnalyzed = false) (hwl : f.wellLinked = true)
    (hcl : f.strandsClosed = true) (hnd : f.walkOrder.Nodup)
    (hfresh : ∀ x, f.nullResolution x = none) :
    ∃ g, f.resolveNullTokens = some g ∧
      ∀ (x y : Nat), g.nullResolution x = some y →
        x ∈ f.walkOrder ∧ isDataToken f.tokens x = true ∧
        ((f.walkOrder.find? (isDataToken f.tokens) = some x ∧ y = x) ∨
          (isNullData f.tokens x = true ∧ isNonNullData f.tokens y = true) ∨
          (isNullData f.tokens x = true ∧ isNullData f.tokens y = true ∧
            f.walkOrder.find? (isDataToken f.tokens) = some y ∧
            g.nullResolution y = some y)) := by
  refine ⟨_, resolveNullTokens_eq f hs hn hwl hcl, ?_⟩
  intro x y hxy
  simp only at hxy
  have hmem : x ∈ f.walkOrder := by
    by_contra hnot
    rw [governFold_notMem f.tokens x _ _ hnot] at hxy
    simp [hfresh x] at hxy
  obtain ⟨A, B, hW⟩ := List.append_of_mem hmem
  obtain ⟨hA, hB⟩ := walkOrder_split f hnd A B x hW
  rw [hW, governFold_at f.tokens _ A B x hA hB] at hxy
  by_cases hd : isDataToken f.tokens x = true
  · refine ⟨hmem, hd, ?_⟩
    rw [if_pos hd] at hxy
    cases hg : governing f.tokens A with
    | none =>
      rw [hg] at hxy
      simp only [Option.some.injEq] at hxy
      left
      refine ⟨?_, hxy.symm⟩
      rw [hW, List.find?_append]
      have hnone : A.find? (isDataToken f.tokens) = none := by
        rw [List.find?_eq_none]
        intro a ha
        simp [governing_none f.tokens A hg a ha]
      rw [hnone, List.find?_cons, hd]
      rfl
    | some d =>
      rw [hg] at hxy
      simp only at hxy
      by_cases hx : isNullData f.tokens x = true
      · rw [if_pos hx] at hxy
        simp only [Option.some.injEq] at hxy
        subst hxy
        rcases governing_some f.tokens A d hg with hnn | ⟨hfd, hnull⟩
        · exact Or.inr (Or.inl ⟨hx, hnn⟩)
        · right; right
          refine ⟨hx, hnull, ?_, ?_⟩
          · rw [hW, List.find?_append, hfd]; rfl
          · obtain ⟨A1, A2, hA12, hno⟩ := find?_split _ A d hfd
            have hW2 : f.walkOrder = A1 ++ d :: (A2 ++ x :: B) := by
              rw [hW, hA12]; simp
            obtain ⟨h1, h2⟩ := walkOrder_split f hnd A1 _ d hW2
            show (f.walkOrder.foldl (governStep f.tokens) (f.nullResolution, none)).1 d = some d
            rw [hW2, governFold_at f.tokens _ A1 _ d h1 h2,
              if_pos (List.find?_some hfd), governing_of_noData f.tokens A1 hno]
      · rw [if_neg hx, hfresh x] at hxy
        exact Option.noConfusion hxy
  · rw [if_neg hd, hfresh x] at hxy
    exact Option.noConfusion hxy

theorem resolveNullTokens_links_witness :
    dynamKernStrands.strandsAnalyzed = true ∧ dynamKernStrands.nullsAnalyzed = false ∧
    dynamKernStrands.wellLinked = true ∧ dynamKernStrands.strandsClosed = true ∧
    dynamKernStrands.walkOrder.Nodup ∧ (∀ x, dynamKernStrands.nullResolution x = none) ∧
    ∃ g, dynamKernStrands.resolveNullTokens = some g ∧
      ∀ (x y : Nat), g.nullResolution x = some y →
        x ∈ dynamKernStrands.walkOrder ∧ isDataToken dynamKernStrands.tokens x = true ∧
        ((dynamKernStrands.walkOrder.find? (isDataToken dynamKernStrands.tokens) = some x ∧
            y = x) ∨
          (isNullData dynamKernStrands.tokens x = true ∧
            isNonNullData dynamKernStrands.tokens y = true) ∨
          (isNullData dynamKernStrands.tokens x = true ∧
            isNullData dynamKernStrands.tokens y = true ∧
            dynamKernStrands.walkOrder.find? (isDataToken dynamKernStrands.tokens) = some y ∧
            g.nullResolution y = some y)) :=
  ⟨by decide!, by decide!, by decide!, by decide!, by decide!, fun _ => rfl,
    resolveNullTokens_links dynamKernStrands (by decide!) (by decide!) (by decide!)
      (by decide!) (by decide!) (fun _ => rfl)⟩

theorem dynamKern_strands :
    (dynamKern.analyzeStrandsCore).map (fun g =>
      (g.strandsAnalyzed, g.nullsAnalyzed, g.strand2d, g.strand1d)) =
      some (dynamKernStrands.strandsAnalyzed, dynamKernStrands.nullsAnalyzed,
        dynamKernStrands.strand2d, dynamKernStrands.strand1d) := by
  decide!

/-- C22 (counterexample): in `dynamKern` the first data token visited is the
null token `2`; `resolveNullTokens` links it to itself and links the null
token `4` to the null token `2`. -/
theorem resolveNullTokens_self_link :
    (dynamKern.analyzeStrands).map (fun r =>
      (isNullData r.2.tokens 2, isNullData r.2.tokens 4,
        r.2.nullResolution 2, r.2.nullResolution 4)) =
      some (true, true, some 2, some 2) := by
  decide!

theorem linkGlobals_inner (ls : List HumdrumLine) (j : Nat) :
    ∀ (G : List Nat) (tbl : Nat → List Nat),
      (∀ c ∈ G, ∃ p, lineToken0 ls c = some p) →
      G.foldlM (fun tbl2 k =>
        match lineToken0 ls k with
        | none => none
        | some p => some (addLinkedParameter tbl2 j p)) tbl =
        some (Function.update tbl j (tbl j ++ G.filterMap (lineToken0 ls))) := by
  intro G
  induction G with
  | nil => intro tbl _; simp
  | cons c cs ih =>
    intro tbl h
    obtain ⟨p, hp⟩ := h c (List.mem_cons_self _ _)
    rw [List.foldlM_cons]
    simp only [hp, Option.bind_eq_bind, Option.some_bind]
    rw [ih _ (fun x hx => h x (List.mem_cons_of_mem _ hx))]
    congr 1
    funext t
    unfold addLinkedParameter
    by_cases e : t = j
    · subst e; simp [List.filterMap_cons, hp]
    · simp [Function.update, e]

theorem linkGlobals_spec (ls : List HumdrumLine) (G : List Nat)
    (hG : ∀ c ∈ G, ∃ p, lineToken0 ls c = some p) :
    ∀ (fields : List Nat) (tbl : Nat → List Nat), fields.Nodup →
      ∃ tbl1, linkGlobals ls fields G tbl = some tbl1 ∧
        ∀ t, tbl1 t = if t ∈ fields then tbl t ++ G.filterMap (lineToken0 ls) else tbl t := by
  intro fields
  induction fields with
  | nil => intro tbl _; exact ⟨tbl, rfl, by simp⟩
  | cons j js ih =>
    intro tbl hnd
    rw [List.nodup_cons] at hnd
    obtain ⟨tbl1, h1, h2⟩ := ih
      (Function.update tbl j (tbl j ++ G.filterMap (lineToken0 ls))) hnd.2
    refine ⟨tbl1, ?_, ?_⟩
    · unfold linkGlobals at h1 ⊢
      rw [List.foldlM_cons, linkGlobals_inner ls j G tbl hG]
      simpa using h1
    · intro t
      rw [h2 t]
      by_cases e : t = j
      · subst e
        simp [hnd.1]
      · by_cases e2 : t ∈ js
        · simp [e2, Function.update, e]
        · simp [e2, Function.update, e]

theorem receivesGlobals_of_layout (l : HumdrumLine) (h : isGlobalLayout l = true) :
    receivesGlobals l = false := by
  unfold receivesGlobals
  simp [h]

theorem Buffered.push (ls : List HumdrumLine) (i : Nat) (G : List Nat) (l : HumdrumLine)
    (hB : Buffered ls i G) (hl : ls[i]? = some l) (hgl : isGlobalLayout l = true) :
    Buffered ls (i + 1) (G ++ [i]) := by
  obtain ⟨hp, hm⟩ := hB
  refine ⟨?_, ?_⟩
  · rw [List.pairwise_append]
    refine ⟨hp, by simp, ?_⟩
    intro a ha b hb
    simp only [List.mem_singleton] at hb
    subst hb
    exact ((hm a).1 ha).1
  · intro c
    simp only [List.mem_append, List.mem_singleton]
    constructor
    · rintro (hc | hc)
      · obtain ⟨h1, h2, h3⟩ := (hm c).1 hc
        refine ⟨by omega, h2, ?_⟩
        intro k lk hck hk hlk
        by_cases e : k = i
        · subst e
          rw [hl] at hlk
          simp only [Option.some.injEq] at hlk
          subst hlk
          exact receivesGlobals_of_layout _ hgl
        · exact h3 k lk hck (by omega) hlk
      · subst hc
        exact ⟨by omega, ⟨l, hl, hgl⟩, fun k lk h1 h2 => by omega⟩
    · rintro ⟨h1, h2, h3⟩
      by_cases e : c = i
      · exact Or.inr e
      · exact Or.inl ((hm c).2 ⟨by omega, h2, fun k lk hck hk hlk => h3 k lk hck (by omega) hlk⟩)

theorem Buffered.skip (ls : List HumdrumLine) (i : Nat) (G : List Nat) (l : HumdrumLine)
    (hB : Buffered ls i G) (hl : ls[i]? = some l) (hgl : isGlobalLayout l = false)
    (hr : receivesGlobals l = false) :
    Buffered ls (i + 1) G := by
  obtain ⟨hp, hm⟩ := hB
  refine ⟨hp, ?_⟩
  intro c
  rw [hm c]
  constructor
  · rintro ⟨h1, h2, h3⟩
    refine ⟨by omega, h2, ?_⟩
    intro k lk hck hk hlk
    by_cases e : k = i
    · subst e
      rw [hl] at hlk
      simp only [Option.some.injEq] at hlk
      subst hlk
      exact hr
    · exact h3 k lk hck (by omega) hlk
  · rintro ⟨h1, ⟨lc, hlc, hgc⟩, h3⟩
    have hci : c ≠ i := by
      intro e
      subst e
      rw [hl] at hlc
      simp only [Option.some.injEq] at hlc
      subst hlc
      rw [hgl] at hgc
      exact Bool.noConfusion hgc
    exact ⟨by omega, ⟨lc, hlc, hgc⟩, fun k lk hck hk hlk => h3 k lk hck (by omega) hlk⟩

theorem Buffered.clear (ls : List HumdrumLine) (i : Nat) (l : HumdrumLine)
    (hl : ls[i]? = some l) (hr : receivesGlobals l = true) :
    Buffered ls (i + 1) [] := by
  refine ⟨List.Pairwise.nil, ?_⟩
  intro c
  simp only [List.not_mem_nil, false_iff, not_and]
  rintro h1 ⟨lc, hlc, hgc⟩ h3
  by_cases e : c = i
  · subst e
    rw [hl] at hlc
    simp only [Option.some.injEq] at hlc
    subst hlc
    rw [receivesGlobals_of_layout _ hgc] at hr
    exact Bool.noConfusion hr
  · have := h3 i l (by omega) (by omega) hl
    rw [hr] at this
    exact Bool.noConfusion this

theorem globalLoop_spec (ls : List HumdrumLine)
    (htok : ∀ (c : Nat) (l : HumdrumLine), ls[c]? = some l → isGlobalLayout l = true →
      ∃ p, lineToken0 ls c = some p) :
    ∀ (rest : List HumdrumLine) (i : Nat) (G : List Nat) (tbl : Nat → List Nat),
      (∀ j, ls[i + j]? = rest[j]?) → Buffered ls i G →
      (rest.map (fun l => l.tokens)).flatten.Nodup →
      ∃ tbl1, globalLoop ls rest i G tbl = some tbl1 ∧
        (∀ (j : Nat) (l : HumdrumLine), rest[j]? = some l →
          ∃ Gj, Buffered ls (i + j) Gj ∧
            ∀ t ∈ l.tokens, tbl1 t = tbl t ++
              (if receivesGlobals l then Gj.filterMap (lineToken0 ls) else [])) ∧
        (∀ t, (∀ l ∈ rest, t ∉ l.tokens) → tbl1 t = tbl t) := by
  intro rest
  induction rest with
  | nil =>
    intro i G tbl _ _ _
    exact ⟨tbl, rfl, by simp, fun _ _ => rfl⟩
  | cons l rest ih =>
    intro i G tbl hls hB hnd
    have hl : ls[i]? = some l := by simpa using hls 0
    have hls1 : ∀ j, ls[i + 1 + j]? = rest[j]? := by
      intro j
      have := hls (j + 1)
      rw [List.getElem?_cons_succ] at this
      rw [← this]
      congr 1
      omega
    simp only [List.map_cons, List.flatten_cons] at hnd
    rw [List.nodup_append] at hnd
    obtain ⟨hnd1, hnd2, hdis⟩ := hnd
    have hdis1 : ∀ t ∈ l.tokens, ∀ m ∈ rest, t ∉ m.tokens := by
      intro t ht m hm htm
      exact hdis ht (List.mem_flatten.mpr ⟨m.tokens, List.mem_map.mpr ⟨m, hm, rfl⟩, htm⟩)
    -- continuation with the table after this line
    have hcont : ∀ (G1 : List Nat) (tbl0 : Nat → List Nat), Buffered ls (i + 1) G1 →
        (∀ t ∈ l.tokens, tbl0 t = tbl t ++
          (if receivesGlobals l then G.filterMap (lineToken0 ls) else [])) →
        (∀ t, t ∉ l.tokens → tbl0 t = tbl t) →
        ∃ tbl1, globalLoop ls rest (i + 1) G1 tbl0 = some tbl1 ∧
          (∀ (j : Nat) (m : HumdrumLine), (l :: rest)[j]? = some m →
            ∃ Gj, Buffered ls (i + j) Gj ∧
              ∀ t ∈ m.tokens, tbl1 t = tbl t ++
                (if receivesGlobals m then Gj.filterMap (lineToken0 ls) else [])) ∧
          (∀ t, (∀ m ∈ l :: rest, t ∉ m.tokens) → tbl1 t = tbl t) := by
      intro G1 tbl0 hB1 hline hother
      obtain ⟨tbl1, hrun, hlines, hrest⟩ := ih (i + 1) G1 tbl0 hls1 hB1 hnd2
      refine ⟨tbl1, hrun, ?_, ?_⟩
      · intro j m hm
        cases j with
        | zero =>
          simp only [List.getElem?_cons_zero, Option.some.injEq] at hm
          subst hm
          refine ⟨G, hB, ?_⟩
          intro t ht
          rw [hrest t (fun m hm => hdis1 t ht m hm)]
          exact hline t ht
        | succ j =>
          rw [List.getElem?_cons_succ] at hm
          obtain ⟨Gj, hBj, hj⟩ := hlines j m hm
          refine ⟨Gj, by rw [show i + (j + 1) = i + 1 + j by omega]; exact hBj, ?_⟩
          intro t ht
          rw [hj t ht, hother t (fun htl => hdis1 t htl m (List.getElem?_mem hm) ht)]
      · intro t ht
        rw [hrest t (fun m hm => ht m (List.mem_cons_of_mem _ hm))]
        exact hother t (ht l (List.mem_cons_self _ _))
    unfold globalLoop
    by_cases hgl : isGlobalLayout l = true
    · have hgl2 : (l.isCommentGlobal && l.hasGlobalLayout) = true := hgl
      rw [if_pos hgl2]
      exact hcont (G ++ [i]) tbl (Buffered.push ls i G l hB hl hgl)
        (fun t _ => by simp [receivesGlobals_of_layout l hgl]) (fun _ _ => rfl)
    · have hgl1 : isGlobalLayout l = false := by simpa using hgl
      have hgl2 : ¬ (l.isCommentGlobal && l.hasGlobalLayout) = true := hgl
      rw [if_neg hgl2]
      by_cases hr : receivesGlobals l = true
      · have hr2 := hr
        unfold receivesGlobals at hr2
        simp only [hgl1, Bool.not_false, Bool.true_and, Bool.and_eq_true,
          Bool.not_eq_true'] at hr2
        obtain ⟨⟨h1, h2⟩, h3⟩ := hr2
        simp only [h1, h2, h3, Bool.not_true, Bool.false_eq_true, if_false]
        by_cases he : G.isEmpty = true
        · rw [if_pos he]
          have hG : G = [] := List.isEmpty_iff.mp he
          subst hG
          exact hcont [] tbl (Buffered.clear ls i l hl hr) (fun t _ => by simp)
            (fun _ _ => rfl)
        · rw [if_neg he]
          obtain ⟨tbl0, hlink, htbl0⟩ := linkGlobals_spec ls G (by
            intro c hc
            obtain ⟨_, ⟨lc, hlc, hgc⟩, _⟩ := (hB.2 c).1 hc
            exact htok c lc hlc hgc) l.tokens tbl hnd1
          rw [hlink]
          simp only
          exact hcont [] tbl0 (Buffered.clear ls i l hl hr)
            (fun t ht => by rw [htbl0 t, if_pos ht, if_pos hr])
            (fun t ht => by rw [htbl0 t, if_neg ht])
      · have hr1 : receivesGlobals l = false := by simpa using hr
        have hskip := hcont G tbl (Buffered.skip ls i G l hB hl hgl1 hr1)
          (fun t _ => by simp [hr1]) (fun _ _ => rfl)
        unfold receivesGlobals at hr1
        simp only [hgl1, Bool.not_false, Bool.true_and] at hr1
        by_cases h1 : l.hasSpines = true
        · simp only [h1, Bool.not_true, Bool.false_eq_true, if_false]
          by_cases h2 : l.isAllNull = true
          · simp only [h2, if_true]; exact hskip
          · simp only [h2, Bool.false_eq_true, if_false]
            by_cases h3 : l.isCommentLocal = true
            · simp only [h3, if_true]; exact hskip
            · simp [h1, h2, h3] at hr1
        · have h1f : l.hasSpines = false := by simpa using h1
          simp only [h1f, Bool.not_false, if_true]; exact hskip

theorem globalsHaveToken_spec (f : HumdrumFile) (h : f.globalsHaveToken = true) :
    ∀ (c : Nat) (l : HumdrumLine), f.lines[c]? = some l → isGlobalLayout l = true →
      ∃ p, lineToken0 f.lines c = some p := by
  intro c l hl hg
  unfold globalsHaveToken at h
  rw [List.all_eq_true] at h
  have h1 := h l (List.getElem?_mem hl)
  simp only [hg, Bool.not_true, Bool.false_or, Bool.not_eq_true', List.isEmpty_eq_false] at h1
  unfold lineToken0
  rw [hl]
  cases ht : l.tokens with
  | nil => rw [ht] at h1; simp at h1
  | cons p ps => exact ⟨p, by simp [ht]⟩

/-- C23: when the fields of the lines are distinct tokens and every global
layout line has a token, `analyzeGlobalParameters` returns, and for every
line `i` there is the list `G` of the global layout lines buffered at line `i`
(those before `i`, in file order, with no receiving line strictly between them
and `i`) such that every field of line `i` gets the tokens of the lines of `G`
appended to its linked parameters when line `i` has spines, is not all-null,
is no local comment and is not itself buffered, and nothing otherwise; tokens
that are no field of a line are left as they were.  Hence a buffered comment
is attached to exactly the first such line after it, or to nothing. -/
theorem analyzeGlobalParameters_spec (f : HumdrumFile) (hnd : f.distinctFields)
    (htok : f.globalsHaveToken = true) :
    ∃ g, f.analyzeGlobalParameters = some (f.isValid, g) ∧
      (∀ (i : Nat) (l : HumdrumLine), f.lines[i]? = some l →
        ∃ G, Buffered f.lines i G ∧
          ∀ t ∈ l.tokens, g.linkedParameters t = f.linkedParameters t ++
            (if receivesGlobals l then G.filterMap (lineToken0 f.lines) else [])) ∧
      (∀ t, (∀ l ∈ f.lines, t ∉ l.tokens) → g.linkedParameters t = f.linkedParameters t) := by
  obtain ⟨tbl1, hrun, hlines, hrest⟩ := globalLoop_spec f.lines (globalsHaveToken_spec f htok)
    f.lines 0 [] f.linkedParameters (fun j => by simp)
    ⟨List.Pairwise.nil, fun c => by simp⟩ hnd
  refine ⟨_, by unfold analyzeGlobalParameters; rw [hrun]; rfl, ?_, hrest⟩
  intro i l hl
  obtain ⟨G, hG, h⟩ := hlines i l hl
  exact ⟨G, by simpa using hG, h⟩

theorem analyzeGlobalParameters_spec_witness :
    layoutComments.distinctFields ∧ layoutComments.globalsHaveToken = true ∧
    ∃ g, layoutComments.analyzeGlobalParameters = some (layoutComments.isValid, g) ∧
      (∀ (i : Nat) (l : HumdrumLine), layoutComments.lines[i]? = some l →
        ∃ G, Buffered layoutComments.lines i G ∧
          ∀ t ∈ l.tokens, g.linkedParameters t = layoutComments.linkedParameters t ++
            (if receivesGlobals l then G.filterMap (lineToken0 layoutComments.lines)
              else [])) ∧
      (∀ t, (∀ l ∈ layoutComments.lines, t ∉ l.tokens) →
        g.linkedParameters t = layoutComments.linkedParameters t) :=
  ⟨by unfold distinctFields; decide!, by decide!,
    analyzeGlobalParameters_spec layoutComments (by unfold distinctFields; decide!)
      (by decide!)⟩

/-- C24 (evaluation): on `layoutComments` the two global layout comments of
lines `1` and `2` are linked to token `4`, the split manipulator `*^` of line
`4`, and not to the notes of line `5`; the comment of line `6` is linked to
both merge manipulators `*v` of line `7`; the comment after the end of the
data is linked to nothing. -/
theorem analyzeGlobalParameters_links_manipulator :
    (layoutComments.analyzeGlobalParameters).map (fun r =>
      ((List.range 12).map r.2.linkedParameters,
        r.2.lines.map (fun l => l.isManipulator))) =
      some ([[], [], [], [], [1, 2], [], [], [], [7], [7], [], []],
        [false, false, false, false, true, false, false, true, true, false]) := by
  decide!

theorem backLinked_spec (f : HumdrumFile) (h : f.backLinked = true) :
    ∀ (i : Nat) (t : HumdrumToken), f.tokens[i]? = some t →
      t.lineIndex < f.lines.length ∧
      ∀ j, j ∈ t.previousTokens →
        ∃ u, f.tokens[j]? = some u ∧ u.lineIndex < t.lineIndex := by
  intro i t ht
  unfold backLinked at h
  rw [List.all_eq_true] at h
  have h1 := h t (List.getElem?_mem ht)
  simp only [Bool.and_eq_true, decide_eq_true_eq, List.all_eq_true] at h1
  refine ⟨h1.1, fun j hj => ?_⟩
  have h2 := h1.2 j hj
  cases hu : f.tokens[j]? with
  | none => simp [hu] at h2
  | some u => exact ⟨u, rfl, by simpa [hu] using h2⟩

theorem backPath_none (ts : List HumdrumToken) (fuel : Nat) (sstart : Option Nat) :
    backPath ts fuel sstart none = [] := by
  cases fuel <;> rfl

theorem localWalk_eq_foldl (ts : List HumdrumToken)
    (hbl : ∀ (i : Nat) (t : HumdrumToken), ts[i]? = some t →
      ∀ j, j ∈ t.previousTokens → ∃ u, ts[j]? = some u ∧ u.lineIndex < t.lineIndex) :
    ∀ (fuel : Nat) (sstart : Option Nat) (s : LocalScan) (tok : Nat) (t : HumdrumToken),
      ts[tok]? = some t → t.lineIndex < fuel →
      localWalk fuel ts sstart s (some tok) =
        some ((backPath ts fuel sstart (some tok)).foldl (localStep ts) s) := by
  intro fuel
  induction fuel with
  | zero => intro sstart s tok t _ h; omega
  | succ fuel ih =>
    intro sstart s tok t ht hf
    simp only [localWalk, backPath, ht]
    by_cases hs : some tok = sstart
    · rw [if_pos hs, if_pos hs]; rfl
    · rw [if_neg hs, if_neg hs]
      cases hp : t.previousTokens with
      | nil =>
        simp only [List.head?_nil, backPath_none]
        cases fuel <;> rfl
      | cons n0 rest =>
        obtain ⟨u, hu, hlu⟩ := hbl tok t ht n0 (by rw [hp]; exact List.mem_cons_self _ _)
        simp only [List.head?_cons, List.foldl_cons]
        exact ih sstart _ n0 u hu (by omega)

theorem backPath_lineIndex (ts : List HumdrumToken)
    (hbl : ∀ (i : Nat) (t : HumdrumToken), ts[i]? = some t →
      ∀ j, j ∈ t.previousTokens → ∃ u, ts[j]? = some u ∧ u.lineIndex < t.lineIndex) :
    ∀ (fuel : Nat) (sstart : Option Nat) (c : Nat) (tc : HumdrumToken), ts[c]? = some tc →
      ∀ x tx, x ∈ backPath ts fuel sstart (some c) → ts[x]? = some tx →
        tx.lineIndex ≤ tc.lineIndex := by
  intro fuel
  induction fuel with
  | zero => intro sstart c tc _ x tx hx; simp [backPath] at hx
  | succ fuel ih =>
    intro sstart c tc hc x tx hx hxt
    simp only [backPath, hc] at hx
    by_cases hs : some c = sstart
    · rw [if_pos hs] at hx
      simp only [List.mem_singleton] at hx
      subst hx
      rw [hc] at hxt
      simp only [Option.some.injEq] at hxt
      rw [hxt]
    · rw [if_neg hs] at hx
      rcases List.mem_cons.mp hx with e | e
      · subst e
        rw [hc] at hxt
        simp only [Option.some.injEq] at hxt
        rw [hxt]
      · cases hp : tc.previousTokens with
        | nil => rw [hp] at e; simp [backPath_none] at e
        | cons n0 rest =>
          rw [hp] at e
          obtain ⟨u, hu, hlu⟩ := hbl c tc hc n0 (by rw [hp]; exact List.mem_cons_self _ _)
          have := ih sstart n0 u hu x tx e hxt
          omega

theorem backPath_valid (ts : List HumdrumToken) :
    ∀ (fuel : Nat) (sstart : Option Nat) (c : Option Nat) (x : Nat),
      x ∈ backPath ts fuel sstart c → ∃ tx, ts[x]? = some tx := by
  intro fuel
  induction fuel with
  | zero => intro sstart c x hx; simp [backPath] at hx
  | succ fuel ih =>
    intro sstart c x hx
    cases c with
    | none => simp [backPath] at hx
    | some c =>
      simp only [backPath] at hx
      cases hc : ts[c]? with
      | none => simp [hc] at hx
      | some tc =>
        simp only [hc] at hx
        by_cases hs : some c = sstart
        · rw [if_pos hs] at hx
          simp only [List.mem_singleton] at hx
          subst hx
          exact ⟨tc, hc⟩
        · rw [if_neg hs] at hx
          rcases List.mem_cons.mp hx with e | e
          · subst e; exact ⟨tc, hc⟩
          · exact ih _ _ _ e

theorem backPath_nodup (ts : List HumdrumToken)
    (hbl : ∀ (i : Nat) (t : HumdrumToken), ts[i]? = some t →
      ∀ j, j ∈ t.previousTokens → ∃ u, ts[j]? = some u ∧ u.lineIndex < t.lineIndex) :
    ∀ (fuel : Nat) (sstart : Option Nat) (c : Option Nat),
      (backPath ts fuel sstart c).Nodup := by
  intro fuel
  induction fuel with
  | zero => intro sstart c; simp [backPath]
  | succ fuel ih =>
    intro sstart c
    cases c with
    | none => simp [backPath]
    | some c =>
      simp only [backPath]
      cases hc : ts[c]? with
      | none => simp
      | some tc =>
        simp only
        by_cases hs : some c = sstart
        · rw [if_pos hs]; simp
        · rw [if_neg hs, List.nodup_cons]
          refine ⟨?_, ih _ _⟩
          intro hmem
          cases hp : tc.previousTokens with
          | nil => rw [hp] at hmem; simp [backPath_none] at hmem
          | cons n0 rest =>
            rw [hp] at hmem
            obtain ⟨u, hu, hlu⟩ := hbl c tc hc n0 (by rw [hp]; exact List.mem_cons_self _ _)
            have := backPath_lineIndex ts hbl fuel sstart n0 u hu c tc hmem hc
            omega

theorem backPath_stops (ts : List HumdrumToken) :
    ∀ (fuel : Nat) (a : Nat) (c : Option Nat) (A B : List Nat),
      backPath ts fuel (some a) c = A ++ a :: B → B = [] := by
  intro fuel
  induction fuel with
  | zero => intro a c A B h; simp [backPath] at h
  | succ fuel ih =>
    intro a c A B h
    cases c with
    | none => simp [backPath] at h
    | some c =>
      simp only [backPath] at h
      cases hc : ts[c]? with
      | none => simp [hc] at h
      | some tc =>
        simp only [hc] at h
        by_cases hs : some c = some a
        · rw [if_pos hs] at h
          cases A with
          | nil => simp at h; exact h.2
          | cons y ys =>
            simp only [List.cons_append, List.cons.injEq] at h
            have := h.2
            simp at this
        · rw [if_neg hs] at h
          cases A with
          | nil =>
            simp only [List.nil_append, List.cons.injEq] at h
            exact absurd (by rw [h.1]) hs
          | cons y ys =>
            simp only [List.cons_append, List.cons.injEq] at h
            exact ih a _ ys B h.2

theorem localStep_dtok (ts : List HumdrumToken) (s : LocalScan) (x : Nat) :
    (localStep ts s x).dtok = if governsAt ts x then some x else s.dtok := by
  unfold localStep governsAt governsParameters
  cases hx : ts[x]? with
  | none => simp
  | some t =>
    cases h1 : t.isData <;> cases h2 : t.isBarline <;> cases h3 : t.isInterpretation <;>
      cases h4 : t.isNullInterpretation <;> cases h5 : t.isCommentLocal <;>
      cases h6 : t.hasLocalLayout <;> simp [h1, h2, h3, h4, h5, h6]

theorem localStep_linked (ts : List HumdrumToken) (s : LocalScan) (x : Nat) :
    (localStep ts s x).linked =
      if isLocalLayoutAt ts x then
        match s.dtok with
        | some d => addLinkedParameter s.linked d x
        | none => s.linked
      else s.linked := by
  unfold localStep isLocalLayoutAt isLocalLayout governsParameters
  cases hx : ts[x]? with
  | none => simp
  | some t =>
    cases h1 : t.isData <;> cases h2 : t.isBarline <;> cases h3 : t.isInterpretation <;>
      cases h4 : t.isNullInterpretation <;> cases h5 : t.isCommentLocal <;>
      cases h6 : t.hasLocalLayout <;> simp [h1, h2, h3, h4, h5, h6]

theorem localStep_stored (ts : List HumdrumToken) (s : LocalScan) (x : Nat) :
    (localStep ts s x).stored =
      if isLocalLayoutAt ts x then Function.update s.stored x true else s.stored := by
  unfold localStep isLocalLayoutAt isLocalLayout governsParameters
  cases hx : ts[x]? with
  | none => simp
  | some t =>
    cases h1 : t.isData <;> cases h2 : t.isBarline <;> cases h3 : t.isInterpretation <;>
      cases h4 : t.isNullInterpretation <;> cases h5 : t.isCommentLocal <;>
      cases h6 : t.hasLocalLayout <;> simp [h1, h2, h3, h4, h5, h6]

theorem isLocalLayoutAt_not_governs (ts : List HumdrumToken) (x : Nat)
    (h : isLocalLayoutAt ts x = true) : governsAt ts x = false := by
  unfold isLocalLayoutAt isLocalLayout at h
  unfold governsAt
  cases hx : ts[x]? with
  | none => rfl
  | some t =>
    rw [hx] at h
    simp only [Bool.and_eq_true, Bool.not_eq_true'] at h
    exact h.1.1

theorem localFold_dtok (ts : List HumdrumToken) (s0 : LocalScan) (hd : s0.dtok = none)
    (A : List Nat) :
    (A.foldl (localStep ts) s0).dtok = A.reverse.find? (governsAt ts) := by
  induction A using List.reverseRecOn with
  | nil => simpa using hd
  | append_singleton A x ih =>
    rw [List.foldl_append, List.foldl_cons, List.foldl_nil, localStep_dtok, ih]
    simp only [List.reverse_append, List.reverse_cons, List.reverse_nil, List.nil_append,
      List.singleton_append, List.find?_cons]
    cases governsAt ts x <;> rfl

theorem snoc_eq_split (A A1 A2 : List Nat) (x c : Nat)
    (h : A ++ [x] = A1 ++ c :: A2) :
    (A2 = [] ∧ A1 = A ∧ c = x) ∨ ∃ A3, A2 = A3 ++ [x] ∧ A = A1 ++ c :: A3 := by
  rcases List.eq_nil_or_concat A2 with e | ⟨A3, y, e⟩
  · subst e
    left
    have h2 : A ++ [x] = A1 ++ [c] := h
    have := List.append_inj' h2 rfl
    simp only [List.cons.injEq, and_true] at this
    exact ⟨rfl, this.1.symm, this.2.symm⟩
  · rw [List.concat_eq_append] at e
    subst e
    right
    have h2 : A ++ [x] = (A1 ++ c :: A3) ++ [y] := by rw [h]; simp
    have := List.append_inj' h2 rfl
    simp only [List.cons.injEq, and_true] at this
    obtain ⟨h3, h4⟩ := this
    subst h4
    exact ⟨A3, rfl, h3⟩

theorem localFold_linked (ts : List HumdrumToken) (s0 : LocalScan) (hd : s0.dtok = none)
    (A : List Nat) :
    ∀ (d c : Nat), c ∈ (A.foldl (localStep ts) s0).linked d ↔
      c ∈ s0.linked d ∨
        ∃ A1 A2, A = A1 ++ c :: A2 ∧ isLocalLayoutAt ts c = true ∧
          A1.reverse.find? (governsAt ts) = some d := by
  induction A using List.reverseRecOn with
  | nil => intro d c; simp
  | append_singleton A x ih =>
    intro d c
    rw [List.foldl_append, List.foldl_cons, List.foldl_nil, localStep_linked,
      localFold_dtok ts s0 hd A]
    have hsplit : (∃ A1 A2, A ++ [x] = A1 ++ c :: A2 ∧ isLocalLayoutAt ts c = true ∧
          A1.reverse.find? (governsAt ts) = some d) ↔
        ((c = x ∧ isLocalLayoutAt ts x = true ∧
            A.reverse.find? (governsAt ts) = some d) ∨
          ∃ A1 A2, A = A1 ++ c :: A2 ∧ isLocalLayoutAt ts c = true ∧
            A1.reverse.find? (governsAt ts) = some d) := by
      constructor
      · rintro ⟨A1, A2, h1, h2, h3⟩
        rcases snoc_eq_split A A1 A2 x c h1 with ⟨_, e2, e3⟩ | ⟨A3, _, e2⟩
        · subst e2; subst e3; exact Or.inl ⟨rfl, h2, h3⟩
        · exact Or.inr ⟨A1, A3, e2, h2, h3⟩
      · rintro (⟨e, h2, h3⟩ | ⟨A1, A2, h1, h2, h3⟩)
        · subst e; exact ⟨A, [], rfl, h2, h3⟩
        · exact ⟨A1, A2 ++ [x], by rw [h1]; simp, h2, h3⟩
    rw [hsplit]
    by_cases hl : isLocalLayoutAt ts x = true
    · rw [if_pos hl]
      cases hf : A.reverse.find? (governsAt ts) with
      | none =>
        simp only
        rw [ih d c]
        constructor
        · rintro (h | h)
          · exact Or.inl h
          · exact Or.inr (Or.inr h)
        · rintro (h | ⟨_, _, h⟩ | h)
          · exact Or.inl h
          · exact Option.noConfusion h
          · exact Or.inr h
      | some d0 =>
        simp only
        unfold addLinkedParameter
        by_cases e : d = d0
        · subst e
          simp only [Function.update_same, List.mem_append, List.mem_singleton]
          rw [ih d c]
          constructor
          · rintro ((h | h) | h)
            · exact Or.inl h
            · exact Or.inr (Or.inr h)
            · exact Or.inr (Or.inl ⟨h, hl, trivial⟩)
          · rintro (h | ⟨h, _, _⟩ | h)
            · exact Or.inl (Or.inl h)
            · exact Or.inr h
            · exact Or.inl (Or.inr h)
        · rw [Function.update_noteq e, ih d c]
          constructor
          · rintro (h | h)
            · exact Or.inl h
            · exact Or.inr (Or.inr h)
          · rintro (h | ⟨_, _, h⟩ | h)
            · exact Or.inl h
            · simp only [Option.some.injEq] at h
              exact absurd h.symm e
            · exact Or.inr h
    · rw [if_neg hl, ih d c]
      constructor
      · rintro (h | h)
        · exact Or.inl h
        · exact Or.inr (Or.inr h)
      · rintro (h | ⟨_, h, _⟩ | h)
        · exact Or.inl h
        · exact absurd h hl
        · exact Or.inr h

theorem localFold_stored (ts : List HumdrumToken) (A : List Nat) :
    ∀ (s0 : LocalScan) (c : Nat), (A.foldl (localStep ts) s0).stored c =
      (s0.stored c || (decide (c ∈ A) && isLocalLayoutAt ts c)) := by
  induction A with
  | nil => intro s0 c; simp
  | cons x xs ih =>
    intro s0 c
    rw [List.foldl_cons, ih, localStep_stored]
    by_cases hl : isLocalLayoutAt ts x = true
    · rw [if_pos hl]
      by_cases e : c = x
      · subst e; simp [hl]
      · simp [Function.update_noteq e, e]
    · rw [if_neg hl]
      by_cases e : c = x
      · subst e
        have : isLocalLayoutAt ts c = false := by simpa using hl
        simp [this]
      · simp [e]

theorem nodup_split_unique (l A B A1 A2 : List Nat) (c : Nat) (hnd : l.Nodup)
    (h1 : l = A ++ c :: B) (h2 : l = A1 ++ c :: A2) : A1 = A := by
  subst h1
  induction A generalizing A1 with
  | nil =>
    cases A1 with
    | nil => rfl
    | cons y ys =>
      simp only [List.nil_append, List.cons_append, List.cons.injEq] at h2
      obtain ⟨e, h3⟩ := h2
      subst e
      rw [List.nil_append, List.nodup_cons] at hnd
      exact absurd (by rw [h3]; simp) hnd.1
  | cons a A ih =>
    cases A1 with
    | nil =>
      simp only [List.nil_append, List.cons_append, List.cons.injEq] at h2
      obtain ⟨e, _⟩ := h2
      subst e
      rw [List.cons_append, List.nodup_cons] at hnd
      exact absurd (by simp) hnd.1
    | cons y ys =>
      simp only [List.cons_append, List.cons.injEq] at h2
      obtain ⟨e, h3⟩ := h2
      subst e
      rw [List.cons_append, List.nodup_cons] at hnd
      rw [ih ys hnd.2 h3]

/-- C25: on a back-linked file `processLocalParametersForStrand` returns.  Let
`P` be the tokens it visits, from the strand end backwards along
`getPreviousToken()` up to and with the strand start.  Every local comment `c`
of `P` starting with `!LO:` has its parameters stored and is linked to exactly
the token `d` that is the last target token (data, barline or non-null
interpretation) visited before `c`, that is the nearest one after `c` in the
strand, and to no token when there is none.  Nothing is stored or linked
outside `P`, and `P` ends with the strand start. -/
theorem processLocalParametersForStrand_spec (f : HumdrumFile) (index : Nat) (p : TokenPair)
    (b : Nat) (tb : HumdrumToken) (hp : f.strand1d[index]? = some p)
    (hlast : p.last = some b) (htb : f.tokens[b]? = some tb)
    (hbl : f.backLinked = true) :
    ∃ g, f.processLocalParametersForStrand index = some g ∧
      (∀ (A B : List Nat) (c : Nat),
        backPath f.tokens f.walkBound p.first p.last = A ++ c :: B →
        isLocalLayoutAt f.tokens c = true →
        g.parametersStored c = true ∧
        ∀ d, c ∈ g.linkedParameters d ↔
          (c ∈ f.linkedParameters d ∨ A.reverse.find? (governsAt f.tokens) = some d)) ∧
      (∀ c, c ∉ backPath f.tokens f.walkBound p.first p.last →
        g.parametersStored c = f.parametersStored c) ∧
      (∀ d c, c ∈ g.linkedParameters d → c ∉ f.linkedParameters d →
        c ∈ backPath f.tokens f.walkBound p.first p.last ∧
        d ∈ backPath f.tokens f.walkBound p.first p.last) ∧
      (∀ (a : Nat) (A B : List Nat), p.first = some a →
        backPath f.tokens f.walkBound p.first p.last = A ++ a :: B → B = []) := by
  have hb := backLinked_spec f hbl
  have hb2 : ∀ (i : Nat) (t : HumdrumToken), f.tokens[i]? = some t →
      ∀ j, j ∈ t.previousTokens → ∃ u, f.tokens[j]? = some u ∧ u.lineIndex < t.lineIndex :=
    fun i t ht => (hb i t ht).2
  have hrun := localWalk_eq_foldl f.tokens hb2 f.walkBound p.first
    { linked := f.linkedParameters, stored := f.parametersStored, dtok := none } b tb htb
    (by unfold walkBound; have := (hb b tb htb).1; omega)
  have hnd := backPath_nodup f.tokens hb2 f.walkBound p.first p.last
  rw [hlast] at hnd ⊢
  refine ⟨_, by unfold processLocalParametersForStrand; rw [hp]; simp only [hlast, hrun]; rfl,
    ?_, ?_, ?_, ?_⟩
  · intro A B c hP hc
    refine ⟨?_, ?_⟩
    · show ((backPath f.tokens f.walkBound p.first (some b)).foldl (localStep f.tokens) _).stored c
        = true
      rw [localFold_stored, hP]
      simp [hc]
    · intro d
      show c ∈ ((backPath f.tokens f.walkBound p.first (some b)).foldl
        (localStep f.tokens) _).linked d ↔ _
      rw [localFold_linked f.tokens _ rfl]
      constructor
      · rintro (h | ⟨A1, A2, h1, _, h3⟩)
        · exact Or.inl h
        · rw [nodup_split_unique _ A B A1 A2 c hnd hP h1] at h3
          exact Or.inr h3
      · rintro (h | h)
        · exact Or.inl h
        · exact Or.inr ⟨A, B, hP, hc, h⟩
  · intro c hc
    show ((backPath f.tokens f.walkBound p.first (some b)).foldl (localStep f.tokens) _).stored c
      = _
    rw [localFold_stored]
    simp [hc]
  · intro d c hcd hnot
    have h1 : c ∈ ((backPath f.tokens f.walkBound p.first (some b)).foldl
        (localStep f.tokens)
        { linked := f.linkedParameters, stored := f.parametersStored, dtok := none }).linked d :=
      hcd
    rw [localFold_linked f.tokens _ rfl] at h1
    rcases h1 with h | ⟨A1, A2, h1, _, h3⟩
    · exact absurd h hnot
    · rw [h1]
      refine ⟨by simp, ?_⟩
      have := List.mem_of_find?_eq_some h3
      exact List.mem_append_left _ (List.mem_reverse.mp this)
  · intro a A B ha hP
    rw [ha] at hP
    exact backPath_stops f.tokens f.walkBound a (some b) A B hP

theorem processLocalParametersForStrand_spec_witness :
    localComments.backLinked = true ∧
    (∃ g, localComments.processLocalParametersForStrand 0 = some g ∧
      (∀ (A B : List Nat) (c : Nat),
        backPath localComments.tokens localComments.walkBound (some 0) (some 8) = A ++ c :: B →
        isLocalLayoutAt localComments.tokens c = true →
        g.parametersStored c = true ∧
        ∀ d, c ∈ g.linkedParameters d ↔
          (c ∈ localComments.linkedParameters d ∨ A.reverse.find? (governsAt localComments.tokens) = some d)) ∧
      (∀ c, c ∉ backPath localComments.tokens localComments.walkBound (some 0) (some 8) →
        g.parametersStored c = localComments.parametersStored c) ∧
      (∀ d c, c ∈ g.linkedParameters d → c ∉ localComments.linkedParameters d →
        c ∈ backPath localComments.tokens localComments.walkBound (some 0) (some 8) ∧
        d ∈ backPath localComments.tokens localComments.walkBound (some 0) (some 8)) ∧
      (∀ (a : Nat) (A B : List Nat), (some 0) = some a →
        backPath localComments.tokens localComments.walkBound (some 0) (some 8) = A ++ a :: B → B = [])) :=
  ⟨by decide!,
    processLocalParametersForStrand_spec localComments 0 { first := some 0, last := some 8 } 8
      _ (by rfl) (by rfl) (by rfl) (by decide!)⟩

theorem localComments_links :
    ((localComments.processLocalParametersForStrand 0).map (fun g =>
        ((List.range 9).map g.linkedParameters, (List.range 9).map g.parametersStored)),
      backPath localComments.tokens localComments.walkBound (some 0) (some 8),
      primaryPath localComments.tokens localComments.walkBound (some 0)) =
      (some ([[], [], [], [1], [], [], [4], [], [7]],
        [false, true, false, false, true, false, false, true, false]),
      [8, 7, 6, 5, 4, 3, 2, 1, 0], [0, 1, 2, 3, 4, 5, 6, 7, 8]) := by
  decide!

theorem withDurationsFrom_getElem? (ts : List HumdrumToken) :
    ∀ (i : Nat) (tbl : Nat → Rat) (k : Nat),
      (withDurationsFrom ts i tbl)[k]? =
        (ts[k]?).map (fun t => { t with duration := tbl (i + k) }) := by
  induction ts with
  | nil => intro i tbl k; simp [withDurationsFrom]
  | cons t ts ih =>
    intro i tbl k
    cases k with
    | zero => simp [withDurationsFrom]
    | succ k =>
      simp only [withDurationsFrom, List.getElem?_cons_succ, ih]
      congr 1
      funext u
      congr 2
      omega

theorem withDurationsFrom_length (ts : List HumdrumToken) :
    ∀ (i : Nat) (tbl : Nat → Rat), (withDurationsFrom ts i tbl).length = ts.length := by
  induction ts with
  | nil => intro i tbl; rfl
  | cons t ts ih => intro i tbl; simp [withDurationsFrom, ih]

theorem withDurationsFrom_set (ts : List HumdrumToken) :
    ∀ (i : Nat) (tbl : Nat → Rat) (k : Nat) (t : HumdrumToken) (d : Rat),
      ts[k]? = some t →
      (withDurationsFrom ts i tbl).set k { t with duration := d } =
        withDurationsFrom ts i (Function.update tbl (i + k) d) := by
  intro i tbl k t d hk
  apply List.ext_getElem?
  intro j
  rw [List.getElem?_set, withDurationsFrom_getElem?, withDurationsFrom_getElem?,
    withDurationsFrom_length]
  by_cases e : k = j
  · subst e
    have hlt := lt_length_of_getElem? _ _ _ hk
    simp [hlt, hk]
  · rw [if_neg e]
    have : i + j ≠ i + k := by omega
    simp [Function.update_noteq this]

theorem withDurationsFrom_self (ts : List HumdrumToken) :
    ∀ (pre : List HumdrumToken),
      withDurationsFrom ts pre.length (fun k =>
        match (pre ++ ts)[k]? with
        | some t => t.duration
        | none => -1) = ts := by
  induction ts with
  | nil => intro pre; rfl
  | cons t ts ih =>
    intro pre
    simp only [withDurationsFrom]
    have h1 : (pre ++ t :: ts)[pre.length]? = some t := by
      rw [List.getElem?_append_right (le_refl _)]; simp
    rw [h1]
    have h2 := ih (pre ++ [t])
    simp only [List.length_append, List.length_singleton, List.append_assoc,
      List.singleton_append] at h2
    rw [h2]

theorem tokens_eq_withDurations (f : HumdrumFile) :
    f.tokens = withDurationsFrom f.tokens 0 (fun k => f.tokenDuration k) := by
  have := withDurationsFrom_self f.tokens []
  simp only [List.length_nil, List.nil_append] at this
  exact this.symm

theorem tokenDurationFromStart_congr (f0 g : HumdrumFile) (tbl : Nat → Rat)
    (hg : g.tokens = withDurationsFrom f0.tokens 0 tbl) (hl : g.lines = f0.lines) (x : Nat) :
    g.tokenDurationFromStart x = f0.tokenDurationFromStart x := by
  unfold tokenDurationFromStart durationFromStart
  rw [hg, hl, withDurationsFrom_getElem?]
  cases f0.tokens[x]? <;> rfl

theorem backPath_cons_nonempty (ts : List HumdrumToken) (fuel n0 : Nat) (u : HumdrumToken)
    (hu : ts[n0]? = some u) (sstart : Option Nat) :
    backPath ts (fuel + 1) sstart (some n0) ≠ [] := by
  simp only [backPath, hu]
  split <;> simp

theorem nonRhythmicWalk_linear (f0 : HumdrumFile) (spineinfo : String)
    (hbl : ∀ (i : Nat) (t : HumdrumToken), f0.tokens[i]? = some t →
      ∀ j, j ∈ t.previousTokens → ∃ u, f0.tokens[j]? = some u ∧ u.lineIndex < t.lineIndex) :
    ∀ (fuel : Nat) (g : HumdrumFile) (tbl : Nat → Rat) (cur tok : Nat) (t : HumdrumToken),
      g.tokens = withDurationsFrom f0.tokens 0 tbl → g.lines = f0.lines →
      f0.tokens[tok]? = some t → t.lineIndex < fuel →
      (∀ x ∈ backPath f0.tokens fuel none (some tok), ∀ tx, f0.tokens[x]? = some tx →
        tx.previousTokens.length ≤ 1 ∧ tx.spineInfo = spineinfo) →
      nonRhythmicWalk fuel g spineinfo cur (some tok) =
        some { g with tokens := (withDurationsFrom f0.tokens 0
          (((backPath f0.tokens fuel none (some tok)).dropLast).foldl
            (nonRhythmicStep f0) (tbl, cur)).1) } := by
  intro fuel
  induction fuel with
  | zero => intro g tbl cur tok t _ _ _ h; omega
  | succ fuel ih =>
    intro g tbl cur tok t hg hl ht hf hlin
    have hgt : g.tokens[tok]? = some { t with duration := tbl tok } := by
      rw [hg, withDurationsFrom_getElem?, ht]; simp
    have hpath : backPath f0.tokens (fuel + 1) none (some tok) =
        tok :: backPath f0.tokens fuel none t.previousTokens.head? := by
      simp [backPath, ht]
    obtain ⟨hlen, hsi⟩ := hlin tok (by rw [hpath]; exact List.mem_cons_self _ _) t ht
    unfold nonRhythmicWalk
    simp only [hgt]
    rw [if_neg (by simp [hsi])]
    cases hp : t.previousTokens with
    | nil =>
      simp only [List.length_nil, if_true]
      rw [hpath, hp]
      simp only [List.head?_nil, backPath_none, List.dropLast_single, List.foldl_nil]
      rw [← hg]
    | cons n0 rest =>
      have hrest : rest = [] := by
        rw [hp] at hlen
        simp only [List.length_cons] at hlen
        exact List.length_eq_zero.mp (by omega)
      subst hrest
      obtain ⟨u, hu, hlu⟩ := hbl tok t ht n0 (by rw [hp]; exact List.mem_cons_self _ _)
      have hne : backPath f0.tokens fuel none (some n0) ≠ [] := by
        cases fuel with
        | zero => omega
        | succ fuel => exact backPath_cons_nonempty _ _ _ u hu _
      have hlin2 : ∀ x ∈ backPath f0.tokens fuel none (some n0), ∀ tx,
          f0.tokens[x]? = some tx → tx.previousTokens.length ≤ 1 ∧ tx.spineInfo = spineinfo := by
        intro x hx tx htx
        exact hlin x (by rw [hpath, hp]; exact List.mem_cons_of_mem _ hx) tx htx
      rw [hpath, hp]
      simp only [List.length_cons, List.length_nil, Nat.reduceAdd, one_ne_zero, if_false,
        List.tail_cons, List.foldlM_nil, List.head?_cons]
      rw [List.dropLast_cons_of_ne_nil hne, List.foldl_cons]
      have key : nonRhythmicStep f0 (tbl, cur) tok =
          if (t.isData && !t.isNull) = true then
            (Function.update tbl tok
              (f0.tokenDurationFromStart cur - f0.tokenDurationFromStart tok), tok)
          else (tbl, cur) := by
        simp [nonRhythmicStep, isNonNullData, ht]
      rw [key]
      by_cases hd : (t.isData && !t.isNull) = true
      · rw [if_pos hd, if_pos hd]
        have hset : (g.setTokenDuration tok
            (g.tokenDurationFromStart cur - g.tokenDurationFromStart tok)).tokens =
            (withDurationsFrom f0.tokens 0 (Function.update tbl tok
              (f0.tokenDurationFromStart cur - f0.tokenDurationFromStart tok))) := by
          unfold setTokenDuration
          simp only [hgt]
          rw [tokenDurationFromStart_congr f0 g tbl hg hl,
            tokenDurationFromStart_congr f0 g tbl hg hl, hg]
          have := withDurationsFrom_set f0.tokens 0 tbl tok t
            (f0.tokenDurationFromStart cur - f0.tokenDurationFromStart tok) ht
          simp only [Nat.zero_add] at this
          exact this
        have hlines : (g.setTokenDuration tok
            (g.tokenDurationFromStart cur - g.tokenDurationFromStart tok)).lines = f0.lines := by
          unfold setTokenDuration
          simp only [hgt]
          exact hl
        rw [ih _ _ tok n0 u hset hlines hu (by omega) hlin2]
        unfold setTokenDuration
        simp only [hgt]
      · rw [if_neg hd, if_neg hd]
        exact ih g tbl cur n0 u hg hl hu (by omega) hlin2

theorem nonRhythmicStep_eq (f : HumdrumFile) (tbl : Nat → Rat) (cur x : Nat) :
    nonRhythmicStep f (tbl, cur) x =
      if isNonNullData f.tokens x = true then
        (Function.update tbl x (f.tokenDurationFromStart cur - f.tokenDurationFromStart x), x)
      else (tbl, cur) := rfl

theorem nonRhythmicFold_current (f : HumdrumFile) (l : List Nat) :
    ∀ (tbl : Nat → Rat) (cur : Nat),
      (l.foldl (nonRhythmicStep f) (tbl, cur)).2 =
        (l.reverse.find? (isNonNullData f.tokens)).getD cur := by
  induction l with
  | nil => intro tbl cur; rfl
  | cons a l ih =>
    intro tbl cur
    rw [List.foldl_cons, nonRhythmicStep_eq, List.reverse_cons, List.find?_append]
    by_cases ha : isNonNullData f.tokens a = true
    · rw [if_pos ha, ih]
      cases List.find? (isNonNullData f.tokens) l.reverse <;> simp [List.find?, ha]
    · rw [if_neg ha, ih]
      cases List.find? (isNonNullData f.tokens) l.reverse <;> simp [List.find?, ha]

theorem nonRhythmicFold_notMem (f : HumdrumFile) (x : Nat) (l : List Nat) :
    ∀ (tbl : Nat → Rat) (cur : Nat), x ∉ l →
      (l.foldl (nonRhythmicStep f) (tbl, cur)).1 x = tbl x := by
  induction l with
  | nil => intro tbl cur _; rfl
  | cons a l ih =>
    intro tbl cur hx
    rw [List.mem_cons, not_or] at hx
    rw [List.foldl_cons, nonRhythmicStep_eq]
    by_cases ha : isNonNullData f.tokens a = true
    · rw [if_pos ha, ih _ _ hx.2, Function.update_noteq hx.1]
    · rw [if_neg ha, ih _ _ hx.2]

theorem nonRhythmicFold_not_data (f : HumdrumFile) (x : Nat)
    (hx : isNonNullData f.tokens x = false) (l : List Nat) :
    ∀ (tbl : Nat → Rat) (cur : Nat),
      (l.foldl (nonRhythmicStep f) (tbl, cur)).1 x = tbl x := by
  induction l with
  | nil => intro tbl cur; rfl
  | cons a l ih =>
    intro tbl cur
    rw [List.foldl_cons, nonRhythmicStep_eq]
    by_cases ha : isNonNullData f.tokens a = true
    · rw [if_pos ha, ih]
      have : x ≠ a := by
        intro h
        rw [h, ha] at hx
        exact Bool.noConfusion hx
      rw [Function.update_noteq this]
    · rw [if_neg ha, ih]

theorem nonRhythmicFold_at (f : HumdrumFile) (A1 A2 : List Nat) (x : Nat)
    (tbl : Nat → Rat) (cur : Nat) (hnd : (A1 ++ x :: A2).Nodup)
    (hx : isNonNullData f.tokens x = true) :
    ((A1 ++ x :: A2).foldl (nonRhythmicStep f) (tbl, cur)).1 x =
      f.tokenDurationFromStart ((A1.reverse.find? (isNonNullData f.tokens)).getD cur)
        - f.tokenDurationFromStart x := by
  have hx2 : x ∉ A2 := by
    have := (List.nodup_cons.mp (List.nodup_middle.mp hnd)).1
    intro h
    exact this (List.mem_append_right _ h)
  rw [List.foldl_append, List.foldl_cons]
  have hc := nonRhythmicFold_current f A1 tbl cur
  generalize List.foldl (nonRhythmicStep f) (tbl, cur) A1 = s at hc ⊢
  obtain ⟨tbl1, cur1⟩ := s
  simp only at hc
  rw [nonRhythmicStep_eq, if_pos hx, nonRhythmicFold_notMem f x A2 _ _ hx2,
    Function.update_same, hc]

theorem tokenDuration_withDurations (f g : HumdrumFile) (tbl : Nat → Rat)
    (hg : g.tokens = withDurationsFrom f.tokens 0 tbl) (y : Nat) (t : HumdrumToken)
    (ht : f.tokens[y]? = some t) : g.tokenDuration y = tbl y := by
  unfold tokenDuration
  rw [hg, withDurationsFrom_getElem?, ht]
  simp

/-- C26: on a spine without splits or merges (every token reached from the end
token has at most one predecessor and the end token's spine information) the
backward walk started with the end token as reference returns the validity
flag, leaves the lines alone and changes nothing but durations; every non-null
data token that has a predecessor gets the difference between the start time
of the nearest non-null data token after it in the spine (the end token when
there is none) and its own start time; every token that is not non-null data
is unchanged. -/
theorem assignDurationsToNonRhythmicTrack_spec (f : HumdrumFile) (e : Nat) (te : HumdrumToken)
    (hte : f.tokens[e]? = some te) (hbl : f.backLinked = true)
    (hlin : ∀ x ∈ backPath f.tokens f.walkBound none (some e), ∀ tx,
      f.tokens[x]? = some tx → tx.previousTokens.length ≤ 1 ∧ tx.spineInfo = te.spineInfo) :
    ∃ g, f.assignDurationsToNonRhythmicTrack e e = some (f.isValid, g) ∧
      g.lines = f.lines ∧
      (∀ (y : Nat) (t : HumdrumToken), f.tokens[y]? = some t →
        ∃ d, g.tokens[y]? = some { t with duration := d }) ∧
      (∀ (A1 A2 : List Nat) (x : Nat),
        backPath f.tokens f.walkBound none (some e) = A1 ++ x :: A2 → A2 ≠ [] →
        isNonNullData f.tokens x = true →
        g.tokenDuration x =
          f.tokenDurationFromStart ((A1.reverse.find? (isNonNullData f.tokens)).getD e)
            - f.tokenDurationFromStart x) ∧
      (∀ y, isNonNullData f.tokens y = false → g.tokens[y]? = f.tokens[y]?) ∧
      (∀ y, y ∉ backPath f.tokens f.walkBound none (some e) →
        g.tokens[y]? = f.tokens[y]?) := by
  have hb := backLinked_spec f hbl
  have hb2 : ∀ (i : Nat) (t : HumdrumToken), f.tokens[i]? = some t →
      ∀ j, j ∈ t.previousTokens → ∃ u, f.tokens[j]? = some u ∧ u.lineIndex < t.lineIndex :=
    fun i t ht => (hb i t ht).2
  have hrun := nonRhythmicWalk_linear f te.spineInfo hb2 f.walkBound f
    (fun k => f.tokenDuration k) e e te (tokens_eq_withDurations f) rfl hte
    (by unfold walkBound; have := (hb e te hte).1; omega) hlin
  have hnd := backPath_nodup f.tokens hb2 f.walkBound none (some e)
  generalize hP : backPath f.tokens f.walkBound none (some e) = P at hrun hnd ⊢
  generalize htbl : (P.dropLast.foldl (nonRhythmicStep f) (fun k => f.tokenDuration k, e)).1
    = tbl at hrun
  have hsame : ∀ y, tbl y = f.tokenDuration y → 
      (withDurationsFrom f.tokens 0 tbl)[y]? = f.tokens[y]? := by
    intro y hy
    rw [withDurationsFrom_getElem?]
    cases hty : f.tokens[y]? with
    | none => rfl
    | some t =>
      simp only [Option.map_some', Nat.zero_add, hy]
      unfold tokenDuration
      rw [hty]
  refine ⟨{ f with tokens := withDurationsFrom f.tokens 0 tbl }, ?_, rfl, ?_, ?_, ?_, ?_⟩
  · unfold assignDurationsToNonRhythmicTrack
    rw [hte]
    simp only [hrun]
    rfl
  · intro y t ht
    refine ⟨tbl y, ?_⟩
    show (withDurationsFrom f.tokens 0 tbl)[y]? = _
    rw [withDurationsFrom_getElem?, ht]
    simp
  · intro A1 A2 x hsplit hA2 hx
    have hxt : ∃ t, f.tokens[x]? = some t := by
      unfold isNonNullData at hx
      cases h : f.tokens[x]? with
      | none => simp [h] at hx
      | some t => exact ⟨t, rfl⟩
    obtain ⟨t, ht⟩ := hxt
    rw [tokenDuration_withDurations f _ tbl rfl x t ht, ← htbl, hsplit,
      List.dropLast_append_of_ne_nil _ (by simp), List.dropLast_cons_of_ne_nil hA2]
    apply nonRhythmicFold_at
    · have h1 : (A1 ++ x :: A2).Nodup := hsplit ▸ hnd
      have h2 : (A1 ++ x :: A2.dropLast).Sublist (A1 ++ x :: A2) :=
        List.Sublist.append_left ((List.dropLast_sublist A2).cons₂ x) A1
      exact h1.sublist h2
    · exact hx
  · intro y hy
    apply hsame
    rw [← htbl]
    exact nonRhythmicFold_not_data f y hy _ _ _
  · intro y hy
    apply hsame
    rw [← htbl]
    exact nonRhythmicFold_notMem f y _ _ _
      (fun h => hy (List.dropLast_subset _ h))

theorem kernText_backPath :
    backPath kernText.tokens kernText.walkBound none (some 11) = [11, 9, 7, 5, 3, 1] := by
  decide!

theorem assignDurationsToNonRhythmicTrack_spec_witness :
    kernText.backLinked = true ∧
    (∀ x ∈ backPath kernText.tokens kernText.walkBound none (some 11), ∀ tx,
      kernText.tokens[x]? = some tx → tx.previousTokens.length ≤ 1 ∧ tx.spineInfo = "2") ∧
    (∃ g, kernText.assignDurationsToNonRhythmicTrack 11 11 = some (kernText.isValid, g) ∧
      g.lines = kernText.lines ∧
      (∀ (y : Nat) (t : HumdrumToken), kernText.tokens[y]? = some t →
        ∃ d, g.tokens[y]? = some { t with duration := d }) ∧
      (∀ (A1 A2 : List Nat) (x : Nat),
        backPath kernText.tokens kernText.walkBound none (some 11) = A1 ++ x :: A2 → A2 ≠ [] →
        isNonNullData kernText.tokens x = true →
        g.tokenDuration x =
          kernText.tokenDurationFromStart
              ((A1.reverse.find? (isNonNullData kernText.tokens)).getD 11)
            - kernText.tokenDurationFromStart x) ∧
      (∀ y, isNonNullData kernText.tokens y = false → g.tokens[y]? = kernText.tokens[y]?) ∧
      (∀ y, y ∉ backPath kernText.tokens kernText.walkBound none (some 11) →
        g.tokens[y]? = kernText.tokens[y]?)) :=
  have hlin : ∀ x ∈ backPath kernText.tokens kernText.walkBound none (some 11), ∀ tx,
      kernText.tokens[x]? = some tx → tx.previousTokens.length ≤ 1 ∧ tx.spineInfo = "2" := by
    intro x hx tx htx
    rw [kernText_backPath] at hx
    simp only [List.mem_cons, List.mem_singleton, List.not_mem_nil, or_false] at hx
    rcases hx with rfl | rfl | rfl | rfl | rfl | rfl <;>
      (simp only [kernText, List.getElem?_cons_succ, List.getElem?_cons_zero,
        Option.some.injEq] at htx
       subst htx
       exact ⟨by decide, rfl⟩)
  ⟨by decide!, hlin,
    assignDurationsToNonRhythmicTrack_spec kernText 11 _ (by rfl) (by decide!) hlin⟩

theorem kernText_durations :
    ((kernText.assignDurationsToNonRhythmicTrack 11 11).map (fun r =>
        (r.1, (List.range 12).map r.2.tokenDuration)),
      (kernText.analyzeDurationsOfNonRhythmicSpines).map (fun r =>
        (r.1, (List.range 12).map r.2.tokenDuration))) =
      (some (true, [-1, -1, 1, 2, 1, -1, -1, -1, 2, 2, -1, -1]),
       some (true, [-1, -1, 1, 2, 1, -1, -1, -1, 2, 2, -1, -1])) := by
  decide!

theorem analyzeStructure_counterexample :
    ((nullAfterBarline.analyzeStructure nullAfterBarline.tokenDuration true).map (fun r =>
        (r.1, r.2.lines.map (fun l => l.durationFromStart),
          r.2.lines.map (fun l => l.duration))) =
      some (true, [0, 0, 1/2, 1/2, 1, 2], [0, 1/2, 0, 1/2, 1, 0])) ∧
    (((nullAfterBarline.analyzeStructure nullAfterBarline.tokenDuration true).bind (fun r =>
        r.2.analyzeStructure nullAfterBarline.tokenDuration true)).map (fun r =>
        (r.1, r.2.lines.map (fun l => l.durationFromStart),
          r.2.lines.map (fun l => l.duration))) =
      some (true, [0, 0, 1/2, 3/4, 1, 2], [0, 1/2, 1/4, 1/4, 1, 0])) ∧
    ((floatingNull.analyzeStructure floatingNull.tokenDuration true).map (fun r =>
        (r.1, r.2.lines.map (fun l => l.durationFromStart))) =
      some (true, [0, 0, 1, 1, 1, 2, 4])) ∧
    (((floatingNull.analyzeStructure floatingNull.tokenDuration true).bind (fun r =>
        r.2.analyzeStructure floatingNull.tokenDuration true)).map (fun r =>
        (r.1, r.2.diagnostics)) =
      some (false, [.inconsistentRhythm 8 1 2])) := by
  refine ⟨?_, ?_, ?_, ?_⟩ <;> decide!

theorem list_set_same {α : Type} (l : List α) (i : Nat) (a : α) (h : l[i]? = some a) :
    l.set i a = l := by
  apply List.ext_getElem?
  intro k
  rw [List.getElem?_set]
  split
  · next hik =>
    subst hik
    have := lt_length_of_getElem? l i a h
    simp [this, h]
  · rfl

theorem map_set_static {α β : Type} (st : α → β) (l : List α) (i : Nat) (a b : α)
    (h : l[i]? = some a) (hst : st b = st a) : (l.set i b).map st = l.map st := by
  rw [List.map_set, hst]
  apply list_set_same
  rw [List.getElem?_map, h]
  rfl

theorem skeleton_setDurationFromStart (f : HumdrumFile) (i : Nat) (d : Rat) :
    skeleton (f.setDurationFromStart i d) = skeleton f ∧
      (f.setDurationFromStart i d).barlines = f.barlines := by
  unfold setDurationFromStart
  cases h : f.lines[i]? with
  | none => exact ⟨rfl, rfl⟩
  | some l =>
    refine ⟨?_, rfl⟩
    simp only [skeleton]
    rw [map_set_static lineStatic f.lines i l { l with durationFromStart := d } h rfl]

theorem skeleton_setDuration (f : HumdrumFile) (i : Nat) (d : Rat) :
    skeleton (f.setDuration i d) = skeleton f ∧
      (f.setDuration i d).barlines = f.barlines := by
  unfold setDuration
  cases h : f.lines[i]? with
  | none => exact ⟨rfl, rfl⟩
  | some l =>
    refine ⟨?_, rfl⟩
    simp only [skeleton]
    rw [map_set_static lineStatic f.lines i l { l with duration := d } h rfl]

theorem skeleton_setTokenDuration (f : HumdrumFile) (i : Nat) (d : Rat) :
    skeleton (f.setTokenDuration i d) = skeleton f ∧
      (f.setTokenDuration i d).barlines = f.barlines := by
  unfold setTokenDuration
  cases h : f.tokens[i]? with
  | none => exact ⟨rfl, rfl⟩
  | some l =>
    refine ⟨?_, rfl⟩
    simp only [skeleton]
    rw [map_set_static tokenStatic f.tokens i l { l with duration := d } h rfl]

theorem skeleton_setParseError (f : HumdrumFile) (e : ParseError) :
    skeleton (f.setParseError e) = skeleton f ∧
      (f.setParseError e).barlines = f.barlines := ⟨rfl, rfl⟩

theorem skeleton_incrementState (f : HumdrumFile) (k : Nat) :
    skeleton (f.incrementState k) = skeleton f ∧
      (f.incrementState k).barlines = f.barlines := ⟨rfl, rfl⟩

theorem setLineDurationFromStart_inv (P : HumdrumFile → Prop)
    (hd : ∀ g i d, P g → P (g.setDurationFromStart i d))
    (he : ∀ g e, P g → P (g.setParseError e))
    (f g : HumdrumFile) (tok : Nat) (d : Rat) (hP : P f)
    (h : f.setLineDurationFromStart tok d = some g) : P g := by
  unfold setLineDurationFromStart at h
  split at h
  · cases h
  · split at h
    · cases h; exact hP
    · split at h
      · cases h
      · split at h
        · cases h; exact hd _ _ _ hP
        · split at h
          · cases h; exact he _ _ hP
          · cases h; exact hP

theorem foldlM_inv_option {α β : Type} (Q : β → Prop) (step : β → α → Option β)
    (hstep : ∀ b a b', Q b → step b a = some b' → Q b') :
    ∀ (l : List α) (b b' : β), Q b → l.foldlM step b = some b' → Q b' := by
  intro l
  induction l with
  | nil =>
    intro b b' hb h
    simp only [List.foldlM_nil, pure, Option.some.injEq] at h
    subst h
    exact hb
  | cons a l ih =>
    intro b b' hb h
    rw [List.foldlM_cons] at h
    cases hs : step b a with
    | none => rw [hs] at h; cases h
    | some b1 =>
      rw [hs] at h
      exact ih b1 b' (hstep b a b1 hb hs) h

theorem primaryWalk_inv (P : HumdrumFile → Prop)
    (hi : ∀ g k, P g → P (g.incrementState k))
    (hs : ∀ (g g' : HumdrumFile) (tok : Nat) (d : Rat), P g →
      g.setLineDurationFromStart tok d = some g' → P g') :
    ∀ (fuel : Nat) (f : HumdrumFile) (state : Int) (token : Nat) (dursum : Rat)
      (res : List (Nat × Rat)) (r : WalkResult),
      P f → primaryWalk fuel f state token dursum res = some r → P r.file := by
  intro fuel
  induction fuel with
  | zero => intro f state token dursum res r _ h; simp [primaryWalk] at h
  | succ fuel ih =>
    intro f state token dursum res r hP h
    simp only [primaryWalk] at h
    split at h
    · cases h
    · split at h
      · split at h
        · split at h
          · cases h
          · next g hg =>
            split at h
            · cases h; exact hs _ _ _ _ hP hg
            · cases h; exact hs _ _ _ _ hP hg
        · cases h; exact hP
      · split at h
        · cases h
        · split at h
          · cases h; exact hP
          · split at h
            · cases h
            · next g hg =>
              have hPg : P g := hs _ _ _ _ (hi _ _ hP) hg
              split at h
              · cases h; exact hPg
              · split at h
                · cases h
                · next h1 log hw =>
                  cases h
                  exact ih _ _ _ _ _ (.aborted h1 log) hPg hw
                · next h1 log r1 hw =>
                  cases h
                  exact ih _ _ _ _ _ (.done h1 log r1) hPg hw

theorem prepareDurations_inv (P : HumdrumFile → Prop)
    (hi : ∀ g k, P g → P (g.incrementState k))
    (hs : ∀ (g g' : HumdrumFile) (tok : Nat) (d : Rat), P g →
      g.setLineDurationFromStart tok d = some g' → P g') :
    ∀ (fuel : Nat) (f : HumdrumFile) (token : Nat) (state : Int) (s : Rat)
      (r : HumdrumFile × List (Nat × Rat)),
      P f → prepareDurations fuel f token state s = some r → P r.1 := by
  intro fuel
  induction fuel with
  | zero => intro f token state s r _ h; simp [prepareDurations] at h
  | succ fuel ih =>
    intro f token state s r hP h
    simp only [prepareDurations] at h
    split at h
    · cases h
    · split at h
      · cases h; exact hP
      · split at h
        · cases h
        · next g hg =>
          have hPg : P g := hs _ _ _ _ (hi _ _ hP) hg
          split at h
          · cases h; exact hPg
          · split at h
            · cases h
            · next h1 log hw =>
              cases h
              exact primaryWalk_inv P hi hs _ _ _ _ _ _ _ hPg hw
            · next h1 log reservoir hw =>
              have hPh : P h1 := primaryWalk_inv P hi hs _ _ _ _ _ _ _ hPg hw
              refine foldlM_inv_option (fun (b : HumdrumFile × List (Nat × Rat)) => P b.1) _ ?_
                _ _ r hPh h
              intro b a b' hb hstep
              split at hstep
              · cases hstep
              · next res hres =>
                cases hstep
                exact ih _ _ _ _ res hb hres

theorem assignDurationsToTrack_inv (P : HumdrumFile → Prop)
    (hi : ∀ g k, P g → P (g.incrementState k))
    (hs : ∀ (g g' : HumdrumFile) (tok : Nat) (d : Rat), P g →
      g.setLineDurationFromStart tok d = some g' → P g')
    (f g : HumdrumFile) (start : Nat) (d : Rat) (hP : P f)
    (h : f.assignDurationsToTrack start d = some g) : P g := by
  unfold assignDurationsToTrack at h
  split at h
  · cases h
  · split at h
    · cases h; exact hP
    · split at h
      · cases h
      · next res hres =>
        cases h
        exact prepareDurations_inv P hi hs _ _ _ _ _ _ hP hres

theorem analyzeRhythmTracks_inv (P : HumdrumFile → Prop)
    (hi : ∀ g k, P g → P (g.incrementState k))
    (hs : ∀ (g g' : HumdrumFile) (tok : Nat) (d : Rat), P g →
      g.setLineDurationFromStart tok d = some g' → P g') (startline : Nat) :
    ∀ (l : List Nat) (f : HumdrumFile) (b : Bool) (g : HumdrumFile),
      P f → analyzeRhythmTracks startline l f = some (b, g) → P g := by
  intro l
  induction l with
  | nil => intro f b g hP h; simp only [analyzeRhythmTracks] at h; cases h; exact hP
  | cons s rest ih =>
    intro f b g hP h
    simp only [analyzeRhythmTracks] at h
    split at h
    · cases h
    · split at h
      · exact ih _ _ _ hP h
      · split at h
        · split at h
          · cases h
          · next g1 hg1 =>
            have hP1 := assignDurationsToTrack_inv P hi hs _ _ _ _ hP hg1
            split at h
            · cases h; exact hP1
            · exact ih _ _ _ hP1 h
        · exact ih _ _ _ hP h

theorem analyzeRhythmOfFloatingSpine_inv (P : HumdrumFile → Prop)
    (hi : ∀ g k, P g → P (g.incrementState k))
    (hs : ∀ (g g' : HumdrumFile) (tok : Nat) (d : Rat), P g →
      g.setLineDurationFromStart tok d = some g' → P g')
    (he : ∀ g e, P g → P (g.setParseError e))
    (f g : HumdrumFile) (s : Nat) (hP : P f)
    (h : f.analyzeRhythmOfFloatingSpine s = some g) : P g := by
  unfold analyzeRhythmOfFloatingSpine at h
  split at h
  · cases h
  · split at h
    · cases h; exact he _ _ hP
    · exact assignDurationsToTrack_inv P hi hs _ _ _ _ hP h

theorem analyzeRhythmFloating_inv (P : HumdrumFile → Prop)
    (hi : ∀ g k, P g → P (g.incrementState k))
    (hs : ∀ (g g' : HumdrumFile) (tok : Nat) (d : Rat), P g →
      g.setLineDurationFromStart tok d = some g' → P g')
    (he : ∀ g e, P g → P (g.setParseError e)) (startline : Nat) :
    ∀ (l : List Nat) (f : HumdrumFile) (b : Bool) (g : HumdrumFile),
      P f → analyzeRhythmFloating startline l f = some (b, g) → P g := by
  intro l
  induction l with
  | nil => intro f b g hP h; simp only [analyzeRhythmFloating] at h; cases h; exact hP
  | cons s rest ih =>
    intro f b g hP h
    simp only [analyzeRhythmFloating] at h
    split at h
    · cases h
    · split at h
      · exact ih _ _ _ hP h
      · split at h
        · split at h
          · cases h
          · next g1 hg1 =>
            have hP1 := analyzeRhythmOfFloatingSpine_inv P hi hs he _ _ _ hP hg1
            split at h
            · cases h; exact hP1
            · exact ih _ _ _ hP1 h
        · exact ih _ _ _ hP h

theorem assignNullLines_inv (P : HumdrumFile → Prop)
    (hd : ∀ g i d, P g → P (g.setDurationFromStart i d)) (startdur nulldur : Rat) :
    ∀ (nulls : List Nat) (f : HumdrumFile) (j : Nat),
      P f → P (assignNullLines f startdur nulldur nulls j) := by
  intro nulls
  induction nulls with
  | nil => intro f j hP; exact hP
  | cons k rest ih =>
    intro f j hP
    simp only [assignNullLines]
    exact ih _ _ (hd _ _ _ hP)

theorem nullLineStep_inv (P : HumdrumFile → Prop)
    (hd : ∀ g i d, P g → P (g.setDurationFromStart i d))
    (he : ∀ g e, P g → P (g.setParseError e))
    (s : NullScan) (i : Nat) (hP : P s.file) : P (nullLineStep s i).file := by
  unfold nullLineStep
  split
  · exact hP
  · split
    · exact hP
    · split
      · exact hP
      · split
        · split
          · exact hP
          · exact hP
        · split
          · split
            · exact he _ _ hP
            · exact hP
          · split
            · exact hP
            · exact assignNullLines_inv P hd _ _ _ _ _ hP

theorem analyzeNullLineRhythms_inv (P : HumdrumFile → Prop)
    (hd : ∀ g i d, P g → P (g.setDurationFromStart i d))
    (he : ∀ g e, P g → P (g.setParseError e))
    (f : HumdrumFile) (hP : P f) : P f.analyzeNullLineRhythms := by
  unfold analyzeNullLineRhythms
  have : ∀ (l : List Nat) (s : NullScan), P s.file → P (l.foldl nullLineStep s).file := by
    intro l
    induction l with
    | nil => intro s hs; exact hs
    | cons a l ih => intro s hs; exact ih _ (nullLineStep_inv P hd he s a hs)
  exact this _ _ hP

theorem analyzeRhythmSpines_inv (P : HumdrumFile → Prop)
    (hi : ∀ g k, P g → P (g.incrementState k))
    (hd : ∀ g i d, P g → P (g.setDurationFromStart i d))
    (he : ∀ g e, P g → P (g.setParseError e))
    (f : HumdrumFile) (b : Bool) (g : HumdrumFile) (hP : P f)
    (h : f.analyzeRhythmSpines = some (b, g)) : P g := by
  have hs : ∀ (g g' : HumdrumFile) (tok : Nat) (d : Rat), P g →
      g.setLineDurationFromStart tok d = some g' → P g' :=
    fun g g' tok d hg h => setLineDurationFromStart_inv P hd he g g' tok d hg h
  unfold analyzeRhythmSpines at h
  split at h
  · cases h
  · split at h
    · cases h
    · dsimp only at h
      split at h
      · cases h
      · next g1 hg1 =>
        cases h
        exact analyzeRhythmTracks_inv P hi hs _ _ _ _ _ hP hg1
      · next g1 hg1 =>
        have hP1 := analyzeRhythmTracks_inv P hi hs _ _ _ _ _ hP hg1
        split at h
        · cases h
        · next h1 hh1 =>
          cases h
          exact analyzeRhythmFloating_inv P hi hs he _ _ _ _ _ hP1 hh1
        · next h1 hh1 =>
          have hP2 := analyzeRhythmFloating_inv P hi hs he _ _ _ _ _ hP1 hh1
          have hP3 := analyzeNullLineRhythms_inv P hd he _ hP2
          split at h
          · cases h; exact hP3
          · cases h; exact hP3

theorem fillBackward_static (ls : List HumdrumLine) :
    (fillBackward ls).1.map lineStatic = ls.map lineStatic := by
  induction ls with
  | nil => rfl
  | cons l rest ih =>
    simp only [fillBackward, List.map_cons, ih]
    split <;> rfl

theorem fillForward_static (ls : List HumdrumLine) :
    ∀ (d : Rat), (fillForward d ls).map lineStatic = ls.map lineStatic := by
  induction ls with
  | nil => intro d; rfl
  | cons l rest ih =>
    intro d
    simp only [fillForward]
    split
    · simp only [List.map_cons, ih]
    · simp only [List.map_cons, ih]
      rfl

theorem assignLineDurationsLoop_static (ls : List HumdrumLine) :
    (assignLineDurationsLoop ls).map lineStatic = ls.map lineStatic := by
  induction ls using assignLineDurationsLoop.induct with
  | case1 => rfl
  | case2 l => rfl
  | case3 l m rest ih =>
    simp only [assignLineDurationsLoop, List.map_cons] at ih ⊢
    rw [ih]
    rfl

theorem meterForward_static (ls : List HumdrumLine) :
    ∀ (i : Nat) (sum : Rat) (found : Bool) (bars : List Nat),
      (meterForward ls i sum found bars).1.map lineStatic = ls.map lineStatic := by
  induction ls with
  | nil => intro i sum found bars; rfl
  | cons l rest ih =>
    intro i sum found bars
    simp only [meterForward, List.map_cons, ih]
    rfl

theorem meterBackward_static (ls : List HumdrumLine) :
    (meterBackward ls).1.map lineStatic = ls.map lineStatic := by
  induction ls with
  | nil => rfl
  | cons l rest ih =>
    simp only [meterBackward, List.map_cons, ih]
    rfl

theorem recipSums_static (ls : List HumdrumLine) :
    ∀ (sum : Rat), (recipSums sum ls).map lineStatic = ls.map lineStatic := by
  induction ls with
  | nil => intro sum; rfl
  | cons l rest ih =>
    intro sum
    simp only [recipSums, List.map_cons, ih]
    rfl

theorem hasPickup_static (ls : List HumdrumLine) :
    hasPickup (ls.map lineStatic) = hasPickup ls := by
  induction ls with
  | nil => rfl
  | cons l rest ih =>
    simp only [List.map_cons, hasPickup, ih]
    rfl

theorem barlinesFrom_static (ls : List HumdrumLine) :
    ∀ (i : Nat), barlinesFrom (ls.map lineStatic) i = barlinesFrom ls i := by
  induction ls with
  | nil => intro i; rfl
  | cons l rest ih =>
    intro i
    simp only [List.map_cons, barlinesFrom, ih]
    rfl

theorem registeredBarlines_static (ls ls' : List HumdrumLine)
    (h : ls.map lineStatic = ls'.map lineStatic) :
    registeredBarlines ls = registeredBarlines ls' := by
  unfold registeredBarlines
  rw [← hasPickup_static ls, ← barlinesFrom_static ls, h, hasPickup_static, barlinesFrom_static]

theorem skeleton_setLineRhythmAnalyzed (f : HumdrumFile) :
    skeleton f.setLineRhythmAnalyzed = skeleton f ∧
      f.setLineRhythmAnalyzed.barlines = f.barlines := by
  refine ⟨?_, rfl⟩
  simp only [skeleton, setLineRhythmAnalyzed, List.map_map]
  rfl

theorem skeleton_fillInNegativeStartTimes (f : HumdrumFile) :
    skeleton f.fillInNegativeStartTimes = skeleton f ∧
      f.fillInNegativeStartTimes.barlines = f.barlines := by
  refine ⟨?_, rfl⟩
  simp only [skeleton, fillInNegativeStartTimes, fillForward_static, fillBackward_static]

theorem skeleton_assignLineDurations (f : HumdrumFile) :
    skeleton f.assignLineDurations = skeleton f ∧
      f.assignLineDurations.barlines = f.barlines := by
  refine ⟨?_, rfl⟩
  simp only [skeleton, assignLineDurations, assignLineDurationsLoop_static]

theorem skeleton_analyzeMeter (f : HumdrumFile) :
    skeleton f.analyzeMeter = skeleton f ∧
      f.analyzeMeter.barlines = registeredBarlines f.analyzeMeter.lines := by
  have h1 : f.analyzeMeter.lines.map lineStatic = f.lines.map lineStatic := by
    simp only [analyzeMeter, meterBackward_static, meterForward_static]
  refine ⟨?_, ?_⟩
  · simp only [skeleton, h1]
    rfl
  · rw [registeredBarlines_static _ _ h1]
    have h := meterForward_bars f.lines 0 0 false []
    unfold analyzeMeter registeredBarlines
    simp only [h, List.nil_append, Bool.not_false, Bool.true_and]

theorem skeleton_lines (f g : HumdrumFile) (h : skeleton g = skeleton f) :
    g.lines.map lineStatic = f.lines.map lineStatic := by
  simp only [skeleton, Prod.mk.injEq] at h
  exact h.1

theorem skeleton_trackstarts (f g : HumdrumFile) (h : skeleton g = skeleton f) :
    g.trackstarts = f.trackstarts := by
  simp only [skeleton, Prod.mk.injEq] at h
  exact h.2.2.1

theorem analyzeRhythmTracks_invalid (startline : Nat) :
    ∀ (l : List Nat) (f g : HumdrumFile),
      analyzeRhythmTracks startline l f = some (false, g) → g.isValid = false := by
  intro l
  induction l with
  | nil => intro f g h; simp [analyzeRhythmTracks] at h
  | cons s rest ih =>
    intro f g h
    simp only [analyzeRhythmTracks] at h
    split at h
    · cases h
    · split at h
      · exact ih _ _ h
      · split at h
        · split at h
          · cases h
          · split at h
            · next hv => cases h; simpa using hv
            · exact ih _ _ h
        · exact ih _ _ h

theorem analyzeRhythmFloating_invalid (startline : Nat) :
    ∀ (l : List Nat) (f g : HumdrumFile),
      analyzeRhythmFloating startline l f = some (false, g) → g.isValid = false := by
  intro l
  induction l with
  | nil => intro f g h; simp [analyzeRhythmFloating] at h
  | cons s rest ih =>
    intro f g h
    simp only [analyzeRhythmFloating] at h
    split at h
    · cases h
    · split at h
      · exact ih _ _ h
      · split at h
        · split at h
          · cases h
          · split at h
            · next hv => cases h; simpa using hv
            · exact ih _ _ h
        · exact ih _ _ h

theorem analyzeRhythmSpines_invalid (f h : HumdrumFile)
    (hs : f.analyzeRhythmSpines = some (false, h)) : h.isValid = false := by
  unfold analyzeRhythmSpines at hs
  split at hs
  · cases hs
  · split at hs
    · cases hs
    · dsimp only at hs
      split at hs
      · cases hs
      · next g1 hg1 =>
        cases hs
        exact analyzeRhythmTracks_invalid _ _ _ _ hg1
      · split at hs
        · cases hs
        · next h1 hh1 =>
          cases hs
          exact analyzeRhythmFloating_invalid _ _ _ _ hh1
        · split at hs
          · next hv =>
            cases hs
            simpa using hv
          · cases hs

theorem analyzeRhythm_frame (f : HumdrumFile) (nonNull b : Bool) (g : HumdrumFile)
    (h : f.analyzeRhythm nonNull = some (b, g)) :
    skeleton g = skeleton f ∧
      (g.barlines = f.barlines ∨
        (g.barlines = registeredBarlines g.lines ∧ f.trackstarts ≠ [])) ∧
      (b = true ∨ g.isValid = true →
        g.barlines = registeredBarlines g.lines ∨ g.trackstarts = []) := by
  have h0 := skeleton_setLineRhythmAnalyzed f
  have hP : ∀ (b1 : Bool) (g1 : HumdrumFile),
      f.setLineRhythmAnalyzed.analyzeRhythmSpines = some (b1, g1) →
      skeleton g1 = skeleton f ∧ g1.barlines = f.barlines := by
    intro b1 g1 h1
    exact analyzeRhythmSpines_inv
      (fun x => skeleton x = skeleton f ∧ x.barlines = f.barlines)
      (fun x k hx => ⟨(skeleton_incrementState x k).1.trans hx.1,
        (skeleton_incrementState x k).2.trans hx.2⟩)
      (fun x i d hx => ⟨(skeleton_setDurationFromStart x i d).1.trans hx.1,
        (skeleton_setDurationFromStart x i d).2.trans hx.2⟩)
      (fun x e hx => ⟨(skeleton_setParseError x e).1.trans hx.1,
        (skeleton_setParseError x e).2.trans hx.2⟩)
      _ b1 g1 h0 h1
  unfold analyzeRhythm at h
  dsimp only at h
  split at h
  · next hz =>
    cases h
    refine ⟨h0.1, Or.inl h0.2, fun _ => Or.inr ?_⟩
    have : f.setLineRhythmAnalyzed.trackstarts.length = 0 := hz
    exact List.length_eq_zero.mp this
  · next hz =>
    have hne : f.trackstarts ≠ [] := by
      intro he
      apply hz
      show f.trackstarts.length = 0
      rw [he]
      rfl
    split at h
    · cases h
    · next g1 hg1 =>
      cases h
      obtain ⟨h1, h2⟩ := hP _ _ hg1
      refine ⟨h1, Or.inl h2, fun hv => ?_⟩
      rw [analyzeRhythmSpines_invalid _ _ hg1] at hv
      rcases hv with hv | hv <;> cases hv
    · next g1 hg1 =>
      obtain ⟨h1, h2⟩ := hP _ _ hg1
      have hm := skeleton_analyzeMeter g1.fillInNegativeStartTimes.assignLineDurations
      have hsk : skeleton g1.fillInNegativeStartTimes.assignLineDurations.analyzeMeter =
          skeleton f :=
        hm.1.trans ((skeleton_assignLineDurations _).1.trans
          ((skeleton_fillInNegativeStartTimes _).1.trans h1))
      split at h
      · cases h; exact ⟨hsk, Or.inr ⟨hm.2, hne⟩, fun _ => Or.inl hm.2⟩
      · cases h; exact ⟨hsk, Or.inr ⟨hm.2, hne⟩, fun _ => Or.inl hm.2⟩

theorem recipWalk_inv (P : HumdrumFile → Prop)
    (hd : ∀ g i d, P g → P (g.setDuration i d)) :
    ∀ (fuel : Nat) (f : HumdrumFile) (c : Option Nat) (g : HumdrumFile),
      P f → recipWalk fuel f c = some g → P g := by
  intro fuel
  induction fuel with
  | zero =>
    intro f c g hP h
    cases c with
    | none => simp only [recipWalk] at h; cases h; exact hP
    | some c => simp [recipWalk] at h
  | succ fuel ih =>
    intro f c g hP h
    cases c with
    | none => simp only [recipWalk] at h; cases h; exact hP
    | some c =>
      simp only [recipWalk] at h
      split at h
      · cases h
      · split at h
        · exact ih _ _ _ hP h
        · split at h
          · exact ih _ _ _ hP h
          · exact ih _ _ _ (hd _ _ _ hP) h

theorem assignRhythmFromRecip_frame (f : HumdrumFile) (s : Nat) (nonNull b : Bool)
    (g : HumdrumFile) (h : f.assignRhythmFromRecip s nonNull = some (b, g)) :
    skeleton g = skeleton f ∧ g.barlines = registeredBarlines g.lines := by
  unfold assignRhythmFromRecip at h
  split at h
  · cases h
  · next g1 hg1 =>
    have h1 := recipWalk_inv (fun x => skeleton x = skeleton f)
      (fun x i d hx => (skeleton_setDuration x i d).1.trans hx) _ _ _ _ rfl hg1
    simp only [Option.some.injEq, Prod.mk.injEq] at h
    obtain ⟨_, hg⟩ := h
    subst hg
    have hm := skeleton_analyzeMeter ({ g1 with lines := recipSums 0 g1.lines } : HumdrumFile)
    refine ⟨hm.1.trans (Eq.trans ?_ h1), hm.2⟩
    simp only [skeleton, recipSums_static]

theorem nonRhythmicWalk_inv (P : HumdrumFile → Prop)
    (hd : ∀ g i d, P g → P (g.setTokenDuration i d)) :
    ∀ (fuel : Nat) (f : HumdrumFile) (spineinfo : String) (current : Nat) (c : Option Nat)
      (g : HumdrumFile),
      P f → nonRhythmicWalk fuel f spineinfo current c = some g → P g := by
  intro fuel
  induction fuel with
  | zero =>
    intro f si cur c g hP h
    cases c with
    | none => simp only [nonRhythmicWalk] at h; cases h; exact hP
    | some c => simp [nonRhythmicWalk] at h
  | succ fuel ih =>
    intro f si cur c g hP h
    cases c with
    | none => simp only [nonRhythmicWalk] at h; cases h; exact hP
    | some c =>
      simp only [nonRhythmicWalk] at h
      split at h
      · cases h
      · split at h
        · cases h; exact hP
        · split at h
          · cases h; exact hP
          · split at h
            · cases h
            · next g1 hfold =>
              have hP1 := foldlM_inv_option (fun (b : HumdrumFile × Bool) => P b.1) _
                (by
                  intro b a b' hb hstep
                  split at hstep
                  · cases hstep; exact hb
                  · split at hstep
                    · cases hstep
                    · split at hstep
                      · cases hstep
                      · next g2 hg2 =>
                        cases hstep
                        exact ih _ _ _ _ _ hb hg2) _ _ _ hP hfold
              cases h
              exact hP1
            · next g1 hfold =>
              have hP1 := foldlM_inv_option (fun (b : HumdrumFile × Bool) => P b.1) _
                (by
                  intro b a b' hb hstep
                  split at hstep
                  · cases hstep; exact hb
                  · split at hstep
                    · cases hstep
                    · split at hstep
                      · cases hstep
                      · next g2 hg2 =>
                        cases hstep
                        exact ih _ _ _ _ _ hb hg2) _ _ _ hP hfold
              split at h
              · exact ih _ _ _ _ _ (hd _ _ _ hP1) h
              · exact ih _ _ _ _ _ hP1 h

theorem analyzeDurationsOfNonRhythmicSpines_inv (P : HumdrumFile → Prop)
    (hd : ∀ g i d, P g → P (g.setTokenDuration i d))
    (f : HumdrumFile) (b : Bool) (g : HumdrumFile) (hP : P f)
    (h : f.analyzeDurationsOfNonRhythmicSpines = some (b, g)) : P g := by
  unfold analyzeDurationsOfNonRhythmicSpines at h
  cases hfold : f.trackends.flatten.foldlM
    (fun (acc : HumdrumFile × Bool) e =>
      if acc.2 then some acc
      else
        match acc.1.tokens[e]? with
        | none => none
        | some t =>
          if t.hasRhythm then some acc
          else
            match acc.1.assignDurationsToNonRhythmicTrack e e with
            | none => none
            | some r => some (r.2, !r.1))
    (f, false) with
  | none => rw [hfold] at h; cases h
  | some acc =>
    rw [hfold] at h
    have hP1 := foldlM_inv_option (fun (b : HumdrumFile × Bool) => P b.1) _
      (by
        intro b a b' hb hstep
        split at hstep
        · cases hstep; exact hb
        · split at hstep
          · cases hstep
          · split at hstep
            · cases hstep; exact hb
            · split at hstep
              · cases hstep
              · next r hr =>
                cases hstep
                unfold assignDurationsToNonRhythmicTrack at hr
                split at hr
                · cases hr
                · cases hw : nonRhythmicWalk b.1.walkBound b.1 _ a (some a) with
                  | none => rw [hw] at hr; cases hr
                  | some g2 =>
                    rw [hw] at hr
                    cases hr
                    exact nonRhythmicWalk_inv P hd _ _ _ _ _ _ hb hw) _ _ _ hP hfold
    cases h
    exact hP1

theorem analyzeGlobalParameters_frame (f : HumdrumFile) (b : Bool) (g : HumdrumFile)
    (h : f.analyzeGlobalParameters = some (b, g)) :
    skeleton g = skeleton f ∧ g.barlines = f.barlines ∧ b = g.isValid := by
  unfold analyzeGlobalParameters at h
  cases hl : globalLoop f.lines f.lines 0 [] f.linkedParameters with
  | none => rw [hl] at h; cases h
  | some tbl =>
    rw [hl] at h
    cases h
    refine ⟨?_, rfl, rfl⟩
    simp only [skeleton, List.map_map]
    congr 2
    funext l
    simp only [Function.comp]
    split <;> rfl

theorem processLocalParametersForStrand_frame (f g : HumdrumFile) (i : Nat)
    (h : f.processLocalParametersForStrand i = some g) :
    skeleton g = skeleton f ∧ g.barlines = f.barlines ∧ g.isValid = f.isValid := by
  unfold processLocalParametersForStrand at h
  split at h
  · cases h
  · next p hp =>
    cases hw : localWalk f.walkBound f.tokens p.first
      { linked := f.linkedParameters, stored := f.parametersStored, dtok := none } p.last with
    | none => rw [hw] at h; cases h
    | some s => rw [hw] at h; cases h; exact ⟨rfl, rfl, rfl⟩

theorem analyzeLocalParameters_frame (f : HumdrumFile) (hsa : f.strandsAnalyzed = true)
    (b : Bool) (g : HumdrumFile) (h : f.analyzeLocalParameters = some (b, g)) :
    skeleton g = skeleton f ∧ g.barlines = f.barlines ∧ b = g.isValid := by
  unfold analyzeLocalParameters at h
  simp only [areStrandsAnalyzed, hsa, if_true, Option.some_bind] at h
  cases hfold : (List.range f.getStrandCount).foldlM
      (fun acc i => acc.processLocalParametersForStrand i) f with
  | none => rw [hfold] at h; cases h
  | some g1 =>
    rw [hfold] at h
    cases h
    have := foldlM_inv_option
      (fun (x : HumdrumFile) => skeleton x = skeleton f ∧ x.barlines = f.barlines) _
      (by
        intro x i x' hx hstep
        have := processLocalParametersForStrand_frame x x' i hstep
        exact ⟨this.1.trans hx.1, this.2.1.trans hx.2⟩) _ _ _ ⟨rfl, rfl⟩ hfold
    exact ⟨this.1, this.2, rfl⟩

theorem withDurationsFrom_static (ts : List HumdrumToken) :
    ∀ (i : Nat) (tbl : Nat → Rat),
      (withDurationsFrom ts i tbl).map tokenStatic = ts.map tokenStatic := by
  induction ts with
  | nil => intro i tbl; rfl
  | cons t ts ih =>
    intro i tbl
    simp only [withDurationsFrom, List.map_cons, ih]
    rfl

theorem analyzeTokenDurations_frame (f : HumdrumFile) (durs : Nat → Rat) :
    skeleton (f.analyzeTokenDurations durs).2 = skeleton f ∧
      (f.analyzeTokenDurations durs).2.barlines = f.barlines ∧
      (f.analyzeTokenDurations durs).1 = (f.analyzeTokenDurations durs).2.isValid := by
  refine ⟨?_, rfl, rfl⟩
  simp only [skeleton, analyzeTokenDurations, withDurationsFrom_static]

theorem assignStrandsToTokens_analyzed (f g : HumdrumFile)
    (h : f.assignStrandsToTokens = some g) : g.strandsAnalyzed = f.strandsAnalyzed := by
  unfold assignStrandsToTokens at h
  simp only [Option.map_eq_some'] at h
  obtain ⟨tbl, _, hg⟩ := h
  subst hg
  rfl

theorem analyzeStrandsCore_analyzed (f g : HumdrumFile)
    (h : f.analyzeStrandsCore = some g) : g.strandsAnalyzed = true := by
  unfold analyzeStrandsCore at h
  dsimp only at h
  split at h
  · cases h
  · rw [assignStrandsToTokens_analyzed _ _ h]

theorem resolveNullLoop_analyzed (f g : HumdrumFile)
    (h : f.resolveNullLoop = some g) : g.strandsAnalyzed = f.strandsAnalyzed := by
  unfold resolveNullLoop at h
  simp only [Option.map_eq_some'] at h
  obtain ⟨acc, _, hg⟩ := h
  subst hg
  rfl

theorem analyzeStrands_analyzed (f : HumdrumFile) (b : Bool) (g : HumdrumFile)
    (h : f.analyzeStrands = some (b, g)) : g.strandsAnalyzed = true ∧ b = g.isValid := by
  unfold analyzeStrands at h
  simp only [Option.map_eq_some', Prod.mk.injEq] at h
  obtain ⟨g1, hg1, hb, hg⟩ := h
  subst hg
  refine ⟨?_, hb.symm⟩
  cases hc : f.analyzeStrandsCore with
  | none => rw [hc] at hg1; cases hg1
  | some c =>
    rw [hc, Option.some_bind] at hg1
    have hca := analyzeStrandsCore_analyzed f c hc
    unfold resolveNullTokens at hg1
    split at hg1
    · cases hg1; exact hca
    · simp only [areStrandsAnalyzed, hca, Bool.not_true, Bool.false_eq_true, if_false,
        Option.some_bind] at hg1
      rw [resolveNullLoop_analyzed _ _ hg1]

theorem checked_cases (r : Option (Bool × HumdrumFile))
    (k : HumdrumFile → Option (Bool × HumdrumFile)) (b : Bool) (h : HumdrumFile)
    (hc : checked r k = some (b, h)) :
    (r = some (false, h) ∧ b = h.isValid) ∨ (∃ g, r = some (true, g) ∧ k g = some (b, h)) := by
  unfold checked at hc
  split at hc
  · cases hc
  · cases hc; exact Or.inl ⟨rfl, rfl⟩
  · next g => exact Or.inr ⟨g, rfl, hc⟩

theorem analyzeRhythmStructure_frame (f : HumdrumFile) (durs : Nat → Rat) (nonNull : Bool)
    (hsa : f.structureAnalyzed = true) (b : Bool) (g : HumdrumFile)
    (h : f.analyzeRhythmStructure durs nonNull = some (b, g)) :
    skeleton g = skeleton f ∧
      (g.barlines = f.barlines ∨
        (g.barlines = registeredBarlines g.lines ∧ f.trackstarts ≠ [])) ∧
      b = g.isValid ∧
      (g.isValid = true →
        g.barlines = registeredBarlines g.lines ∨ g.trackstarts = []) := by
  have h0 := skeleton_setLineRhythmAnalyzed ({ f with rhythmAnalyzed := true } : HumdrumFile)
  have h0s : skeleton ({ f with rhythmAnalyzed := true } : HumdrumFile).setLineRhythmAnalyzed
      = skeleton f := h0.1
  have h0b : ({ f with rhythmAnalyzed := true } : HumdrumFile).setLineRhythmAnalyzed.barlines
      = f.barlines := h0.2
  have hsa1 : ({ f with rhythmAnalyzed := true } : HumdrumFile).setLineRhythmAnalyzed.structureAnalyzed
      = true := hsa
  unfold analyzeRhythmStructure at h
  dsimp only at h
  generalize ({ f with rhythmAnalyzed := true } : HumdrumFile).setLineRhythmAnalyzed = f1
    at h0s h0b hsa1 h
  have hts : f1.trackstarts = f.trackstarts := skeleton_trackstarts _ _ h0s
  have hgen : ∀ (b : Bool) (g : HumdrumFile),
      (checked (f1.analyzeRhythm nonNull) fun h =>
        checked h.analyzeDurationsOfNonRhythmicSpines fun h1 => some (h1.isValid, h1))
        = some (b, g) →
      skeleton g = skeleton f ∧
        (g.barlines = f.barlines ∨
          (g.barlines = registeredBarlines g.lines ∧ f.trackstarts ≠ [])) ∧
        b = g.isValid ∧
        (g.isValid = true →
          g.barlines = registeredBarlines g.lines ∨ g.trackstarts = []) := by
    intro b g hc
    rcases checked_cases _ _ _ _ hc with ⟨hr, hb⟩ | ⟨h1, hr, hc1⟩
    · obtain ⟨e1, e2, e3⟩ := analyzeRhythm_frame _ _ _ _ hr
      refine ⟨e1.trans h0s, ?_, hb, fun hv => e3 (Or.inr hv)⟩
      rcases e2 with e2 | e2
      · exact Or.inl (e2.trans h0b)
      · exact Or.inr ⟨e2.1, hts ▸ e2.2⟩
    · obtain ⟨e1, e2, e3⟩ := analyzeRhythm_frame _ _ _ _ hr
      have e3 := e3 (Or.inl rfl)
      have key : ∀ (b2 : Bool) (g2 : HumdrumFile),
          h1.analyzeDurationsOfNonRhythmicSpines = some (b2, g2) →
          skeleton g2 = skeleton h1 ∧ g2.barlines = h1.barlines := by
        intro b2 g2 hn
        exact analyzeDurationsOfNonRhythmicSpines_inv
          (fun x => skeleton x = skeleton h1 ∧ x.barlines = h1.barlines)
          (fun x i d hx => ⟨(skeleton_setTokenDuration x i d).1.trans hx.1,
            (skeleton_setTokenDuration x i d).2.trans hx.2⟩) _ _ _ ⟨rfl, rfl⟩ hn
      have fin : ∀ (g2 : HumdrumFile), skeleton g2 = skeleton h1 → g2.barlines = h1.barlines →
          skeleton g2 = skeleton f ∧
          (g2.barlines = f.barlines ∨
            (g2.barlines = registeredBarlines g2.lines ∧ f.trackstarts ≠ [])) ∧
          (g2.barlines = registeredBarlines g2.lines ∨ g2.trackstarts = []) := by
        intro g2 k1 k2
        have hreg : registeredBarlines g2.lines = registeredBarlines h1.lines :=
          registeredBarlines_static _ _ (skeleton_lines _ _ k1)
        refine ⟨k1.trans (e1.trans h0s), ?_, ?_⟩
        · rcases e2 with e2 | e2
          · exact Or.inl (k2.trans (e2.trans h0b))
          · exact Or.inr ⟨by rw [k2, hreg]; exact e2.1, hts ▸ e2.2⟩
        · rcases e3 with e3 | e3
          · exact Or.inl (by rw [k2, hreg]; exact e3)
          · exact Or.inr (by rw [skeleton_trackstarts _ _ k1]; exact e3)
      rcases checked_cases _ _ _ _ hc1 with ⟨hr2, hb2⟩ | ⟨h2, hr2, hc2⟩
      · obtain ⟨k1, k2⟩ := key _ _ hr2
        obtain ⟨a1, a2, a3⟩ := fin g k1 k2
        exact ⟨a1, a2, hb2, fun _ => a3⟩
      · obtain ⟨k1, k2⟩ := key _ _ hr2
        cases hc2
        obtain ⟨a1, a2, a3⟩ := fin g k1 k2
        exact ⟨a1, a2, rfl, fun _ => a3⟩
  simp only [hsa1, Bool.not_true, Bool.false_eq_true, if_false, checked] at h
  split at h
  · exact hgen b g h
  · next firstspine hfs =>
    have hne : f.trackstarts ≠ [] := by
      intro he
      rw [← hts] at he
      simp [getSpineStart, getTrackStart, he] at hfs
    split at h
    · cases h
    · split at h
      · cases hr : f1.assignRhythmFromRecip _ nonNull with
        | none => rw [hr] at h; cases h
        | some r =>
          rw [hr] at h
          cases h
          obtain ⟨e1, e2⟩ := assignRhythmFromRecip_frame f1 _ nonNull r.1 r.2 hr
          exact ⟨e1.trans h0s, Or.inr ⟨e2, hne⟩, rfl, fun _ => Or.inl e2⟩
      · exact hgen b g h

theorem skeleton_strandsAnalyzed (f g : HumdrumFile) (h : skeleton g = skeleton f) :
    g.strandsAnalyzed = f.strandsAnalyzed := by
  simp only [skeleton, Prod.mk.injEq] at h
  exact h.2.2.2.2.2.2

theorem skeleton_strands (f g : HumdrumFile) (h : skeleton g = skeleton f) :
    g.strand1d = f.strand1d ∧ g.strand2d = f.strand2d := by
  simp only [skeleton, Prod.mk.injEq] at h
  exact ⟨h.2.2.2.2.1, h.2.2.2.2.2.1⟩

theorem analyzeStructure_tail (g : HumdrumFile) (durs : Nat → Rat) (nonNull : Bool)
    (hsa : g.strandsAnalyzed = true) (b : Bool) (h : HumdrumFile)
    (hrun : (checked g.analyzeGlobalParameters fun g1 =>
      checked g1.analyzeLocalParameters fun g2 =>
      checked (some (g2.analyzeTokenDurations durs)) fun g3 =>
      checked (some (g3.analyzeTokenDurations durs)) fun g4 =>
      checked (({ g4 with structureAnalyzed := true } : HumdrumFile).analyzeRhythmStructure
          durs nonNull) fun h =>
      some (h.isValid, h)) = some (b, h)) :
    skeleton h = skeleton g ∧
      (h.barlines = g.barlines ∨
        (h.barlines = registeredBarlines h.lines ∧ g.trackstarts ≠ [])) ∧
      b = h.isValid ∧
      (b = true → h.barlines = registeredBarlines h.lines ∨ h.trackstarts = []) := by
  have stop : ∀ (x : HumdrumFile), skeleton x = skeleton g → x.barlines = g.barlines →
      false = x.isValid → b = x.isValid →
      skeleton x = skeleton g ∧
      (x.barlines = g.barlines ∨
        (x.barlines = registeredBarlines x.lines ∧ g.trackstarts ≠ [])) ∧
      b = x.isValid ∧
      (b = true → x.barlines = registeredBarlines x.lines ∨ x.trackstarts = []) := by
    intro x h1 h2 h3 h4
    refine ⟨h1, Or.inl h2, h4, fun hb => ?_⟩
    rw [hb, ← h3] at h4
    cases h4
  rcases checked_cases _ _ _ _ hrun with ⟨hr, hb⟩ | ⟨g1, hr, hrun⟩
  · obtain ⟨e1, e2, e3⟩ := analyzeGlobalParameters_frame _ _ _ hr
    exact stop h e1 e2 e3 hb
  obtain ⟨s1, b1, _⟩ := analyzeGlobalParameters_frame _ _ _ hr
  have hsa1 : g1.strandsAnalyzed = true := (skeleton_strandsAnalyzed _ _ s1).trans hsa
  rcases checked_cases _ _ _ _ hrun with ⟨hr, hb⟩ | ⟨g2, hr, hrun⟩
  · obtain ⟨e1, e2, e3⟩ := analyzeLocalParameters_frame _ hsa1 _ _ hr
    exact stop h (e1.trans s1) (e2.trans b1) e3 hb
  obtain ⟨s2, b2, _⟩ := analyzeLocalParameters_frame _ hsa1 _ _ hr
  have s2 := s2.trans s1
  have b2 := b2.trans b1
  rcases checked_cases _ _ _ _ hrun with ⟨hr, hb⟩ | ⟨g3, hr, hrun⟩
  · obtain ⟨e1, e2, e3⟩ := analyzeTokenDurations_frame g2 durs
    simp only [Option.some.injEq] at hr
    rw [hr] at e1 e2 e3
    exact stop h (e1.trans s2) (e2.trans b2) e3 hb
  have hr3 : g3 = (g2.analyzeTokenDurations durs).2 := by
    simp only [Option.some.injEq] at hr
    rw [hr]
  have s3 : skeleton g3 = skeleton g := by
    rw [hr3]; exact (analyzeTokenDurations_frame g2 durs).1.trans s2
  have b3 : g3.barlines = g.barlines := by
    rw [hr3]; exact (analyzeTokenDurations_frame g2 durs).2.1.trans b2
  rcases checked_cases _ _ _ _ hrun with ⟨hr, hb⟩ | ⟨g4, hr, hrun⟩
  · obtain ⟨e1, e2, e3⟩ := analyzeTokenDurations_frame g3 durs
    simp only [Option.some.injEq] at hr
    rw [hr] at e1 e2 e3
    exact stop h (e1.trans s3) (e2.trans b3) e3 hb
  have hr4 : g4 = (g3.analyzeTokenDurations durs).2 := by
    simp only [Option.some.injEq] at hr
    rw [hr]
  have s4 : skeleton g4 = skeleton g := by
    rw [hr4]; exact (analyzeTokenDurations_frame g3 durs).1.trans s3
  have b4 : g4.barlines = g.barlines := by
    rw [hr4]; exact (analyzeTokenDurations_frame g3 durs).2.1.trans b3
  have fin : ∀ (bb : Bool) (x : HumdrumFile),
      ({ g4 with structureAnalyzed := true } : HumdrumFile).analyzeRhythmStructure durs nonNull
        = some (bb, x) → b = x.isValid →
      skeleton x = skeleton g ∧
      (x.barlines = g.barlines ∨
        (x.barlines = registeredBarlines x.lines ∧ g.trackstarts ≠ [])) ∧
      b = x.isValid ∧
      (b = true → x.barlines = registeredBarlines x.lines ∨ x.trackstarts = []) := by
    intro bb x hx hbx
    obtain ⟨e1, e2, _, e4⟩ := analyzeRhythmStructure_frame _ durs nonNull rfl bb x hx
    refine ⟨e1.trans s4, ?_, hbx, fun hb => e4 (by rw [← hbx, hb])⟩
    rcases e2 with e2 | e2
    · exact Or.inl (e2.trans b4)
    · exact Or.inr ⟨e2.1, (skeleton_trackstarts _ _ s4) ▸ e2.2⟩
  rcases checked_cases _ _ _ _ hrun with ⟨hr, hb⟩ | ⟨g5, hr, hrun⟩
  · exact fin _ _ hr hb
  · cases hrun
    exact fin _ _ hr rfl

theorem analyzeStructure_first (f0 f1 : HumdrumFile) (durs : Nat → Rat) (nonNull : Bool)
    (h : f0.analyzeStructure durs nonNull = some (true, f1)) :
    f1.strandsAnalyzed = true ∧ f1.isValid = true ∧
      (f1.barlines = registeredBarlines f1.lines ∨ f1.trackstarts = []) := by
  unfold analyzeStructure at h
  dsimp only at h
  rcases checked_cases _ _ _ _ h with ⟨hr, hb⟩ | ⟨g, hr, hrun⟩
  · exfalso
    split at hr
    · have := (analyzeStrands_analyzed _ _ _ hr).2
      rw [← hb] at this
      cases this
    · cases hr
  · have hsa : g.strandsAnalyzed = true := by
      split at hr
      · exact (analyzeStrands_analyzed _ _ _ hr).1
      · next hn =>
        simp only [Option.some.injEq, Prod.mk.injEq, true_and] at hr
        subst hr
        simpa using hn
    obtain ⟨e1, _, e3, e4⟩ := analyzeStructure_tail g durs nonNull hsa true f1 hrun
    exact ⟨(skeleton_strandsAnalyzed _ _ e1).trans hsa, e3.symm, e4 rfl⟩

theorem analyzeStructure_frame (f : HumdrumFile) (durs : Nat → Rat) (nonNull : Bool)
    (hsa : f.strandsAnalyzed = true) (b : Bool) (g : HumdrumFile)
    (h : f.analyzeStructure durs nonNull = some (b, g)) :
    skeleton g = skeleton f ∧
      (g.barlines = f.barlines ∨
        (g.barlines = registeredBarlines g.lines ∧ f.trackstarts ≠ [])) ∧
      b = g.isValid := by
  unfold analyzeStructure at h
  dsimp only at h
  simp only [hsa, Bool.not_true, Bool.false_eq_true, if_false] at h
  rcases checked_cases _ _ _ _ h with ⟨hr, hb⟩ | ⟨g1, hr, hrun⟩
  · cases hr
  · simp only [Option.some.injEq, Prod.mk.injEq, true_and] at hr
    subst hr
    obtain ⟨e1, e2, e3, _⟩ := analyzeStructure_tail _ durs nonNull rfl b g hrun
    have hsk : skeleton ({ f with structureAnalyzed := false, strandsAnalyzed := true } :
        HumdrumFile) = skeleton f := by
      simp only [skeleton, hsa]
    exact ⟨e1.trans hsk, e2, e3⟩

theorem analyzeStructure_keeps (f0 f1 f2 : HumdrumFile) (durs : Nat → Rat) (nonNull b : Bool)
    (h1 : f0.analyzeStructure durs nonNull = some (true, f1))
    (h2 : f1.analyzeStructure durs nonNull = some (b, f2)) :
    f2.strand1d = f1.strand1d ∧ f2.strand2d = f1.strand2d ∧ f2.barlines = f1.barlines ∧
      f2.strandsAnalyzed = true := by
  obtain ⟨a1, _, a3⟩ := analyzeStructure_first f0 f1 durs nonNull h1
  obtain ⟨e1, e2, _⟩ := analyzeStructure_frame f1 durs nonNull a1 b f2 h2
  refine ⟨(skeleton_strands _ _ e1).1, (skeleton_strands _ _ e1).2, ?_,
    (skeleton_strandsAnalyzed _ _ e1).trans a1⟩
  rcases e2 with e2 | ⟨e2, hne⟩
  · exact e2
  · rcases a3 with a3 | a3
    · rw [e2, a3]
      exact registeredBarlines_static _ _ (skeleton_lines _ _ e1)
    · exact absurd a3 hne

theorem setLineDurationFromStart_keeps_resolved (f0 g g' : HumdrumFile) (tok : Nat) (d : Rat)
    (hP : ∀ i, 0 ≤ f0.durationFromStart i → g.durationFromStart i = f0.durationFromStart i)
    (h : g.setLineDurationFromStart tok d = some g') :
    ∀ i, 0 ≤ f0.durationFromStart i → g'.durationFromStart i = f0.durationFromStart i := by
  intro i hi
  rw [← hP i hi]
  unfold setLineDurationFromStart at h
  split at h
  · cases h
  · next t ht =>
    split at h
    · cases h; rfl
    · split at h
      · cases h
      · next line hline =>
        split at h
        · next hneg =>
          cases h
          have hne : t.lineIndex ≠ i := by
            intro he
            subst he
            have h1 := hP _ hi
            rw [← h1] at hi
            unfold durationFromStart at hi
            rw [hline] at hi
            exact absurd hneg (not_lt.mpr hi)
          unfold durationFromStart
          rw [setDurationFromStart_lines_ne _ _ _ _ hne]
        · split at h
          · cases h; rfl
          · cases h; rfl

theorem tracks_keep_resolved (f0 : HumdrumFile) (startline : Nat) (l : List Nat)
    (f : HumdrumFile) (b : Bool) (g : HumdrumFile)
    (hP : ∀ i, 0 ≤ f0.durationFromStart i → f.durationFromStart i = f0.durationFromStart i)
    (h : analyzeRhythmTracks startline l f = some (b, g)) :
    ∀ i, 0 ≤ f0.durationFromStart i → g.durationFromStart i = f0.durationFromStart i :=
  analyzeRhythmTracks_inv
    (fun x => ∀ i, 0 ≤ f0.durationFromStart i → x.durationFromStart i = f0.durationFromStart i)
    (fun _ _ hx => hx)
    (fun x x' tok d hx hs => setLineDurationFromStart_keeps_resolved f0 x x' tok d hx hs)
    startline l f b g hP h

theorem assignDurationsToTrack_total (f : HumdrumFile) (start : Nat) (d : Rat)
    (hwl : ∀ (i : Nat) (t : HumdrumToken), f.tokens[i]? = some t →
      t.lineIndex < f.lines.length ∧
      ∀ j, j ∈ t.nextTokens → ∃ u, f.tokens[j]? = some u ∧ t.lineIndex < u.lineIndex)
    (hs : start < f.tokens.length) :
    ∃ g, f.assignDurationsToTrack start d = some g ∧ g.tokens = f.tokens ∧
      g.lines.length = f.lines.length := by
  unfold assignDurationsToTrack
  have ht : f.tokens[start]? = some (f.tokens[start]) := List.getElem?_eq_getElem hs
  rw [ht]
  dsimp only
  split
  · exact ⟨f, rfl, rfl, rfl⟩
  · obtain ⟨g, log, hrun, h1, h2⟩ := prepareDurations_total f.tokens f.lines.length hwl
      f.walkBound (f.rhycheck start) f start d _ rfl rfl ht
      (by unfold walkBound; omega)
    rw [hrun]
    exact ⟨g, rfl, h1, h2⟩

theorem analyzeRhythmTracks_total (ts : List HumdrumToken) (n : Nat)
    (hwl : ∀ (i : Nat) (t : HumdrumToken), ts[i]? = some t →
      t.lineIndex < n ∧
      ∀ j, j ∈ t.nextTokens → ∃ u, ts[j]? = some u ∧ t.lineIndex < u.lineIndex)
    (startline : Nat) :
    ∀ (l : List Nat) (f : HumdrumFile), f.tokens = ts → f.lines.length = n →
      (∀ s ∈ l, s < ts.length) →
      ∃ b g, analyzeRhythmTracks startline l f = some (b, g) ∧ g.tokens = ts ∧
        g.lines.length = n := by
  intro l
  induction l with
  | nil => intro f h1 h2 _; exact ⟨true, f, rfl, h1, h2⟩
  | cons s rest ih =>
    intro f h1 h2 hl
    have hs : s < f.tokens.length := by rw [h1]; exact hl s (List.mem_cons_self _ _)
    have hrest : ∀ s ∈ rest, s < ts.length := fun x hx => hl x (List.mem_cons_of_mem _ hx)
    have ht : f.tokens[s]? = some (f.tokens[s]) := List.getElem?_eq_getElem hs
    simp only [analyzeRhythmTracks, ht]
    split
    · exact ih f h1 h2 hrest
    · split
      · obtain ⟨g, hrun, e1, e2⟩ := assignDurationsToTrack_total f s 0
          (by rw [h1, h2]; exact hwl) hs
        rw [hrun]
        dsimp only
        split
        · exact ⟨false, g, rfl, e1.trans h1, e2.trans h2⟩
        · exact ih g (e1.trans h1) (e2.trans h2) hrest
      · exact ih f h1 h2 hrest

theorem analyzeRhythmOfFloatingSpine_total (f : HumdrumFile) (s : Nat) (t : HumdrumToken)
    (hwl : ∀ (i : Nat) (t : HumdrumToken), f.tokens[i]? = some t →
      t.lineIndex < f.lines.length ∧
      ∀ j, j ∈ t.nextTokens → ∃ u, f.tokens[j]? = some u ∧ t.lineIndex < u.lineIndex)
    (ht : f.tokens[s]? = some t) (hres : 0 ≤ f.durationFromStart t.lineIndex) :
    ∃ g, f.analyzeRhythmOfFloatingSpine s = some g ∧ g.tokens = f.tokens ∧
      g.lines.length = f.lines.length := by
  unfold analyzeRhythmOfFloatingSpine floatingAnchor
  simp only [ht, hres, if_true]
  split
  · exact ⟨_, rfl, rfl, rfl⟩
  · exact assignDurationsToTrack_total f s _ hwl (lt_length_of_getElem? _ _ _ ht)

theorem analyzeRhythmFloating_total (ts : List HumdrumToken) (n : Nat)
    (hwl : ∀ (i : Nat) (t : HumdrumToken), ts[i]? = some t →
      t.lineIndex < n ∧
      ∀ j, j ∈ t.nextTokens → ∃ u, ts[j]? = some u ∧ t.lineIndex < u.lineIndex)
    (f0 : HumdrumFile) (startline : Nat) :
    ∀ (l : List Nat) (f : HumdrumFile), f.tokens = ts → f.lines.length = n →
      (∀ s ∈ l, s < ts.length) →
      (∀ s ∈ l, ∀ t, ts[s]? = some t → t.hasRhythm = true →
        0 ≤ f0.durationFromStart t.lineIndex) →
      (∀ i, 0 ≤ f0.durationFromStart i → f.durationFromStart i = f0.durationFromStart i) →
      ∃ b g, analyzeRhythmFloating startline l f = some (b, g) ∧ g.tokens = ts ∧
        g.lines.length = n := by
  intro l
  induction l with
  | nil => intro f h1 h2 _ _ _; exact ⟨true, f, rfl, h1, h2⟩
  | cons s rest ih =>
    intro f h1 h2 hl hres hP
    have hs : s < f.tokens.length := by rw [h1]; exact hl s (List.mem_cons_self _ _)
    have hrest : ∀ s ∈ rest, s < ts.length := fun x hx => hl x (List.mem_cons_of_mem _ hx)
    have hres2 : ∀ s ∈ rest, ∀ t, ts[s]? = some t → t.hasRhythm = true →
        0 ≤ f0.durationFromStart t.lineIndex :=
      fun x hx => hres x (List.mem_cons_of_mem _ hx)
    have ht : f.tokens[s]? = some (f.tokens[s]) := List.getElem?_eq_getElem hs
    simp only [analyzeRhythmFloating, ht]
    split
    · exact ih f h1 h2 hrest hres2 hP
    · next hr =>
      split
      · have h0 : 0 ≤ f0.durationFromStart (f.tokens[s]).lineIndex :=
          hres s (List.mem_cons_self _ _) _ (by rw [← h1]; exact ht) (by simpa using hr)
        obtain ⟨g, hrun, e1, e2⟩ := analyzeRhythmOfFloatingSpine_total f s _
          (by rw [h1, h2]; exact hwl) ht (by rw [hP _ h0]; exact h0)
        have hPg := analyzeRhythmOfFloatingSpine_inv
          (fun x => ∀ i, 0 ≤ f0.durationFromStart i →
            x.durationFromStart i = f0.durationFromStart i)
          (fun _ _ hx => hx)
          (fun x x' tok d hx hs => setLineDurationFromStart_keeps_resolved f0 x x' tok d hx hs)
          (fun _ _ hx => hx) f g s hP hrun
        rw [hrun]
        dsimp only
        split
        · exact ⟨false, g, rfl, e1.trans h1, e2.trans h2⟩
        · exact ih g (e1.trans h1) (e2.trans h2) hrest hres2 hPg
      · exact ih f h1 h2 hrest hres2 hP

theorem analyzeRhythmSpines_total (f : HumdrumFile)
    (hwl : ∀ (i : Nat) (t : HumdrumToken), f.tokens[i]? = some t →
      t.lineIndex < f.lines.length ∧
      ∀ j, j ∈ t.nextTokens → ∃ u, f.tokens[j]? = some u ∧ t.lineIndex < u.lineIndex)
    (hst : ∀ s ∈ f.trackstarts, s < f.tokens.length)
    (hres : ∀ s ∈ f.trackstarts, ∀ t, f.tokens[s]? = some t → t.hasRhythm = true →
      0 ≤ f.durationFromStart t.lineIndex)
    (hne : f.trackstarts ≠ []) :
    ∃ b g, f.analyzeRhythmSpines = some (b, g) := by
  unfold analyzeRhythmSpines
  obtain ⟨s1, rest, hts⟩ := List.exists_cons_of_ne_nil hne
  have hg1 : f.getTrackStart 1 = some s1 := by
    simp [getTrackStart, hts]
  have hs1 : s1 < f.tokens.length := hst s1 (by rw [hts]; exact List.mem_cons_self _ _)
  rw [hg1]
  simp only [List.getElem?_eq_getElem hs1]
  obtain ⟨b, g, hrun, e1, e2⟩ := analyzeRhythmTracks_total f.tokens f.lines.length hwl
    (f.tokens[s1]).lineIndex f.trackstarts f rfl rfl hst
  rw [hrun]
  cases b with
  | false => exact ⟨_, _, rfl⟩
  | true =>
    dsimp only
    have hts2 : g.trackstarts = f.trackstarts :=
      analyzeRhythmTracks_inv (fun x => x.trackstarts = f.trackstarts)
        (fun _ _ hx => hx)
        (fun x x' tok d hx hs => by
          have := setLineDurationFromStart_inv (fun y => y.trackstarts = f.trackstarts)
            (fun y i d hy => (skeleton_trackstarts _ _ (skeleton_setDurationFromStart y i d).1).trans hy)
            (fun _ _ hy => hy) x x' tok d hx hs
          exact this)
        _ _ _ _ _ rfl hrun
    have hPg := tracks_keep_resolved f _ _ f true g (fun _ _ => rfl) hrun
    obtain ⟨b2, g2, hrun2, _, _⟩ := analyzeRhythmFloating_total f.tokens f.lines.length hwl f
      (f.tokens[s1]).lineIndex g.trackstarts g e1 e2 (by rw [hts2]; exact hst)
      (by rw [hts2]; exact hres) hPg
    rw [hrun2]
    cases b2 with
    | false => exact ⟨_, _, rfl⟩
    | true =>
      dsimp only
      split
      · exact ⟨_, _, rfl⟩
      · exact ⟨_, _, rfl⟩

theorem analyzeRhythm_total (f : HumdrumFile) (nonNull : Bool)
    (hwl : ∀ (i : Nat) (t : HumdrumToken), f.tokens[i]? = some t →
      t.lineIndex < f.lines.length ∧
      ∀ j, j ∈ t.nextTokens → ∃ u, f.tokens[j]? = some u ∧ t.lineIndex < u.lineIndex)
    (hst : ∀ s ∈ f.trackstarts, s < f.tokens.length)
    (hres : ∀ s ∈ f.trackstarts, ∀ t, f.tokens[s]? = some t → t.hasRhythm = true →
      0 ≤ f.durationFromStart t.lineIndex) :
    ∃ b g, f.analyzeRhythm nonNull = some (b, g) := by
  unfold analyzeRhythm
  dsimp only
  split
  · exact ⟨_, _, rfl⟩
  · next hz =>
    have hne : f.setLineRhythmAnalyzed.trackstarts ≠ [] := by
      intro he
      apply hz
      show f.setLineRhythmAnalyzed.trackstarts.length = 0
      rw [he]; rfl
    have hdfs : ∀ i, f.setLineRhythmAnalyzed.durationFromStart i = f.durationFromStart i := by
      intro i
      simp only [durationFromStart, setLineRhythmAnalyzed, List.getElem?_map]
      cases f.lines[i]? <;> rfl
    obtain ⟨b, g, hrun⟩ := analyzeRhythmSpines_total f.setLineRhythmAnalyzed
      (by
        intro i t ht
        have := hwl i t ht
        refine ⟨?_, this.2⟩
        simp only [setLineRhythmAnalyzed, List.length_map]
        exact this.1)
      hst
      (by intro s hs t ht hr; rw [hdfs]; exact hres s hs t ht hr) hne
    rw [hrun]
    cases b with
    | false => exact ⟨_, _, rfl⟩
    | true =>
      dsimp only
      split
      · exact ⟨_, _, rfl⟩
      · exact ⟨_, _, rfl⟩

theorem foldlM_total_option {α β : Type} (Q : β → Prop) (step : β → α → Option β) :
    ∀ (l : List α) (b : β), (∀ b a, a ∈ l → Q b → ∃ b', step b a = some b' ∧ Q b') → Q b →
      ∃ b', l.foldlM step b = some b' ∧ Q b' := by
  intro l
  induction l with
  | nil => intro b _ hb; exact ⟨b, rfl, hb⟩
  | cons a l ih =>
    intro b hstep hb
    obtain ⟨b1, h1, hb1⟩ := hstep b a (List.mem_cons_self _ _) hb
    rw [List.foldlM_cons, h1]
    exact ih b1 (fun b a ha hq => hstep b a (List.mem_cons_of_mem _ ha) hq) hb1

theorem static_lookup (ts S : List HumdrumToken) (h : ts.map tokenStatic = S) (i : Nat) :
    S[i]? = (ts[i]?).map tokenStatic := by
  subst h
  exact List.getElem?_map _ _ _

theorem static_lookup_some (ts S : List HumdrumToken) (h : ts.map tokenStatic = S) (i : Nat)
    (u : HumdrumToken) (hu : S[i]? = some u) :
    ∃ t, ts[i]? = some t ∧ tokenStatic t = u := by
  rw [static_lookup ts S h i] at hu
  cases ht : ts[i]? with
  | none => rw [ht] at hu; cases hu
  | some t =>
    rw [ht] at hu
    simp only [Option.map_some', Option.some.injEq] at hu
    exact ⟨t, rfl, hu⟩

theorem setTokenDuration_static (f : HumdrumFile) (i : Nat) (d : Rat) :
    (f.setTokenDuration i d).tokens.map tokenStatic = f.tokens.map tokenStatic := by
  have := (skeleton_setTokenDuration f i d).1
  simp only [skeleton, Prod.mk.injEq] at this
  exact this.2.1

theorem nonRhythmicWalk_total (S : List HumdrumToken)
    (hbl : ∀ (i : Nat) (u : HumdrumToken), S[i]? = some u →
      ∀ j, j ∈ u.previousTokens → ∃ v, S[j]? = some v ∧ v.lineIndex < u.lineIndex) :
    ∀ (fuel : Nat) (f : HumdrumFile) (spineinfo : String) (current tok : Nat)
      (u : HumdrumToken),
      f.tokens.map tokenStatic = S → S[tok]? = some u → u.lineIndex < fuel →
      ∃ g, nonRhythmicWalk fuel f spineinfo current (some tok) = some g ∧
        g.tokens.map tokenStatic = S := by
  intro fuel
  induction fuel with
  | zero => intro f si cur tok u _ _ h; omega
  | succ fuel ih =>
    intro f si cur tok u hf hu hfuel
    obtain ⟨t, ht, htu⟩ := static_lookup_some f.tokens S hf tok u hu
    have hprev : t.previousTokens = u.previousTokens := by rw [← htu]; rfl
    have hline : t.lineIndex = u.lineIndex := by rw [← htu]; rfl
    simp only [nonRhythmicWalk, ht]
    split
    · exact ⟨f, rfl, hf⟩
    · split
      · exact ⟨f, rfl, hf⟩
      · next hlen =>
        obtain ⟨acc, hfold, hacc⟩ := foldlM_total_option
          (fun (b : HumdrumFile × Bool) => b.1.tokens.map tokenStatic = S)
          (fun (acc : HumdrumFile × Bool) ptok =>
            if acc.2 then some acc
            else match acc.1.tokens[ptok]? with
              | none => none
              | some pt =>
                match nonRhythmicWalk fuel acc.1 pt.spineInfo cur (some ptok) with
                | none => none
                | some g => some (g, !g.isValid))
          t.previousTokens.tail (f, false)
          (by
            intro b a ha hb
            dsimp only
            split
            · exact ⟨b, rfl, hb⟩
            · have ha2 : a ∈ u.previousTokens := by
                rw [← hprev]; exact List.mem_of_mem_tail ha
              obtain ⟨v, hv, hvl⟩ := hbl tok u hu a ha2
              obtain ⟨pt, hpt, hptv⟩ := static_lookup_some b.1.tokens S hb a v hv
              obtain ⟨g, hg, hgs⟩ := ih b.1 pt.spineInfo cur a v hb hv (by omega)
              simp only [hpt, hg]
              exact ⟨_, rfl, hgs⟩)
          hf
        rw [hfold]
        obtain ⟨g, flag⟩ := acc
        cases flag with
        | true => exact ⟨g, rfl, hacc⟩
        | false =>
          dsimp only
          have hne : u.previousTokens ≠ [] := by
            intro he
            rw [hprev, he] at hlen
            exact hlen rfl
          obtain ⟨n0, rest, hcons⟩ := List.exists_cons_of_ne_nil hne
          obtain ⟨v, hv, hvl⟩ := hbl tok u hu n0 (by rw [hcons]; exact List.mem_cons_self _ _)
          have hhead : t.previousTokens.head? = some n0 := by rw [hprev, hcons]; rfl
          rw [hhead]
          split
          · exact ih _ si tok n0 v ((setTokenDuration_static _ _ _).trans hacc) hv (by omega)
          · exact ih _ si cur n0 v hacc hv (by omega)

theorem analyzeDurationsOfNonRhythmicSpines_total (f : HumdrumFile)
    (hbl : ∀ (i : Nat) (u : HumdrumToken), (f.tokens.map tokenStatic)[i]? = some u →
      u.lineIndex < f.lines.length ∧
      ∀ j, j ∈ u.previousTokens →
        ∃ v, (f.tokens.map tokenStatic)[j]? = some v ∧ v.lineIndex < u.lineIndex)
    (hends : ∀ e ∈ f.trackends.flatten, e < f.tokens.length) :
    ∃ b g, f.analyzeDurationsOfNonRhythmicSpines = some (b, g) := by
  unfold analyzeDurationsOfNonRhythmicSpines
  obtain ⟨acc, hfold, _⟩ := foldlM_total_option
    (fun (b : HumdrumFile × Bool) =>
      b.1.tokens.map tokenStatic = f.tokens.map tokenStatic ∧ b.1.lines = f.lines)
    (fun (acc : HumdrumFile × Bool) e =>
      if acc.2 then some acc
      else
        match acc.1.tokens[e]? with
        | none => none
        | some t =>
          if t.hasRhythm then some acc
          else
            match acc.1.assignDurationsToNonRhythmicTrack e e with
            | none => none
            | some r => some (r.2, !r.1))
    f.trackends.flatten (f, false)
    (by
      intro b e he hb
      dsimp only
      split
      · exact ⟨b, rfl, hb⟩
      · have hlt : e < (f.tokens.map tokenStatic).length := by
          rw [List.length_map]; exact hends e he
        have hu : (f.tokens.map tokenStatic)[e]? = some ((f.tokens.map tokenStatic)[e]) :=
          List.getElem?_eq_getElem hlt
        obtain ⟨t, ht, htu⟩ := static_lookup_some b.1.tokens _ hb.1 e _ hu
        simp only [ht]
        split
        · exact ⟨b, rfl, hb⟩
        · obtain ⟨g, hg, hgs⟩ := nonRhythmicWalk_total (f.tokens.map tokenStatic)
            (fun i u hu => (hbl i u hu).2) b.1.walkBound b.1 t.spineInfo e e _ hb.1 hu
            (by
              have := (hbl e _ hu).1
              unfold walkBound
              rw [hb.2]
              omega)
          have hlines : g.lines = f.lines :=
            (nonRhythmicWalk_inv (fun x => x.lines = f.lines)
              (fun x i d hx => by
                unfold setTokenDuration
                split
                · exact hx
                · exact hx) _ _ _ _ _ _ hb.2 hg)
          unfold assignDurationsToNonRhythmicTrack
          simp only [ht, hg, Option.map_some']
          exact ⟨_, rfl, hgs, hlines⟩)
    ⟨rfl, rfl⟩
  rw [hfold]
  exact ⟨_, _, rfl⟩

theorem processLocalParametersForStrand_same (f g : HumdrumFile) (i : Nat)
    (h : f.processLocalParametersForStrand i = some g) :
    g.tokens = f.tokens ∧ g.lines = f.lines ∧ g.strand1d = f.strand1d := by
  unfold processLocalParametersForStrand at h
  split at h
  · cases h
  · next p hp =>
    cases hw : localWalk f.walkBound f.tokens p.first
      { linked := f.linkedParameters, stored := f.parametersStored, dtok := none } p.last with
    | none => rw [hw] at h; cases h
    | some s => rw [hw] at h; cases h; exact ⟨rfl, rfl, rfl⟩

theorem analyzeLocalParameters_total (f : HumdrumFile) (hsa : f.strandsAnalyzed = true)
    (hbl : ∀ (i : Nat) (t : HumdrumToken), f.tokens[i]? = some t →
      t.lineIndex < f.lines.length ∧
      ∀ j, j ∈ t.previousTokens → ∃ u, f.tokens[j]? = some u ∧ u.lineIndex < t.lineIndex)
    (hends : ∀ p ∈ f.strand1d, ∀ b, p.last = some b → b < f.tokens.length) :
    ∃ b g, f.analyzeLocalParameters = some (b, g) ∧ g.tokens = f.tokens ∧
      g.lines = f.lines := by
  unfold analyzeLocalParameters
  simp only [areStrandsAnalyzed, hsa, if_true, Option.some_bind]
  obtain ⟨g, hfold, hg⟩ := foldlM_total_option
    (fun (x : HumdrumFile) => x.tokens = f.tokens ∧ x.lines = f.lines ∧
      x.strand1d = f.strand1d)
    (fun acc i => acc.processLocalParametersForStrand i)
    (List.range f.getStrandCount) f
    (by
      intro x i hi hx
      have hlt : i < x.strand1d.length := by
        rw [hx.2.2]
        simpa [getStrandCount] using hi
      have hp : x.strand1d[i]? = some (x.strand1d[i]) := List.getElem?_eq_getElem hlt
      have hmem : x.strand1d[i] ∈ f.strand1d := by
        rw [← hx.2.2]; exact List.getElem_mem hlt
      have hwalk : ∃ s, localWalk x.walkBound x.tokens (x.strand1d[i]).first
          { linked := x.linkedParameters, stored := x.parametersStored, dtok := none }
          (x.strand1d[i]).last = some s := by
        cases hlast : (x.strand1d[i]).last with
        | none =>
          exact ⟨{ linked := x.linkedParameters, stored := x.parametersStored, dtok := none },
            by simp only [localWalk]⟩
        | some b =>
          have hb : b < x.tokens.length := by
            rw [hx.1]; exact hends _ hmem b hlast
          have htb : x.tokens[b]? = some (x.tokens[b]) := List.getElem?_eq_getElem hb
          have hbl2 : ∀ (i : Nat) (t : HumdrumToken), x.tokens[i]? = some t →
              t.lineIndex < f.lines.length ∧
              ∀ j, j ∈ t.previousTokens →
                ∃ u, x.tokens[j]? = some u ∧ u.lineIndex < t.lineIndex := by
            rw [hx.1]; exact hbl
          refine ⟨_, localWalk_eq_foldl x.tokens
            (fun i t ht => (hbl2 i t ht).2) x.walkBound _ _ b _ htb ?_⟩
          have := (hbl2 b _ htb).1
          unfold walkBound
          rw [hx.2.1]
          omega
      obtain ⟨s, hs⟩ := hwalk
      have hrun : x.processLocalParametersForStrand i =
          some { x with linkedParameters := s.linked, parametersStored := s.stored } := by
        unfold processLocalParametersForStrand
        simp only [hp, hs, Option.map_some']
      exact ⟨_, hrun, hx.1, hx.2.1, hx.2.2⟩)
    ⟨rfl, rfl, rfl⟩
  rw [hfold]
  exact ⟨_, _, rfl, hg.1, hg.2.1⟩

theorem assignRhythmFromRecip_total (f : HumdrumFile) (s : Nat) (nonNull : Bool)
    (hwl : ∀ (i : Nat) (t : HumdrumToken), f.tokens[i]? = some t →
      t.lineIndex < f.lines.length ∧
      ∀ j, j ∈ t.nextTokens → ∃ u, f.tokens[j]? = some u ∧ t.lineIndex < u.lineIndex)
    (hs : s < f.tokens.length) :
    ∃ r, f.assignRhythmFromRecip s nonNull = some r := by
  have ht : f.tokens[s]? = some (f.tokens[s]) := List.getElem?_eq_getElem hs
  obtain ⟨g, hg, _⟩ := recipWalk_spec f.tokens f.lines.length hwl f.walkBound f s _ rfl rfl ht
    (by unfold walkBound; omega)
  unfold assignRhythmFromRecip
  rw [hg]
  exact ⟨_, rfl⟩

theorem skeleton_tokens (f g : HumdrumFile) (h : skeleton g = skeleton f) :
    g.tokens.map tokenStatic = f.tokens.map tokenStatic := by
  simp only [skeleton, Prod.mk.injEq] at h
  exact h.2.1

theorem skeleton_trackends (f g : HumdrumFile) (h : skeleton g = skeleton f) :
    g.trackends = f.trackends := by
  simp only [skeleton, Prod.mk.injEq] at h
  exact h.2.2.2.1

theorem skeleton_lengths (f g : HumdrumFile) (h : skeleton g = skeleton f) :
    g.lines.length = f.lines.length ∧ g.tokens.length = f.tokens.length := by
  have h1 := congrArg List.length (skeleton_lines f g h)
  have h2 := congrArg List.length (skeleton_tokens f g h)
  simp only [List.length_map] at h1 h2
  exact ⟨h1, h2⟩

theorem static_pair (f g : HumdrumFile) (h : skeleton g = skeleton f) (i : Nat)
    (t : HumdrumToken) (ht : g.tokens[i]? = some t) :
    ∃ u, f.tokens[i]? = some u ∧ tokenStatic u = tokenStatic t := by
  have h1 : (g.tokens.map tokenStatic)[i]? = some (tokenStatic t) := by
    rw [List.getElem?_map, ht]; rfl
  rw [skeleton_tokens f g h] at h1
  exact static_lookup_some f.tokens _ rfl i _ h1

theorem wellLinked_static (f g : HumdrumFile) (hwl : f.wellLinked = true)
    (h : skeleton g = skeleton f) :
    ∀ (i : Nat) (t : HumdrumToken), g.tokens[i]? = some t →
      t.lineIndex < g.lines.length ∧
      ∀ j, j ∈ t.nextTokens → ∃ u, g.tokens[j]? = some u ∧ t.lineIndex < u.lineIndex := by
  intro i t ht
  obtain ⟨u, hu, hut⟩ := static_pair f g h i t ht
  have h1 : u.lineIndex = t.lineIndex :=
    (congrArg HumdrumToken.lineIndex hut :
      (tokenStatic u).lineIndex = (tokenStatic t).lineIndex)
  have h2 : u.nextTokens = t.nextTokens :=
    (congrArg HumdrumToken.nextTokens hut :
      (tokenStatic u).nextTokens = (tokenStatic t).nextTokens)
  obtain ⟨a1, a2⟩ := wellLinked_spec f hwl i u hu
  refine ⟨by rw [(skeleton_lengths f g h).1, ← h1]; exact a1, ?_⟩
  intro j hj
  obtain ⟨v, hv, hlt⟩ := a2 j (by rw [h2]; exact hj)
  obtain ⟨w, hw, hwv⟩ := static_pair g f h.symm j v hv
  have h3 : w.lineIndex = v.lineIndex :=
    (congrArg HumdrumToken.lineIndex hwv :
      (tokenStatic w).lineIndex = (tokenStatic v).lineIndex)
  exact ⟨w, hw, by rw [h3, ← h1]; exact hlt⟩

theorem backLinked_static (f g : HumdrumFile) (hbl : f.backLinked = true)
    (h : skeleton g = skeleton f) :
    ∀ (i : Nat) (t : HumdrumToken), g.tokens[i]? = some t →
      t.lineIndex < g.lines.length ∧
      ∀ j, j ∈ t.previousTokens → ∃ u, g.tokens[j]? = some u ∧ u.lineIndex < t.lineIndex := by
  intro i t ht
  obtain ⟨u, hu, hut⟩ := static_pair f g h i t ht
  have h1 : u.lineIndex = t.lineIndex :=
    (congrArg HumdrumToken.lineIndex hut :
      (tokenStatic u).lineIndex = (tokenStatic t).lineIndex)
  have h2 : u.previousTokens = t.previousTokens :=
    (congrArg HumdrumToken.previousTokens hut :
      (tokenStatic u).previousTokens = (tokenStatic t).previousTokens)
  obtain ⟨a1, a2⟩ := backLinked_spec f hbl i u hu
  refine ⟨by rw [(skeleton_lengths f g h).1, ← h1]; exact a1, ?_⟩
  intro j hj
  obtain ⟨v, hv, hlt⟩ := a2 j (by rw [h2]; exact hj)
  obtain ⟨w, hw, hwv⟩ := static_pair g f h.symm j v hv
  have h3 : w.lineIndex = v.lineIndex :=
    (congrArg HumdrumToken.lineIndex hwv :
      (tokenStatic w).lineIndex = (tokenStatic v).lineIndex)
  exact ⟨w, hw, by rw [h3, ← h1]; exact hlt⟩

theorem backLinked_static_view (f : HumdrumFile) (hbl : f.backLinked = true) :
    ∀ (i : Nat) (u : HumdrumToken), (f.tokens.map tokenStatic)[i]? = some u →
      u.lineIndex < f.lines.length ∧
      ∀ j, j ∈ u.previousTokens →
        ∃ v, (f.tokens.map tokenStatic)[j]? = some v ∧ v.lineIndex < u.lineIndex := by
  intro i u hu
  obtain ⟨t, ht, htu⟩ := static_lookup_some f.tokens _ rfl i u hu
  subst htu
  obtain ⟨a1, a2⟩ := backLinked_spec f hbl i t ht
  refine ⟨a1, ?_⟩
  intro j hj
  obtain ⟨v, hv, hlt⟩ := a2 j hj
  exact ⟨tokenStatic v, by rw [List.getElem?_map, hv]; rfl, hlt⟩

theorem validStarts_static (f g : HumdrumFile) (hst : f.validStarts = true)
    (h : skeleton g = skeleton f) : ∀ s ∈ g.trackstarts, s < g.tokens.length := by
  intro s hs
  rw [skeleton_trackstarts f g h] at hs
  rw [(skeleton_lengths f g h).2]
  unfold validStarts at hst
  rw [List.all_eq_true] at hst
  simpa using hst s hs

theorem validEnds_static (f g : HumdrumFile) (he : f.validEnds = true)
    (h : skeleton g = skeleton f) :
    (∀ e ∈ g.trackends.flatten, e < g.tokens.length) ∧
    (∀ p ∈ g.strand1d, ∀ b, p.last = some b → b < g.tokens.length) := by
  unfold validEnds at he
  rw [Bool.and_eq_true, List.all_eq_true, List.all_eq_true] at he
  rw [(skeleton_lengths f g h).2, skeleton_trackends f g h, (skeleton_strands f g h).1]
  refine ⟨fun e hmem => by simpa using he.1 e hmem, ?_⟩
  intro p hp b hb
  have := he.2 p hp
  rw [hb] at this
  simpa using this

theorem startsResolved_static (f g : HumdrumFile) (hres : f.startsResolved = true)
    (h : skeleton g = skeleton f)
    (hd : ∀ i, g.durationFromStart i = f.durationFromStart i) :
    ∀ s ∈ g.trackstarts, ∀ t, g.tokens[s]? = some t → t.hasRhythm = true →
      0 ≤ g.durationFromStart t.lineIndex := by
  intro s hs t ht hr
  rw [skeleton_trackstarts f g h] at hs
  obtain ⟨u, hu, hut⟩ := static_pair f g h s t ht
  have h1 : u.lineIndex = t.lineIndex :=
    (congrArg HumdrumToken.lineIndex hut :
      (tokenStatic u).lineIndex = (tokenStatic t).lineIndex)
  have h2 : u.hasRhythm = t.hasRhythm :=
    (congrArg HumdrumToken.hasRhythm hut :
      (tokenStatic u).hasRhythm = (tokenStatic t).hasRhythm)
  unfold startsResolved at hres
  rw [List.all_eq_true] at hres
  have := hres s hs
  rw [hu] at this
  simp only [Bool.or_eq_true, Bool.not_eq_true', decide_eq_true_eq] at this
  rw [hd, ← h1]
  rcases this with h3 | h3
  · rw [h2, hr] at h3; cases h3
  · exact h3

theorem checked_total (r : Option (Bool × HumdrumFile))
    (k : HumdrumFile → Option (Bool × HumdrumFile))
    (hr : ∃ b g, r = some (b, g))
    (hk : ∀ g, r = some (true, g) → ∃ b h, k g = some (b, h)) :
    ∃ b h, checked r k = some (b, h) := by
  obtain ⟨b, g, hrg⟩ := hr
  subst hrg
  cases b with
  | false => exact ⟨_, _, rfl⟩
  | true => exact hk g rfl

theorem analyzeGlobalParameters_dfs (f : HumdrumFile) (b : Bool) (g : HumdrumFile)
    (h : f.analyzeGlobalParameters = some (b, g)) :
    ∀ i, g.durationFromStart i = f.durationFromStart i := by
  unfold analyzeGlobalParameters at h
  cases hl : globalLoop f.lines f.lines 0 [] f.linkedParameters with
  | none => rw [hl] at h; cases h
  | some tbl =>
    rw [hl] at h
    cases h
    intro i
    simp only [durationFromStart, List.getElem?_map]
    cases f.lines[i]? with
    | none => rfl
    | some l =>
      simp only [Option.map_some']
      split <;> rfl

theorem setLineRhythmAnalyzed_dfs (f : HumdrumFile) :
    ∀ i, f.setLineRhythmAnalyzed.durationFromStart i = f.durationFromStart i := by
  intro i
  simp only [durationFromStart, setLineRhythmAnalyzed, List.getElem?_map]
  cases f.lines[i]? <;> rfl

theorem analyzeRhythmStructure_total (F f : HumdrumFile) (durs : Nat → Rat) (nonNull : Bool)
    (hwl : F.wellLinked = true) (hbl : F.backLinked = true)
    (hst : F.validStarts = true) (hends : F.validEnds = true)
    (hres : F.startsResolved = true)
    (hsk : skeleton f = skeleton F)
    (hd : ∀ i, f.durationFromStart i = F.durationFromStart i)
    (hsa : f.structureAnalyzed = true) :
    ∃ b g, f.analyzeRhythmStructure durs nonNull = some (b, g) := by
  have h0 := skeleton_setLineRhythmAnalyzed ({ f with rhythmAnalyzed := true } : HumdrumFile)
  have h0s : skeleton ({ f with rhythmAnalyzed := true } : HumdrumFile).setLineRhythmAnalyzed
      = skeleton F := h0.1.trans hsk
  have h0d : ∀ i, ({ f with rhythmAnalyzed := true } :
      HumdrumFile).setLineRhythmAnalyzed.durationFromStart i = F.durationFromStart i :=
    fun i => (setLineRhythmAnalyzed_dfs _ i).trans (hd i)
  have hsa1 : ({ f with rhythmAnalyzed := true } :
      HumdrumFile).setLineRhythmAnalyzed.structureAnalyzed = true := hsa
  unfold analyzeRhythmStructure
  dsimp only
  generalize ({ f with rhythmAnalyzed := true } : HumdrumFile).setLineRhythmAnalyzed = f1
    at h0s h0d hsa1
  have hgen : ∃ b g, (checked (f1.analyzeRhythm nonNull) fun h =>
        checked h.analyzeDurationsOfNonRhythmicSpines fun h1 => some (h1.isValid, h1))
        = some (b, g) := by
    apply checked_total
    · exact analyzeRhythm_total f1 nonNull (wellLinked_static F f1 hwl h0s)
        (validStarts_static F f1 hst h0s) (startsResolved_static F f1 hres h0s h0d)
    · intro h hr
      obtain ⟨e1, _, _⟩ := analyzeRhythm_frame _ _ _ _ hr
      have hs : skeleton h = skeleton F := e1.trans h0s
      apply checked_total
      · apply analyzeDurationsOfNonRhythmicSpines_total
        · rw [skeleton_tokens F h hs, (skeleton_lengths F h hs).1]
          exact backLinked_static_view F hbl
        · exact (validEnds_static F h hends hs).1
      · intro h1 _
        exact ⟨_, _, rfl⟩
  simp only [hsa1, Bool.not_true, Bool.false_eq_true, if_false, checked]
  split
  · exact hgen
  · next firstspine hfs =>
    have hmem : firstspine ∈ f1.trackstarts := by
      simp only [getSpineStart, getTrackStart] at hfs
      exact List.getElem?_mem hfs
    have hlt := validStarts_static F f1 hst h0s firstspine hmem
    simp only [List.getElem?_eq_getElem hlt]
    split
    · obtain ⟨r, hr⟩ := assignRhythmFromRecip_total f1 firstspine nonNull
        (wellLinked_static F f1 hwl h0s) hlt
      rw [hr]
      exact ⟨_, _, rfl⟩
    · exact hgen

theorem analyzeStructure_total (f : HumdrumFile) (durs : Nat → Rat) (nonNull : Bool)
    (hsa : f.strandsAnalyzed = true)
    (hwl : f.wellLinked = true) (hbl : f.backLinked = true)
    (hst : f.validStarts = true) (hends : f.validEnds = true)
    (hnd : f.distinctFields) (htok : f.globalsHaveToken = true)
    (hres : f.startsResolved = true) :
    ∃ b g, f.analyzeStructure durs nonNull = some (b, g) := by
  unfold analyzeStructure
  dsimp only
  have hcond : (!({ f with structureAnalyzed := false } : HumdrumFile).strandsAnalyzed) = false := by
    show (!f.strandsAnalyzed) = false
    rw [hsa]; rfl
  rw [hcond]
  simp only [Bool.false_eq_true, if_false]
  apply checked_total _ _ ⟨_, _, rfl⟩
  intro g0 hg0
  simp only [Option.some.injEq, Prod.mk.injEq, true_and] at hg0
  subst hg0
  apply checked_total
  · obtain ⟨g, hg, _⟩ := analyzeGlobalParameters_spec
      ({ f with structureAnalyzed := false } : HumdrumFile) hnd htok
    exact ⟨_, _, hg⟩
  intro g1 hr1
  obtain ⟨s1, _, _⟩ := analyzeGlobalParameters_frame _ _ _ hr1
  have s1 : skeleton g1 = skeleton f := s1
  have d1 : ∀ i, g1.durationFromStart i = f.durationFromStart i :=
    analyzeGlobalParameters_dfs ({ f with structureAnalyzed := false } : HumdrumFile) _ _ hr1
  have hsa1 : g1.strandsAnalyzed = true := (skeleton_strandsAnalyzed _ _ s1).trans hsa
  obtain ⟨b2, g2', hrun2, _, hl2⟩ := analyzeLocalParameters_total g1 hsa1
    (backLinked_static f g1 hbl s1) (validEnds_static f g1 hends s1).2
  apply checked_total _ _ ⟨_, _, hrun2⟩
  intro g2 hr2
  obtain ⟨s2, _, _⟩ := analyzeLocalParameters_frame _ hsa1 _ _ hr2
  have s2 : skeleton g2 = skeleton f := s2.trans s1
  have d2 : ∀ i, g2.durationFromStart i = f.durationFromStart i := by
    rw [hrun2] at hr2
    simp only [Option.some.injEq, Prod.mk.injEq] at hr2
    intro i
    rw [← hr2.2, ← d1 i]
    unfold durationFromStart
    rw [hl2]
  apply checked_total _ _ ⟨_, _, rfl⟩
  intro g3 hr3
  have hg3 : g3 = (g2.analyzeTokenDurations durs).2 :=
    (congrArg Prod.snd (Option.some.inj hr3)).symm
  have s3 : skeleton g3 = skeleton f := by
    rw [hg3]; exact (analyzeTokenDurations_frame g2 durs).1.trans s2
  have d3 : ∀ i, g3.durationFromStart i = f.durationFromStart i := by
    rw [hg3]; exact d2
  apply checked_total _ _ ⟨_, _, rfl⟩
  intro g4 hr4
  have hg4 : g4 = (g3.analyzeTokenDurations durs).2 :=
    (congrArg Prod.snd (Option.some.inj hr4)).symm
  have s4 : skeleton g4 = skeleton f := by
    rw [hg4]; exact (analyzeTokenDurations_frame g3 durs).1.trans s3
  have d4 : ∀ i, g4.durationFromStart i = f.durationFromStart i := by
    rw [hg4]; exact d3
  apply checked_total
  · exact analyzeRhythmStructure_total f _ durs nonNull hwl hbl hst hends hres s4 d4 rfl
  · intro h _
    exact ⟨_, _, rfl⟩

/-- C27, amended: on a file left by a successful first call of `analyzeStructure`
that is well formed (successors on later lines, predecessors on earlier lines,
track starts, track ends and strand ends inside the token arena, every token
index in one field only, a token on every global layout line) and whose
rhythmic track starts lie on lines with a resolved start time, a second call
returns, true or false, and leaves the 1D strand list, the 2D strand list and
the registered barline list equal to what they were after the first call. -/
theorem analyzeStructure_second_call (f0 f1 : HumdrumFile) (durs : Nat → Rat) (nonNull : Bool)
    (hfirst : f0.analyzeStructure durs nonNull = some (true, f1))
    (hwl : f1.wellLinked = true) (hbl : f1.backLinked = true)
    (hst : f1.validStarts = true) (hends : f1.validEnds = true)
    (hnd : f1.distinctFields) (htok : f1.globalsHaveToken = true)
    (hres : f1.startsResolved = true) :
    ∃ b f2, f1.analyzeStructure durs nonNull = some (b, f2) ∧
      f2.strand1d = f1.strand1d ∧ f2.strand2d = f1.strand2d ∧
      f2.barlines = f1.barlines ∧ f2.getBarlineCount = f1.getBarlineCount := by
  obtain ⟨hsa, _, _⟩ := analyzeStructure_first f0 f1 durs nonNull hfirst
  obtain ⟨b, f2, hrun⟩ := analyzeStructure_total f1 durs nonNull hsa hwl hbl hst hends hnd
    htok hres
  obtain ⟨e1, e2, e3, _⟩ := analyzeStructure_keeps f0 f1 f2 durs nonNull b hfirst hrun
  refine ⟨b, f2, hrun, e1, e2, e3, ?_⟩
  unfold getBarlineCount
  rw [e3]

theorem result_of_flag (r : Option (Bool × HumdrumFile)) (d : HumdrumFile)
    (h : r.map Prod.fst = some true) : r = some (true, (r.map Prod.snd).getD d) := by
  cases r with
  | none => cases h
  | some p =>
    obtain ⟨b, g⟩ := p
    simp only [Option.map_some', Option.some.injEq] at h
    subst h
    rfl

theorem analyzeStructure_second_call_witness :
    nullAfterBarline.analyzeStructure nullAfterBarline.tokenDuration true =
      some (true, nullAfterBarlineAnalysed) ∧
    nullAfterBarlineAnalysed.wellLinked = true ∧
    nullAfterBarlineAnalysed.backLinked = true ∧
    nullAfterBarlineAnalysed.validStarts = true ∧
    nullAfterBarlineAnalysed.validEnds = true ∧
    nullAfterBarlineAnalysed.distinctFields ∧
    nullAfterBarlineAnalysed.globalsHaveToken = true ∧
    nullAfterBarlineAnalysed.startsResolved = true ∧
    (∃ b f2, nullAfterBarlineAnalysed.analyzeStructure nullAfterBarline.tokenDuration true =
        some (b, f2) ∧
      f2.strand1d = nullAfterBarlineAnalysed.strand1d ∧
      f2.strand2d = nullAfterBarlineAnalysed.strand2d ∧
      f2.barlines = nullAfterBarlineAnalysed.barlines ∧
      f2.getBarlineCount = nullAfterBarlineAnalysed.getBarlineCount) :=
  have hfirst : nullAfterBarline.analyzeStructure nullAfterBarline.tokenDuration true =
      some (true, nullAfterBarlineAnalysed) :=
    result_of_flag _ nullAfterBarline (by decide!)
  have hwl : nullAfterBarlineAnalysed.wellLinked = true := by decide!
  have hbl : nullAfterBarlineAnalysed.backLinked = true := by decide!
  have hst : nullAfterBarlineAnalysed.validStarts = true := by decide!
  have hends : nullAfterBarlineAnalysed.validEnds = true := by decide!
  have hnd : nullAfterBarlineAnalysed.distinctFields := by
    unfold distinctFields
    decide!
  have htok : nullAfterBarlineAnalysed.globalsHaveToken = true := by decide!
  have hres : nullAfterBarlineAnalysed.startsResolved = true := by decide!
  ⟨hfirst, hwl, hbl, hst, hends, hnd, htok, hres,
    analyzeStructure_second_call nullAfterBarline nullAfterBarlineAnalysed
      nullAfterBarline.tokenDuration true hfirst hwl hbl hst hends hnd htok hres⟩

theorem nullAfterBarline_twice :
    (nullAfterBarlineAnalysed.strand1d, nullAfterBarlineAnalysed.barlines,
      (nullAfterBarlineAnalysed.analyzeStructure nullAfterBarline.tokenDuration true).map
        (fun r => (r.1, r.2.strand1d, r.2.barlines))) =
      ([{ first := some 0, last := some 5 }], [0, 2],
        some (true, [{ first := some 0, last := some 5 }], [0, 2])) := by
  decide!

end Humlib
